import Mathlib

/-!
# Graphite: the set-associative cache of `common/core/old_cache/cache.h`

A shallow embedding of the cache classes (`CacheTag`, `CACHE_SET::RoundRobin`,
`CacheBase`, `Cache`) together with theorems about them.

Conventions of the embedding

* C++ arrays are lists of the declared length; an index outside the declared
  extent, or a read of a cell that was never written, is undefined behaviour
  in the source and is the fault `outOfBounds` here.
* A failing `assert` is the fault `assertion`.
* `UInt32` / `UInt64` / `IntPtr` values are natural numbers; wrap-around is
  written out with `% 2 ^ 32` and `% 2 ^ 64` where the source can reach it.
* A pointer parameter that may be `NULL` is an `Option`: `none` is `NULL`,
  `some v` is a pointer to a cell (or buffer) holding `v` before the call.
  The value left in the cell after the call is part of the result.  Distinct
  pointer parameters are taken not to alias.
* The template parameters and the absent `Random` class are collected in
  `TParams`.
-/

namespace Graphite

/-- Ways in which a call fails to return normally. `fuel` is an artefact of the loop
encoding: `Cache.access_fuel_ok` and `Cache.peek_fuel_ok` show that `accessSingleLine` and
`accessSingleLinePeek` never produce it. -/
inductive Fault where
  | assertion
  | outOfBounds
  | fuel
  deriving DecidableEq, Repr

deriving instance DecidableEq for Except

/-- Result of a call that may fail fatally. -/
abbrev Res (α : Type) : Type := Except Fault α

/-- Source: `assert(b)`. -/
def assert (b : Bool) : Res Unit :=
  if b then .ok () else .error .assertion

/-- Number of values of a `UInt32`. -/
abbrev U32 : Nat := 2 ^ 32

/-- Number of values of a `UInt64` (`CacheStats`) and of an `IntPtr`. -/
abbrev U64 : Nat := 2 ^ 64

/-- The value `(IntPtr) ~0`. -/
abbrev ALL_ONES : Nat := 2 ^ 64 - 1

/-- Modelled from the spec: `CacheState::cstate_t` is declared in `cache_state.h`, which is
not among the sources; section 3 of the spec names the coherence states. -/
inductive cstate_t where
  | INVALID
  | SHARED
  | EXCLUSIVE
  | MODIFIED
  deriving DecidableEq, Repr

/-- The template parameters of `RoundRobin` and `Cache`, and the two operations of the
`Random` class (`random.h` is not among the sources) on a generator state. -/
structure TParams where
  k_MAX_ASSOCIATIVITY : Nat
  k_MAX_BLOCKSIZE : Nat
  k_MAX_SETS : Nat
  k_MAX_SEARCH : Nat
  k_STORE_ALLOCATION : Nat
  /-- `rand.next(limit)` on generator state `s`: the value drawn and the new state. -/
  rand_next : Nat → Nat → Nat × Nat
  /-- `rand.seed(v)`: the generator state after seeding. -/
  rand_seed : Nat → Nat

/-- `CACHE_ALLOC::k_STORE_ALLOCATE`. -/
abbrev k_STORE_ALLOCATE : Nat := 0

/-- `CACHE_ALLOC::k_STORE_NO_ALLOCATE`. -/
abbrev k_STORE_NO_ALLOCATE : Nat := 1

/-! ## CacheTag -/

/-- Source: `class CacheTag`. -/
structure CacheTag where
  m_tag : Nat
  m_cstate : cstate_t
  deriving DecidableEq, Repr

namespace CacheTag

/-- Source: `CacheTag()`, the constructor with both default arguments. -/
def blank : CacheTag := { m_tag := ALL_ONES, m_cstate := .INVALID }

/-- Source: `CacheTag(tag)`, the constructor with the default coherence state. -/
def ofTag (tag : Nat) : CacheTag := { m_tag := tag, m_cstate := .INVALID }

/-- Source: `CacheTag::operator==`; only the tag bits are compared. -/
def eq (a b : CacheTag) : Bool := a.m_tag == b.m_tag

/-- Source: `CacheTag::isValid`. -/
def isValid (a : CacheTag) : Bool := a.m_tag != ALL_ONES

/-- Source: `CacheTag::getTag`. -/
def getTag (a : CacheTag) : Nat := a.m_tag

end CacheTag

/-! ## memcpy -/

/-- Source: `memcpy(&dst[dpos], &src[spos], n)` on two distinct arrays. -/
def memcpy (dst : List Nat) (dpos : Nat) (src : List Nat) (spos n : Nat) : Res (List Nat) :=
  if spos + n ≤ src.length ∧ dpos + n ≤ dst.length then
    .ok (dst.take dpos ++ ((src.drop spos).take n ++ dst.drop (dpos + n)))
  else .error .outOfBounds

/-! ## CACHE_SET::RoundRobin -/

/-- Source: `class RoundRobin`; `m_tags` has `k_MAX_ASSOCIATIVITY` cells and `m_blocks`
has `k_MAX_ASSOCIATIVITY * k_MAX_BLOCKSIZE`. -/
structure RoundRobin where
  m_tags : List CacheTag
  tags_last_index : Nat
  next_replace_index : Nat
  m_blocks : List Nat
  blocksize : Nat
  deriving DecidableEq, Repr

/-- Number of iterations of `for (SInt32 index = tags_last_index; index >= 0; index--)`:
a `UInt32` of `2^31` or more converts to a negative `SInt32`. -/
def sint32Count (tags_last_index : Nat) : Nat :=
  if tags_last_index < 2 ^ 31 then tags_last_index + 1 else 0

/-- Source: `m_tags[i] = CacheTag()` for `i = lo, lo+1, ..., lo+n-1`. -/
def clearTags (tags : List CacheTag) : Nat → Nat → List CacheTag
  | _, 0 => tags
  | lo, n + 1 => clearTags (tags.set lo CacheTag.blank) (lo + 1) n

namespace RoundRobin

/-- Source: `RoundRobin::RoundRobin(assoc, blksize)`. -/
def new (P : TParams) (assoc blksize : Nat) : Res RoundRobin :=
  let tli := (assoc + U32 - 1) % U32
  if assoc ≤ P.k_MAX_ASSOCIATIVITY ∧ blksize ≤ P.k_MAX_BLOCKSIZE ∧ tli < P.k_MAX_ASSOCIATIVITY then
    .ok { m_tags := List.replicate P.k_MAX_ASSOCIATIVITY CacheTag.blank
          tags_last_index := tli
          next_replace_index := tli
          m_blocks := List.replicate (P.k_MAX_BLOCKSIZE * P.k_MAX_ASSOCIATIVITY) 0
          blocksize := blksize }
  else .error .assertion

/-- Source: `RoundRobin::setBlockSize`. -/
def setBlockSize (s : RoundRobin) (blksize : Nat) : RoundRobin :=
  { s with blocksize := blksize }

/-- Source: `RoundRobin::getBlockSize`. -/
def getBlockSize (s : RoundRobin) : Nat := s.blocksize

/-- Source: `RoundRobin::setAssociativity`. -/
def setAssociativity (P : TParams) (s : RoundRobin) (assoc : Nat) : Res RoundRobin :=
  if assoc ≤ P.k_MAX_ASSOCIATIVITY then
    .ok { s with tags_last_index := (assoc + U32 - 1) % U32
                 next_replace_index := (assoc + U32 - 1) % U32 }
  else .error .assertion

/-- Source: `RoundRobin::getAssociativity`. -/
def getAssociativity (s : RoundRobin) : Nat := (s.tags_last_index + 1) % U32

/-- The loop of `RoundRobin::find`: `scan tags tag n` examines the slots `n-1, ..., 0`
in that order and gives the first one whose tag bits equal those of `tag`. -/
def scan (tags : List CacheTag) (tag : CacheTag) : Nat → Res (Option Nat)
  | 0 => .ok none
  | n + 1 =>
    match tags[n]? with
    | none => .error .outOfBounds
    | some t => if t.eq tag then .ok (some n) else scan tags tag n

/-- Source: `RoundRobin::find`. The result is the slot index: `some i` stands for
`(true, &m_tags[i])` with `*set_index = i`, and `none` for `(false, NULL)`. -/
def find (P : TParams) (s : RoundRobin) (tag : CacheTag) : Res (Option Nat) :=
  if s.tags_last_index < P.k_MAX_ASSOCIATIVITY then
    scan s.m_tags tag (sint32Count s.tags_last_index)
  else .error .assertion

/-- Source: `RoundRobin::read_line`; the result is the content of `out_buff` after the call. -/
def read_line (s : RoundRobin) (index offset : Nat) (out_buff : Option (List Nat)) (bytes : Nat) :
    Res (Option (List Nat)) :=
  if (offset + bytes) % U32 ≤ s.blocksize then
    match out_buff with
    | none => .ok none
    | some ob =>
      if bytes ≠ 0 then
        match memcpy ob 0 s.m_blocks ((index * s.blocksize + offset) % U32) bytes with
        | .ok ob' => .ok (some ob')
        | .error e => .error e
      else .ok (some ob)
  else .error .assertion

/-- Source: `RoundRobin::write_line`. -/
def write_line (s : RoundRobin) (index offset : Nat) (buff : Option (List Nat)) (bytes : Nat) :
    Res RoundRobin :=
  if (offset + bytes) % U32 ≤ s.blocksize then
    match buff with
    | none => .ok s
    | some b =>
      if bytes ≠ 0 then
        match memcpy s.m_blocks ((index * s.blocksize + offset) % U32) b 0 bytes with
        | .ok blocks => .ok { s with m_blocks := blocks }
        | .error e => .error e
      else .ok s
  else .error .assertion

/-- The loop of `RoundRobin::invalidateTag` over the slots `n-1, ..., 0`. -/
def invalidateScan (P : TParams) (tags : List CacheTag) (tag : CacheTag) :
    Nat → Res (List CacheTag × Bool)
  | 0 => .ok (tags, false)
  | n + 1 =>
    if n < P.k_MAX_ASSOCIATIVITY then
      match tags[n]? with
      | none => .error .outOfBounds
      | some t =>
        if t.eq tag then .ok (tags.set n CacheTag.blank, true)
        else invalidateScan P tags tag n
    else .error .assertion

/-- Source: `RoundRobin::invalidateTag`. -/
def invalidateTag (P : TParams) (s : RoundRobin) (tag : CacheTag) : Res (RoundRobin × Bool) :=
  match invalidateScan P s.m_tags tag (sint32Count s.tags_last_index) with
  | .ok (tags, b) => .ok ({ s with m_tags := tags }, b)
  | .error e => .error e

/-- What `RoundRobin::replace` leaves behind: the set and the three out-parameters. -/
structure Replaced where
  set : RoundRobin
  eviction : Option Bool
  evict_tag : Option CacheTag
  evict_buff : Option (List Nat)
  deriving DecidableEq, Repr

/-- Source: `RoundRobin::replace`. -/
def replace (P : TParams) (s : RoundRobin) (tag : CacheTag) (fill_buff : Option (List Nat))
    (eviction : Option Bool) (evict_tag : Option CacheTag) (evict_buff : Option (List Nat)) :
    Res Replaced :=
  let index := s.next_replace_index
  match s.m_tags[index]? with
  | none => .error .outOfBounds
  | some old =>
    let captured : Res (Option Bool × Option CacheTag × Option (List Nat)) :=
      if old.isValid then
        match evict_buff with
        | none => .ok (eviction.map (fun _ => true), evict_tag.map (fun _ => old), none)
        | some eb =>
          match memcpy eb 0 s.m_blocks ((index * s.blocksize) % U32) s.blocksize with
          | .ok eb' => .ok (eviction.map (fun _ => true), evict_tag.map (fun _ => old), some eb')
          | .error e => .error e
      else .ok (eviction, evict_tag, evict_buff)
    match captured with
    | .error e => .error e
    | .ok (ev, et, eb) =>
      if index < P.k_MAX_ASSOCIATIVITY then
        let filled : Res (List Nat) :=
          match fill_buff with
          | none => .ok s.m_blocks
          | some fb => memcpy s.m_blocks ((index * s.blocksize) % U32) fb 0 s.blocksize
        match filled with
        | .error e => .error e
        | .ok blocks =>
          .ok { set := { s with m_tags := s.m_tags.set index tag
                                m_blocks := blocks
                                next_replace_index :=
                                  if index = 0 then s.tags_last_index else index - 1 }
                eviction := ev
                evict_tag := et
                evict_buff := eb }
      else .error .assertion

/-- Source: `RoundRobin::modifyAssociativity`; `sharedMem` is the value of
`Config::getSingleton()->isSimulatingSharedMemory()`. -/
def modifyAssociativity (P : TParams) (sharedMem : Bool) (s : RoundRobin) (assoc : Nat) :
    Res RoundRobin :=
  if assoc ≠ 0 ∧ assoc ≤ P.k_MAX_ASSOCIATIVITY then
    let associativity := s.getAssociativity
    if assoc > associativity then
      -- every `i` of the loop is below `assoc`, so the inner assertion holds
      .ok { s with m_tags := clearTags s.m_tags associativity (assoc - associativity)
                   tags_last_index := assoc - 1
                   next_replace_index := assoc - 1 }
    else if assoc < associativity then
      if sharedMem then .error .assertion
      -- the first iteration has `i = tags_last_index`, the largest `i` of the loop
      else if s.tags_last_index < P.k_MAX_ASSOCIATIVITY then
        .ok { s with m_tags := clearTags s.m_tags assoc (s.tags_last_index + 1 - assoc)
                     tags_last_index := assoc - 1
                     next_replace_index :=
                       if s.next_replace_index > assoc - 1 then assoc - 1
                       else s.next_replace_index }
      else .error .assertion
    else .ok s
  else .error .assertion

end RoundRobin

/-! ## CacheBase -/

/-- Source: `CacheBase::AccessType` (without the count `k_ACCESS_TYPE_NUM`). -/
inductive AccessType where
  | k_ACCESS_TYPE_LOAD
  | k_ACCESS_TYPE_STORE
  deriving DecidableEq, Repr

/-- Source: `CacheStats access[k_ACCESS_TYPE_NUM][2]`, one field per cell. -/
structure AccessCounters where
  load_miss : Nat
  load_hit : Nat
  store_miss : Nat
  store_hit : Nat
  deriving DecidableEq, Repr

namespace AccessCounters

/-- Source: `access[access_type][hit]`. -/
def get (a : AccessCounters) : AccessType → Bool → Nat
  | .k_ACCESS_TYPE_LOAD, false => a.load_miss
  | .k_ACCESS_TYPE_LOAD, true => a.load_hit
  | .k_ACCESS_TYPE_STORE, false => a.store_miss
  | .k_ACCESS_TYPE_STORE, true => a.store_hit

/-- Source: `access[access_type][hit]++` on a `UInt64`. -/
def incr (a : AccessCounters) : AccessType → Bool → AccessCounters
  | .k_ACCESS_TYPE_LOAD, false => { a with load_miss := (a.load_miss + 1) % U64 }
  | .k_ACCESS_TYPE_LOAD, true => { a with load_hit := (a.load_hit + 1) % U64 }
  | .k_ACCESS_TYPE_STORE, false => { a with store_miss := (a.store_miss + 1) % U64 }
  | .k_ACCESS_TYPE_STORE, true => { a with store_hit := (a.store_hit + 1) % U64 }

end AccessCounters

/-- Source: `class CacheBase` (data members). -/
structure CacheBase where
  access : AccessCounters
  name : String
  cache_size : Nat
  line_size : Nat
  associativity : Nat
  line_shift : Nat
  set_index_mask : Nat
  deriving DecidableEq, Repr

/-- The loop behind `floorLog2`: the number of halvings that take `n` below 2, at most `fuel`. -/
def log2Loop : Nat → Nat → Nat
  | 0, _ => 0
  | fuel + 1, n => if n < 2 then 0 else log2Loop fuel (n / 2) + 1

/-- Modelled from the spec: `log2` of a `UInt32` (section 3, `line_shift = log2(line_size)`);
the helper is declared in `utils.h`, which is not among the sources. Rounds down. -/
def floorLog2 (n : Nat) : Nat := log2Loop 32 n

namespace CacheBase

/-- Modelled from the spec: the body of the constructor `CacheBase::CacheBase` is not among
the sources. Section 3 of the spec: `num_sets = size / (line_size * associativity)`,
`line_shift = log2(line_size)`, `set_mask = num_sets - 1`, both powers of two. A zero divisor
and a line size or set count that is not a power of two are fatal; the counters start at zero. -/
def new (name : String) (size line_bytes assoc : Nat) : Res CacheBase :=
  let num_sets := size / (line_bytes * assoc)
  if line_bytes * assoc ≠ 0 ∧ 2 ^ floorLog2 line_bytes = line_bytes ∧ num_sets ≠ 0
      ∧ 2 ^ floorLog2 num_sets = num_sets then
    .ok { access := { load_miss := 0, load_hit := 0, store_miss := 0, store_hit := 0 }
          name := name
          cache_size := size
          line_size := line_bytes
          associativity := assoc
          line_shift := floorLog2 line_bytes
          set_index_mask := num_sets - 1 }
  else .error .assertion

/-- Source: `CacheBase::getCacheSize`. -/
def getCacheSize (b : CacheBase) : Nat := b.cache_size

/-- Source: `CacheBase::getLineSize`. -/
def getLineSize (b : CacheBase) : Nat := b.line_size

/-- Source: `CacheBase::getNumWays`. -/
def getNumWays (b : CacheBase) : Nat := b.associativity

/-- Source: `CacheBase::getNumSets`. -/
def getNumSets (b : CacheBase) : Nat := (b.set_index_mask + 1) % U32

/-- Source: `CacheBase::sumAccess`. -/
def sumAccess (b : CacheBase) (hit : Bool) : Nat :=
  (((0 + b.access.get .k_ACCESS_TYPE_LOAD hit) % U64) + b.access.get .k_ACCESS_TYPE_STORE hit) % U64

/-- Source: `CacheBase::getHits(AccessType)`. -/
def getHitsOf (b : CacheBase) (access_type : AccessType) : Nat := b.access.get access_type true

/-- Source: `CacheBase::getMisses(AccessType)`. -/
def getMissesOf (b : CacheBase) (access_type : AccessType) : Nat := b.access.get access_type false

/-- Source: `CacheBase::getAccesses(AccessType)`. -/
def getAccessesOf (b : CacheBase) (access_type : AccessType) : Nat :=
  (b.getHitsOf access_type + b.getMissesOf access_type) % U64

/-- Source: `CacheBase::getHits()`. -/
def getHits (b : CacheBase) : Nat := b.sumAccess true

/-- Source: `CacheBase::getMisses()`. -/
def getMisses (b : CacheBase) : Nat := b.sumAccess false

/-- Source: `CacheBase::getAccesses()`. -/
def getAccesses (b : CacheBase) : Nat := (b.getHits + b.getMisses) % U64

/-- Source: `CacheBase::tagToAddress`. -/
def tagToAddress (b : CacheBase) (tag : CacheTag) : Nat := (tag.getTag <<< b.line_shift) % U64

/-- Source: `CacheBase::splitAddress(addr, tag, set_index)`; gives `(tag, set_index)`. -/
def splitAddress (b : CacheBase) (addr : Nat) : CacheTag × Nat :=
  (CacheTag.ofTag (addr >>> b.line_shift), ((addr >>> b.line_shift) &&& b.set_index_mask) % U32)

/-- The line offset `addr & (line_size - 1)` passed to `read_line` and `write_line`; it is
also the `line_index` of the four-argument `CacheBase::splitAddress`. -/
def lineOffset (b : CacheBase) (addr : Nat) : Nat :=
  (addr &&& ((b.line_size + U32 - 1) % U32)) % U32

end CacheBase

/-! ## Cache -/

/-- Source: `class Cache` (data members); `sets`, `accesses`, `misses`, `total_accesses` and
`total_misses` have `k_MAX_SETS` cells and `set_ptrs` has `k_MAX_SETS + 1`. -/
structure Cache extends CacheBase where
  sets : List RoundRobin
  accesses : List Nat
  misses : List Nat
  total_accesses : List Nat
  total_misses : List Nat
  set_ptrs : List Nat
  max_search : Nat
  rand : Nat
  deriving DecidableEq, Repr

/-- State of the probe loop of `Cache::accessSingleLine` when it is left. -/
structure Probe where
  hit : Bool
  /-- The set probed last (`index`). -/
  index : Nat
  next_index : Nat
  depth : Nat
  /-- The local array `history[k_MAX_SEARCH]`; `none` is a cell not written yet. -/
  history : List (Option Nat)
  line_index : Nat
  deriving DecidableEq, Repr

/-- The optional pointer parameters of `Cache::accessSingleLine`, with `bytes`. -/
structure AccessArgs where
  fail_need_fill : Option Bool
  fill_buff : Option (List Nat)
  buff : Option (List Nat)
  bytes : Nat
  eviction : Option Bool
  evict_addr : Option Nat
  evict_buff : Option (List Nat)
  deriving DecidableEq, Repr

/-- What `Cache::accessSingleLine` leaves behind: the cache, the returned pair and the cells
behind the pointer parameters. `tagptr = some (s, i)` stands for `&sets[s].m_tags[i]`. -/
structure AccessOut where
  cache : Cache
  hit : Bool
  tagptr : Option (Nat × Nat)
  fail_need_fill : Option Bool
  buff : Option (List Nat)
  eviction : Option Bool
  evict_addr : Option Nat
  evict_buff : Option (List Nat)
  deriving DecidableEq, Repr

/-- Source: the three argument assertions at the head of `Cache::accessSingleLine`. -/
def AccessArgs.asserts (a : AccessArgs) : Prop :=
  (a.buff.isNone == (a.bytes == 0))
    ∧ (a.fail_need_fill.isNone ∨ (a.fail_need_fill.isNone != a.fill_buff.isNone))
    ∧ ((a.eviction.isNone == a.evict_addr.isNone) ∧ (a.eviction.isNone == a.evict_buff.isNone))

instance (a : AccessArgs) : Decidable a.asserts := by
  unfold AccessArgs.asserts; infer_instance

namespace Cache

/-- Source: `Cache::resetCounters`. -/
def resetCounters (P : TParams) (c : Cache) : Res Cache :=
  if c.getNumSets ≤ P.k_MAX_SETS then
    .ok { c with accesses := List.replicate c.getNumSets 0 ++ c.accesses.drop c.getNumSets
                 misses := List.replicate c.getNumSets 0 ++ c.misses.drop c.getNumSets }
  else .error .assertion

/-- Source: `Cache::getSearchDepth`. -/
def getSearchDepth (c : Cache) : Nat := c.max_search

/-- Source: `Cache::getSetPtr`. -/
def getSetPtr (P : TParams) (c : Cache) (set_index : Nat) : Res Nat :=
  if set_index < c.getNumSets ∧ c.getNumSets ≤ P.k_MAX_SETS then
    match c.set_ptrs[set_index]? with
    | some v => .ok v
    | none => .error .outOfBounds
  else .error .assertion

/-- Source: `Cache::setSetPtr`. -/
def setSetPtr (P : TParams) (c : Cache) (set_index value : Nat) : Res Cache :=
  if set_index < P.k_MAX_SETS ∧ (value < c.getNumSets ∨ value = P.k_MAX_SETS) then
    .ok { c with set_ptrs := c.set_ptrs.set set_index value }
  else .error .assertion

/-- The loop over the sets in the constructor `Cache::Cache`, for the sets `0, ..., n-1`. -/
def initSets (P : TParams) (assoc line_bytes : Nat) (sets : List RoundRobin) : Nat → Res (List RoundRobin)
  | 0 => .ok sets
  | n + 1 =>
    match initSets P assoc line_bytes sets n with
    | .error e => .error e
    | .ok sets' =>
      match sets'[n]? with
      | none => .error .outOfBounds
      | some s =>
        match s.setAssociativity P assoc with
        | .error e => .error e
        | .ok s' => .ok (sets'.set n (s'.setBlockSize line_bytes))

/-- Source: the constructor `Cache::Cache`. `cache_number` is the value of the static counter
before the call, and `junk a i` is what cell `i` of the `a`-th per-set array holds when the
constructor leaves it uninitialised. -/
def new (P : TParams) (name : String) (size line_bytes assoc max_search_depth : Nat)
    (cache_number : Nat) (junk : Nat → Nat → Nat) : Res Cache :=
  match CacheBase.new name size line_bytes assoc with
  | .error e => .error e
  | .ok base =>
    match RoundRobin.new P P.k_MAX_ASSOCIATIVITY P.k_MAX_BLOCKSIZE with
    | .error e => .error e
    | .ok set0 =>
      if base.getNumSets ≤ P.k_MAX_SETS ∧ max_search_depth < P.k_MAX_SEARCH then
        match initSets P assoc line_bytes (List.replicate P.k_MAX_SETS set0) base.getNumSets with
        | .error e => .error e
        | .ok sets =>
          let cells (a : Nat) (v : Nat) (len : Nat) : List Nat :=
            (List.range len).map (fun i => if i < base.getNumSets then v else junk a i)
          resetCounters P
            { toCacheBase := base
              sets := sets
              accesses := cells 0 0 P.k_MAX_SETS
              misses := cells 1 0 P.k_MAX_SETS
              total_accesses := cells 2 0 P.k_MAX_SETS
              total_misses := cells 3 0 P.k_MAX_SETS
              set_ptrs := cells 4 P.k_MAX_SETS (P.k_MAX_SETS + 1)
              max_search := max_search_depth
              rand := P.rand_seed (cache_number + 1) }
      else .error .assertion

/-- Source: the loop of `Cache::resize` over the sets `0, ..., n-1`. -/
def resizeSets (P : TParams) (sharedMem : Bool) (assoc : Nat) (sets : List RoundRobin) :
    Nat → Res (List RoundRobin)
  | 0 => .ok sets
  | n + 1 =>
    match resizeSets P sharedMem assoc sets n with
    | .error e => .error e
    | .ok sets' =>
      match sets'[n]? with
      | none => .error .outOfBounds
      | some s =>
        match s.modifyAssociativity P sharedMem assoc with
        | .error e => .error e
        | .ok s' => .ok (sets'.set n s')

/-- Source: `Cache::resize`. -/
def resize (P : TParams) (sharedMem : Bool) (c : Cache) (assoc : Nat) : Res Cache :=
  if c.getNumSets ≤ P.k_MAX_SETS then
    match resizeSets P sharedMem assoc c.sets c.getNumSets with
    | .error e => .error e
    | .ok sets =>
      .ok { c with cache_size := (c.getNumSets * assoc * c.line_size) % U32
                   associativity := assoc
                   sets := sets }
  else .error .assertion

/-- Source: `Cache::invalidateLine`. -/
def invalidateLine (P : TParams) (c : Cache) (addr : Nat) : Res (Cache × Bool) :=
  let ti := c.splitAddress addr
  if ti.2 < P.k_MAX_SETS then
    match c.sets[ti.2]? with
    | none => .error .outOfBounds
    | some s =>
      match s.invalidateTag P ti.1 with
      | .error e => .error e
      | .ok (s', b) => .ok ({ c with sets := c.sets.set ti.2 s' }, b)
  else .error .assertion

/-- The `do ... while` probe loop of `Cache::accessSingleLine`, entered with the given
`next_index`, `depth`, `history` and `line_index`. One unit of `fuel` is spent per iteration;
`history` is the local array, so its length is its declared extent `k_MAX_SEARCH`. -/
def probeLoop (P : TParams) (c : Cache) (tag : CacheTag) :
    Nat → Nat → Nat → List (Option Nat) → Nat → Res Probe
  | 0, _, _, _, _ => .error .fuel
  | fuel + 1, next_index, depth, history, line_index =>
    let index := next_index
    if depth < history.length then
      let history := history.set depth (some index)
      match c.sets[index]? with
      | none => .error .outOfBounds
      | some set =>
        match set.find P tag with
        | .error e => .error e
        | .ok res =>
          match c.set_ptrs[index]? with
          | none => .error .outOfBounds
          | some next_index =>
            match res with
            | some way =>
              .ok { hit := true, index := index, next_index := next_index, depth := depth
                    history := history, line_index := way }
            | none =>
              if depth + 1 < c.max_search ∧ index < P.k_MAX_SETS then
                probeLoop P c tag fuel next_index (depth + 1) history line_index
              else
                .ok { hit := false, index := index, next_index := next_index, depth := depth + 1
                      history := history, line_index := line_index }
    else .error .outOfBounds

/-- The lookup of `Cache::accessSingleLine`: `splitAddress` followed by the probe loop. The
loop body runs at most `max(1, max_search)` times, so `max_search + 1` units of fuel suffice. -/
def lookup (P : TParams) (c : Cache) (addr : Nat) : Res Probe :=
  probeLoop P c (c.splitAddress addr).1 (c.max_search + 1) (c.splitAddress addr).2 0
    (List.replicate P.k_MAX_SEARCH none) (U32 - 1)

/-- The `do ... while` probe loop of `Cache::accessSingleLinePeek`, entered with the given
`index` and `depth`; the result is the slot found in the set probed last, with that set. -/
def peekLoop (P : TParams) (c : Cache) (tag : CacheTag) : Nat → Nat → Nat → Res (Option (Nat × Nat))
  | 0, _, _ => .error .fuel
  | fuel + 1, index, depth =>
    match c.sets[index]? with
    | none => .error .outOfBounds
    | some set =>
      match set.find P tag with
      | .error e => .error e
      | .ok res =>
        match c.set_ptrs[index]? with
        | none => .error .outOfBounds
        | some next =>
          match res with
          | some way => .ok (some (index, way))
          | none =>
            if depth + 1 < c.max_search ∧ next < P.k_MAX_SETS then
              peekLoop P c tag fuel next (depth + 1)
            else .ok none

/-- Source: `Cache::accessSingleLinePeek`; `some (s, i)` stands for `(true, &sets[s].m_tags[i])`
and `none` for `(false, NULL)`. -/
def accessSingleLinePeek (P : TParams) (c : Cache) (addr : Nat) : Res (Option (Nat × Nat)) :=
  peekLoop P c (c.splitAddress addr).1 (c.max_search + 1) (c.splitAddress addr).2 0

/-- Source: `history[r_num]`. -/
def readHistory (history : List (Option Nat)) (r_num : Nat) : Res Nat :=
  match history[r_num]? with
  | some (some which) => .ok which
  | _ => .error .outOfBounds

/-- The payload transfer of `Cache::accessSingleLine` on set `index`, slot `line_index`:
`read_line` for a load and `write_line` for a store. Gives the sets and `buff` afterwards. -/
def transfer (c : CacheBase) (sets : List RoundRobin) (index line_index addr : Nat)
    (access_type : AccessType) (buff : Option (List Nat)) (bytes : Nat) :
    Res (List RoundRobin × Option (List Nat)) :=
  match sets[index]? with
  | none => .error .outOfBounds
  | some set =>
    match access_type with
    | .k_ACCESS_TYPE_LOAD =>
      match set.read_line line_index (c.lineOffset addr) buff bytes with
      | .error e => .error e
      | .ok buff' => .ok (sets, buff')
    | .k_ACCESS_TYPE_STORE =>
      match set.write_line line_index (c.lineOffset addr) buff bytes with
      | .error e => .error e
      | .ok set' => .ok (sets.set index set', buff)

/-- Source: `Cache::accessSingleLine`. -/
def accessSingleLine (P : TParams) (c : Cache) (addr : Nat) (access_type : AccessType)
    (a : AccessArgs) : Res AccessOut :=
  if a.asserts then
    match lookup P c addr with
    | .error e => .error e
    | .ok p =>
      if a.fail_need_fill.isSome ∧ a.fill_buff.isNone ∧ p.hit = false then
        .ok { cache := c, hit := false, tagptr := none
              fail_need_fill := a.fail_need_fill.map (fun _ => true)
              buff := a.buff
              eviction := a.eviction.map (fun _ => false)
              evict_addr := a.evict_addr
              evict_buff := a.evict_buff }
      else
        let fnf := a.fail_need_fill.map (fun _ => false)
        let tag := (c.splitAddress addr).1
        if p.hit then
          match transfer c.toCacheBase c.sets p.index p.line_index addr access_type a.buff a.bytes with
          | .error e => .error e
          | .ok (sets, buff) =>
            .ok { cache := { c with sets := sets, access := c.access.incr access_type true }
                  hit := true, tagptr := some (p.index, p.line_index)
                  fail_need_fill := fnf
                  buff := buff
                  eviction := a.eviction.map (fun _ => false)
                  evict_addr := a.evict_addr
                  evict_buff := a.evict_buff }
        else if access_type = .k_ACCESS_TYPE_LOAD ∨ P.k_STORE_ALLOCATION = k_STORE_ALLOCATE then
          let r := P.rand_next c.rand p.depth
          match readHistory p.history r.1 with
          | .error e => .error e
          | .ok which =>
            match c.sets[which]? with
            | none => .error .outOfBounds
            | some set =>
              match set.replace P tag a.fill_buff a.eviction (some CacheTag.blank) a.evict_buff with
              | .error e => .error e
              | .ok rep =>
                match rep.set.find P tag with
                | .error e => .error e
                | .ok found =>
                  match transfer c.toCacheBase (c.sets.set which rep.set) which
                      (found.getD p.line_index) addr access_type a.buff a.bytes with
                  | .error e => .error e
                  | .ok (sets, buff) =>
                    .ok { cache := { c with sets := sets, rand := r.2
                                            access := c.access.incr access_type false }
                          hit := false, tagptr := found.map (fun i => (which, i))
                          fail_need_fill := fnf
                          buff := buff
                          eviction := rep.eviction
                          evict_addr :=
                            a.evict_addr.map (fun _ => c.tagToAddress (rep.evict_tag.getD CacheTag.blank))
                          evict_buff := rep.evict_buff }
        else
          .ok { cache := { c with access := c.access.incr access_type false }
                hit := false, tagptr := none
                fail_need_fill := fnf
                buff := a.buff
                eviction := a.eviction.map (fun _ => false)
                evict_addr := a.evict_addr
                evict_buff := a.evict_buff }
  else .error .assertion

end Cache

/-! ## Shape of the state -/

/-- Range of the template parameters: slot indices fit an `SInt32`, and byte positions in
`m_blocks` and set indices fit a `UInt32`. -/
def TParams.WF (P : TParams) : Prop :=
  P.k_MAX_ASSOCIATIVITY ≤ 2 ^ 31 ∧ P.k_MAX_ASSOCIATIVITY * P.k_MAX_BLOCKSIZE < U32
    ∧ P.k_MAX_SETS < U32

instance (P : TParams) : Decidable P.WF := by
  unfold TParams.WF; infer_instance

/-- Shape of a set: the declared extents of its two arrays, the two slot indices inside the
current associativity, and a block size the block array can hold. -/
def RoundRobin.WF (P : TParams) (s : RoundRobin) : Prop :=
  s.m_tags.length = P.k_MAX_ASSOCIATIVITY
    ∧ s.m_blocks.length = P.k_MAX_ASSOCIATIVITY * P.k_MAX_BLOCKSIZE
    ∧ s.tags_last_index < P.k_MAX_ASSOCIATIVITY
    ∧ s.next_replace_index ≤ s.tags_last_index
    ∧ s.blocksize ≤ P.k_MAX_BLOCKSIZE

instance (P : TParams) (s : RoundRobin) : Decidable (s.WF P) := by
  unfold RoundRobin.WF; infer_instance

/-- Shape of a cache: the declared extents of `sets` and `set_ptrs`, the number of sets within
`k_MAX_SETS`, a power-of-two line size, the search depth the constructor accepts, every configured set (index at most `set_index_mask`)
well shaped with the block size of the cache, and every set pointer of a configured set either
a configured set or `k_MAX_SETS` (what `setSetPtr` accepts). -/
def Cache.WF (P : TParams) (c : Cache) : Prop :=
  P.WF ∧ c.sets.length = P.k_MAX_SETS ∧ c.set_ptrs.length = P.k_MAX_SETS + 1
    ∧ c.set_index_mask < P.k_MAX_SETS ∧ c.line_size = 2 ^ c.line_shift
    ∧ c.max_search < P.k_MAX_SEARCH
    ∧ (∀ s ∈ c.sets.take (c.set_index_mask + 1), s.WF P ∧ s.blocksize = c.line_size)
    ∧ (∀ v ∈ c.set_ptrs.take (c.set_index_mask + 1), v ≤ c.set_index_mask ∨ v = P.k_MAX_SETS)

instance (P : TParams) (c : Cache) : Decidable (c.WF P) := by
  unfold Cache.WF; infer_instance

/-- Tag invariant of the set with index `i` of a cache with set mask `mask`: the tag array has
its declared extent, the two slot indices are inside the current associativity, every valid
tag sits in a slot of the current associativity and has `i` as its home set, and no valid tag
occurs in two slots. -/
def RoundRobin.TagInv (P : TParams) (mask i : Nat) (s : RoundRobin) : Prop :=
  s.m_tags.length = P.k_MAX_ASSOCIATIVITY
    ∧ s.tags_last_index < P.k_MAX_ASSOCIATIVITY
    ∧ s.next_replace_index ≤ s.tags_last_index
    ∧ (∀ (j : Nat) (t : CacheTag), s.m_tags[j]? = some t → t.isValid = true →
        j ≤ s.tags_last_index ∧ (t.m_tag &&& mask) % U32 = i)
    ∧ (∀ (j1 j2 : Nat) (t1 t2 : CacheTag), s.m_tags[j1]? = some t1 → s.m_tags[j2]? = some t2 →
        t1.isValid = true → t1.m_tag = t2.m_tag → j1 = j2)

/-- Tag invariant of a cache whose set pointers were never set: the arrays have their declared
extents, the sets in use fit, every set pointer of a set in use is `k_MAX_SETS`, and every
set satisfies the tag invariant of its index. -/
def Cache.TagInv (P : TParams) (c : Cache) : Prop :=
  c.sets.length = P.k_MAX_SETS ∧ c.set_index_mask < P.k_MAX_SETS
    ∧ (∀ (i v : Nat), i ≤ c.set_index_mask → c.set_ptrs[i]? = some v → v = P.k_MAX_SETS)
    ∧ (∀ (i : Nat) (s : RoundRobin), c.sets[i]? = some s → s.TagInv P c.set_index_mask i)

/-- At most one valid slot over all sets holds a given tag: whenever slot `j1` of set `i1`
holds a valid tag and slot `j2` of set `i2` holds the same tag bits, the two slots are the
same slot of the same set. -/
def Cache.UniqueTags (c : Cache) : Prop :=
  ∀ (i1 j1 i2 j2 : Nat) (s1 s2 : RoundRobin) (t1 t2 : CacheTag),
    c.sets[i1]? = some s1 → c.sets[i2]? = some s2 → s1.m_tags[j1]? = some t1 →
    s2.m_tags[j2]? = some t2 → t1.isValid = true → t1.m_tag = t2.m_tag → i1 = i2 ∧ j1 = j2

/-- The `blocksize` bytes of `m_blocks` that belong to slot `slot`. -/
def RoundRobin.lineBytes (s : RoundRobin) (slot : Nat) : List Nat :=
  (s.m_blocks.drop (slot * s.blocksize)).take s.blocksize

/-! ## Sequences of calls -/

/-- A call of one of the state-changing public member functions of `Cache`. -/
inductive Op where
  | access (addr : Nat) (access_type : AccessType) (a : AccessArgs)
  | invalidate (addr : Nat)
  | resize (sharedMem : Bool) (assoc : Nat)
  | setPtr (set_index value : Nat)
  | reset
  deriving DecidableEq, Repr

/-- Whether the call leaves `set_ptrs` alone by its kind (everything but `setSetPtr`). -/
def Op.keepsPtrs : Op → Bool
  | .setPtr _ _ => false
  | _ => true

/-- One call on the cache. The number is 1 for an `accessSingleLine` that did not return
through the need-fill path (the path that leaves `*fail_need_fill == true`) and 0 otherwise. -/
def Cache.step (P : TParams) (c : Cache) : Op → Res (Cache × Nat)
  | .access addr access_type a =>
    match c.accessSingleLine P addr access_type a with
    | .ok r => .ok (r.cache, if r.fail_need_fill = some true then 0 else 1)
    | .error e => .error e
  | .invalidate addr =>
    match c.invalidateLine P addr with
    | .ok r => .ok (r.1, 0)
    | .error e => .error e
  | .resize sharedMem assoc =>
    match c.resize P sharedMem assoc with
    | .ok c' => .ok (c', 0)
    | .error e => .error e
  | .setPtr set_index value =>
    match c.setSetPtr P set_index value with
    | .ok c' => .ok (c', 0)
    | .error e => .error e
  | .reset =>
    match c.resetCounters P with
    | .ok c' => .ok (c', 0)
    | .error e => .error e

/-- A sequence of calls, each on the cache the previous one left; the number is the sum of the
numbers of the calls. A fatal call ends the run. -/
def Cache.run (P : TParams) (c : Cache) : List Op → Res (Cache × Nat)
  | [] => .ok (c, 0)
  | op :: ops =>
    match c.step P op with
    | .error e => .error e
    | .ok (c', k) =>
      match Cache.run P c' ops with
      | .error e => .error e
      | .ok (c'', n) => .ok (c'', k + n)

/-! ## Concrete caches

The cache of the scenarios of section 8 of the spec, `{size = 64, line = 16, assoc = 1}`, in an
instantiation with room for two ways, four sets and three probes. -/

namespace Examples

/-- A small instantiation of the templates: store-allocate, and a generator that draws its
state modulo the limit and then steps the state. -/
def P0 : TParams :=
  { k_MAX_ASSOCIATIVITY := 2, k_MAX_BLOCKSIZE := 16, k_MAX_SETS := 4, k_MAX_SEARCH := 3,
    k_STORE_ALLOCATION := k_STORE_ALLOCATE,
    rand_next := fun s n => (s % n, s + 1), rand_seed := fun v => v }

/-- The value of a call known to return. -/
def okOr {α : Type} (d : α) : Res α → α
  | .ok a => a
  | .error _ => d

/-- A set of `P0` as the constructor of the cache leaves it for associativity 1. -/
def emptySet : RoundRobin :=
  { m_tags := List.replicate 2 CacheTag.blank, tags_last_index := 0, next_replace_index := 0,
    m_blocks := List.replicate 32 0, blocksize := 16 }

/-- The cache `Cache("icache", 64, 16, 1, 1)` of `P0`, first cache constructed. -/
def icache : Cache :=
  { access := { load_miss := 0, load_hit := 0, store_miss := 0, store_hit := 0 },
    name := "icache", cache_size := 64, line_size := 16, associativity := 1, line_shift := 4,
    set_index_mask := 3, sets := List.replicate 4 emptySet, accesses := [0, 0, 0, 0],
    misses := [0, 0, 0, 0], total_accesses := [0, 0, 0, 0], total_misses := [0, 0, 0, 0],
    set_ptrs := [4, 4, 4, 4, 0], max_search := 1, rand := 1 }

/-- A call with every optional parameter left at its default. -/
def noArgs : AccessArgs :=
  { fail_need_fill := none, fill_buff := none, buff := none, bytes := 0, eviction := none,
    evict_addr := none, evict_buff := none }

/-- A result to fall back on. -/
def noOut : AccessOut :=
  { cache := icache, hit := false, tagptr := none, fail_need_fill := none, buff := none,
    eviction := none, evict_addr := none, evict_buff := none }

/-- Arguments of a load serviced with a fill buffer of sixteen bytes `0xAA`. -/
def fillArgs : AccessArgs := { noArgs with fill_buff := some (List.replicate 16 0xAA) }

/-- The pre-fill of scenario 1: a load of `0x100` serviced with the fill buffer. -/
def filled : AccessOut :=
  okOr noOut (icache.accessSingleLine P0 0x100 .k_ACCESS_TYPE_LOAD fillArgs)

/-- A store of four bytes at `0x104` into the freshly constructed cache. -/
def stored : AccessOut :=
  okOr noOut (icache.accessSingleLine P0 0x104 .k_ACCESS_TYPE_STORE
    { noArgs with buff := some [1, 2, 3, 4], bytes := 4 })

/-- A sequence of calls on the freshly constructed cache: two loads with a fill buffer that
fall into the same set, an invalidation, a resize to two ways and a store. -/
def calls : List Op :=
  [.access 0x100 .k_ACCESS_TYPE_LOAD fillArgs, .access 0x40 .k_ACCESS_TYPE_LOAD fillArgs,
   .invalidate 0x100, .resize false 2,
   .access 0x104 .k_ACCESS_TYPE_STORE { noArgs with buff := some [1, 2, 3, 4], bytes := 4 }]

/-- The cache after `calls`, with the number of counted accesses. -/
def afterCalls : Cache × Nat :=
  okOr (icache, 0) (icache.run P0 calls)

/-- The pre-fill of scenario 2: a load of `0x000` serviced with the bytes `0, 1, ..., 15`. -/
def prefilled : AccessOut :=
  okOr noOut (icache.accessSingleLine P0 0x000 .k_ACCESS_TYPE_LOAD
    { noArgs with fill_buff := some (List.range 16) })

/-- Arguments of the load of scenario 2: a fill buffer of sixteen bytes `0xAA` and the three
eviction-capture parameters. -/
def evictArgs : AccessArgs :=
  { fillArgs with eviction := some false, evict_addr := some 0x999,
                  evict_buff := some (List.replicate 16 0) }

/-- Scenario 2: the load of `0x040` after the pre-fill of `0x000`. -/
def evicted : AccessOut :=
  okOr noOut (prefilled.cache.accessSingleLine P0 0x040 .k_ACCESS_TYPE_LOAD evictArgs)

/-- Arguments of a call that asks to be told when a fill is needed. -/
def needArgs : AccessArgs := { noArgs with fail_need_fill := some false }

/-- Scenario 1: the load of `0x108` after the pre-fill of `0x100`. -/
def hitAgain : AccessOut :=
  okOr noOut (filled.cache.accessSingleLine P0 0x108 .k_ACCESS_TYPE_LOAD noArgs)

/-- Arguments of a load of four bytes into a buffer of five. -/
def readArgs : AccessArgs := { noArgs with buff := some [0, 0, 0, 0, 0], bytes := 4 }

/-- A load of four bytes at `0x104` after the pre-fill of `0x100`. -/
def readBack : AccessOut :=
  okOr noOut (filled.cache.accessSingleLine P0 0x104 .k_ACCESS_TYPE_LOAD readArgs)

/-- A load of four bytes at `0x044` that misses and is serviced with the bytes `0, ..., 15`. -/
def readFill : AccessOut :=
  okOr noOut (filled.cache.accessSingleLine P0 0x044 .k_ACCESS_TYPE_LOAD
    { readArgs with fill_buff := some (List.range 16) })

/-- The instantiation `P0` with the store policy `k_STORE_NO_ALLOCATE`. -/
def P1 : TParams := { P0 with k_STORE_ALLOCATION := k_STORE_NO_ALLOCATE }

/-- A store of four bytes at `0x104` into the freshly constructed cache under
`k_STORE_NO_ALLOCATE`. -/
def storedNoAlloc : AccessOut :=
  okOr noOut (icache.accessSingleLine P1 0x104 .k_ACCESS_TYPE_STORE
    { noArgs with buff := some [1, 2, 3, 4], bytes := 4 })

/-- The cache `Cache("dcache", 64, 16, 1, 2)` of `P0`: as `icache`, with a search depth of
two. -/
def deep : Cache := { icache with name := "dcache", max_search := 2 }

/-- The cache `deep` after `setSetPtr(0, 1)` and a load of `0x000` with a fill buffer; the
generator draws 1, so that the line goes to set 1, the second set of its probe chain. -/
def chained : Cache × Nat :=
  okOr (deep, 0) (deep.run P0 [.setPtr 0 1, .access 0x000 .k_ACCESS_TYPE_LOAD fillArgs])

end Examples

/-! ## Associativity of the sets of a cache -/

/-- Every configured set has the associativity the cache records (`getNumWays()`), and the
slots beyond it are empty. The constructor sets both from `assoc`; `resize` changes both. -/
def Cache.AssocInv (c : Cache) : Prop :=
  ∀ s ∈ c.sets.take (c.set_index_mask + 1),
    s.tags_last_index + 1 = c.associativity
      ∧ ∀ t ∈ s.m_tags.drop (s.tags_last_index + 1), t.isValid = false

instance (c : Cache) : Decidable c.AssocInv := by
  unfold Cache.AssocInv; infer_instance

/-! ## IOCOOMCoreModel (`common/tile/core/models/iocoom_core_model.cc`)

The header `iocoom_core_model.h`, the base class `CoreModel`, `Instruction`, `Operand` and
`DynamicInstructionInfo` are not among the sources; what the functions below use of them is
taken from the way the source uses it and from section 3 of the spec. All times are `UInt64`.
-/

/-- The `for` loop that `LoadUnit::execute` and (second loop) `StoreBuffer::executeStore`
share, with `n` iterations left, at index `i`, with the current value of `unit`. The result
is `(some i, _)` when the loop returns from inside at slot `i` (whose entry is at most
`time`), and `(none, unit)` when it runs to its end. -/
def availLoop (sb : List Nat) (time : Nat) : Nat → Nat → Nat → Res (Option Nat × Nat)
  | 0, _, unit => .ok (none, unit)
  | n + 1, i, unit =>
    match sb[i]? with
    | none => .error .outOfBounds
    | some v =>
      if v ≤ time then .ok (some i, unit)
      else
        match sb[unit]? with
        | none => .error .outOfBounds
        | some u => availLoop sb time n (i + 1) (if v < u then i else unit)

/-- Source: `IOCOOMCoreModel::LoadUnit` (data member). -/
structure IOCOOMCoreModel.LoadUnit where
  m_scoreboard : List Nat
  deriving DecidableEq, Repr

namespace IOCOOMCoreModel.LoadUnit

/-- Source: `LoadUnit::initialize` (a reserved word of Lean, hence `init`). -/
def init (u : LoadUnit) : LoadUnit :=
  { m_scoreboard := List.replicate u.m_scoreboard.length 0 }

/-- Source: the constructor `LoadUnit::LoadUnit(num_units)`. -/
def new (num_units : Nat) : LoadUnit :=
  init { m_scoreboard := List.replicate num_units 0 }

/-- Source: `LoadUnit::reset`. -/
def reset (u : LoadUnit) : LoadUnit := u.init

/-- Source: `LoadUnit::execute`; gives the returned cycle and the unit afterwards. -/
def execute (u : LoadUnit) (time occupancy : Nat) : Res (Nat × LoadUnit) :=
  match availLoop u.m_scoreboard time u.m_scoreboard.length 0 0 with
  | .error e => .error e
  | .ok (some i, _) =>
    .ok (time, { m_scoreboard := u.m_scoreboard.set i ((time + occupancy) % U64) })
  | .ok (none, unit) =>
    match u.m_scoreboard[unit]? with
    | none => .error .outOfBounds
    | some v =>
      .ok (((v + occupancy) % U64 + (U64 - occupancy % U64)) % U64,
           { m_scoreboard := u.m_scoreboard.set unit ((v + occupancy) % U64) })

/-- A sequence of `execute(time, occupancy)` calls; gives the returned cycles in call order
and the unit afterwards. -/
def run (u : LoadUnit) : List (Nat × Nat) → Res (List Nat × LoadUnit)
  | [] => .ok ([], u)
  | call :: calls =>
    match u.execute call.1 call.2 with
    | .error e => .error e
    | .ok (s, u') =>
      match run u' calls with
      | .error e => .error e
      | .ok (starts, u'') => .ok (s :: starts, u'')

end IOCOOMCoreModel.LoadUnit

/-- Number of calls of a sequence of `execute(time, occupancy)` calls with returned start
cycles `starts` that are outstanding at cycle `c`: `start <= c < start + occupancy`. -/
def outstandingAt (calls : List (Nat × Nat)) (starts : List Nat) (c : Nat) : Nat :=
  (calls.zip starts).countP (fun x => decide (x.2 ≤ c ∧ c < x.2 + x.1.2))

/-- Source: `IOCOOMCoreModel::StoreBuffer::Status`, the enumerators the source file uses. -/
inductive IOCOOMCoreModel.StoreBuffer.Status where
  | VALID
  | NOT_FOUND
  deriving DecidableEq, Repr

/-- Source: `IOCOOMCoreModel::StoreBuffer` (data members); both vectors are constructed with
`num_entries` cells. -/
structure IOCOOMCoreModel.StoreBuffer where
  m_scoreboard : List Nat
  m_addresses : List Nat
  deriving DecidableEq, Repr

namespace IOCOOMCoreModel.StoreBuffer

/-- Source: `StoreBuffer::initialize` (a reserved word of Lean, hence `init`). -/
def init (b : StoreBuffer) : StoreBuffer :=
  { m_scoreboard := List.replicate b.m_scoreboard.length 0
    m_addresses := List.replicate b.m_scoreboard.length 0
      ++ b.m_addresses.drop b.m_scoreboard.length }

/-- Source: the constructor `StoreBuffer::StoreBuffer(num_entries)`. -/
def new (num_entries : Nat) : StoreBuffer :=
  init ⟨List.replicate num_entries 0, List.replicate num_entries 0⟩

/-- Source: `StoreBuffer::reset`. -/
def reset (b : StoreBuffer) : StoreBuffer := b.init

/-- The first loop of `StoreBuffer::executeStore`, with `n` iterations left at index `i`:
the first entry that holds `addr`. -/
def findAddr (addresses : List Nat) (addr : Nat) : Nat → Nat → Res (Option Nat)
  | 0, _ => .ok none
  | n + 1, i =>
    match addresses[i]? with
    | none => .error .outOfBounds
    | some a => if a = addr then .ok (some i) else findAddr addresses addr n (i + 1)

/-- Source: `StoreBuffer::executeStore`; gives the returned cycle and the buffer afterwards. -/
def executeStore (b : StoreBuffer) (time occupancy addr : Nat) : Res (Nat × StoreBuffer) :=
  match findAddr b.m_addresses addr b.m_scoreboard.length 0 with
  | .error e => .error e
  | .ok (some i) =>
    .ok (time, { b with m_scoreboard := b.m_scoreboard.set i ((time + occupancy) % U64) })
  | .ok none =>
    match availLoop b.m_scoreboard time b.m_scoreboard.length 0 0 with
    | .error e => .error e
    | .ok (some i, _) =>
      .ok (time, { m_scoreboard := b.m_scoreboard.set i ((time + occupancy) % U64)
                   m_addresses := b.m_addresses.set i addr })
    | .ok (none, unit) =>
      match b.m_scoreboard[unit]?, b.m_addresses[unit]? with
      | some v, some _ =>
        .ok (((v + occupancy) % U64 + (U64 - occupancy % U64)) % U64,
             { m_scoreboard := b.m_scoreboard.set unit ((v + occupancy) % U64)
               m_addresses := b.m_addresses.set unit addr })
      | _, _ => .error .outOfBounds

/-- The loop of `StoreBuffer::isAddressAvailable`, with `n` iterations left at index `i`. -/
def availableLoop (b : StoreBuffer) (time addr : Nat) : Nat → Nat → Res Status
  | 0, _ => .ok .NOT_FOUND
  | n + 1, i =>
    match b.m_addresses[i]? with
    | none => .error .outOfBounds
    | some a =>
      if a = addr then
        match b.m_scoreboard[i]? with
        | none => .error .outOfBounds
        | some v => if v ≥ time then .ok .VALID else availableLoop b time addr n (i + 1)
      else availableLoop b time addr n (i + 1)

/-- Source: `StoreBuffer::isAddressAvailable`. -/
def isAddressAvailable (b : StoreBuffer) (time addr : Nat) : Res Status :=
  availableLoop b time addr b.m_scoreboard.length 0

/-- A sequence of `executeStore(time, occupancy, addr)` calls; gives the returned cycles in
call order and the buffer afterwards. -/
def run (b : StoreBuffer) : List (Nat × Nat × Nat) → Res (List Nat × StoreBuffer)
  | [] => .ok ([], b)
  | call :: calls =>
    match b.executeStore call.1 call.2.1 call.2.2 with
    | .error e => .error e
    | .ok (s, b') =>
      match run b' calls with
      | .error e => .error e
      | .ok (starts, b'') => .ok (s :: starts, b'')

/-- Invariant of the store buffer: the two vectors have the same size, every availability is
a `UInt64` value, and when two entries hold the same address, the address is 0 (the address
`initialize` writes) and the entry with the higher index has never been written (its
availability is 0). -/
def Inv (b : StoreBuffer) : Prop :=
  b.m_addresses.length = b.m_scoreboard.length
    ∧ (∀ v ∈ b.m_scoreboard, v < U64)
    ∧ ∀ (i j : Nat) (a : Nat), i < j → b.m_addresses[i]? = some a →
        b.m_addresses[j]? = some a → a = 0 ∧ b.m_scoreboard[j]? = some 0

/-- At most one entry holds any given address. -/
def UniqueAddr (b : StoreBuffer) : Prop :=
  ∀ (i j : Nat) (a : Nat), b.m_addresses[i]? = some a → b.m_addresses[j]? = some a → i = j

/-- At most one entry holds a given address other than 0. -/
def UniqueNonzero (b : StoreBuffer) : Prop :=
  ∀ (i j : Nat) (a : Nat), b.m_addresses[i]? = some a → b.m_addresses[j]? = some a →
    a ≠ 0 → i = j

end IOCOOMCoreModel.StoreBuffer

/-- Modelled from the spec: the type of an `Operand` (`instruction.h` is not among the
sources); `Operand::REG` and `Operand::MEMORY` are the two the source tests for. -/
inductive OperandType where
  | REG
  | MEMORY
  deriving DecidableEq, Repr

/-- Modelled from the spec: the direction of an `Operand`, `Operand::READ` or
`Operand::WRITE`. -/
inductive OperandDirection where
  | READ
  | WRITE
  deriving DecidableEq, Repr

/-- Modelled from the spec: an `Operand` with the three members the source reads. -/
structure Operand where
  m_type : OperandType
  m_direction : OperandDirection
  m_value : Nat
  deriving DecidableEq, Repr

/-- Modelled from the spec: the kind of a `DynamicInstructionInfo`
(`dynamic_instruction_info.h` is not among the sources). -/
inductive DynamicInstructionInfoType where
  | MEMORY_READ
  | MEMORY_WRITE
  deriving DecidableEq, Repr

/-- Modelled from the spec: the member `memory_info` of a `DynamicInstructionInfo`. -/
structure MemoryInfo where
  addr : Nat
  latency : Nat
  deriving DecidableEq, Repr

/-- Modelled from the spec: a `DynamicInstructionInfo` record `{kind, address, latency}`. -/
structure DynamicInstructionInfo where
  type : DynamicInstructionInfoType
  memory_info : MemoryInfo
  deriving DecidableEq, Repr

/-- Modelled from the spec: what `handleInstruction` asks of an `Instruction`
(`instruction.h` is not among the sources). `getCost` is `none` when reading the cost raises
`AbortInstructionException`. -/
structure Instruction where
  getCost : Option Nat
  getAddress : Nat
  getOperands : List Operand
  isSimpleMemoryLoad : Bool
  deriving DecidableEq, Repr

/-- Source: the data members of `IOCOOMCoreModel` that `handleInstruction` and `reset` use.
Modelled from the spec: `m_cycle_count` and the queue of dynamic instruction records are
members of the base class `CoreModel`, which is not among the sources. -/
structure IOCOOMCoreModel where
  m_cycle_count : Nat
  m_dynamic_info_queue : List DynamicInstructionInfo
  m_instruction_count : Nat
  m_register_scoreboard : List Nat
  m_store_buffer : IOCOOMCoreModel.StoreBuffer
  m_load_unit : IOCOOMCoreModel.LoadUnit
  deriving DecidableEq, Repr

/-- How a call of `handleInstruction` is left: at its end, or by the
`AbortInstructionException` of `getCost()`; with the state of the model at that point. -/
inductive Handled where
  | completed (m : IOCOOMCoreModel)
  | aborted (m : IOCOOMCoreModel)
  deriving DecidableEq, Repr

namespace IOCOOMCoreModel

/-- Source: `IOCOOMCoreModel::initializeRegisterScoreboard`. -/
def initializeRegisterScoreboard (m : IOCOOMCoreModel) : IOCOOMCoreModel :=
  { m with m_register_scoreboard := List.replicate m.m_register_scoreboard.length 0 }

/-- Source: the constructor `IOCOOMCoreModel::IOCOOMCoreModel`, with the two configured
sizes `num_store_buffer_entries` and `num_outstanding_loads`. Modelled from the spec: the
base class starts at cycle 0 with an empty queue. -/
def new (num_store_buffer_entries num_outstanding_loads : Nat) : IOCOOMCoreModel :=
  initializeRegisterScoreboard
    { m_cycle_count := 0
      m_dynamic_info_queue := []
      m_instruction_count := 0
      m_register_scoreboard := List.replicate 512 0
      m_store_buffer := StoreBuffer.new num_store_buffer_entries
      m_load_unit := LoadUnit.new num_outstanding_loads }

/-- Modelled from the spec: `CoreModel::getDynamicInstructionInfo`, the record at the front
of the queue; reading the front of an empty queue is a fault of its own. -/
def getDynamicInstructionInfo (m : IOCOOMCoreModel) : Res DynamicInstructionInfo :=
  match m.m_dynamic_info_queue with
  | [] => .error .outOfBounds
  | info :: _ => .ok info

/-- Modelled from the spec: `CoreModel::popDynamicInstructionInfo`. -/
def popDynamicInstructionInfo (m : IOCOOMCoreModel) : IOCOOMCoreModel :=
  { m with m_dynamic_info_queue := m.m_dynamic_info_queue.tail }

/-- Source: `IOCOOMCoreModel::executeLoad`; gives the pair returned and the model
afterwards. -/
def executeLoad (m : IOCOOMCoreModel) (time : Nat) (info : DynamicInstructionInfo) :
    Res ((Nat × Nat) × IOCOOMCoreModel) :=
  match m.m_store_buffer.isAddressAvailable time info.memory_info.addr with
  | .error e => .error e
  | .ok status =>
    if status = .VALID then .ok ((time, 0), m)
    else
      match m.m_load_unit.execute time info.memory_info.latency with
      | .error e => .error e
      | .ok (start, lu) => .ok ((start, info.memory_info.latency), { m with m_load_unit := lu })

/-- Source: `IOCOOMCoreModel::executeStore`; gives the cycle returned and the model
afterwards. -/
def executeStore (m : IOCOOMCoreModel) (time : Nat) (info : DynamicInstructionInfo) :
    Res (Nat × IOCOOMCoreModel) :=
  match m.m_store_buffer.executeStore time info.memory_info.latency info.memory_info.addr with
  | .error e => .error e
  | .ok (r, b) => .ok (r, { m with m_store_buffer := b })

/-- Source: `IOCOOMCoreModel::modelIcache`. `readInstructionMemory` stands for
`getCore()->readInstructionMemory(addr, sizeof(IntPtr))`, the access time the core's
instruction cache gives for the address. -/
def modelIcache (readInstructionMemory : Nat → Nat) (m : IOCOOMCoreModel) (addr : Nat) :
    IOCOOMCoreModel :=
  { m with m_cycle_count := (m.m_cycle_count + readInstructionMemory addr) % U64 }

/-- Source: first loop of `handleInstruction`, over the REG READ operands; gives
`read_operands_ready`. -/
def regReadLoop (m : IOCOOMCoreModel) : List Operand → Nat → Res Nat
  | [], read_operands_ready => .ok read_operands_ready
  | o :: ops, read_operands_ready =>
    if o.m_direction ≠ .READ ∨ o.m_type ≠ .REG then regReadLoop m ops read_operands_ready
    else if o.m_value < m.m_register_scoreboard.length then
      match m.m_register_scoreboard[o.m_value]? with
      | none => .error .outOfBounds
      | some v =>
        regReadLoop m ops (if read_operands_ready < v then v else read_operands_ready)
    else .error .assertion

/-- Source: second loop of `handleInstruction`, over the MEMORY operands; gives the model,
`read_operands_ready`, `read_completion_time` and the local queue `write_info`. -/
def memoryLoop : List Operand → IOCOOMCoreModel → Nat → Nat → List DynamicInstructionInfo →
    Res (IOCOOMCoreModel × Nat × Nat × List DynamicInstructionInfo)
  | [], m, read_operands_ready, read_completion_time, write_info =>
    .ok (m, read_operands_ready, read_completion_time, write_info)
  | o :: ops, m, read_operands_ready, read_completion_time, write_info =>
    if o.m_type ≠ .MEMORY then
      memoryLoop ops m read_operands_ready read_completion_time write_info
    else
      match m.getDynamicInstructionInfo with
      | .error e => .error e
      | .ok info =>
        if o.m_direction = .READ then
          if info.type = .MEMORY_READ then
            match m.executeLoad m.m_cycle_count info with
            | .error e => .error e
            | .ok ((load_ready, load_latency), m1) =>
              memoryLoop ops m1.popDynamicInstructionInfo
                (if read_operands_ready < load_ready then load_ready else read_operands_ready)
                (if read_completion_time < (load_ready + load_latency) % U64
                  then (load_ready + load_latency) % U64 else read_completion_time)
                write_info
          else .error .assertion
        else
          if info.type = .MEMORY_WRITE then
            memoryLoop ops m.popDynamicInstructionInfo read_operands_ready
              read_completion_time (write_info ++ [info])
          else .error .assertion

/-- Source: third loop of `handleInstruction`, over the REG WRITE operands; gives the
register scoreboard and `write_operands_ready`. The source does not test the register id
before it writes the entry. -/
def regWriteLoop (execute_unit_completion_time : Nat) :
    List Operand → List Nat → Nat → Res (List Nat × Nat)
  | [], scoreboard, write_operands_ready => .ok (scoreboard, write_operands_ready)
  | o :: ops, scoreboard, write_operands_ready =>
    if o.m_direction ≠ .WRITE ∨ o.m_type ≠ .REG then
      regWriteLoop execute_unit_completion_time ops scoreboard write_operands_ready
    else if o.m_value < scoreboard.length then
      regWriteLoop execute_unit_completion_time ops
        (scoreboard.set o.m_value execute_unit_completion_time)
        (if write_operands_ready < execute_unit_completion_time
          then execute_unit_completion_time else write_operands_ready)
    else .error .outOfBounds

/-- Source: fourth loop of `handleInstruction`, over the MEMORY WRITE operands; gives the
model, `write_operands_ready`, what is left of `write_info`, and
`has_memory_write_operand`. -/
def memWriteLoop (execute_unit_completion_time : Nat) :
    List Operand → IOCOOMCoreModel → Nat → List DynamicInstructionInfo → Bool →
    Res (IOCOOMCoreModel × Nat × List DynamicInstructionInfo × Bool)
  | [], m, write_operands_ready, write_info, has_memory_write_operand =>
    .ok (m, write_operands_ready, write_info, has_memory_write_operand)
  | o :: ops, m, write_operands_ready, write_info, has_memory_write_operand =>
    if o.m_direction ≠ .WRITE ∨ o.m_type ≠ .MEMORY then
      memWriteLoop execute_unit_completion_time ops m write_operands_ready write_info
        has_memory_write_operand
    else
      match write_info with
      | [] => .error .outOfBounds
      | info :: rest =>
        match m.executeStore execute_unit_completion_time info with
        | .error e => .error e
        | .ok (store_time, m1) =>
          memWriteLoop execute_unit_completion_time ops m1
            (if write_operands_ready < store_time then store_time else write_operands_ready)
            rest true

/-- Source: `IOCOOMCoreModel::handleInstruction`. The event counters of the McPAT
interface, which the last statement updates, are not part of the state. -/
def handleInstruction (readInstructionMemory : Nat → Nat) (m : IOCOOMCoreModel)
    (instruction : Instruction) : Res Handled :=
  match instruction.getCost with
  | none => .ok (.aborted m)
  | some cost =>
    let m1 := modelIcache readInstructionMemory m instruction.getAddress
    let ops := instruction.getOperands
    match regReadLoop m1 ops m1.m_cycle_count with
    | .error e => .error e
    | .ok read_operands_ready =>
      match memoryLoop ops m1 read_operands_ready read_operands_ready [] with
      | .error e => .error e
      | .ok (m2, read_operands_ready, read_completion_time, write_info) =>
        let execute_unit_completion_time := (read_completion_time + cost) % U64
        match regWriteLoop execute_unit_completion_time ops m2.m_register_scoreboard
            execute_unit_completion_time with
        | .error e => .error e
        | .ok (scoreboard, write_operands_ready) =>
          match memWriteLoop execute_unit_completion_time ops
              { m2 with m_register_scoreboard := scoreboard } write_operands_ready
              write_info false with
          | .error e => .error e
          | .ok (m3, write_operands_ready, write_info, has_memory_write_operand) =>
            let cycle_count :=
              if instruction.isSimpleMemoryLoad then (read_operands_ready + 1) % U64
              else if !has_memory_write_operand then (read_completion_time + 1) % U64
              else (write_operands_ready + 1) % U64
            if write_info.isEmpty then
              .ok (.completed { m3 with m_cycle_count := cycle_count
                                        m_instruction_count := (m3.m_instruction_count + 1) % U64 })
            else .error .assertion

end IOCOOMCoreModel

/-! ### The cycle advance in the words of the specification -/

namespace Spec

/-- The maximum of a cycle and a list of cycles. -/
def maxOf (t : Nat) (cycles : List Nat) : Nat := cycles.foldl max t

/-- The scoreboard entries of the REG READ operands. -/
def regReadEntries (scoreboard : List Nat) (ops : List Operand) : List Nat :=
  ops.filterMap (fun o =>
    if o.m_direction = .READ ∧ o.m_type = .REG then scoreboard[o.m_value]? else none)

/-- Whether the instruction has a MEMORY WRITE operand. -/
def hasMemoryWrite (ops : List Operand) : Bool :=
  ops.any (fun o => decide (o.m_direction = .WRITE ∧ o.m_type = .MEMORY))

/-- The loads of an instruction: each MEMORY operand takes the next record of the queue, and
each MEMORY READ operand calls `executeLoad(time, record)`. Gives the `(start, latency)`
pairs of the loads in operand order, the records of the MEMORY WRITE operands, and the model
after the loads. -/
def loadTimings (time : Nat) : List Operand → IOCOOMCoreModel →
    Res (List (Nat × Nat) × List DynamicInstructionInfo × IOCOOMCoreModel)
  | [], m => .ok ([], [], m)
  | o :: ops, m =>
    if o.m_type = .MEMORY then
      match m.getDynamicInstructionInfo with
      | .error e => .error e
      | .ok info =>
        if o.m_direction = .READ then
          match m.executeLoad time info with
          | .error e => .error e
          | .ok (timing, m1) =>
            match loadTimings time ops m1.popDynamicInstructionInfo with
            | .error e => .error e
            | .ok (timings, writes, m2) => .ok (timing :: timings, writes, m2)
        else
          match loadTimings time ops m.popDynamicInstructionInfo with
          | .error e => .error e
          | .ok (timings, writes, m2) => .ok (timings, info :: writes, m2)
    else loadTimings time ops m

/-- The stores of an instruction: `executeStore(time, record)` for each buffered record in
turn. Gives the cycles returned and the store buffer afterwards. -/
def storeTimes (time : Nat) : List DynamicInstructionInfo → IOCOOMCoreModel.StoreBuffer →
    Res (List Nat × IOCOOMCoreModel.StoreBuffer)
  | [], b => .ok ([], b)
  | info :: infos, b =>
    match b.executeStore time info.memory_info.latency info.memory_info.addr with
    | .error e => .error e
    | .ok (r, b1) =>
      match storeTimes time infos b1 with
      | .error e => .error e
      | .ok (rs, b2) => .ok (r :: rs, b2)

/-- The spec's `read_ready`: the maximum of `t'`, the scoreboard entries of the REG READ
operands and the start cycles of the loads. -/
def read_ready (t' : Nat) (entries : List Nat) (loads : List (Nat × Nat)) : Nat :=
  maxOf t' (entries ++ loads.map (fun l => l.1))

/-- The spec's `read_complete`: the maximum of `t'`, those scoreboard entries and each
load's start + latency (a `UInt64` sum). -/
def read_complete (t' : Nat) (entries : List Nat) (loads : List (Nat × Nat)) : Nat :=
  maxOf t' (entries ++ loads.map (fun l => (l.1 + l.2) % U64))

/-- The spec's `write_ready`: the maximum of `read_complete + cost` (a `UInt64` sum) and the
cycles the store buffer returned. -/
def write_ready (read_complete cost : Nat) (stores : List Nat) : Nat :=
  maxOf ((read_complete + cost) % U64) stores

/-- The spec's three-way advance of `m_cycle_count` (the `+ 1` is a `UInt64` sum). -/
def nextCycle (simple_load has_memory_write : Bool) (read_ready read_complete write_ready : Nat) :
    Nat :=
  if simple_load then (read_ready + 1) % U64
  else if !has_memory_write then (read_complete + 1) % U64
  else (write_ready + 1) % U64

end Spec

namespace Examples

/-- An instruction cache that answers every fetch in one cycle. -/
def oneCycle : Nat → Nat := fun _ => 1

/-- A freshly constructed core model with two store-buffer entries and two load slots, with
one read record and one write record in its queue. -/
def core : IOCOOMCoreModel :=
  { IOCOOMCoreModel.new 2 2 with
    m_dynamic_info_queue := [⟨.MEMORY_READ, ⟨64, 10⟩⟩, ⟨.MEMORY_WRITE, ⟨128, 4⟩⟩] }

/-- An instruction of cost 3 that reads register 1 and memory and writes memory and
register 2. -/
def loadStore : Instruction :=
  { getCost := some 3, getAddress := 4096,
    getOperands :=
      [⟨.REG, .READ, 1⟩, ⟨.MEMORY, .READ, 0⟩, ⟨.MEMORY, .WRITE, 0⟩, ⟨.REG, .WRITE, 2⟩],
    isSimpleMemoryLoad := false }

/-- The model `core` after `handleInstruction(loadStore)`. -/
def afterLoadStore : IOCOOMCoreModel :=
  match core.handleInstruction oneCycle loadStore with
  | .ok (.completed m) => m
  | _ => core

end Examples

/-- The set that `modifyAssociativity` makes of a set whose associativity is below `assoc`. -/
def grownSet (s : RoundRobin) (assoc : Nat) : RoundRobin :=
  { s with m_tags := clearTags s.m_tags (s.tags_last_index + 1) (assoc - (s.tags_last_index + 1))
           tags_last_index := assoc - 1
           next_replace_index := assoc - 1 }

/-- The set that `modifyAssociativity` makes of a set whose associativity is above `assoc`. -/
def shrunkSet (s : RoundRobin) (assoc : Nat) : RoundRobin :=
  { s with m_tags := clearTags s.m_tags assoc (s.tags_last_index + 1 - assoc)
           tags_last_index := assoc - 1
           next_replace_index :=
             if s.next_replace_index > assoc - 1 then assoc - 1 else s.next_replace_index }

/-- What `modifyAssociativity` makes of a set for a new associativity it accepts. -/
def resizedSet (s : RoundRobin) (assoc : Nat) : RoundRobin :=
  if s.tags_last_index + 1 < assoc then grownSet s assoc
  else if assoc < s.tags_last_index + 1 then shrunkSet s assoc
  else s

namespace Examples

/-- The cache `Cache("tiny", 4, 1, 1, 1)` of `P0`: four sets of one line of one byte. -/
def tiny : Cache := okOr icache (Cache.new P0 "tiny" 4 1 1 1 0 (fun _ _ => 0))

/-- The cache `tiny` after a load of address 3 with the fill buffer `[7]`. -/
def tinyFilled : Cache :=
  (okOr noOut (tiny.accessSingleLine P0 3 .k_ACCESS_TYPE_LOAD
    { noArgs with fill_buff := some [7] })).cache

/-- The cache `tinyFilled` after `resize(2)`. -/
def tinyGrown : Cache := okOr tiny (tinyFilled.resize P0 false 2)

/-- The cache of scenario 1 (line `0x100` resident) after `resize(2)`. -/
def grown : Cache := okOr icache (filled.cache.resize P0 false 2)

/-- The cache `grown` after a load of `0x140`, which goes to the second slot of set 0. -/
def grownFilled : Cache :=
  (okOr noOut (grown.accessSingleLine P0 0x140 .k_ACCESS_TYPE_LOAD
    { noArgs with fill_buff := some (List.replicate 16 0xBB) })).cache

/-- The cache `grownFilled` after `resize(1)` without shared memory. -/
def shrunk : Cache := okOr icache (grownFilled.resize P0 false 1)

end Examples

namespace IOCOOMCoreModel

/-- Source: `IOCOOMCoreModel::reset`. `coreModelReset` stands for `CoreModel::reset()`, the
reset of the base class, which is not among the sources; it can reach the members of the
base class only, here the cycle count and the queue of dynamic instruction records. -/
def reset (coreModelReset : Nat × List DynamicInstructionInfo → Nat × List DynamicInstructionInfo)
    (m : IOCOOMCoreModel) : IOCOOMCoreModel :=
  let base := coreModelReset (m.m_cycle_count, m.m_dynamic_info_queue)
  let m1 : IOCOOMCoreModel :=
    { m with m_cycle_count := base.1, m_dynamic_info_queue := base.2, m_instruction_count := 0 }
  let m2 := m1.initializeRegisterScoreboard
  { m2 with m_store_buffer := m2.m_store_buffer.reset, m_load_unit := m2.m_load_unit.reset }

end IOCOOMCoreModel

namespace Spec

/-- The cycle `t'`: the old `m_cycle_count` plus the instruction-cache latency. -/
def fetchCycle (readInstructionMemory : Nat → Nat) (m : IOCOOMCoreModel)
    (instruction : Instruction) : Nat :=
  (m.m_cycle_count + readInstructionMemory instruction.getAddress) % U64

/-- The `(start, latency)` pairs of the loads of an instruction handled on `m` (none when the
records run out). -/
def loadsOf (readInstructionMemory : Nat → Nat) (m : IOCOOMCoreModel)
    (instruction : Instruction) : List (Nat × Nat) :=
  match loadTimings (fetchCycle readInstructionMemory m instruction) instruction.getOperands
      (m.modelIcache readInstructionMemory instruction.getAddress) with
  | .ok (loads, _, _) => loads
  | .error _ => []

/-- The spec's `read_ready` of an instruction handled on `m`. -/
def readReadyOf (readInstructionMemory : Nat → Nat) (m : IOCOOMCoreModel)
    (instruction : Instruction) : Nat :=
  read_ready (fetchCycle readInstructionMemory m instruction)
    (regReadEntries m.m_register_scoreboard instruction.getOperands)
    (loadsOf readInstructionMemory m instruction)

/-- The spec's `read_complete` of an instruction handled on `m`. -/
def readCompleteOf (readInstructionMemory : Nat → Nat) (m : IOCOOMCoreModel)
    (instruction : Instruction) : Nat :=
  read_complete (fetchCycle readInstructionMemory m instruction)
    (regReadEntries m.m_register_scoreboard instruction.getOperands)
    (loadsOf readInstructionMemory m instruction)

/-- The spec's `exec_complete = read_complete + I.cost` (a `UInt64` sum) of an instruction
handled on `m`; the cost counts as 0 when reading it aborts. -/
def execCompleteOf (readInstructionMemory : Nat → Nat) (m : IOCOOMCoreModel)
    (instruction : Instruction) : Nat :=
  (readCompleteOf readInstructionMemory m instruction + instruction.getCost.getD 0) % U64

/-- The cycles the store buffer returns for the stores of an instruction handled on `m`
(none when the records run out or the store buffer cannot be used). -/
def storesOf (readInstructionMemory : Nat → Nat) (m : IOCOOMCoreModel)
    (instruction : Instruction) : List Nat :=
  match loadTimings (fetchCycle readInstructionMemory m instruction) instruction.getOperands
      (m.modelIcache readInstructionMemory instruction.getAddress) with
  | .ok (_, writes, m2) =>
    match storeTimes (execCompleteOf readInstructionMemory m instruction) writes
        m2.m_store_buffer with
    | .ok (stores, _) => stores
    | .error _ => []
  | .error _ => []

/-- The spec's `write_ready` of an instruction handled on `m`. -/
def writeReadyOf (readInstructionMemory : Nat → Nat) (m : IOCOOMCoreModel)
    (instruction : Instruction) : Nat :=
  write_ready (readCompleteOf readInstructionMemory m instruction)
    (instruction.getCost.getD 0) (storesOf readInstructionMemory m instruction)

/-- The cycle after which the next instruction is handled: `read_ready` for a simple memory
load, else `read_complete` without a MEMORY WRITE operand, else `write_ready`. -/
def issueOf (readInstructionMemory : Nat → Nat) (m : IOCOOMCoreModel)
    (instruction : Instruction) : Nat :=
  if instruction.isSimpleMemoryLoad then readReadyOf readInstructionMemory m instruction
  else if !hasMemoryWrite instruction.getOperands then
    readCompleteOf readInstructionMemory m instruction
  else writeReadyOf readInstructionMemory m instruction

/-- No 64-bit overflow on the way to the new `m_cycle_count`: adding the instruction-cache
latency, adding the final 1, and, where `write_ready` is used, adding the cost, do not wrap
around. -/
def NoOverflow (readInstructionMemory : Nat → Nat) (m : IOCOOMCoreModel)
    (instruction : Instruction) : Prop :=
  m.m_cycle_count + readInstructionMemory instruction.getAddress < U64
    ∧ issueOf readInstructionMemory m instruction + 1 < U64
    ∧ (instruction.isSimpleMemoryLoad = false → hasMemoryWrite instruction.getOperands = true →
        readCompleteOf readInstructionMemory m instruction + instruction.getCost.getD 0 < U64)

instance (readInstructionMemory : Nat → Nat) (m : IOCOOMCoreModel) (instruction : Instruction) :
    Decidable (NoOverflow readInstructionMemory m instruction) := by
  unfold NoOverflow; infer_instance

/-- Whether some REG WRITE operand names register `r`. -/
def writesRegister (ops : List Operand) (r : Nat) : Bool :=
  ops.any (fun o => decide (o.m_direction = .WRITE ∧ o.m_type = .REG ∧ o.m_value = r))

/-- Whether some REG READ operand names a register outside a scoreboard of `n` entries. -/
def readsOutside (n : Nat) (ops : List Operand) : Bool :=
  ops.any (fun o => decide (o.m_direction = .READ ∧ o.m_type = .REG ∧ n ≤ o.m_value))

/-- The number of MEMORY operands. -/
def memoryOperands (ops : List Operand) : Nat :=
  ops.countP (fun o => decide (o.m_type = .MEMORY))

/-- Pairing the MEMORY operands in operand order with the leading records of the queue:
whether some READ operand meets a record that is not MEMORY_READ, or some WRITE operand a
record that is not MEMORY_WRITE. -/
def mispaired : List Operand → List DynamicInstructionInfo → Bool
  | [], _ => false
  | _ :: _, [] => false
  | o :: ops, info :: queue =>
    if o.m_type = .MEMORY then
      (if o.m_direction = .READ then decide (info.type ≠ .MEMORY_READ)
        else decide (info.type ≠ .MEMORY_WRITE))
      || mispaired ops queue
    else mispaired ops (info :: queue)

end Spec

namespace Examples

/-- An instruction cache without latency. -/
def noLatency : Nat → Nat := fun _ => 0

/-- A freshly constructed core model with the configured default sizes: one store-buffer
entry and three load slots. -/
def fresh : IOCOOMCoreModel := IOCOOMCoreModel.new 1 3

/-- Scenario 5, `I1`: one REG WRITE operand `r5`, cost 7. -/
def writeR5 : Instruction :=
  { getCost := some 7, getAddress := 0, getOperands := [⟨.REG, .WRITE, 5⟩],
    isSimpleMemoryLoad := false }

/-- Scenario 5, `I2`: one REG READ operand `r5`, cost 2. -/
def readR5 : Instruction :=
  { getCost := some 2, getAddress := 0, getOperands := [⟨.REG, .READ, 5⟩],
    isSimpleMemoryLoad := false }

/-- An instruction with one REG WRITE operand `r5` and a cost of 100. -/
def slowWriteR5 : Instruction := { writeR5 with getCost := some 100 }

/-- An instruction with one REG WRITE operand `r5` and a cost of 1. -/
def quickWriteR5 : Instruction := { writeR5 with getCost := some 1 }

/-- An instruction whose cost cannot be read: `getCost()` raises
`AbortInstructionException`. -/
def aborting : Instruction := { loadStore with getCost := none }

/-- An instruction with one REG READ operand `r600` and no memory operand. -/
def readR600 : Instruction :=
  { getCost := some 1, getAddress := 0, getOperands := [⟨.REG, .READ, 600⟩],
    isSimpleMemoryLoad := false }

/-- The model state after `handleInstruction`, for a call known to complete. -/
def after (m : IOCOOMCoreModel) (instruction : Instruction) : IOCOOMCoreModel :=
  match m.handleInstruction noLatency instruction with
  | .ok (.completed m') => m'
  | _ => m

end Examples

/-! ## DramDirectoryEntry (`common/core/dram_directory_entry.h`)

The header declares the class; the bodies of its member functions and the class `BitVector`
are not among the sources. The transitions below follow the table of section 4.3 of the
spec and the invariants of its section 3. -/

/-- Source: `DramDirectoryEntry::dstate_t` (`NUM_DSTATE_STATES` counts the states). -/
inductive dstate_t where
  | UNCACHED
  | EXCLUSIVE
  | SHARED
  deriving DecidableEq, Repr

/-- Source: the data members of `DramDirectoryEntry`; `sharers` holds one bit for each
core. -/
structure DramDirectoryEntry where
  dstate : dstate_t
  sharers : List Bool
  number_of_sharers : Nat
  exclusive_sharer_rank : Nat
  memory_line_address : Nat
  deriving DecidableEq, Repr

namespace DramDirectoryEntry

/-- Modelled from the spec: the constructor `DramDirectoryEntry(mem_line_addr,
number_of_cores)`, whose body is missing: an UNCACHED entry with an empty bit-vector over
all cores. The spec does not say what `exclusive_sharer_rank` holds at first; it is 0 here. -/
def new (mem_line_addr number_of_cores : Nat) : DramDirectoryEntry :=
  { dstate := .UNCACHED, sharers := List.replicate number_of_cores false,
    number_of_sharers := 0, exclusive_sharer_rank := 0, memory_line_address := mem_line_addr }

/-- Modelled from the spec: `getDState()`, whose body is missing. -/
def getDState (e : DramDirectoryEntry) : dstate_t := e.dstate

/-- Modelled from the spec: `numSharers()`, whose body is missing; a read-only query. -/
def numSharers (e : DramDirectoryEntry) : Nat := e.number_of_sharers

/-- Modelled from the spec: `getExclusiveSharerRank()`, whose body is missing; a read-only
query. -/
def getExclusiveSharerRank (e : DramDirectoryEntry) : Nat := e.exclusive_sharer_rank

/-- Modelled from the spec: `getSharersList()`, whose body is missing: the ranks whose bit is
set, in ascending order. -/
def getSharersList (e : DramDirectoryEntry) : List Nat :=
  (List.range e.sharers.length).filter (fun i => e.sharers.getD i false)

/-- Source: `getMemLineAddress()`. -/
def getMemLineAddress (e : DramDirectoryEntry) : Nat := e.memory_line_address

/-- The number of set bits of the bit-vector. -/
def popcount (e : DramDirectoryEntry) : Nat := e.sharers.count true

/-- Modelled from the spec: "set bit r" of the table of section 4.3, with `num_sharers`
following the bit-vector (a `UINT32`). -/
def setBit (e : DramDirectoryEntry) (r : Nat) : DramDirectoryEntry :=
  { e with sharers := e.sharers.set r true
           number_of_sharers :=
             if e.sharers.getD r false then e.number_of_sharers
             else (e.number_of_sharers + 1) % U32 }

/-- Modelled from the spec: "clear bit r" of the table of section 4.3, with `num_sharers`
following the bit-vector (a `UINT32`). -/
def clearBit (e : DramDirectoryEntry) (r : Nat) : DramDirectoryEntry :=
  { e with sharers := e.sharers.set r false
           number_of_sharers :=
             if e.sharers.getD r false then (e.number_of_sharers + U32 - 1) % U32
             else e.number_of_sharers }

/-- Modelled from the spec: `addSharer(sharer_rank)`, whose body is missing; column
`add_sharer(r)` of the table of section 4.3. `capacity` is the capacity of the sharers
vector: there is room while fewer sharers than that are recorded. A rank outside the
bit-vector is a fault of its own. Gives the value returned and the entry afterwards. -/
def addSharer (capacity : Nat) (e : DramDirectoryEntry) (sharer_rank : Nat) :
    Res (Bool × DramDirectoryEntry) :=
  if sharer_rank < e.sharers.length then
    match e.dstate with
    | .UNCACHED => .ok (true, { e.setBit sharer_rank with dstate := .SHARED })
    | .SHARED =>
      if e.number_of_sharers < capacity then .ok (true, e.setBit sharer_rank)
      else .ok (false, e)
    | .EXCLUSIVE =>
      .ok (true, { e with dstate := .SHARED
                          sharers := (List.replicate e.sharers.length false).set sharer_rank true
                          number_of_sharers := 1 })
  else .error .outOfBounds

/-- Modelled from the spec: `addExclusiveSharer(sharer_rank)`, whose body is missing; column
`add_exclusive(r)` of the table of section 4.3. -/
def addExclusiveSharer (e : DramDirectoryEntry) (sharer_rank : Nat) : Res DramDirectoryEntry :=
  if sharer_rank < e.sharers.length then
    match e.dstate with
    | .UNCACHED =>
      .ok { e.setBit sharer_rank with dstate := .EXCLUSIVE, exclusive_sharer_rank := sharer_rank }
    | .SHARED => .error .assertion
    | .EXCLUSIVE => if e.exclusive_sharer_rank = sharer_rank then .ok e else .error .assertion
  else .error .outOfBounds

/-- Modelled from the spec: `removeSharer(sharer_rank)`, whose body is missing; column
`remove_sharer(r)` of the table of section 4.3. -/
def removeSharer (e : DramDirectoryEntry) (sharer_rank : Nat) : Res DramDirectoryEntry :=
  match e.dstate with
  | .UNCACHED => .ok e
  | .SHARED =>
    if sharer_rank < e.sharers.length then
      let e' := e.clearBit sharer_rank
      if e'.sharers.contains true then .ok e' else .ok { e' with dstate := .UNCACHED }
    else .error .outOfBounds
  | .EXCLUSIVE =>
    if sharer_rank = e.exclusive_sharer_rank then
      if sharer_rank < e.sharers.length then
        .ok { e.clearBit sharer_rank with dstate := .UNCACHED }
      else .error .outOfBounds
    else .error .assertion

/-- The calls that change the sharers of an entry. -/
inductive Call where
  | addSharer (sharer_rank : Nat)
  | addExclusiveSharer (sharer_rank : Nat)
  | removeSharer (sharer_rank : Nat)
  deriving DecidableEq, Repr

/-- One call on an entry. -/
def step (capacity : Nat) (e : DramDirectoryEntry) : Call → Res DramDirectoryEntry
  | .addSharer r =>
    match e.addSharer capacity r with
    | .ok (_, e') => .ok e'
    | .error f => .error f
  | .addExclusiveSharer r => e.addExclusiveSharer r
  | .removeSharer r => e.removeSharer r

/-- A sequence of calls on an entry, none of which is fatal. -/
def run (capacity : Nat) (e : DramDirectoryEntry) : List Call → Res DramDirectoryEntry
  | [] => .ok e
  | c :: cs =>
    match e.step capacity c with
    | .ok e' => run capacity e' cs
    | .error f => .error f

/-- The invariants of section 3 of the spec: `num_sharers` is the number of set bits; in
UNCACHED the bit-vector is empty; in EXCLUSIVE exactly one bit is set and it is the bit of
`exclusive_sharer_rank`; in SHARED at least one bit is set. -/
def Inv (e : DramDirectoryEntry) : Prop :=
  e.numSharers = e.popcount
    ∧ (e.dstate = .UNCACHED → e.popcount = 0)
    ∧ (e.dstate = .EXCLUSIVE →
        e.popcount = 1 ∧ e.sharers[e.getExclusiveSharerRank]? = some true)
    ∧ (e.dstate = .SHARED → 0 < e.popcount)

instance (e : DramDirectoryEntry) : Decidable e.Inv := by
  unfold Inv; infer_instance

/-- The state is EXCLUSIVE if and only if exactly one bit is set and it is the bit of
`getExclusiveSharerRank()`. -/
def ExclusiveIff (e : DramDirectoryEntry) : Prop :=
  e.dstate = .EXCLUSIVE
    ↔ (e.popcount = 1 ∧ e.sharers[e.getExclusiveSharerRank]? = some true)

instance (e : DramDirectoryEntry) : Decidable e.ExclusiveIff := by
  unfold ExclusiveIff; infer_instance

end DramDirectoryEntry

namespace Examples

/-- The entry of scenario 6: a line of a system of four cores with the sharers 1 and 3. -/
def shared13 : DramDirectoryEntry :=
  okOr (DramDirectoryEntry.new 0 4)
    ((DramDirectoryEntry.new 0 4).run 4 [.addSharer 1, .addSharer 3])

/-- A line of a system of four cores that was held exclusively by core 3, given up, and is
then shared by core 3. -/
def sharedAgain : DramDirectoryEntry :=
  okOr (DramDirectoryEntry.new 0 4)
    ((DramDirectoryEntry.new 0 4).run 4
      [.addExclusiveSharer 3, .removeSharer 3, .addSharer 3])

end Examples

/-! ## Sequences of calls on one set -/

/-- A call of one of the member functions of `RoundRobin` that change a set after its
construction. -/
inductive SetOp where
  | replace (tag : CacheTag) (fill_buff : Option (List Nat)) (eviction : Option Bool)
      (evict_tag : Option CacheTag) (evict_buff : Option (List Nat))
  | invalidateTag (tag : CacheTag)
  | modifyAssociativity (sharedMem : Bool) (assoc : Nat)
  deriving DecidableEq, Repr

/-- Whether a buffer passed by pointer, if there is one, holds `blksize` bytes. -/
def holdsBlock (blksize : Nat) : Option (List Nat) → Bool
  | none => true
  | some b => decide (blksize ≤ b.length)

/-- Whether the fill buffer and the eviction buffer of a `replace` call hold a block of
`blksize` bytes; the other calls take no buffer. -/
def SetOp.fits (blksize : Nat) : SetOp → Bool
  | .replace _ fill_buff _ _ evict_buff => holdsBlock blksize fill_buff && holdsBlock blksize evict_buff
  | _ => true

namespace RoundRobin

/-- One call on a set; gives the set afterwards. -/
def step (P : TParams) (s : RoundRobin) : SetOp → Res RoundRobin
  | .replace tag fill_buff eviction evict_tag evict_buff =>
    match s.replace P tag fill_buff eviction evict_tag evict_buff with
    | .ok rep => .ok rep.set
    | .error e => .error e
  | .invalidateTag tag =>
    match s.invalidateTag P tag with
    | .ok r => .ok r.1
    | .error e => .error e
  | .modifyAssociativity sharedMem assoc => s.modifyAssociativity P sharedMem assoc

/-- A sequence of calls on a set, each on the set the previous one left. A fatal call ends
the run. -/
def run (P : TParams) (s : RoundRobin) : List SetOp → Res RoundRobin
  | [] => .ok s
  | op :: ops =>
    match s.step P op with
    | .error e => .error e
    | .ok s' => run P s' ops

/-- Consecutive calls `replace(tag, NULL, &eviction, &evict_tag, NULL)`, one per tag of the
list, with `eviction` false and `evict_tag` empty before each call. Gives, per call, the slot
the call wrote with the flag and the evicted tag as the call left them, and the set after the
last call. -/
def replaceAll (P : TParams) (s : RoundRobin) :
    List CacheTag → Res (List (Nat × Option Bool × Option CacheTag) × RoundRobin)
  | [] => .ok ([], s)
  | tag :: tags =>
    match s.replace P tag none (some false) (some CacheTag.blank) none with
    | .error e => .error e
    | .ok rep =>
      match replaceAll P rep.set tags with
      | .error e => .error e
      | .ok (outs, s') => .ok ((s.next_replace_index, rep.eviction, rep.evict_tag) :: outs, s')

end RoundRobin

namespace Spec

/-- Round-robin order in closed form: with `A` ways and the replacement pointer at `n`, the
slot the call number `k` (counted from 0) writes; the pointer steps down by one, that is up
by `A - 1` modulo `A`. -/
def rrSlot (A n k : Nat) : Nat := (n + k * (A - 1)) % A

end Spec

namespace Examples

/-- A set of `P0` constructed with two ways: `RoundRobin(2, 16)`. -/
def twoWay : RoundRobin :=
  { m_tags := List.replicate 2 CacheTag.blank, tags_last_index := 1, next_replace_index := 1,
    m_blocks := List.replicate 32 0, blocksize := 16 }

/-- Calls on a set: two replacements, a shrink to one way, a replacement with a fill buffer,
an invalidation and a grow back to two ways. -/
def setCalls : List SetOp :=
  [.replace (CacheTag.ofTag 1) none none none none,
   .replace (CacheTag.ofTag 2) none (some false) (some CacheTag.blank) (some (List.replicate 16 0)),
   .modifyAssociativity false 1,
   .replace (CacheTag.ofTag 3) (some (List.range 16)) none none none,
   .invalidateTag (CacheTag.ofTag 3),
   .modifyAssociativity false 2]

/-- Arguments of a load with a fill buffer and the three eviction-capture parameters, the
flag holding true before the call. -/
def staleArgs : AccessArgs := { evictArgs with eviction := some true }

/-- The load of `0x040` into the freshly constructed cache with the arguments `staleArgs`. -/
def staleFill : AccessOut :=
  okOr noOut (icache.accessSingleLine P0 0x040 .k_ACCESS_TYPE_LOAD staleArgs)

/-- The cache `deep` after `setSetPtr(0, 1)`: set 0 is followed by set 1. -/
def linked : Cache := okOr deep (deep.setSetPtr P0 0 1)

/-- The load of `0x000` with a fill buffer into the cache `linked`. -/
def linkedLoad : AccessOut :=
  okOr noOut (linked.accessSingleLine P0 0x000 .k_ACCESS_TYPE_LOAD fillArgs)

/-- An instruction with one REG WRITE operand `r600`, a register id outside the scoreboard. -/
def writeR600 : Instruction :=
  { getCost := some 1, getAddress := 0, getOperands := [⟨.REG, .WRITE, 600⟩],
    isSimpleMemoryLoad := false }

end Examples

/-! # Theorems -/

end Graphite

namespace Graphite

/-! ## Byte copies -/

theorem memcpy_ok {dst src r : List Nat} {dpos spos n : Nat}
    (h : memcpy dst dpos src spos n = .ok r) :
    spos + n ≤ src.length ∧ dpos + n ≤ dst.length
      ∧ r = dst.take dpos ++ ((src.drop spos).take n ++ dst.drop (dpos + n)) := by
  unfold memcpy at h
  split at h
  · rename_i hc
    injection h with h
    exact ⟨hc.1, hc.2, h.symm⟩
  · cases h

theorem memcpy_length {dst src r : List Nat} {dpos spos n : Nat}
    (h : memcpy dst dpos src spos n = .ok r) : r.length = dst.length := by
  obtain ⟨h1, h2, rfl⟩ := memcpy_ok h
  simp only [List.length_append, List.length_take, List.length_drop]
  omega

/-- Reading back the `n` bytes just written at `pos`. -/
theorem read_back (dst mid : List Nat) (pos n : Nat) (hpos : pos ≤ dst.length)
    (hmid : mid.length = n) (tl : List Nat) :
    ((dst.take pos ++ (mid ++ tl)).drop pos).take n = mid := by
  have h1 : (dst.take pos).length = pos := by simp [hpos]
  rw [List.drop_append_eq_append_drop, h1]
  simp [List.drop_eq_nil_of_le, h1, hmid.symm]

/-- A window inside the block of a slot, seen from the start of the array. -/
theorem window_in_block (blocks : List Nat) (base bs off n : Nat) (h : off + n ≤ bs) :
    ((((blocks.drop base).take bs).drop off).take n) = (blocks.drop (base + off)).take n := by
  rw [List.drop_take, List.take_take, List.drop_drop]
  have : min n (bs - off) = n := by omega
  rw [this, Nat.add_comm]

/-! ## The slot scan of `find` -/

theorem scan_none {tags : List CacheTag} {tag : CacheTag} {n : Nat}
    (h : RoundRobin.scan tags tag n = .ok none) :
    ∀ j, j < n → ∀ t, tags[j]? = some t → t.eq tag = false := by
  induction n with
  | zero => intro j hj; omega
  | succ n ih =>
    intro j hj t ht
    unfold RoundRobin.scan at h
    split at h
    · cases h
    · rename_i t' ht'
      split at h
      · cases h
      · rename_i hne
        rcases Nat.lt_succ_iff_lt_or_eq.mp hj with hlt | rfl
        · exact ih h j hlt t ht
        · rw [ht'] at ht; cases ht; simpa using hne

theorem scan_some {tags : List CacheTag} {tag : CacheTag} {n i : Nat}
    (h : RoundRobin.scan tags tag n = .ok (some i)) :
    i < n ∧ ∃ t, tags[i]? = some t ∧ t.eq tag = true := by
  induction n with
  | zero => unfold RoundRobin.scan at h; cases h
  | succ n ih =>
    unfold RoundRobin.scan at h
    split at h
    · cases h
    · rename_i t' ht'
      split at h
      · rename_i heq
        injection h with h; injection h with h; subst h
        exact ⟨Nat.lt_succ_self _, t', ht', heq⟩
      · obtain ⟨h1, h2⟩ := ih h
        exact ⟨Nat.lt_succ_of_lt h1, h2⟩

theorem scan_total (tags : List CacheTag) (tag : CacheTag) (n : Nat) (h : n ≤ tags.length) :
    ∃ r, RoundRobin.scan tags tag n = .ok r := by
  induction n with
  | zero => exact ⟨none, rfl⟩
  | succ n ih =>
    unfold RoundRobin.scan
    have hn : n < tags.length := h
    rw [List.getElem?_eq_getElem hn]
    simp only
    split
    · exact ⟨_, rfl⟩
    · exact ih (Nat.le_of_lt hn)

/-- After a tag equal to `tag` is written into a slot inside the scanned range of a set that
did not hold `tag`, the scan finds exactly that slot. -/
theorem scan_set_hit {tags : List CacheTag} {tag new : CacheTag} {n i : Nat}
    (h : RoundRobin.scan tags tag n = .ok none) (hi : i < n) (hlen : i < tags.length)
    (hnew : new.eq tag = true) :
    RoundRobin.scan (tags.set i new) tag n = .ok (some i) := by
  induction n with
  | zero => omega
  | succ n ih =>
    unfold RoundRobin.scan at h ⊢
    split at h
    · cases h
    · rename_i t' ht'
      split at h
      · cases h
      · rename_i hne
        by_cases hin : i = n
        · subst hin
          simp [List.getElem?_set, hlen, hnew]
        · have hlt : i < n := by omega
          rw [List.getElem?_set]
          simp only [hin, if_false, ht', hne]
          exact ih h hlt

/-- The scan compares tag bits only. -/
theorem scan_tag_congr (tags : List CacheTag) (t1 t2 : CacheTag) (n : Nat)
    (h : t1.m_tag = t2.m_tag) : RoundRobin.scan tags t1 n = RoundRobin.scan tags t2 n := by
  induction n with
  | zero => rfl
  | succ n ih =>
    unfold RoundRobin.scan
    simp only [CacheTag.eq, h, ih]

end Graphite

namespace Graphite
namespace Cache

/-! ## One iteration of the probe loops -/

/-- Inversion of one iteration of the probe loop of `accessSingleLine`. -/
theorem probeLoop_step {P : TParams} {c : Cache} {tag : CacheTag} {fuel idx depth li : Nat}
    {hist : List (Option Nat)} {p : Probe}
    (h : probeLoop P c tag (fuel + 1) idx depth hist li = .ok p) :
    depth < hist.length ∧ ∃ set res next, c.sets[idx]? = some set ∧ set.find P tag = .ok res
      ∧ c.set_ptrs[idx]? = some next
      ∧ ((∃ way, res = some way ∧ p = Probe.mk true idx next (depth) (hist.set depth (some idx)) way)
        ∨ (res = none ∧ (depth + 1 < c.max_search ∧ idx < P.k_MAX_SETS)
            ∧ probeLoop P c tag fuel next (depth + 1) (hist.set depth (some idx)) li = .ok p)
        ∨ (res = none ∧ ¬ (depth + 1 < c.max_search ∧ idx < P.k_MAX_SETS)
            ∧ p = Probe.mk false idx next (depth + 1) (hist.set depth (some idx)) li)) := by
  rw [probeLoop] at h
  by_cases hd : depth < hist.length
  · simp only [hd, if_true] at h
    refine ⟨hd, ?_⟩
    cases hs : c.sets[idx]? with
    | none => simp [hs] at h
    | some set =>
      simp only [hs] at h
      cases hf : set.find P tag with
      | error e => simp [hf] at h
      | ok res =>
        simp only [hf] at h
        cases hp : c.set_ptrs[idx]? with
        | none => simp [hp] at h
        | some next =>
          simp only [hp] at h
          refine ⟨set, res, next, rfl, hf, rfl, ?_⟩
          cases res with
          | some way =>
            simp only at h
            injection h with h
            exact Or.inl ⟨way, rfl, h.symm⟩
          | none =>
            simp only at h
            by_cases hc : depth + 1 < c.max_search ∧ idx < P.k_MAX_SETS
            · rw [if_pos hc] at h
              exact Or.inr (Or.inl ⟨rfl, hc, h⟩)
            · rw [if_neg hc] at h
              injection h with h
              exact Or.inr (Or.inr ⟨rfl, hc, h.symm⟩)
  · simp [hd] at h

/-- One iteration of the probe loop of `accessSingleLine` that hits. -/
theorem probeLoop_hit {P : TParams} {c : Cache} {tag : CacheTag} {fuel idx depth li way next : Nat}
    {hist : List (Option Nat)} {set : RoundRobin}
    (hd : depth < hist.length) (hs : c.sets[idx]? = some set)
    (hf : set.find P tag = .ok (some way)) (hp : c.set_ptrs[idx]? = some next) :
    probeLoop P c tag (fuel + 1) idx depth hist li
      = .ok (Probe.mk true idx next (depth) (hist.set depth (some idx)) way) := by
  rw [probeLoop]
  simp only [hd, if_true, hs, hf, hp]

/-- One iteration of the probe loop of `accessSingleLine` that misses and goes on. -/
theorem probeLoop_next {P : TParams} {c : Cache} {tag : CacheTag} {fuel idx depth li next : Nat}
    {hist : List (Option Nat)} {set : RoundRobin}
    (hd : depth < hist.length) (hs : c.sets[idx]? = some set)
    (hf : set.find P tag = .ok none) (hp : c.set_ptrs[idx]? = some next)
    (hc : depth + 1 < c.max_search ∧ idx < P.k_MAX_SETS) :
    probeLoop P c tag (fuel + 1) idx depth hist li
      = probeLoop P c tag fuel next (depth + 1) (hist.set depth (some idx)) li := by
  rw [probeLoop]
  simp only [hd, if_true, hs, hf, hp, hc, and_self]

/-- One iteration of the probe loop of `accessSingleLine` that misses and stops. -/
theorem probeLoop_stop {P : TParams} {c : Cache} {tag : CacheTag} {fuel idx depth li next : Nat}
    {hist : List (Option Nat)} {set : RoundRobin}
    (hd : depth < hist.length) (hs : c.sets[idx]? = some set)
    (hf : set.find P tag = .ok none) (hp : c.set_ptrs[idx]? = some next)
    (hc : ¬ (depth + 1 < c.max_search ∧ idx < P.k_MAX_SETS)) :
    probeLoop P c tag (fuel + 1) idx depth hist li
      = .ok (Probe.mk false idx next (depth + 1) (hist.set depth (some idx)) li) := by
  rw [probeLoop]
  simp only [hd, if_true, hs, hf, hp, hc, if_false]

/-- Inversion of one iteration of the probe loop of `accessSingleLinePeek`. -/
theorem peekLoop_step {P : TParams} {c : Cache} {tag : CacheTag} {fuel idx depth : Nat}
    {r : Option (Nat × Nat)}
    (h : peekLoop P c tag (fuel + 1) idx depth = .ok r) :
    ∃ set res next, c.sets[idx]? = some set ∧ set.find P tag = .ok res
      ∧ c.set_ptrs[idx]? = some next
      ∧ ((∃ way, res = some way ∧ r = some (idx, way))
        ∨ (res = none ∧ (depth + 1 < c.max_search ∧ next < P.k_MAX_SETS)
            ∧ peekLoop P c tag fuel next (depth + 1) = .ok r)
        ∨ (res = none ∧ ¬ (depth + 1 < c.max_search ∧ next < P.k_MAX_SETS) ∧ r = none)) := by
  rw [peekLoop] at h
  cases hs : c.sets[idx]? with
  | none => simp [hs] at h
  | some set =>
    simp only [hs] at h
    cases hf : set.find P tag with
    | error e => simp [hf] at h
    | ok res =>
      simp only [hf] at h
      cases hp : c.set_ptrs[idx]? with
      | none => simp [hp] at h
      | some next =>
        simp only [hp] at h
        refine ⟨set, res, next, rfl, hf, rfl, ?_⟩
        cases res with
        | some way =>
          simp only at h
          injection h with h
          exact Or.inl ⟨way, rfl, h.symm⟩
        | none =>
          simp only at h
          by_cases hc : depth + 1 < c.max_search ∧ next < P.k_MAX_SETS
          · rw [if_pos hc] at h
            exact Or.inr (Or.inl ⟨rfl, hc, h⟩)
          · rw [if_neg hc] at h
            injection h with h
            exact Or.inr (Or.inr ⟨rfl, hc, h.symm⟩)

/-- Where the probe loop of `accessSingleLine` returns, the probe loop of
`accessSingleLinePeek` returns too, with the same hit flag and the same slot. -/
theorem probe_peek {P : TParams} {c : Cache} {tag : CacheTag}
    (hlen : c.sets.length = P.k_MAX_SETS) :
    ∀ (fuel idx depth : Nat) (hist : List (Option Nat)) (li : Nat) (p : Probe),
      probeLoop P c tag fuel idx depth hist li = .ok p →
      peekLoop P c tag fuel idx depth
        = .ok (if p.hit then some (p.index, p.line_index) else none) := by
  intro fuel
  induction fuel with
  | zero => intro idx depth hist li p h; rw [probeLoop] at h; cases h
  | succ fuel ih =>
    intro idx depth hist li p h
    obtain ⟨_, set, res, next, hs, hf, hp, hcase⟩ := probeLoop_step h
    have hidx : idx < P.k_MAX_SETS := by
      rw [← hlen]
      exact (List.getElem?_eq_some_iff.mp hs).1
    rw [peekLoop]
    simp only [hs, hf, hp]
    rcases hcase with ⟨way, rfl, rfl⟩ | ⟨rfl, hc, hrec⟩ | ⟨rfl, hc, rfl⟩
    · simp
    · have hnext : next < P.k_MAX_SETS := by
        cases fuel with
        | zero => rw [probeLoop] at hrec; cases hrec
        | succ fuel =>
          obtain ⟨_, set2, _, _, hs2, _⟩ := probeLoop_step hrec
          rw [← hlen]
          exact (List.getElem?_eq_some_iff.mp hs2).1
      simp only [hc.1, hnext, and_self, if_true]
      exact ih next (depth + 1) _ li p hrec
    · have hd : ¬ depth + 1 < c.max_search := fun hd => hc ⟨hd, hidx⟩
      simp [hd]

end Cache
end Graphite

namespace Graphite

theorem mem_take_of_getElem? {α : Type} {l : List α} {n i : Nat} {a : α}
    (hi : i < n) (h : l[i]? = some a) : a ∈ l.take n := by
  rw [List.mem_iff_getElem?]
  exact ⟨i, by rw [List.getElem?_take_of_lt hi]; exact h⟩

namespace Cache

theorem WF.set_at {P : TParams} {c : Cache} (h : c.WF P) {i : Nat} {s : RoundRobin}
    (hi : i ≤ c.set_index_mask) (hs : c.sets[i]? = some s) :
    s.WF P ∧ s.blocksize = c.line_size :=
  h.2.2.2.2.2.2.1 s (mem_take_of_getElem? (Nat.lt_succ_of_le hi) hs)

theorem WF.ptr_at {P : TParams} {c : Cache} (h : c.WF P) {i v : Nat}
    (hi : i ≤ c.set_index_mask) (hp : c.set_ptrs[i]? = some v) :
    v ≤ c.set_index_mask ∨ v = P.k_MAX_SETS :=
  h.2.2.2.2.2.2.2 v (mem_take_of_getElem? (Nat.lt_succ_of_le hi) hp)

theorem WF.sets_len {P : TParams} {c : Cache} (h : c.WF P) : c.sets.length = P.k_MAX_SETS :=
  h.2.1

/-- Facts about what the probe loop of `accessSingleLine` returns: the history array keeps its
length and its cells below the entry depth; on a hit the set probed last holds the tag in slot
`line_index`; on a miss `line_index` is untouched, the depth grew, every cell from the entry
depth up to the final depth names a set that was probed and missed, and the cells from the
final depth on are untouched. -/
theorem probe_facts {P : TParams} {c : Cache} {tag : CacheTag} :
    ∀ (fuel idx depth : Nat) (hist : List (Option Nat)) (li : Nat) (p : Probe),
      probeLoop P c tag fuel idx depth hist li = .ok p →
      p.history.length = hist.length
      ∧ (∀ j, j < depth → p.history[j]? = hist[j]?)
      ∧ (p.hit = true →
          ∃ set, c.sets[p.index]? = some set ∧ set.find P tag = .ok (some p.line_index))
      ∧ (p.hit = false → p.line_index = li ∧ depth < p.depth
          ∧ (∀ j, depth ≤ j → j < p.depth → ∃ w set, p.history[j]? = some (some w)
                ∧ c.sets[w]? = some set ∧ set.find P tag = .ok none)
          ∧ (∀ j, p.depth ≤ j → p.history[j]? = hist[j]?)) := by
  intro fuel
  induction fuel with
  | zero => intro idx depth hist li p h; rw [probeLoop] at h; cases h
  | succ fuel ih =>
    intro idx depth hist li p h
    obtain ⟨hd, set, res, nxt, hs, hf, hp, hcase⟩ := probeLoop_step h
    rcases hcase with ⟨way, rfl, rfl⟩ | ⟨rfl, hc, hrec⟩ | ⟨rfl, hc, rfl⟩
    · refine ⟨by simp, ?_, ?_, ?_⟩
      · intro j hj
        simp only [List.getElem?_set]
        rw [if_neg (by omega)]
      · intro _; exact ⟨set, hs, hf⟩
      · intro hh; cases hh
    · obtain ⟨h1, h2, h3, h4⟩ := ih nxt (depth + 1) _ li p hrec
      have hat : p.history[depth]? = some (some idx) := by
        rw [h2 depth (Nat.lt_succ_self _), List.getElem?_set]
        simp [hd]
      refine ⟨by rw [h1]; simp, ?_, h3, ?_⟩
      · intro j hj
        rw [h2 j (by omega), List.getElem?_set, if_neg (by omega)]
      · intro hmiss
        obtain ⟨e1, e2, e3, e4⟩ := h4 hmiss
        refine ⟨e1, by omega, ?_, ?_⟩
        · intro j hj1 hj2
          by_cases hjd : j = depth
          · subst hjd; exact ⟨idx, set, hat, hs, hf⟩
          · exact e3 j (by omega) hj2
        · intro j hj
          rw [e4 j hj, List.getElem?_set, if_neg (by omega)]
    · refine ⟨by simp, ?_, ?_, ?_⟩
      · intro j hj
        simp only [List.getElem?_set]
        rw [if_neg (by omega)]
      · intro hh; cases hh
      · intro _
        refine ⟨rfl, Nat.lt_succ_self _, ?_, ?_⟩
        · intro j hj1 hj2
          have : j = depth := by simp only at hj2; omega
          subst this
          exact ⟨idx, set, by simp [List.getElem?_set, hd], hs, hf⟩
        · intro j hj
          simp only at hj
          simp only [List.getElem?_set]
          rw [if_neg (by omega)]

/-- In a well-shaped cache a probe loop that starts in a configured set and returns has
probed configured sets only. -/
theorem probe_valid {P : TParams} {c : Cache} {tag : CacheTag} (hwf : c.WF P) :
    ∀ (fuel idx depth : Nat) (hist : List (Option Nat)) (li : Nat) (p : Probe),
      idx ≤ c.set_index_mask →
      probeLoop P c tag fuel idx depth hist li = .ok p →
      p.index ≤ c.set_index_mask
      ∧ ∀ j, depth ≤ j → j < p.depth → ∀ w, p.history[j]? = some (some w) →
          w ≤ c.set_index_mask := by
  intro fuel
  induction fuel with
  | zero => intro idx depth hist li p _ h; rw [probeLoop] at h; cases h
  | succ fuel ih =>
    intro idx depth hist li p hidx h
    obtain ⟨hd, set, res, nxt, hs, hf, hp, hcase⟩ := probeLoop_step h
    rcases hcase with ⟨way, rfl, rfl⟩ | ⟨rfl, hc, hrec⟩ | ⟨rfl, hc, rfl⟩
    · refine ⟨hidx, ?_⟩
      intro j hj1 hj2; simp only at hj2; omega
    · have hnxt : nxt ≤ c.set_index_mask := by
        rcases hwf.ptr_at hidx hp with hle | heq
        · exact hle
        · exfalso
          cases fuel with
          | zero => rw [probeLoop] at hrec; cases hrec
          | succ fuel =>
            obtain ⟨_, set2, _, _, hs2, _⟩ := probeLoop_step hrec
            have := (List.getElem?_eq_some_iff.mp hs2).1
            rw [hwf.sets_len] at this
            omega
      obtain ⟨h1, h2⟩ := ih nxt (depth + 1) _ li p hnxt hrec
      refine ⟨h1, ?_⟩
      intro j hj1 hj2 w hw
      by_cases hjd : j = depth
      · subst hjd
        have := (probe_facts fuel nxt (j + 1) _ li p hrec).2.1 j (Nat.lt_succ_self _)
        rw [this, List.getElem?_set] at hw
        simp [hd] at hw
        omega
      · exact h2 j (by omega) hj2 w hw
    · refine ⟨hidx, ?_⟩
      intro j hj1 hj2 w hw
      have : j = depth := by simp only at hj2; omega
      subst this
      simp [List.getElem?_set, hd] at hw
      omega

/-- The tag lookup in a set reads the tag array and `tags_last_index` only. -/
theorem find_key {P : TParams} {s s' : RoundRobin} (tag : CacheTag)
    (h1 : s'.m_tags = s.m_tags) (h2 : s'.tags_last_index = s.tags_last_index) :
    s'.find P tag = s.find P tag := by
  unfold RoundRobin.find
  rw [h1, h2]

/-- The probe loop of `accessSingleLine` after the line was put into one of the sets the same
loop had probed: run on a cache that differs in that one set only, the loop hits there. -/
theorem probe_after_install {P : TParams} (c c' : Cache) {tag : CacheTag}
    {which slot r : Nat} (s' : RoundRobin)
    (hsets : c'.sets = c.sets.set which s') (hptrs : c'.set_ptrs = c.set_ptrs)
    (hmax : c'.max_search = c.max_search) (hfind : s'.find P tag = .ok (some slot)) :
    ∀ (fuel idx depth : Nat) (hist : List (Option Nat)) (li : Nat) (p : Probe),
      probeLoop P c tag fuel idx depth hist li = .ok p → p.hit = false →
      depth ≤ r → r < p.depth → p.history[r]? = some (some which) →
      ∃ p', probeLoop P c' tag fuel idx depth hist li = .ok p' ∧ p'.hit = true
        ∧ p'.index = which ∧ p'.line_index = slot := by
  intro fuel
  induction fuel with
  | zero => intro idx depth hist li p h; rw [probeLoop] at h; cases h
  | succ fuel ih =>
    intro idx depth hist li p h hmiss hr1 hr2 hr
    obtain ⟨hd, set, res, nxt, hs, hf, hp, hcase⟩ := probeLoop_step h
    have hilt : idx < c.sets.length := (List.getElem?_eq_some_iff.mp hs).1
    have hp' : c'.set_ptrs[idx]? = some nxt := by rw [hptrs]; exact hp
    by_cases hiw : idx = which
    · subst hiw
      have hs' : c'.sets[idx]? = some s' := by
        rw [hsets, List.getElem?_set]; simp [hilt]
      exact ⟨_, probeLoop_hit hd hs' hfind hp', rfl, rfl, rfl⟩
    · have hs' : c'.sets[idx]? = some set := by
        rw [hsets, List.getElem?_set, if_neg (Ne.symm hiw)]; exact hs
      have hat : ∀ q : Probe, q.history[depth]? = some (some idx) → q = p → r ≠ depth := by
        intro q hq hqp hrd
        subst hqp; subst hrd
        rw [hq] at hr
        injection hr with hr; injection hr with hr
        exact hiw hr
      rcases hcase with ⟨way, rfl, rfl⟩ | ⟨rfl, hc, hrec⟩ | ⟨rfl, hc, rfl⟩
      · cases hmiss
      · have hpd : p.history[depth]? = some (some idx) := by
          rw [(probe_facts fuel nxt (depth + 1) _ li p hrec).2.1 depth (Nat.lt_succ_self _),
            List.getElem?_set]
          simp [hd]
        have hne := hat p hpd rfl
        have hc' : depth + 1 < c'.max_search ∧ idx < P.k_MAX_SETS := by rw [hmax]; exact hc
        rw [probeLoop_next hd hs' hf hp' hc']
        exact ih nxt (depth + 1) _ li p hrec hmiss (by omega) hr2 hr
      · exfalso
        have hne := hat _ (by simp [List.getElem?_set, hd]) rfl
        simp only at hr2
        omega

/-- The probe loop of `accessSingleLine` reads `set_ptrs`, `max_search`, and of every set the
tag array and `tags_last_index`; caches that agree on these give the same result. -/
theorem probe_congr {P : TParams} {c c' : Cache} {tag : CacheTag}
    (hsets : c'.sets.map (fun s => (s.m_tags, s.tags_last_index))
      = c.sets.map (fun s => (s.m_tags, s.tags_last_index)))
    (hptrs : c'.set_ptrs = c.set_ptrs) (hmax : c'.max_search = c.max_search) :
    ∀ (fuel idx depth : Nat) (hist : List (Option Nat)) (li : Nat),
      probeLoop P c' tag fuel idx depth hist li = probeLoop P c tag fuel idx depth hist li := by
  intro fuel
  induction fuel with
  | zero => intro idx depth hist li; rw [probeLoop, probeLoop]
  | succ fuel ih =>
    intro idx depth hist li
    have hkey : (c'.sets[idx]?).map (fun s => (s.m_tags, s.tags_last_index))
        = (c.sets[idx]?).map (fun s => (s.m_tags, s.tags_last_index)) := by
      rw [← List.getElem?_map, ← List.getElem?_map, hsets]
    rw [probeLoop, probeLoop, hptrs, hmax]
    cases hs : c.sets[idx]? with
    | none =>
      rw [hs] at hkey
      cases hs' : c'.sets[idx]? with
      | none => rfl
      | some s' => rw [hs'] at hkey; cases hkey
    | some s =>
      rw [hs] at hkey
      cases hs' : c'.sets[idx]? with
      | none => rw [hs'] at hkey; cases hkey
      | some s' =>
        rw [hs'] at hkey
        simp only [Option.map_some', Option.some.injEq, Prod.mk.injEq] at hkey
        simp only [find_key tag hkey.1 hkey.2, ih]

end Cache
end Graphite

namespace Graphite

/-- Writing back the value a cell already holds changes nothing. -/
theorem set_same {α : Type} {l : List α} {i : Nat} {a : α} (h : l[i]? = some a) :
    l.set i a = l := by
  apply List.ext_getElem?
  intro j
  rw [List.getElem?_set]
  by_cases hij : i = j
  · subst hij
    rw [if_pos rfl, if_pos (List.getElem?_eq_some_iff.mp h).1, h]
  · rw [if_neg hij]

/-! ## The set operations used by an access -/

namespace RoundRobin

/-- Inversion of `replace`. -/
theorem replace_ok {P : TParams} {s : RoundRobin} {tag : CacheTag} {fill : Option (List Nat)}
    {ev : Option Bool} {et : Option CacheTag} {eb : Option (List Nat)} {rep : Replaced}
    (h : s.replace P tag fill ev et eb = .ok rep) :
    ∃ old, s.m_tags[s.next_replace_index]? = some old
      ∧ s.next_replace_index < P.k_MAX_ASSOCIATIVITY
      ∧ rep.set.m_tags = s.m_tags.set s.next_replace_index tag
      ∧ rep.set.tags_last_index = s.tags_last_index
      ∧ rep.set.blocksize = s.blocksize
      ∧ rep.set.next_replace_index
          = (if s.next_replace_index = 0 then s.tags_last_index else s.next_replace_index - 1)
      ∧ (fill = none → rep.set.m_blocks = s.m_blocks)
      ∧ (∀ fb, fill = some fb →
          memcpy s.m_blocks ((s.next_replace_index * s.blocksize) % U32) fb 0 s.blocksize
            = .ok rep.set.m_blocks)
      ∧ (old.isValid = true → rep.eviction = ev.map (fun _ => true)
          ∧ rep.evict_tag = et.map (fun _ => old)
          ∧ (eb = none → rep.evict_buff = none)
          ∧ (∀ b, eb = some b → ∃ b',
              memcpy b 0 s.m_blocks ((s.next_replace_index * s.blocksize) % U32) s.blocksize
                = .ok b' ∧ rep.evict_buff = some b'))
      ∧ (old.isValid = false → rep.eviction = ev ∧ rep.evict_tag = et ∧ rep.evict_buff = eb) := by
  unfold replace at h
  cases hold : s.m_tags[s.next_replace_index]? with
  | none => simp [hold] at h
  | some old =>
    simp only [hold] at h
    refine ⟨old, rfl, ?_⟩
    split at h
    · cases h
    · rename_i ev' et' eb' hcap
      by_cases hlt : s.next_replace_index < P.k_MAX_ASSOCIATIVITY
      · simp only [hlt, if_true] at h
        refine ⟨hlt, ?_⟩
        split at h
        · cases h
        · rename_i blocks hfill
          injection h with h
          subst h
          refine ⟨rfl, rfl, rfl, rfl, ?_, ?_, ?_, ?_⟩
          · intro hn; subst hn; simp only at hfill; injection hfill with hfill; exact hfill.symm
          · intro fb hn; subst hn; simpa using hfill
          · intro hv
            simp only [hv, if_true] at hcap
            cases eb with
            | none =>
              simp only at hcap
              injection hcap with hcap
              simp only [Prod.mk.injEq] at hcap
              obtain ⟨rfl, rfl, rfl⟩ := hcap
              exact ⟨rfl, rfl, fun _ => rfl, fun b hb => by cases hb⟩
            | some b =>
              simp only at hcap
              split at hcap
              · rename_i b' hm
                injection hcap with hcap
                simp only [Prod.mk.injEq] at hcap
                obtain ⟨rfl, rfl, rfl⟩ := hcap
                refine ⟨rfl, rfl, fun hb => (by cases hb), fun b2 hb => ?_⟩
                injection hb with hb; subst hb
                exact ⟨b', hm, rfl⟩
              · cases hcap
          · intro hv
            simp only [hv] at hcap
            simp only [Bool.false_eq_true, if_false] at hcap
            injection hcap with hcap
            simp only [Prod.mk.injEq] at hcap
            obtain ⟨rfl, rfl, rfl⟩ := hcap
            exact ⟨rfl, rfl, rfl⟩
      · simp [hlt] at h

/-- Inversion of `write_line`. -/
theorem write_line_ok {s s' : RoundRobin} {index offset bytes : Nat} {buff : Option (List Nat)}
    (h : s.write_line index offset buff bytes = .ok s') :
    (offset + bytes) % U32 ≤ s.blocksize
      ∧ s'.m_tags = s.m_tags ∧ s'.tags_last_index = s.tags_last_index
      ∧ s'.next_replace_index = s.next_replace_index ∧ s'.blocksize = s.blocksize
      ∧ ((buff = none ∨ bytes = 0) → s' = s)
      ∧ (∀ b, buff = some b → bytes ≠ 0 →
          memcpy s.m_blocks ((index * s.blocksize + offset) % U32) b 0 bytes = .ok s'.m_blocks) := by
  unfold write_line at h
  split at h
  · rename_i hle
    refine ⟨hle, ?_⟩
    cases buff with
    | none =>
      simp only at h
      injection h with h; subst h
      exact ⟨rfl, rfl, rfl, rfl, fun _ => rfl, fun b hb => by cases hb⟩
    | some b =>
      simp only at h
      by_cases hb0 : bytes = 0
      · simp only [hb0, ne_eq, not_true_eq_false, if_false] at h
        injection h with h; subst h
        exact ⟨rfl, rfl, rfl, rfl, fun _ => rfl, fun _ _ hne => absurd hb0 hne⟩
      · simp only [ne_eq, hb0, not_false_eq_true, if_true] at h
        split at h
        · rename_i blocks hm
          injection h with h; subst h
          refine ⟨rfl, rfl, rfl, rfl, ?_, ?_⟩
          · intro hor; rcases hor with hor | hor
            · cases hor
            · exact absurd hor hb0
          · intro b2 hb2 _; injection hb2 with hb2; subst hb2; exact hm
        · cases h
  · cases h

/-- Inversion of `read_line` with a buffer and a positive byte count. -/
theorem read_line_ok {s : RoundRobin} {index offset bytes : Nat} {ob : List Nat}
    {res : Option (List Nat)} (hb : bytes ≠ 0)
    (h : s.read_line index offset (some ob) bytes = .ok res) :
    (offset + bytes) % U32 ≤ s.blocksize
      ∧ ∃ ob', memcpy ob 0 s.m_blocks ((index * s.blocksize + offset) % U32) bytes = .ok ob'
          ∧ res = some ob' := by
  unfold read_line at h
  split at h
  · rename_i hle
    refine ⟨hle, ?_⟩
    simp only [ne_eq, hb, not_false_eq_true, if_true] at h
    split at h
    · rename_i ob' hm
      injection h with h
      exact ⟨ob', hm, h.symm⟩
    · cases h
  · cases h

end RoundRobin

namespace Cache

/-- The payload transfer of a load leaves the sets alone. -/
theorem transfer_load {b : CacheBase} {sets sets' : List RoundRobin} {index li addr bytes : Nat}
    {buff buff' : Option (List Nat)}
    (h : transfer b sets index li addr .k_ACCESS_TYPE_LOAD buff bytes = .ok (sets', buff')) :
    sets' = sets ∧ ∃ set, sets[index]? = some set
      ∧ set.read_line li (b.lineOffset addr) buff bytes = .ok buff' := by
  unfold transfer at h
  cases hs : sets[index]? with
  | none => simp [hs] at h
  | some set =>
    simp only [hs] at h
    split at h
    · cases h
    · rename_i r hr
      injection h with h
      simp only [Prod.mk.injEq] at h
      obtain ⟨rfl, rfl⟩ := h
      exact ⟨rfl, set, rfl, hr⟩

/-- The payload transfer of a store rewrites the set it is applied to and leaves `buff` alone. -/
theorem transfer_store {b : CacheBase} {sets sets' : List RoundRobin} {index li addr bytes : Nat}
    {buff buff' : Option (List Nat)}
    (h : transfer b sets index li addr .k_ACCESS_TYPE_STORE buff bytes = .ok (sets', buff')) :
    buff' = buff ∧ ∃ set set', sets[index]? = some set
      ∧ set.write_line li (b.lineOffset addr) buff bytes = .ok set'
      ∧ sets' = sets.set index set' := by
  unfold transfer at h
  cases hs : sets[index]? with
  | none => simp [hs] at h
  | some set =>
    simp only [hs] at h
    split at h
    · cases h
    · rename_i r hr
      injection h with h
      simp only [Prod.mk.injEq] at h
      obtain ⟨rfl, rfl⟩ := h
      exact ⟨rfl, set, r, rfl, hr, rfl⟩

/-- The payload transfer changes no tag array, no `tags_last_index`, no replacement pointer and
no block size. -/
theorem transfer_keeps {b : CacheBase} {sets sets' : List RoundRobin} {index li addr bytes : Nat}
    {t : AccessType} {buff buff' : Option (List Nat)}
    (h : transfer b sets index li addr t buff bytes = .ok (sets', buff')) :
    ∃ set set', sets[index]? = some set ∧ sets' = sets.set index set'
      ∧ set'.m_tags = set.m_tags ∧ set'.tags_last_index = set.tags_last_index
      ∧ set'.next_replace_index = set.next_replace_index ∧ set'.blocksize = set.blocksize := by
  cases t with
  | k_ACCESS_TYPE_LOAD =>
    obtain ⟨rfl, set, hs, _⟩ := transfer_load h
    refine ⟨set, set, hs, ?_, rfl, rfl, rfl, rfl⟩
    exact (set_same hs).symm
  | k_ACCESS_TYPE_STORE =>
    obtain ⟨_, set, set', hs, hw, rfl⟩ := transfer_store h
    obtain ⟨_, h1, h2, h3, h4, _⟩ := RoundRobin.write_line_ok hw
    exact ⟨set, set', hs, rfl, h1, h2, h3, h4⟩

/-- The four ways in which `accessSingleLine` returns: through the need-fill path, after a
hit, after a miss that allocates, and after a miss that does not allocate. -/
theorem access_cases {P : TParams} {c : Cache} {addr : Nat} {t : AccessType} {a : AccessArgs}
    {r : AccessOut} (h : c.accessSingleLine P addr t a = .ok r) :
    a.asserts ∧ ∃ p, lookup P c addr = .ok p
      ∧ ((a.fail_need_fill.isSome ∧ a.fill_buff.isNone ∧ p.hit = false
            ∧ r = ⟨c, false, none, a.fail_need_fill.map (fun _ => true), a.buff,
                    a.eviction.map (fun _ => false), a.evict_addr, a.evict_buff⟩)
        ∨ (p.hit = true ∧ ∃ sets buff,
            transfer c.toCacheBase c.sets p.index p.line_index addr t a.buff a.bytes
              = .ok (sets, buff)
            ∧ r = ⟨{ c with sets := sets, access := c.access.incr t true }, true,
                    some (p.index, p.line_index), a.fail_need_fill.map (fun _ => false), buff,
                    a.eviction.map (fun _ => false), a.evict_addr, a.evict_buff⟩)
        ∨ (p.hit = false ∧ ¬ (a.fail_need_fill.isSome ∧ a.fill_buff.isNone)
            ∧ (t = .k_ACCESS_TYPE_LOAD ∨ P.k_STORE_ALLOCATION = k_STORE_ALLOCATE)
            ∧ ∃ which set rep found sets buff,
              readHistory p.history (P.rand_next c.rand p.depth).1 = .ok which
              ∧ c.sets[which]? = some set
              ∧ set.replace P (c.splitAddress addr).1 a.fill_buff a.eviction
                  (some CacheTag.blank) a.evict_buff = .ok rep
              ∧ rep.set.find P (c.splitAddress addr).1 = .ok found
              ∧ transfer c.toCacheBase (c.sets.set which rep.set) which
                  (found.getD p.line_index) addr t a.buff a.bytes = .ok (sets, buff)
              ∧ r = ⟨{ c with sets := sets, rand := (P.rand_next c.rand p.depth).2,
                              access := c.access.incr t false }, false,
                      found.map (fun i => (which, i)), a.fail_need_fill.map (fun _ => false),
                      buff, rep.eviction,
                      a.evict_addr.map
                        (fun _ => c.tagToAddress (rep.evict_tag.getD CacheTag.blank)),
                      rep.evict_buff⟩)
        ∨ (p.hit = false ∧ ¬ (a.fail_need_fill.isSome ∧ a.fill_buff.isNone)
            ∧ ¬ (t = .k_ACCESS_TYPE_LOAD ∨ P.k_STORE_ALLOCATION = k_STORE_ALLOCATE)
            ∧ r = ⟨{ c with access := c.access.incr t false }, false, none,
                    a.fail_need_fill.map (fun _ => false), a.buff,
                    a.eviction.map (fun _ => false), a.evict_addr, a.evict_buff⟩)) := by
  unfold accessSingleLine at h
  by_cases has : a.asserts
  · simp only [has, if_true] at h
    refine ⟨has, ?_⟩
    cases hl : lookup P c addr with
    | error e => simp [hl] at h
    | ok p =>
      simp only [hl] at h
      refine ⟨p, rfl, ?_⟩
      by_cases hnf : a.fail_need_fill.isSome ∧ a.fill_buff.isNone ∧ p.hit = false
      · rw [if_pos (by simpa using hnf)] at h
        injection h with h
        exact Or.inl ⟨hnf.1, hnf.2.1, hnf.2.2, h.symm⟩
      · rw [if_neg (by simpa using hnf)] at h
        right
        by_cases hh : p.hit = true
        · simp only [hh, if_true] at h
          left
          split at h
          · cases h
          · rename_i sets buff htr
            injection h with h
            exact ⟨hh, sets, buff, htr, h.symm⟩
        · have hh' : p.hit = false := by simpa using hh
          have hnf' : ¬ (a.fail_need_fill.isSome ∧ a.fill_buff.isNone) :=
            fun hx => hnf ⟨hx.1, hx.2, hh'⟩
          simp only [hh', Bool.false_eq_true, if_false] at h
          right
          by_cases hal : t = .k_ACCESS_TYPE_LOAD ∨ P.k_STORE_ALLOCATION = k_STORE_ALLOCATE
          · rw [if_pos hal] at h
            left
            refine ⟨hh', hnf', hal, ?_⟩
            cases hrh : readHistory p.history (P.rand_next c.rand p.depth).1 with
            | error e => simp [hrh] at h
            | ok which =>
              simp only [hrh] at h
              cases hs : c.sets[which]? with
              | none => simp [hs] at h
              | some set =>
                simp only [hs] at h
                split at h
                · cases h
                · rename_i rep hrep
                  split at h
                  · cases h
                  · rename_i found hfound
                    split at h
                    · cases h
                    · rename_i sets buff htr
                      injection h with h
                      exact ⟨which, set, rep, found, sets, buff, rfl, hs, hrep, hfound, htr,
                        h.symm⟩
          · rw [if_neg hal] at h
            right
            injection h with h
            exact ⟨hh', hnf', hal, h.symm⟩
  · simp [has] at h

end Cache
end Graphite

namespace Graphite

theorem sint32Count_small {n : Nat} (h : n < 2 ^ 31) : sint32Count n = n + 1 := by
  unfold sint32Count; rw [if_pos h]

namespace RoundRobin

theorem find_none_scan {P : TParams} {s : RoundRobin} {tag : CacheTag}
    (h : s.find P tag = .ok none) :
    s.tags_last_index < P.k_MAX_ASSOCIATIVITY
      ∧ scan s.m_tags tag (sint32Count s.tags_last_index) = .ok none := by
  unfold find at h
  split at h
  · rename_i hlt; exact ⟨hlt, h⟩
  · cases h

/-- In a well-shaped set the tag lookup returns. -/
theorem find_total {P : TParams} {s : RoundRobin} (hP : P.WF) (hs : s.WF P) (tag : CacheTag) :
    ∃ r, s.find P tag = .ok r := by
  obtain ⟨h1, _, h3, _, _⟩ := hs
  unfold find
  rw [if_pos h3, sint32Count_small (by have := hP.1; omega)]
  exact scan_total _ _ _ (by omega)

/-- After `replace` put `tag` into a well-shaped set that did not hold it, the tag lookup finds
it in the slot the replacement pointer named. -/
theorem install_found {P : TParams} {s : RoundRobin} {tag : CacheTag} {fill : Option (List Nat)}
    {ev : Option Bool} {et : Option CacheTag} {eb : Option (List Nat)} {rep : Replaced}
    (hP : P.WF) (hs : s.WF P) (hmiss : s.find P tag = .ok none)
    (hrep : s.replace P tag fill ev et eb = .ok rep) :
    rep.set.find P tag = .ok (some s.next_replace_index) := by
  obtain ⟨h1, _, h3, h4, _⟩ := hs
  obtain ⟨_, hscan⟩ := find_none_scan hmiss
  obtain ⟨old, _, _, ht, htli, _⟩ := replace_ok hrep
  have hsmall : s.tags_last_index < 2 ^ 31 := by have := hP.1; omega
  unfold find
  rw [htli, if_pos h3, ht]
  rw [sint32Count_small hsmall] at hscan ⊢
  exact scan_set_hit hscan (by omega) (by omega) (by simp [CacheTag.eq])

end RoundRobin

namespace Cache

theorem home_le_mask (b : CacheBase) (addr : Nat) : (b.splitAddress addr).2 ≤ b.set_index_mask := by
  unfold CacheBase.splitAddress
  exact Nat.le_trans (Nat.mod_le _ _) Nat.and_le_right

/-- The address enters the lookup through `addr >> line_shift` only. -/
theorem splitAddress_same_line (b : CacheBase) {addr addr' : Nat}
    (h : addr' >>> b.line_shift = addr >>> b.line_shift) :
    b.splitAddress addr' = b.splitAddress addr := by
  unfold CacheBase.splitAddress
  rw [h]

/-- After a lookup that missed, a cell of the history array that can be read names a set that
the lookup probed and that did not hold the tag. -/
theorem lookup_history {P : TParams} {c : Cache} {addr r which : Nat} {p : Probe}
    (hl : lookup P c addr = .ok p) (hmiss : p.hit = false)
    (hr : readHistory p.history r = .ok which) :
    r < p.depth ∧ p.history[r]? = some (some which)
      ∧ ∃ set, c.sets[which]? = some set ∧ set.find P (c.splitAddress addr).1 = .ok none := by
  unfold lookup at hl
  obtain ⟨_, _, _, h4⟩ := probe_facts _ _ _ _ _ _ hl
  obtain ⟨_, _, h5, h6⟩ := h4 hmiss
  have hcell : p.history[r]? = some (some which) := by
    unfold readHistory at hr
    split at hr
    · rename_i w hw; injection hr with hr; subst hr; exact hw
    · cases hr
  have hlt : r < p.depth := by
    by_contra hge
    have := h6 r (by omega)
    rw [hcell] at this
    rw [List.getElem?_replicate] at this
    split at this <;> cases this
  obtain ⟨w, set, hw, hs, hf⟩ := h5 r (Nat.zero_le _) hlt
  rw [hcell] at hw
  injection hw with hw; injection hw with hw; subst hw
  exact ⟨hlt, hcell, set, hs, hf⟩

/-- The set a miss writes to is a configured set. -/
theorem lookup_victim_valid {P : TParams} {c : Cache} {addr r which : Nat} {p : Probe}
    (hwf : c.WF P) (hl : lookup P c addr = .ok p) (hmiss : p.hit = false)
    (hr : readHistory p.history r = .ok which) : which ≤ c.set_index_mask := by
  obtain ⟨hlt, hcell, _⟩ := lookup_history hl hmiss hr
  unfold lookup at hl
  exact (probe_valid hwf _ _ _ _ _ _ (home_le_mask _ _) hl).2 r (Nat.zero_le _) hlt which hcell

/-- With a search depth of at most one the lookup probes the home set only, and returns. -/
theorem lookup_total_shallow {P : TParams} {c : Cache} (hwf : c.WF P) (hd : c.max_search ≤ 1)
    (addr : Nat) : ∃ p, lookup P c addr = .ok p := by
  have hhome := home_le_mask c.toCacheBase addr
  obtain ⟨hP, hlen, hplen, hmask, _, hms, _, _⟩ := hwf
  have hlt : (c.splitAddress addr).2 < c.sets.length := by omega
  have hlt' : (c.splitAddress addr).2 < c.set_ptrs.length := by omega
  obtain ⟨res, hres⟩ := RoundRobin.find_total hP
    (WF.set_at ⟨hP, hlen, hplen, hmask, ‹_›, hms, ‹_›, ‹_›⟩ hhome
      (List.getElem?_eq_getElem hlt)).1 (c.splitAddress addr).1
  unfold lookup
  rw [probeLoop]
  simp only [List.length_replicate, List.getElem?_eq_getElem hlt, List.getElem?_eq_getElem hlt',
    hres]
  rw [if_pos (by omega)]
  cases res with
  | some way => exact ⟨_, rfl⟩
  | none =>
    simp only
    rw [if_neg (by omega)]
    exact ⟨_, rfl⟩

/-- After an access that returned and either hit or allocated, a fresh lookup of the same
line hits, in the set and slot the access reported. -/
theorem lookup_after_access {P : TParams} {c : Cache} {addr : Nat} {t : AccessType}
    {a : AccessArgs} {r : AccessOut} {loc : Nat × Nat} (hwf : c.WF P)
    (h : c.accessSingleLine P addr t a = .ok r) (hloc : r.tagptr = some loc) :
    ∃ p', lookup P r.cache addr = .ok p' ∧ p'.hit = true ∧ p'.index = loc.1
      ∧ p'.line_index = loc.2 := by
  obtain ⟨_, p, hl, hcase⟩ := access_cases h
  rcases hcase with ⟨_, _, _, rfl⟩ | ⟨hh, sets, buff, htr, rfl⟩
    | ⟨hh, _, _, which, set, rep, found, sets, buff, hrh, hs, hrep, hfound, htr, rfl⟩
    | ⟨_, _, _, rfl⟩
  · cases hloc
  · simp only at hloc
    injection hloc with hloc; subst hloc
    obtain ⟨set, set', hs, rfl, h1, h2, _, _⟩ := transfer_keeps htr
    refine ⟨p, ?_, hh, rfl, rfl⟩
    unfold lookup
    unfold lookup at hl
    rw [← hl]
    apply probe_congr
    · show (c.sets.set p.index set').map _ = _
      rw [List.map_set, h1, h2]
      exact set_same (by rw [List.getElem?_map, hs]; rfl)
    · rfl
    · rfl
  · obtain ⟨hrlt, hcell, set0, hs0, hmiss0⟩ := lookup_history hl hh hrh
    rw [hs] at hs0; injection hs0 with hs0; subst hs0
    have hvalid := lookup_victim_valid hwf hl hh hrh
    have hset := (hwf.set_at hvalid hs).1
    have hfound' := RoundRobin.install_found hwf.1 hset hmiss0 hrep
    rw [hfound] at hfound'
    injection hfound' with hfound'; subst hfound'
    simp only [Option.map_some'] at hloc
    injection hloc with hloc; subst hloc
    obtain ⟨set1, set', hs1, rfl, h1, h2, _, _⟩ := transfer_keeps htr
    have hwlt : which < c.sets.length := (List.getElem?_eq_some_iff.mp hs).1
    have hs1' : set1 = rep.set := by
      rw [List.getElem?_set] at hs1
      simp [hwlt] at hs1
      exact hs1.symm
    subst hs1'
    have hfind' : set'.find P (c.splitAddress addr).1 = .ok (some set.next_replace_index) := by
      rw [find_key _ h1 h2]; exact hfound
    unfold lookup at hl ⊢
    exact probe_after_install c
      { c with sets := (c.sets.set which rep.set).set which set',
               rand := (P.rand_next c.rand p.depth).2, access := c.access.incr t false }
      set' (List.set_set _ _ _ _) rfl rfl hfind'
      _ _ _ _ _ p hl hh (Nat.zero_le _) hrlt hcell
  · cases hloc

end Cache
end Graphite

namespace Graphite
namespace Cache

/-- What an allocating miss in a well-shaped cache works on: a configured, well-shaped set
with the block size of the cache that did not hold the tag, and in which the tag is afterwards
found in the slot the replacement pointer named. -/
theorem alloc_facts {P : TParams} {c : Cache} {addr r which : Nat} {p : Probe}
    {set : RoundRobin} {fill : Option (List Nat)} {ev : Option Bool} {et : Option CacheTag}
    {eb : Option (List Nat)} {rep : RoundRobin.Replaced} {found : Option Nat}
    (hwf : c.WF P) (hl : lookup P c addr = .ok p) (hmiss : p.hit = false)
    (hr : readHistory p.history r = .ok which) (hs : c.sets[which]? = some set)
    (hrep : set.replace P (c.splitAddress addr).1 fill ev et eb = .ok rep)
    (hfound : rep.set.find P (c.splitAddress addr).1 = .ok found) :
    found = some set.next_replace_index ∧ which ≤ c.set_index_mask ∧ set.WF P
      ∧ set.blocksize = c.line_size := by
  obtain ⟨_, _, set0, hs0, hmiss0⟩ := lookup_history hl hmiss hr
  rw [hs] at hs0; injection hs0 with hs0; subst hs0
  have hvalid := lookup_victim_valid hwf hl hmiss hr
  obtain ⟨hset, hbs⟩ := hwf.set_at hvalid hs
  have hfound' := RoundRobin.install_found hwf.1 hset hmiss0 hrep
  rw [hfound] at hfound'
  injection hfound' with hfound'
  exact ⟨hfound', hvalid, hset, hbs⟩

/-- An access changes the counters, the sets and the generator state only, and keeps the
number of sets. -/
theorem access_frame {P : TParams} {c : Cache} {addr : Nat} {t : AccessType} {a : AccessArgs}
    {r : AccessOut} (h : c.accessSingleLine P addr t a = .ok r) :
    r.cache.sets.length = c.sets.length ∧ r.cache.set_ptrs = c.set_ptrs
      ∧ r.cache.max_search = c.max_search ∧ r.cache.line_shift = c.line_shift
      ∧ r.cache.set_index_mask = c.set_index_mask ∧ r.cache.line_size = c.line_size := by
  obtain ⟨_, p, hl, hcase⟩ := access_cases h
  rcases hcase with ⟨_, _, _, rfl⟩ | ⟨hh, sets, buff, htr, rfl⟩
    | ⟨hh, _, _, which, set, rep, found, sets, buff, hrh, hs, hrep, hfound, htr, rfl⟩
    | ⟨_, _, _, rfl⟩
  · exact ⟨rfl, rfl, rfl, rfl, rfl, rfl⟩
  · obtain ⟨set, set', hs, rfl, _⟩ := transfer_keeps htr
    exact ⟨by simp, rfl, rfl, rfl, rfl, rfl⟩
  · obtain ⟨set1, set', hs1, rfl, _⟩ := transfer_keeps htr
    exact ⟨by simp, rfl, rfl, rfl, rfl, rfl⟩
  · exact ⟨rfl, rfl, rfl, rfl, rfl, rfl⟩

/-- After an access that returned with a tag pointer, `accessSingleLinePeek` on any address of
the same line returns a hit at the place the pointer names. -/
theorem peek_after_access {P : TParams} {c : Cache} {addr addr' : Nat} {t : AccessType}
    {a : AccessArgs} {r : AccessOut} {loc : Nat × Nat} (hwf : c.WF P)
    (h : c.accessSingleLine P addr t a = .ok r) (hloc : r.tagptr = some loc)
    (hline : addr' >>> c.line_shift = addr >>> c.line_shift) :
    r.cache.accessSingleLinePeek P addr' = .ok (some loc) := by
  obtain ⟨p', hl', hh', hi', hli'⟩ := lookup_after_access hwf h hloc
  obtain ⟨hlen, _, _, hshift, _, _⟩ := access_frame h
  have hsame : r.cache.splitAddress addr' = r.cache.splitAddress addr := by
    apply splitAddress_same_line
    show addr' >>> r.cache.line_shift = addr >>> r.cache.line_shift
    rw [hshift]; exact hline
  unfold accessSingleLinePeek
  rw [hsame]
  unfold lookup at hl'
  rw [probe_peek (by rw [hlen]; exact hwf.sets_len) _ _ _ _ _ _ hl', hh', hi', hli']
  rfl

end Cache

open Cache Examples

/-- C1. In a well-shaped cache (associativity at least one in every configured set), after an
`accessSingleLine(addr, LOAD)` that was called with a fill buffer and returned, which is to say
whose probes stayed inside the array of sets, `accessSingleLinePeek(addr')` reports a hit for
every `addr'` with `addr' >> line_shift == addr >> line_shift`; and with a search depth of at
most one the lookup of every address stays inside the sets and returns. -/
theorem C1_peek_hits_after_filled_load (P : TParams) (c : Cache) (addr addr' : Nat)
    (a : AccessArgs) (F : List Nat) (hwf : c.WF P) (hfill : a.fill_buff = some F)
    (hline : addr' >>> c.line_shift = addr >>> c.line_shift) :
    (∀ r, c.accessSingleLine P addr .k_ACCESS_TYPE_LOAD a = .ok r →
        ∃ loc, r.cache.accessSingleLinePeek P addr' = .ok (some loc))
      ∧ (c.max_search ≤ 1 → ∃ p, lookup P c addr = .ok p) := by
  refine ⟨?_, fun hd => lookup_total_shallow hwf hd addr⟩
  intro r h
  have hptr : ∃ loc, r.tagptr = some loc := by
    obtain ⟨_, p, hl, hcase⟩ := access_cases h
    rcases hcase with ⟨_, hnone, _, _⟩ | ⟨hh, sets, buff, htr, rfl⟩
      | ⟨hh, _, _, which, set, rep, found, sets, buff, hrh, hs, hrep, hfound, htr, rfl⟩
      | ⟨_, _, hna, _⟩
    · rw [hfill] at hnone; cases hnone
    · exact ⟨_, rfl⟩
    · obtain ⟨rfl, _⟩ := alloc_facts hwf hl hh hrh hs hrep hfound
      exact ⟨_, rfl⟩
    · exact absurd (Or.inl rfl) hna
  obtain ⟨loc, hloc⟩ := hptr
  exact ⟨loc, peek_after_access hwf h hloc hline⟩

/-- C1 at the pre-fill of scenario 1: after the load of `0x100` with a fill buffer, a peek at
`0x108` hits. -/
theorem C1_peek_hits_after_filled_load_witness :
    ∃ loc, filled.cache.accessSingleLinePeek P0 0x108 = .ok (some loc) :=
  (C1_peek_hits_after_filled_load P0 icache 0x100 0x108 fillArgs (List.replicate 16 0xAA)
    (by decide) rfl (by decide)).1 filled (by decide)

end Graphite

namespace Graphite
namespace Cache

/-- In a well-shaped cache the line size is positive and fits a block and a `UInt32`, and
there is room for at least one way. -/
theorem WF.line_size_bounds {P : TParams} {c : Cache} (hwf : c.WF P) :
    0 < c.line_size ∧ c.line_size ≤ P.k_MAX_BLOCKSIZE ∧ c.line_size < U32
      ∧ 0 < P.k_MAX_ASSOCIATIVITY := by
  have h0 : (0 : Nat) < c.sets.length := by
    have := hwf.2.1; have := hwf.2.2.2.1; omega
  obtain ⟨hs, hbs⟩ := hwf.set_at (Nat.zero_le _) (List.getElem?_eq_getElem h0)
  obtain ⟨_, _, h3, _, h5⟩ := hs
  have hpow : c.line_size = 2 ^ c.line_shift := hwf.2.2.2.2.1
  have hpos : 0 < c.line_size := by rw [hpow]; exact Nat.two_pow_pos _
  have hP := hwf.1.2.1
  have hA : 0 < P.k_MAX_ASSOCIATIVITY := by omega
  have hle : c.line_size ≤ P.k_MAX_BLOCKSIZE := by rw [← hbs]; exact h5
  refine ⟨hpos, hle, ?_, hA⟩
  calc c.line_size ≤ P.k_MAX_BLOCKSIZE := hle
    _ = 1 * P.k_MAX_BLOCKSIZE := (Nat.one_mul _).symm
    _ ≤ P.k_MAX_ASSOCIATIVITY * P.k_MAX_BLOCKSIZE := Nat.mul_le_mul_right _ hA
    _ < U32 := hP

/-- In a well-shaped cache the line offset `addr & (line_size - 1)` is `addr mod line_size`. -/
theorem WF.lineOffset_eq {P : TParams} {c : Cache} (hwf : c.WF P) (addr : Nat) :
    c.lineOffset addr = addr % c.line_size := by
  obtain ⟨hpos, _, hlt, _⟩ := hwf.line_size_bounds
  have hpow : c.line_size = 2 ^ c.line_shift := hwf.2.2.2.2.1
  unfold CacheBase.lineOffset
  have h1 : (c.line_size + U32 - 1) % U32 = c.line_size - 1 := by
    have : c.line_size + U32 - 1 = (c.line_size - 1) + U32 := by omega
    rw [this, Nat.add_mod_right, Nat.mod_eq_of_lt (by omega)]
  rw [h1, hpow, Nat.and_pow_two_sub_one_eq_mod, ← hpow]
  exact Nat.mod_eq_of_lt (Nat.lt_trans (Nat.mod_lt _ hpos) hlt)

/-- Forward form of the hit path of `accessSingleLine`. -/
theorem access_hit {P : TParams} {c : Cache} {addr : Nat} {t : AccessType} {a : AccessArgs}
    {p : Probe} {sets : List RoundRobin} {buff : Option (List Nat)} (has : a.asserts)
    (hl : lookup P c addr = .ok p) (hh : p.hit = true)
    (htr : transfer c.toCacheBase c.sets p.index p.line_index addr t a.buff a.bytes
      = .ok (sets, buff)) :
    c.accessSingleLine P addr t a
      = .ok ⟨{ c with sets := sets, access := c.access.incr t true }, true,
              some (p.index, p.line_index), a.fail_need_fill.map (fun _ => false), buff,
              a.eviction.map (fun _ => false), a.evict_addr, a.evict_buff⟩ := by
  unfold accessSingleLine
  simp only [has, if_true, hl, hh, htr]
  simp

/-- What a store that hit or allocated leaves in a well-shaped cache: the returned tag pointer
names a slot of a configured set, and that set is the result of `write_line` on a well-shaped
set with the block size of the cache. -/
theorem store_written {P : TParams} {c : Cache} {addr : Nat} {a : AccessArgs} {r : AccessOut}
    (hwf : c.WF P) (h : c.accessSingleLine P addr .k_ACCESS_TYPE_STORE a = .ok r)
    (hnf : r.fail_need_fill ≠ some true)
    (hres : r.hit = true ∨ P.k_STORE_ALLOCATION = k_STORE_ALLOCATE) :
    ∃ (loc : Nat × Nat) (pre post : RoundRobin), r.tagptr = some loc
      ∧ r.cache.sets[loc.1]? = some post
      ∧ pre.write_line loc.2 (c.lineOffset addr) a.buff a.bytes = .ok post
      ∧ pre.WF P ∧ pre.blocksize = c.line_size := by
  obtain ⟨_, p, hl, hcase⟩ := access_cases h
  rcases hcase with ⟨hsome, _, _, rfl⟩ | ⟨hh, sets, buff, htr, rfl⟩
    | ⟨hh, _, _, which, set, rep, found, sets, buff, hrh, hs, hrep, hfound, htr, rfl⟩
    | ⟨_, _, hna, rfl⟩
  · exfalso
    apply hnf
    cases hf : a.fail_need_fill with
    | none => rw [hf] at hsome; cases hsome
    | some b => rfl
  · obtain ⟨_, pre, post, hs, hw, rfl⟩ := transfer_store htr
    have hvalid : p.index ≤ c.set_index_mask := by
      unfold lookup at hl
      exact (probe_valid hwf _ _ _ _ _ _ (home_le_mask _ _) hl).1
    obtain ⟨hpre, hbs⟩ := hwf.set_at hvalid hs
    refine ⟨(p.index, p.line_index), pre, post, rfl, ?_, hw, hpre, hbs⟩
    show (c.sets.set p.index post)[p.index]? = some post
    rw [List.getElem?_set]
    simp [(List.getElem?_eq_some_iff.mp hs).1]
  · obtain ⟨rfl, hvalid, hset, hbs⟩ := alloc_facts hwf hl hh hrh hs hrep hfound
    obtain ⟨_, pre, post, hs1, hw, rfl⟩ := transfer_store htr
    have hwlt : which < c.sets.length := (List.getElem?_eq_some_iff.mp hs).1
    have hpre : pre = rep.set := by
      rw [List.getElem?_set] at hs1
      simp [hwlt] at hs1
      exact hs1.symm
    subst hpre
    obtain ⟨old, _, hA, ht, htli, hrbs, hnri, hb1, hb2, _⟩ := RoundRobin.replace_ok hrep
    obtain ⟨w1, w2, w3, w4, w5⟩ := hset
    have hrepwf : rep.set.WF P := by
      unfold RoundRobin.WF
      refine ⟨?_, ?_, ?_, ?_, ?_⟩
      · rw [ht]; simpa using w1
      · cases hfill : a.fill_buff with
        | none => rw [hb1 hfill]; exact w2
        | some fb => rw [memcpy_length (hb2 fb hfill)]; exact w2
      · rw [htli]; exact w3
      · rw [hnri, htli]; split <;> omega
      · rw [hrbs]; exact w5
    refine ⟨(which, set.next_replace_index), rep.set, post, rfl, ?_, hw, hrepwf,
      by rw [hrbs]; exact hbs⟩
    show ((c.sets.set which rep.set).set which post)[which]? = some post
    rw [List.getElem?_set]
    simp [hwlt]
  · exfalso
    rcases hres with hres | hres
    · cases hres
    · exact hna (Or.inr hres)

end Cache

open Cache Examples

/-- C2. Round trip in a well-shaped cache: a store of the first `len >= 1` bytes of `buf` at
`addr` without a `fail_need_fill` flag that returned (so that its own assertion bounds
`(addr mod line_size) + len` by the line size) and either hit (the line was resident) or ran
under `k_STORE_ALLOCATE`, followed immediately by a load of `len` bytes at `addr` into a
buffer `out` of at least `len` bytes: the load returns, hits, and leaves in its buffer exactly
the `len` bytes of `buf` (followed by the untouched rest of `out`). -/
theorem C2_store_load_round_trip (P : TParams) (c : Cache) (addr len : Nat)
    (a1 a2 : AccessArgs) (buf out : List Nat) (r1 : AccessOut) (hwf : c.WF P)
    (hnf : a1.fail_need_fill = none) (hb1 : a1.buff = some buf) (hn1 : a1.bytes = len)
    (hlen : 1 ≤ len)
    (hstore : c.accessSingleLine P addr .k_ACCESS_TYPE_STORE a1 = .ok r1)
    (hres : r1.hit = true ∨ P.k_STORE_ALLOCATION = k_STORE_ALLOCATE)
    (ha2 : a2.asserts) (hb2 : a2.buff = some out) (hn2 : a2.bytes = len)
    (hout : len ≤ out.length) :
    ∃ r2, r1.cache.accessSingleLine P addr .k_ACCESS_TYPE_LOAD a2 = .ok r2 ∧ r2.hit = true
      ∧ r2.buff = some (buf.take len ++ out.drop len) := by
  have hnf1 : r1.fail_need_fill ≠ some true := by
    obtain ⟨_, p, _, hcase⟩ := access_cases hstore
    rcases hcase with ⟨hsome, _⟩ | ⟨_, _, _, _, rfl⟩
      | ⟨_, _, _, _, _, _, _, _, _, _, _, _, _, _, rfl⟩ | ⟨_, _, _, rfl⟩
    · rw [hnf] at hsome; cases hsome
    all_goals simp [hnf]
  obtain ⟨loc, pre, post, hloc, hpost, hw, hpre, hbs⟩ := store_written hwf hstore hnf1 hres
  obtain ⟨p', hl', hh', hi', hli'⟩ := lookup_after_access hwf hstore hloc
  obtain ⟨_, _, _, _, _, hls⟩ := access_frame hstore
  obtain ⟨_, _, hlt32, _⟩ := hwf.line_size_bounds
  have hoff : c.lineOffset addr = addr % c.line_size := hwf.lineOffset_eq addr
  have hoff' : r1.cache.lineOffset addr = c.lineOffset addr := by
    unfold CacheBase.lineOffset; rw [hls]
  have hne : len ≠ 0 := by omega
  obtain ⟨hle, _, _, _, hbs', _, hcopy⟩ := RoundRobin.write_line_ok hw
  rw [hb1, hn1] at hcopy
  rw [hn1] at hle
  have hm := hcopy buf rfl hne
  have hread : post.read_line loc.2 (r1.cache.lineOffset addr) (some out) len
      = .ok (some (buf.take len ++ out.drop len)) := by
    unfold RoundRobin.read_line
    rw [hoff', hbs', if_pos hle]
    simp only [ne_eq, hne, not_false_eq_true, if_true]
    generalize (loc.2 * pre.blocksize + c.lineOffset addr) % U32 = pos at hm ⊢
    obtain ⟨hsrc, hdst, hblocks⟩ := memcpy_ok hm
    have hlenpost : post.m_blocks.length = pre.m_blocks.length := memcpy_length hm
    have hmid : (List.take len (List.drop 0 buf)).length = len := by
      simp only [List.drop_zero, List.length_take]; omega
    unfold memcpy
    rw [if_pos ⟨by rw [hlenpost]; exact hdst, by omega⟩]
    rw [hblocks, read_back _ _ _ _ (by omega) hmid]
    simp
  have htr : transfer r1.cache.toCacheBase r1.cache.sets p'.index p'.line_index addr
      .k_ACCESS_TYPE_LOAD a2.buff a2.bytes
      = .ok (r1.cache.sets, some (buf.take len ++ out.drop len)) := by
    unfold transfer
    rw [hi', hli', hpost, hb2, hn2]
    simp only [hread]
  exact ⟨_, access_hit ha2 hl' hh' htr, rfl, rfl⟩

/-- C2 on the cache of the scenarios: four bytes stored at `0x104` under store-allocate are
read back by the load that follows. -/
theorem C2_store_load_round_trip_witness :
    ∃ r2, stored.cache.accessSingleLine P0 0x104 .k_ACCESS_TYPE_LOAD
        { noArgs with buff := some [0, 0, 0, 0, 0], bytes := 4 } = .ok r2 ∧ r2.hit = true
      ∧ r2.buff = some ([1, 2, 3, 4].take 4 ++ [0, 0, 0, 0, 0].drop 4) :=
  C2_store_load_round_trip P0 icache 0x104 4 { noArgs with buff := some [1, 2, 3, 4], bytes := 4 }
    { noArgs with buff := some [0, 0, 0, 0, 0], bytes := 4 } [1, 2, 3, 4] [0, 0, 0, 0, 0] stored
    (by decide) rfl rfl rfl (by decide) (by decide) (by decide) (by decide) rfl rfl
    (by decide)

end Graphite

namespace Graphite

/-! ## The tag invariant -/

theorem blank_not_valid : CacheTag.blank.isValid = false := by decide

theorem isValid_congr {t1 t2 : CacheTag} (h : t1.m_tag = t2.m_tag) : t1.isValid = t2.isValid := by
  unfold CacheTag.isValid; rw [h]

theorem clearTags_length (tags : List CacheTag) (lo n : Nat) :
    (clearTags tags lo n).length = tags.length := by
  induction n generalizing tags lo with
  | zero => rfl
  | succ n ih => rw [clearTags, ih]; simp

/-- Every slot of `clearTags tags lo n` is blank if its index is in `[lo, lo + n)` and is the
slot of `tags` otherwise. -/
theorem clearTags_getElem? (tags : List CacheTag) (lo n j : Nat) :
    (clearTags tags lo n)[j]?
      = if lo ≤ j ∧ j < lo + n ∧ j < tags.length then some CacheTag.blank else tags[j]? := by
  induction n generalizing tags lo with
  | zero => rw [clearTags, if_neg (by omega)]
  | succ n ih =>
    rw [clearTags, ih, List.length_set, List.getElem?_set]
    by_cases h1 : lo + 1 ≤ j ∧ j < lo + 1 + n ∧ j < tags.length
    · rw [if_pos h1, if_pos (by omega)]
    · rw [if_neg h1]
      by_cases h2 : lo = j
      · subst h2
        by_cases h3 : lo < tags.length
        · rw [if_pos rfl, if_pos h3, if_pos (by omega)]
        · rw [if_pos rfl, if_neg h3, if_neg (by omega)]
          exact (List.getElem?_eq_none (by omega)).symm
      · rw [if_neg h2, if_neg (by omega)]

namespace RoundRobin

/-- The tag invariant reads the tag array and the two slot indices only. -/
theorem TagInv.congr {P : TParams} {mask i : Nat} {s s' : RoundRobin} (h : s.TagInv P mask i)
    (h1 : s'.m_tags = s.m_tags) (h2 : s'.tags_last_index = s.tags_last_index)
    (h3 : s'.next_replace_index = s.next_replace_index) : s'.TagInv P mask i := by
  unfold TagInv at h ⊢
  rw [h1, h2, h3]; exact h

/-- Blanking slots keeps the tag invariant, as long as the valid tags that remain are inside
the new associativity. -/
theorem TagInv.blanked {P : TParams} {mask i : Nat} {s s' : RoundRobin} (h : s.TagInv P mask i)
    (hlen : s'.m_tags.length = s.m_tags.length)
    (hsub : ∀ (j : Nat) (t : CacheTag), s'.m_tags[j]? = some t →
      t = CacheTag.blank ∨ s.m_tags[j]? = some t)
    (hlast : s'.tags_last_index < P.k_MAX_ASSOCIATIVITY)
    (hnext : s'.next_replace_index ≤ s'.tags_last_index)
    (hin : ∀ (j : Nat) (t : CacheTag), s'.m_tags[j]? = some t → t.isValid = true →
      j ≤ s'.tags_last_index) :
    s'.TagInv P mask i := by
  obtain ⟨a1, a2, a3, a4, a5⟩ := h
  have hold : ∀ (j : Nat) (t : CacheTag), s'.m_tags[j]? = some t → t.isValid = true →
      s.m_tags[j]? = some t := by
    intro j t ht hv
    rcases hsub j t ht with rfl | h
    · rw [blank_not_valid] at hv; cases hv
    · exact h
  refine ⟨by rw [hlen]; exact a1, hlast, hnext, ?_, ?_⟩
  · intro j t ht hv
    exact ⟨hin j t ht hv, (a4 j t (hold j t ht hv) hv).2⟩
  · intro j1 j2 t1 t2 ht1 ht2 hv heq
    have hv2 : t2.isValid = true := by rw [← isValid_congr heq]; exact hv
    exact a5 j1 j2 t1 t2 (hold j1 t1 ht1 hv) (hold j2 t2 ht2 hv2) hv heq

theorem invalidateScan_ok {P : TParams} {tags tags' : List CacheTag} {tag : CacheTag} {n : Nat}
    {b : Bool} (h : invalidateScan P tags tag n = .ok (tags', b)) :
    tags' = tags ∨ ∃ k, tags' = tags.set k CacheTag.blank := by
  induction n with
  | zero =>
    rw [invalidateScan] at h
    injection h with h; injection h with h1 h2
    exact Or.inl h1.symm
  | succ n ih =>
    rw [invalidateScan] at h
    split at h
    · split at h
      · cases h
      · split at h
        · injection h with h; injection h with h1 h2
          exact Or.inr ⟨n, h1.symm⟩
        · exact ih h
    · cases h

/-- `invalidateTag` keeps the tag invariant. -/
theorem TagInv.invalidateTag {P : TParams} {mask i : Nat} {s s' : RoundRobin} {tag : CacheTag}
    {b : Bool} (h : s.TagInv P mask i) (hinv : s.invalidateTag P tag = .ok (s', b)) :
    s'.TagInv P mask i := by
  unfold RoundRobin.invalidateTag at hinv
  split at hinv
  · rename_i tags b' hscan
    injection hinv with hinv; injection hinv with h1 h2
    subst h1
    rcases invalidateScan_ok hscan with rfl | ⟨k, rfl⟩
    · exact h
    · refine h.blanked (by simp) ?_ h.2.1 h.2.2.1 ?_
      · intro j t ht
        simp only [List.getElem?_set] at ht
        split at ht
        · split at ht
          · injection ht with ht; exact Or.inl ht.symm
          · cases ht
        · exact Or.inr ht
      · intro j t ht hv
        simp only [List.getElem?_set] at ht
        split at ht
        · split at ht
          · injection ht with ht; subst ht; rw [blank_not_valid] at hv; cases hv
          · cases ht
        · exact (h.2.2.2.1 j t ht hv).1
  · cases hinv

/-- `modifyAssociativity` keeps the tag invariant. -/
theorem TagInv.modifyAssociativity {P : TParams} {mask i assoc : Nat} {sharedMem : Bool}
    {s s' : RoundRobin} (hP : P.WF) (h : s.TagInv P mask i)
    (hmod : s.modifyAssociativity P sharedMem assoc = .ok s') : s'.TagInv P mask i := by
  have hA := hP.1
  obtain ⟨a1, a2, a3, a4, a5⟩ := h
  have hassoc : s.getAssociativity = s.tags_last_index + 1 := by
    unfold RoundRobin.getAssociativity
    exact Nat.mod_eq_of_lt (by show s.tags_last_index + 1 < 2 ^ 32; omega)
  unfold RoundRobin.modifyAssociativity at hmod
  by_cases hok : assoc ≠ 0 ∧ assoc ≤ P.k_MAX_ASSOCIATIVITY
  · simp only [hassoc] at hmod
    rw [if_pos hok] at hmod
    by_cases hgrow : assoc > s.tags_last_index + 1
    · rw [if_pos hgrow] at hmod
      injection hmod with hmod; subst hmod
      refine TagInv.blanked ⟨a1, a2, a3, a4, a5⟩ (clearTags_length _ _ _) ?_
        (by show assoc - 1 < _; omega) (Nat.le_refl _) ?_
      · intro j t ht
        simp only [clearTags_getElem?] at ht
        split at ht
        · injection ht with ht; exact Or.inl ht.symm
        · exact Or.inr ht
      · intro j t ht hv
        simp only [clearTags_getElem?] at ht
        split at ht
        · injection ht with ht; subst ht; rw [blank_not_valid] at hv; cases hv
        · have := (a4 j t ht hv).1
          show j ≤ assoc - 1
          omega
    · rw [if_neg hgrow] at hmod
      by_cases hshrink : assoc < s.tags_last_index + 1
      · rw [if_pos hshrink] at hmod
        by_cases hsm : sharedMem = true
        · rw [if_pos hsm] at hmod; cases hmod
        · rw [if_neg hsm, if_pos a2] at hmod
          injection hmod with hmod; subst hmod
          refine TagInv.blanked ⟨a1, a2, a3, a4, a5⟩ (clearTags_length _ _ _) ?_
            (by show assoc - 1 < _; omega) ?_ ?_
          · intro j t ht
            simp only [clearTags_getElem?] at ht
            split at ht
            · injection ht with ht; exact Or.inl ht.symm
            · exact Or.inr ht
          · show (if s.next_replace_index > assoc - 1 then assoc - 1
              else s.next_replace_index) ≤ assoc - 1
            split <;> omega
          · intro j t ht hv
            simp only [clearTags_getElem?] at ht
            split at ht
            · injection ht with ht; subst ht; rw [blank_not_valid] at hv; cases hv
            · rename_i hnot
              have hj := (a4 j t ht hv).1
              have hjl : j < s.m_tags.length := (List.getElem?_eq_some_iff.mp ht).1
              show j ≤ assoc - 1
              omega
      · rw [if_neg hshrink] at hmod
        injection hmod with hmod; subst hmod
        exact ⟨a1, a2, a3, a4, a5⟩
  · rw [if_neg hok] at hmod; cases hmod

/-- `replace` of a tag that the set does not hold keeps the tag invariant of the home set of
that tag. -/
theorem TagInv.replace {P : TParams} {mask i : Nat} {s : RoundRobin} {tag : CacheTag}
    {fill : Option (List Nat)} {ev : Option Bool} {et : Option CacheTag}
    {eb : Option (List Nat)} {rep : Replaced} (hP : P.WF) (h : s.TagInv P mask i)
    (hhome : (tag.m_tag &&& mask) % U32 = i) (hmiss : s.find P tag = .ok none)
    (hrep : s.replace P tag fill ev et eb = .ok rep) : rep.set.TagInv P mask i := by
  have hA := hP.1
  obtain ⟨a1, a2, a3, a4, a5⟩ := h
  obtain ⟨_, hscan⟩ := find_none_scan hmiss
  rw [sint32Count_small (by omega)] at hscan
  have hno : ∀ (j : Nat) (t : CacheTag), s.m_tags[j]? = some t → t.isValid = true →
      t.m_tag ≠ tag.m_tag := by
    intro j t ht hv heq
    have := scan_none hscan j (by have := (a4 j t ht hv).1; omega) t ht
    simp [CacheTag.eq, heq] at this
  obtain ⟨old, _, _, ht, htli, _, hnri, _⟩ := replace_ok hrep
  refine ⟨by rw [ht]; simpa using a1, by rw [htli]; exact a2,
    by rw [hnri, htli]; split <;> omega, ?_, ?_⟩
  · intro j t htj hv
    rw [ht, List.getElem?_set] at htj
    split at htj
    · rename_i hj
      split at htj
      · injection htj with htj; subst htj; subst hj
        exact ⟨by rw [htli]; exact a3, hhome⟩
      · cases htj
    · rw [htli]; exact a4 j t htj hv
  · intro j1 j2 t1 t2 h1 h2 hv heq
    have hv2 : t2.isValid = true := by rw [← isValid_congr heq]; exact hv
    rw [ht, List.getElem?_set] at h1 h2
    by_cases e1 : s.next_replace_index = j1
    · by_cases e2 : s.next_replace_index = j2
      · omega
      · exfalso
        rw [if_pos e1] at h1
        rw [if_neg e2] at h2
        split at h1
        · injection h1 with h1; subst h1
          exact hno j2 t2 h2 hv2 heq.symm
        · cases h1
    · rw [if_neg e1] at h1
      by_cases e2 : s.next_replace_index = j2
      · exfalso
        rw [if_pos e2] at h2
        split at h2
        · injection h2 with h2; subst h2
          exact hno j1 t1 h1 hv heq
        · cases h2
      · rw [if_neg e2] at h2
        exact a5 j1 j2 t1 t2 h1 h2 hv heq

end RoundRobin
end Graphite

namespace Graphite
namespace Cache

/-- The tag invariant of a cache reads the sets, the set pointers and the set mask only. -/
theorem TagInv.of_eq {P : TParams} {c c' : Cache} (h : c.TagInv P) (hs : c'.sets = c.sets)
    (hp : c'.set_ptrs = c.set_ptrs) (hm : c'.set_index_mask = c.set_index_mask) :
    c'.TagInv P := by
  unfold TagInv at h ⊢
  rw [hs, hp, hm]; exact h

/-- Replacing one set by a set that satisfies the tag invariant of its index keeps the tag
invariant of the cache. -/
theorem TagInv.set_update {P : TParams} {c c' : Cache} {i : Nat} {s' : RoundRobin}
    (h : c.TagInv P) (hs : c'.sets = c.sets.set i s') (hs' : s'.TagInv P c.set_index_mask i)
    (hp : c'.set_ptrs = c.set_ptrs) (hm : c'.set_index_mask = c.set_index_mask) :
    c'.TagInv P := by
  obtain ⟨a1, a2, a3, a4⟩ := h
  refine ⟨by rw [hs]; simpa using a1, by rw [hm]; exact a2, by rw [hp, hm]; exact a3, ?_⟩
  intro k s hk
  rw [hm]
  rw [hs, List.getElem?_set] at hk
  split at hk
  · rename_i hik
    split at hk
    · injection hk with hk; subst hk; subst hik; exact hs'
    · cases hk
  · exact a4 k s hk

/-- With every set pointer at `k_MAX_SETS` a lookup that returns has probed the home set
only. -/
theorem lookup_home_only {P : TParams} {c : Cache} {addr r which : Nat} {p : Probe}
    (hinv : c.TagInv P) (hl : lookup P c addr = .ok p) (hmiss : p.hit = false)
    (hr : readHistory p.history r = .ok which) : which = (c.splitAddress addr).2 := by
  obtain ⟨hrlt, hcell, _⟩ := lookup_history hl hmiss hr
  obtain ⟨a1, a2, a3, _⟩ := hinv
  unfold lookup at hl
  obtain ⟨hd, set, res, nxt, hs, hf, hp, hcase⟩ := probeLoop_step hl
  rcases hcase with ⟨way, rfl, rfl⟩ | ⟨rfl, hc, hrec⟩ | ⟨rfl, hc, rfl⟩
  · cases hmiss
  · exfalso
    have hn : nxt = P.k_MAX_SETS := a3 _ _ (home_le_mask _ _) hp
    subst hn
    cases hm : c.max_search with
    | zero => rw [hm] at hrec; rw [probeLoop] at hrec; cases hrec
    | succ m =>
      rw [hm] at hrec
      obtain ⟨_, set2, _, _, hs2, _⟩ := probeLoop_step hrec
      have := (List.getElem?_eq_some_iff.mp hs2).1
      omega
  · simp only at hrlt hcell
    have : r = 0 := by omega
    subst this
    have h0 : ((List.replicate P.k_MAX_SEARCH (none : Option Nat)).set 0
        (some (c.splitAddress addr).2))[0]? = some (some (c.splitAddress addr).2) := by
      rw [List.getElem?_set, if_pos rfl, if_pos hd]
    rw [h0] at hcell
    injection hcell with hcell; injection hcell with hcell
    exact hcell.symm

/-- `accessSingleLine` keeps the tag invariant. -/
theorem TagInv.access {P : TParams} {c : Cache} {addr : Nat} {t : AccessType} {a : AccessArgs}
    {r : AccessOut} (hP : P.WF) (hinv : c.TagInv P)
    (h : c.accessSingleLine P addr t a = .ok r) : r.cache.TagInv P := by
  obtain ⟨_, p, hl, hcase⟩ := access_cases h
  rcases hcase with ⟨_, _, _, rfl⟩ | ⟨hh, sets, buff, htr, rfl⟩
    | ⟨hh, _, _, which, set, rep, found, sets, buff, hrh, hs, hrep, hfound, htr, rfl⟩
    | ⟨_, _, _, rfl⟩
  · exact hinv
  · obtain ⟨set, set', hs, rfl, h1, h2, h3, _⟩ := transfer_keeps htr
    exact hinv.set_update rfl ((hinv.2.2.2 _ _ hs).congr h1 h2 h3) rfl rfl
  · obtain ⟨_, _, set0, hs0, hmiss0⟩ := lookup_history hl hh hrh
    rw [hs] at hs0; injection hs0 with hs0; subst hs0
    have hhome := lookup_home_only hinv hl hh hrh
    have hrepinv : rep.set.TagInv P c.set_index_mask which :=
      RoundRobin.TagInv.replace hP (hinv.2.2.2 _ _ hs)
        (show ((c.splitAddress addr).1.m_tag &&& c.set_index_mask) % U32 = which
          from hhome.symm) hmiss0 hrep
    obtain ⟨set1, set', hs1, rfl, h1, h2, h3, _⟩ := transfer_keeps htr
    have hwlt : which < c.sets.length := (List.getElem?_eq_some_iff.mp hs).1
    have hs1' : set1 = rep.set := by
      rw [List.getElem?_set] at hs1
      simp [hwlt] at hs1
      exact hs1.symm
    subst hs1'
    exact hinv.set_update (List.set_set _ _ _ _) (hrepinv.congr h1 h2 h3) rfl rfl
  · exact hinv

/-- `invalidateLine` keeps the tag invariant. -/
theorem TagInv.invalidateLine {P : TParams} {c : Cache} {addr : Nat} {r : Cache × Bool}
    (hinv : c.TagInv P) (h : c.invalidateLine P addr = .ok r) : r.1.TagInv P := by
  unfold Cache.invalidateLine at h
  simp only at h
  split at h
  · cases hs : c.sets[(c.splitAddress addr).2]? with
    | none => simp [hs] at h
    | some s =>
      simp only [hs] at h
      split at h
      · cases h
      · rename_i s' b hinvt
        injection h with h; subst h
        exact hinv.set_update rfl ((hinv.2.2.2 _ _ hs).invalidateTag hinvt) rfl rfl
  · cases h

/-- The loop of `resize` keeps the number of sets and every property of a set at its index
that `modifyAssociativity` keeps. -/
theorem resizeSets_ok {P : TParams} {sharedMem : Bool} {assoc : Nat}
    (Q : Nat → RoundRobin → Prop)
    (hQ : ∀ i s s', Q i s → s.modifyAssociativity P sharedMem assoc = .ok s' → Q i s')
    {sets : List RoundRobin} (h0 : ∀ (i : Nat) (s : RoundRobin), sets[i]? = some s → Q i s) :
    ∀ (n : Nat) (sets' : List RoundRobin), resizeSets P sharedMem assoc sets n = .ok sets' →
      sets'.length = sets.length
        ∧ ∀ (i : Nat) (s : RoundRobin), sets'[i]? = some s → Q i s := by
  intro n
  induction n with
  | zero =>
    intro sets' h
    rw [resizeSets] at h
    injection h with h; subst h
    exact ⟨rfl, h0⟩
  | succ n ih =>
    intro sets' h
    rw [resizeSets] at h
    split at h
    · cases h
    · rename_i mid hmid
      obtain ⟨hlen, hq⟩ := ih mid hmid
      cases hs : mid[n]? with
      | none => simp [hs] at h
      | some s =>
        simp only [hs] at h
        split at h
        · cases h
        · rename_i s' hmod
          injection h with h; subst h
          refine ⟨by simpa using hlen, ?_⟩
          intro i x hx
          rw [List.getElem?_set] at hx
          split at hx
          · rename_i hni
            split at hx
            · injection hx with hx; subst hx; subst hni
              exact hQ _ _ _ (hq _ _ hs) hmod
            · cases hx
          · exact hq i x hx

/-- `resize` keeps the tag invariant. -/
theorem TagInv.resize {P : TParams} {c c' : Cache} {sharedMem : Bool} {assoc : Nat}
    (hP : P.WF) (hinv : c.TagInv P) (h : c.resize P sharedMem assoc = .ok c') :
    c'.TagInv P := by
  unfold Cache.resize at h
  split at h
  · split at h
    · cases h
    · rename_i sets hsets
      injection h with h; subst h
      obtain ⟨hlen, hq⟩ := resizeSets_ok (fun i s => s.TagInv P c.set_index_mask i)
        (fun i s s' hs hmod => RoundRobin.TagInv.modifyAssociativity hP hs hmod)
        hinv.2.2.2 _ _ hsets
      exact ⟨by show sets.length = _; rw [hlen]; exact hinv.1, hinv.2.1, hinv.2.2.1, hq⟩
  · cases h

/-- `resetCounters` keeps the tag invariant. -/
theorem TagInv.resetCounters {P : TParams} {c c' : Cache} (hinv : c.TagInv P)
    (h : c.resetCounters P = .ok c') : c'.TagInv P := by
  unfold Cache.resetCounters at h
  split at h
  · injection h with h; subst h; exact hinv
  · cases h

/-- A call other than `setSetPtr` keeps the tag invariant. -/
theorem TagInv.step {P : TParams} {c : Cache} {op : Op} {r : Cache × Nat} (hP : P.WF)
    (hinv : c.TagInv P) (hop : op.keepsPtrs = true) (h : c.step P op = .ok r) :
    r.1.TagInv P := by
  cases op with
  | access addr t a =>
    simp only [Cache.step] at h
    split at h
    · rename_i out hout; injection h with h; subst h; exact hinv.access hP hout
    · cases h
  | invalidate addr =>
    simp only [Cache.step] at h
    split at h
    · rename_i out hout; injection h with h; subst h; exact hinv.invalidateLine hout
    · cases h
  | resize sharedMem assoc =>
    simp only [Cache.step] at h
    split at h
    · rename_i out hout; injection h with h; subst h; exact hinv.resize hP hout
    · cases h
  | setPtr i v => cases hop
  | reset =>
    simp only [Cache.step] at h
    split at h
    · rename_i out hout; injection h with h; subst h; exact hinv.resetCounters hout
    · cases h

/-- A sequence of calls without `setSetPtr` keeps the tag invariant. -/
theorem TagInv.run {P : TParams} (hP : P.WF) :
    ∀ (ops : List Op) (c : Cache) (r : Cache × Nat), c.TagInv P →
      (∀ op ∈ ops, op.keepsPtrs = true) → c.run P ops = .ok r → r.1.TagInv P := by
  intro ops
  induction ops with
  | nil =>
    intro c r hinv _ h
    rw [Cache.run] at h
    injection h with h; subst h; exact hinv
  | cons op ops ih =>
    intro c r hinv hops h
    rw [Cache.run] at h
    split at h
    · cases h
    · rename_i c1 k hstep
      split at h
      · cases h
      · rename_i c2 n hrun
        injection h with h; subst h
        have h1 := hinv.step hP (hops op (List.mem_cons_self _ _)) hstep
        exact ih c1 (c2, n) h1 (fun o ho => hops o (List.mem_cons_of_mem _ ho)) hrun

/-- The loop over the sets in the constructor keeps the number of sets and every property of
a set that `setAssociativity` followed by `setBlockSize` keeps. -/
theorem initSets_ok {P : TParams} {assoc lb : Nat} (Q : RoundRobin → Prop)
    (hQ : ∀ s s', Q s → s.setAssociativity P assoc = .ok s' → Q (s'.setBlockSize lb))
    {sets : List RoundRobin} (h0 : ∀ s ∈ sets, Q s) :
    ∀ (n : Nat) (sets' : List RoundRobin), initSets P assoc lb sets n = .ok sets' →
      sets'.length = sets.length ∧ ∀ s ∈ sets', Q s := by
  intro n
  induction n with
  | zero =>
    intro sets' h
    rw [initSets] at h
    injection h with h; subst h
    exact ⟨rfl, h0⟩
  | succ n ih =>
    intro sets' h
    rw [initSets] at h
    split at h
    · cases h
    · rename_i mid hmid
      obtain ⟨hlen, hq⟩ := ih mid hmid
      cases hs : mid[n]? with
      | none => simp [hs] at h
      | some s =>
        simp only [hs] at h
        split at h
        · cases h
        · rename_i s' hsa
          injection h with h; subst h
          refine ⟨by simpa using hlen, ?_⟩
          intro x hx
          rcases List.mem_or_eq_of_mem_set hx with hx | rfl
          · exact hq x hx
          · exact hQ _ _ (hq s (List.getElem?_mem hs)) hsa

/-- The constructor establishes the tag invariant. -/
theorem TagInv.new {P : TParams} {name : String} {size line_bytes assoc depth cn : Nat}
    {junk : Nat → Nat → Nat} {c : Cache} (hP : P.WF) (hsize : size < U32)
    (h : Cache.new P name size line_bytes assoc depth cn junk = .ok c) : c.TagInv P := by
  have hA := hP.1
  unfold Cache.new at h
  cases hb : CacheBase.new name size line_bytes assoc with
  | error e => simp [hb] at h
  | ok base =>
    simp only [hb] at h
    cases h0 : RoundRobin.new P P.k_MAX_ASSOCIATIVITY P.k_MAX_BLOCKSIZE with
    | error e => simp [h0] at h
    | ok set0 =>
      simp only [h0] at h
      by_cases hc : base.getNumSets ≤ P.k_MAX_SETS ∧ depth < P.k_MAX_SEARCH
      · rw [if_pos hc] at h
        cases hi : initSets P assoc line_bytes (List.replicate P.k_MAX_SETS set0)
            base.getNumSets with
        | error e => simp [hi] at h
        | ok sets =>
          simp only [hi] at h
          -- the base-class fields
          unfold CacheBase.new at hb
          simp only at hb
          split at hb
          · rename_i hbase
            injection hb with hb
            obtain ⟨hdiv, _, hns, _⟩ := hbase
            have hle := Nat.div_le_self size (line_bytes * assoc)
            have hpos := Nat.pos_of_ne_zero hns
            have hnum : base.getNumSets = size / (line_bytes * assoc) := by
              subst hb
              show (size / (line_bytes * assoc) - 1 + 1) % U32 = _
              rw [Nat.sub_add_cancel hpos]
              exact Nat.mod_eq_of_lt (Nat.lt_of_le_of_lt hle hsize)
            have hmask : base.set_index_mask + 1 = base.getNumSets := by
              rw [hnum]; subst hb
              exact Nat.sub_add_cancel hpos
            have hassoc : assoc ≠ 0 := fun h0 => hdiv (by rw [h0, Nat.mul_zero])
            -- the default-constructed set
            unfold RoundRobin.new at h0
            simp only at h0
            split at h0
            · rename_i hset0
              injection h0 with h0
              have hQ0 : set0.m_tags = List.replicate P.k_MAX_ASSOCIATIVITY CacheTag.blank
                  ∧ set0.tags_last_index < P.k_MAX_ASSOCIATIVITY
                  ∧ set0.next_replace_index ≤ set0.tags_last_index := by
                subst h0; exact ⟨rfl, hset0.2.2, Nat.le_refl _⟩
              have hQstep : ∀ s s' : RoundRobin,
                  (s.m_tags = List.replicate P.k_MAX_ASSOCIATIVITY CacheTag.blank
                    ∧ s.tags_last_index < P.k_MAX_ASSOCIATIVITY
                    ∧ s.next_replace_index ≤ s.tags_last_index) →
                  s.setAssociativity P assoc = .ok s' →
                  ((s'.setBlockSize line_bytes).m_tags
                      = List.replicate P.k_MAX_ASSOCIATIVITY CacheTag.blank
                    ∧ (s'.setBlockSize line_bytes).tags_last_index < P.k_MAX_ASSOCIATIVITY
                    ∧ (s'.setBlockSize line_bytes).next_replace_index
                        ≤ (s'.setBlockSize line_bytes).tags_last_index) := by
                intro s s' hq hsa
                unfold RoundRobin.setAssociativity at hsa
                split at hsa
                · rename_i hle
                  injection hsa with hsa; subst hsa
                  have hwrap : (assoc + U32 - 1) % U32 = assoc - 1 := by
                    have : assoc + U32 - 1 = (assoc - 1) + U32 := by omega
                    rw [this, Nat.add_mod_right]
                    exact Nat.mod_eq_of_lt (by show assoc - 1 < 2 ^ 32; omega)
                  simp only [RoundRobin.setBlockSize, hwrap]
                  exact ⟨hq.1, by omega, Nat.le_refl _⟩
                · cases hsa
              obtain ⟨hlen, hq⟩ := initSets_ok
                (fun s => s.m_tags = List.replicate P.k_MAX_ASSOCIATIVITY CacheTag.blank
                  ∧ s.tags_last_index < P.k_MAX_ASSOCIATIVITY
                  ∧ s.next_replace_index ≤ s.tags_last_index) hQstep
                (fun s hs => by rw [List.eq_of_mem_replicate hs]; exact hQ0) _ _ hi
              unfold Cache.resetCounters at h
              split at h
              · injection h with h; subst h
                refine ⟨by show sets.length = _; rw [hlen]; simp, ?_, ?_, ?_⟩
                · show base.set_index_mask < _
                  omega
                · intro i v hile hv
                  simp only [List.getElem?_map, List.getElem?_range] at hv
                  have hile' : i ≤ base.set_index_mask := hile
                  rw [List.getElem?_eq_getElem (by simp; omega)] at hv
                  simp only [List.getElem_range, Option.map_some', Option.some.injEq] at hv
                  rw [if_pos (by omega)] at hv
                  exact hv.symm
                · intro i s hs
                  obtain ⟨q1, q2, q3⟩ := hq s (List.getElem?_mem hs)
                  refine ⟨by rw [q1]; simp, q2, q3, ?_, ?_⟩
                  · intro j t ht hv
                    rw [q1, List.getElem?_replicate] at ht
                    split at ht
                    · injection ht with ht; subst ht; rw [blank_not_valid] at hv; cases hv
                    · cases ht
                  · intro j1 j2 t1 t2 ht1 _ hv _
                    rw [q1, List.getElem?_replicate] at ht1
                    split at ht1
                    · injection ht1 with ht1; subst ht1; rw [blank_not_valid] at hv; cases hv
                    · cases ht1
              · cases h
            · cases h0
          · cases hb
      · rw [if_neg hc] at h; cases h

/-- Under the tag invariant, a tag held by a valid slot is held by no other slot of the
cache. -/
theorem TagInv.unique {P : TParams} {c : Cache} (hinv : c.TagInv P) : c.UniqueTags := by
  intro i1 j1 i2 j2 s1 s2 t1 t2 h1 h2 ht1 ht2 hv heq
  have hv2 : t2.isValid = true := by rw [← isValid_congr heq]; exact hv
  obtain ⟨_, _, _, a4, _⟩ := hinv.2.2.2 i1 s1 h1
  obtain ⟨_, _, _, b4, _⟩ := hinv.2.2.2 i2 s2 h2
  have e1 := (a4 j1 t1 ht1 hv).2
  have e2 := (b4 j2 t2 ht2 hv2).2
  have hi : i1 = i2 := by rw [← e1, ← e2, heq]
  subst hi
  rw [h1] at h2; injection h2 with h2; subst h2
  exact ⟨rfl, (hinv.2.2.2 i1 s1 h1).2.2.2.2 j1 j2 t1 t2 ht1 ht2 hv heq⟩

end Cache

open Cache Examples

/-- C3. With template parameters in range and a cache constructed with a size that fits a
`UInt32`: after every sequence of `accessSingleLine`, `invalidateLine`, `resize` (and
`resetCounters`) calls that returned, the set pointers never set, a tag held by a valid slot
is held by no other slot of any set; in particular the valid tags of one set are pairwise
distinct. -/
theorem C3_at_most_one_valid_slot_per_tag (P : TParams) (name : String)
    (size line_bytes assoc depth cn : Nat) (junk : Nat → Nat → Nat) (c0 : Cache)
    (ops : List Op) (r : Cache × Nat) (hP : P.WF) (hsize : size < U32)
    (hnew : Cache.new P name size line_bytes assoc depth cn junk = .ok c0)
    (hops : ∀ op ∈ ops, op.keepsPtrs = true) (hrun : c0.run P ops = .ok r) :
    r.1.UniqueTags :=
  (TagInv.run hP ops c0 r (TagInv.new hP hsize hnew) hops hrun).unique

/-- C3 on the cache of the scenarios after the calls of `Examples.calls`. -/
theorem C3_at_most_one_valid_slot_per_tag_witness : afterCalls.1.UniqueTags :=
  C3_at_most_one_valid_slot_per_tag P0 "icache" 64 16 1 1 0 (fun _ _ => 0) icache calls
    afterCalls (by decide) (by decide) (by decide) (by decide) (by decide)

end Graphite

namespace Graphite

namespace RoundRobin

/-- In a well-shaped set the block of a slot inside the current associativity starts at
`slot * blocksize` without `UInt32` wrap-around and lies inside `m_blocks`. -/
theorem WF.block_pos {P : TParams} {s : RoundRobin} (hP : P.WF) (hs : s.WF P) {slot : Nat}
    (hslot : slot ≤ s.tags_last_index) :
    slot * s.blocksize + s.blocksize ≤ s.m_blocks.length
      ∧ slot * s.blocksize + s.blocksize < U32 := by
  obtain ⟨_, h2, h3, _, h5⟩ := hs
  have h1 : (slot + 1) * s.blocksize ≤ P.k_MAX_ASSOCIATIVITY * P.k_MAX_BLOCKSIZE :=
    Nat.mul_le_mul (by omega) h5
  rw [Nat.succ_mul] at h1
  have := hP.2.1
  exact ⟨by rw [h2]; exact h1, by omega⟩

end RoundRobin

open Cache Examples

/-- C4. Eviction capture in a well-shaped cache: when an `accessSingleLine` called with the
three eviction-capture parameters returns a miss and the slot its tag pointer names, the slot
that received the new line, held a valid line `L` before the call, then the eviction flag is
true, `evict_addr` is the tag of `L` shifted left by `line_shift`, and the first `line_size`
bytes of `evict_buff` are the bytes of that slot before the call, whatever the fill buffer
and the payload of the call. -/
theorem C4_eviction_capture (P : TParams) (c : Cache) (addr : Nat) (t : AccessType)
    (a : AccessArgs) (r : AccessOut) (e : Bool) (ea : Nat) (eb : List Nat) (which slot : Nat)
    (set : RoundRobin) (L : CacheTag) (hwf : c.WF P) (hev : a.eviction = some e)
    (hea : a.evict_addr = some ea) (heb : a.evict_buff = some eb)
    (h : c.accessSingleLine P addr t a = .ok r) (hmiss : r.hit = false)
    (hptr : r.tagptr = some (which, slot)) (hs : c.sets[which]? = some set)
    (hL : set.m_tags[slot]? = some L) (hv : L.isValid = true) :
    r.eviction = some true
      ∧ r.evict_addr = some ((L.m_tag <<< c.line_shift) % U64)
      ∧ r.evict_buff = some (set.lineBytes slot ++ eb.drop c.line_size)
      ∧ (set.lineBytes slot).length = c.line_size := by
  obtain ⟨_, p, hl, hcase⟩ := access_cases h
  rcases hcase with ⟨_, _, _, rfl⟩ | ⟨hh, sets, buff, htr, rfl⟩
    | ⟨hh, _, _, which', set', rep, found, sets, buff, hrh, hs', hrep, hfound, htr, rfl⟩
    | ⟨_, _, _, rfl⟩
  · cases hptr
  · cases hmiss
  · obtain ⟨rfl, hvalid, hset, hbs⟩ := alloc_facts hwf hl hh hrh hs' hrep hfound
    simp only [Option.map_some', Option.some.injEq, Prod.mk.injEq] at hptr
    obtain ⟨rfl, rfl⟩ := hptr
    rw [hs] at hs'; injection hs' with hs'; subst hs'
    obtain ⟨old, hold, _, _, _, _, _, _, _, hval, _⟩ := RoundRobin.replace_ok hrep
    rw [hL] at hold; injection hold with hold; subst hold
    obtain ⟨e1, e2, _, e4⟩ := hval hv
    obtain ⟨b', hm, e5⟩ := e4 eb heb
    obtain ⟨hin, hlt⟩ := RoundRobin.WF.block_pos hwf.1 hset hset.2.2.2.1
    rw [Nat.mod_eq_of_lt (by omega)] at hm
    obtain ⟨_, _, rfl⟩ := memcpy_ok hm
    refine ⟨by simp [e1, hev], ?_, ?_, ?_⟩
    · simp only [hea, Option.map_some', e2, Option.getD_some]
      rfl
    · simp only [e5, RoundRobin.lineBytes, hbs]
      simp
    · simp only [RoundRobin.lineBytes, List.length_take, List.length_drop]
      rw [← hbs]; omega
  · cases hptr

/-- C4 on scenario 2: line `0x000` resident with the bytes `0, ..., 15`; the load of `0x040`
reports the eviction, `evict_addr = 0x000` and the old bytes. -/
theorem C4_eviction_capture_witness :
    evicted.eviction = some true
      ∧ evicted.evict_addr = some ((0 <<< icache.line_shift) % U64)
      ∧ evicted.evict_buff
          = some (RoundRobin.lineBytes
              { emptySet with m_tags := [CacheTag.ofTag 0, CacheTag.blank],
                              m_blocks := List.range 16 ++ List.replicate 16 0 } 0
              ++ (List.replicate 16 0).drop 16)
      ∧ (RoundRobin.lineBytes
          { emptySet with m_tags := [CacheTag.ofTag 0, CacheTag.blank],
                          m_blocks := List.range 16 ++ List.replicate 16 0 } 0).length = 16 :=
  C4_eviction_capture P0 prefilled.cache 0x040 .k_ACCESS_TYPE_LOAD evictArgs evicted false
    0x999 (List.replicate 16 0) 0 0
    { emptySet with m_tags := [CacheTag.ofTag 0, CacheTag.blank],
                    m_blocks := List.range 16 ++ List.replicate 16 0 }
    (CacheTag.ofTag 0) (by decide) rfl rfl rfl (by decide) (by decide) (by decide) (by decide)
    (by decide) (by decide)

/-- C5. When `accessSingleLine` is called with arguments that pass its assertions, among them
a `fail_need_fill` flag and no fill buffer, and the lookup misses, the call returns
`(false, NULL)` with `*fail_need_fill == true` and leaves the cache as it was: every set
(tags, data, replacement pointer), the four hit/miss counters and the generator state. The
eviction flag, if given, is cleared and the buffers are untouched. -/
theorem C5_need_fill_leaves_state (P : TParams) (c : Cache) (addr : Nat) (t : AccessType)
    (a : AccessArgs) (p : Probe) (b : Bool) (has : a.asserts)
    (hflag : a.fail_need_fill = some b) (hfill : a.fill_buff = none)
    (hl : lookup P c addr = .ok p) (hmiss : p.hit = false) :
    c.accessSingleLine P addr t a
      = .ok ⟨c, false, none, some true, a.buff, a.eviction.map (fun _ => false),
              a.evict_addr, a.evict_buff⟩ := by
  unfold accessSingleLine
  simp only [has, if_true, hl, hflag, hfill, hmiss]
  simp

/-- C5 on the freshly constructed cache of the scenarios: a load of `0x040` with the flag. -/
theorem C5_need_fill_leaves_state_witness :
    icache.accessSingleLine P0 0x040 .k_ACCESS_TYPE_LOAD needArgs
      = .ok ⟨icache, false, none, some true, needArgs.buff,
              needArgs.eviction.map (fun _ => false), needArgs.evict_addr,
              needArgs.evict_buff⟩ :=
  C5_need_fill_leaves_state P0 icache 0x040 .k_ACCESS_TYPE_LOAD needArgs
    (okOr ⟨true, 0, 0, 0, [], 0⟩ (lookup P0 icache 0x040)) false (by decide) rfl rfl
    (by decide) (by decide)

end Graphite

namespace Graphite

/-- Reading a window of the bytes just written into a larger array. -/
theorem read_window (A M T : List Nat) (off n : Nat) (h : off + n ≤ M.length) :
    ((A ++ (M ++ T)).drop (A.length + off)).take n = (M.drop off).take n := by
  rw [← List.drop_drop, List.drop_left, List.drop_append_of_le_length (by omega),
    List.take_append_of_le_length (by simp; omega)]

namespace AccessCounters

/-- The cell that `incr` touches. -/
theorem get_incr_self (a : AccessCounters) (t : AccessType) (hit : Bool) :
    (a.incr t hit).get t hit = (a.get t hit + 1) % U64 := by
  cases t <;> cases hit <;> rfl

/-- The cells that `incr` leaves alone. -/
theorem get_incr_other (a : AccessCounters) (t t' : AccessType) (hit hit' : Bool)
    (h : ¬ (t' = t ∧ hit' = hit)) : (a.incr t hit).get t' hit' = a.get t' hit' := by
  cases t <;> cases hit <;> cases t' <;> cases hit' <;> first | rfl | exact absurd ⟨rfl, rfl⟩ h

/-- The sum of the four counters, as a natural number. -/
theorem total_incr (a : AccessCounters) (t : AccessType) (hit : Bool) :
    ((a.incr t hit).load_miss + (a.incr t hit).load_hit + (a.incr t hit).store_miss
        + (a.incr t hit).store_hit) % U64
      = (a.load_miss + a.load_hit + a.store_miss + a.store_hit + 1) % U64 := by
  cases t <;> cases hit <;> simp only [incr, U64] <;> omega

end AccessCounters

namespace Cache

/-- An access that does not return through the need-fill path bumps the counter of its access
type and of the hit flag it returns; the need-fill path leaves the counters alone. -/
theorem access_counters {P : TParams} {c : Cache} {addr : Nat} {t : AccessType}
    {a : AccessArgs} {r : AccessOut} (h : c.accessSingleLine P addr t a = .ok r) :
    (r.fail_need_fill ≠ some true → r.cache.access = c.access.incr t r.hit)
      ∧ (r.fail_need_fill = some true → r.cache.access = c.access) := by
  obtain ⟨_, p, hl, hcase⟩ := access_cases h
  rcases hcase with ⟨hsome, _, _, rfl⟩ | ⟨_, _, _, _, rfl⟩
    | ⟨_, _, _, _, _, _, _, _, _, _, _, _, _, _, rfl⟩ | ⟨_, _, _, rfl⟩
  · refine ⟨fun hne => ?_, fun _ => rfl⟩
    exfalso; apply hne
    cases hf : a.fail_need_fill with
    | none => rw [hf] at hsome; cases hsome
    | some b => rfl
  · refine ⟨fun _ => rfl, fun he => ?_⟩
    cases hf : a.fail_need_fill <;> simp [hf] at he
  · refine ⟨fun _ => rfl, fun he => ?_⟩
    cases hf : a.fail_need_fill <;> simp [hf] at he
  · refine ⟨fun _ => rfl, fun he => ?_⟩
    cases hf : a.fail_need_fill <;> simp [hf] at he

/-- A call changes the sum of the four counters by the number it contributes to a run. -/
theorem step_total {P : TParams} {c : Cache} {op : Op} {r : Cache × Nat}
    (h : c.step P op = .ok r) :
    (r.1.access.load_miss + r.1.access.load_hit + r.1.access.store_miss
        + r.1.access.store_hit) % U64
      = (c.access.load_miss + c.access.load_hit + c.access.store_miss
          + c.access.store_hit + r.2) % U64 := by
  cases op with
  | access addr t a =>
    simp only [Cache.step] at h
    split at h
    · rename_i out hout
      injection h with h; subst h
      obtain ⟨h1, h2⟩ := access_counters hout
      by_cases hnf : out.fail_need_fill = some true
      · simp only [hnf, if_true, h2 hnf, Nat.add_zero]
      · simp only [hnf, if_false, h1 hnf]
        exact AccessCounters.total_incr _ _ _
    · cases h
  | invalidate addr =>
    simp only [Cache.step] at h
    split at h
    · rename_i out hout
      injection h with h; subst h
      unfold Cache.invalidateLine at hout
      simp only at hout
      split at hout
      · split at hout
        · cases hout
        · split at hout
          · cases hout
          · injection hout with hout; subst hout; rfl
      · cases hout
    · cases h
  | resize sharedMem assoc =>
    simp only [Cache.step] at h
    split at h
    · rename_i out hout
      injection h with h; subst h
      unfold Cache.resize at hout
      split at hout
      · split at hout
        · cases hout
        · injection hout with hout; subst hout; rfl
      · cases hout
    · cases h
  | setPtr i v =>
    simp only [Cache.step] at h
    split at h
    · rename_i out hout
      injection h with h; subst h
      unfold Cache.setSetPtr at hout
      split at hout
      · injection hout with hout; subst hout; rfl
      · cases hout
    · cases h
  | reset =>
    simp only [Cache.step] at h
    split at h
    · rename_i out hout
      injection h with h; subst h
      unfold Cache.resetCounters at hout
      split at hout
      · injection hout with hout; subst hout; rfl
      · cases hout
    · cases h

/-- A run changes the sum of the four counters by its number of counted accesses. -/
theorem run_total {P : TParams} :
    ∀ (ops : List Op) (c : Cache) (r : Cache × Nat), c.run P ops = .ok r →
      (r.1.access.load_miss + r.1.access.load_hit + r.1.access.store_miss
          + r.1.access.store_hit) % U64
        = (c.access.load_miss + c.access.load_hit + c.access.store_miss
            + c.access.store_hit + r.2) % U64 := by
  intro ops
  induction ops with
  | nil =>
    intro c r h
    rw [Cache.run] at h
    injection h with h; subst h; rfl
  | cons op ops ih =>
    intro c r h
    rw [Cache.run] at h
    split at h
    · cases h
    · rename_i c1 k hstep
      split at h
      · cases h
      · rename_i c2 n hrun
        injection h with h; subst h
        have h1 := step_total hstep
        have h2 := ih c1 (c2, n) hrun
        simp only [U64] at h1 h2 ⊢
        omega

/-- The constructor leaves the four counters at zero. -/
theorem new_counters {P : TParams} {name : String} {size line_bytes assoc depth cn : Nat}
    {junk : Nat → Nat → Nat} {c : Cache}
    (h : Cache.new P name size line_bytes assoc depth cn junk = .ok c) :
    c.access = ⟨0, 0, 0, 0⟩ := by
  unfold Cache.new at h
  cases hb : CacheBase.new name size line_bytes assoc with
  | error e => simp [hb] at h
  | ok base =>
    simp only [hb] at h
    have hbase : base.access = ⟨0, 0, 0, 0⟩ := by
      unfold CacheBase.new at hb
      simp only at hb
      split at hb
      · injection hb with hb; subst hb; rfl
      · cases hb
    split at h
    · cases h
    · split at h
      · split at h
        · cases h
        · unfold Cache.resetCounters at h
          split at h
          · injection h with h; subst h; exact hbase
          · cases h
      · cases h

/-- The accessor `getAccesses()` is the sum of the four counters modulo `2^64`. -/
theorem getAccesses_eq (b : CacheBase) :
    b.getAccesses
      = (b.access.load_miss + b.access.load_hit + b.access.store_miss + b.access.store_hit)
          % U64 := by
  simp only [CacheBase.getAccesses, CacheBase.getHits, CacheBase.getMisses,
    CacheBase.sumAccess, AccessCounters.get, U64]
  omega

end Cache

open Cache Examples

/-- C9. Every `accessSingleLine` call that returns other than through the need-fill path
increments (as a `UInt64`) the counter `access[access_type][hit]` of the hit flag it returns
and leaves the other three counters as they were; and after any sequence of calls on a freshly
constructed cache `getAccesses()` is `getHits() + getMisses()` and equals (as a `UInt64`) the
number of such calls. -/
theorem C9_hit_miss_counters (P : TParams) (c : Cache) (addr : Nat) (t : AccessType)
    (a : AccessArgs) (r : AccessOut) (name : String) (size line_bytes assoc depth cn : Nat)
    (junk : Nat → Nat → Nat) (c0 : Cache) (ops : List Op) (res : Cache × Nat)
    (h : c.accessSingleLine P addr t a = .ok r) (hnf : r.fail_need_fill ≠ some true)
    (hnew : Cache.new P name size line_bytes assoc depth cn junk = .ok c0)
    (hrun : c0.run P ops = .ok res) :
    (r.cache.access.get t r.hit = (c.access.get t r.hit + 1) % U64
        ∧ ∀ t' hit', ¬ (t' = t ∧ hit' = r.hit) →
            r.cache.access.get t' hit' = c.access.get t' hit')
      ∧ (res.1.getAccesses = (res.1.getHits + res.1.getMisses) % U64
        ∧ res.1.getAccesses = res.2 % U64) := by
  have hacc := (access_counters h).1 hnf
  refine ⟨⟨?_, ?_⟩, rfl, ?_⟩
  · rw [hacc]; exact AccessCounters.get_incr_self _ _ _
  · intro t' hit' hne
    rw [hacc]; exact AccessCounters.get_incr_other _ _ _ _ _ hne
  · rw [getAccesses_eq, run_total ops c0 res hrun, new_counters hnew]
    simp only [Nat.add_zero, Nat.zero_add]

/-- C9 on scenario 1 (the load of `0x108` hits and adds one to the load-hit counter only) and
on the calls of `Examples.calls` (three counted accesses). -/
theorem C9_hit_miss_counters_witness :
    (hitAgain.cache.access.get .k_ACCESS_TYPE_LOAD hitAgain.hit
          = (filled.cache.access.get .k_ACCESS_TYPE_LOAD hitAgain.hit + 1) % U64
        ∧ ∀ t' hit', ¬ (t' = .k_ACCESS_TYPE_LOAD ∧ hit' = hitAgain.hit) →
            hitAgain.cache.access.get t' hit' = filled.cache.access.get t' hit')
      ∧ (afterCalls.1.getAccesses = (afterCalls.1.getHits + afterCalls.1.getMisses) % U64
        ∧ afterCalls.1.getAccesses = afterCalls.2 % U64) :=
  C9_hit_miss_counters P0 filled.cache 0x108 .k_ACCESS_TYPE_LOAD noArgs hitAgain "icache" 64 16
    1 1 0 (fun _ _ => 0) icache calls afterCalls (by decide) (by decide) (by decide)
    (by decide)

end Graphite

namespace Graphite

namespace RoundRobin

/-- The slot a tag lookup returns is inside the current associativity and holds the tag. -/
theorem find_some {P : TParams} {s : RoundRobin} {tag : CacheTag} {slot : Nat} (hP : P.WF)
    (h : s.find P tag = .ok (some slot)) :
    slot ≤ s.tags_last_index ∧ ∃ L, s.m_tags[slot]? = some L ∧ L.m_tag = tag.m_tag := by
  unfold find at h
  split at h
  · rename_i hlt
    rw [sint32Count_small (by have := hP.1; omega)] at h
    obtain ⟨h1, L, h2, h3⟩ := scan_some h
    exact ⟨by omega, L, h2, by simpa [CacheTag.eq] using h3⟩
  · cases h

/-- What `read_line` delivers from a slot of a well-shaped set: the window
`[offset, offset + bytes)` of the block of the slot, followed by the rest of the buffer. -/
theorem read_line_window {P : TParams} {s : RoundRobin} {slot offset bytes : Nat}
    {out : List Nat} {res : Option (List Nat)} (hP : P.WF) (hs : s.WF P)
    (hslot : slot ≤ s.tags_last_index) (hb : bytes ≠ 0) (hfit : offset + bytes ≤ s.blocksize)
    (h : s.read_line slot offset (some out) bytes = .ok res) :
    res = some (((s.lineBytes slot).drop offset).take bytes ++ out.drop bytes) := by
  obtain ⟨_, ob', hm, rfl⟩ := read_line_ok hb h
  obtain ⟨hin, hlt⟩ := WF.block_pos hP hs hslot
  rw [Nat.mod_eq_of_lt (by omega)] at hm
  obtain ⟨_, _, rfl⟩ := memcpy_ok hm
  simp only [lineBytes, window_in_block _ _ _ _ _ hfit]
  simp

end RoundRobin

namespace Cache

/-- The probe loop of `accessSingleLinePeek` reads the sets, the set pointers and the search
depth only. -/
theorem peekLoop_congr {P : TParams} (c c' : Cache) {tag : CacheTag} (hs : c'.sets = c.sets)
    (hp : c'.set_ptrs = c.set_ptrs) (hm : c'.max_search = c.max_search) :
    ∀ (fuel idx depth : Nat),
      peekLoop P c' tag fuel idx depth = peekLoop P c tag fuel idx depth := by
  intro fuel
  induction fuel with
  | zero => intro idx depth; rw [peekLoop, peekLoop]
  | succ fuel ih =>
    intro idx depth
    rw [peekLoop, peekLoop, hs, hp, hm]
    simp only [ih]

end Cache

open Cache Examples

/-- C10. Load payload in a well-shaped cache: a load with an output buffer, `bytes >= 1` and
`offset + bytes <= line_size` for `offset = addr mod line_size` that returns leaves in the
buffer the bytes `[offset, offset + bytes)` of the line (followed by the untouched rest of the
buffer): on a hit, of the block of the slot that holds the tag of `addr`, as it was before the
call; on a miss serviced with a fill buffer `F`, of `F`. -/
theorem C10_load_payload (P : TParams) (c : Cache) (addr : Nat) (a : AccessArgs)
    (out : List Nat) (r : AccessOut) (hwf : c.WF P) (hb : a.buff = some out)
    (hn : 1 ≤ a.bytes) (hfit : addr % c.line_size + a.bytes ≤ c.line_size)
    (h : c.accessSingleLine P addr .k_ACCESS_TYPE_LOAD a = .ok r) :
    (r.hit = true → ∃ idx slot set L, r.tagptr = some (idx, slot) ∧ c.sets[idx]? = some set
        ∧ set.m_tags[slot]? = some L ∧ L.m_tag = addr >>> c.line_shift
        ∧ r.buff = some (((set.lineBytes slot).drop (addr % c.line_size)).take a.bytes
            ++ out.drop a.bytes))
      ∧ (r.hit = false → ∀ F, a.fill_buff = some F →
          r.buff = some ((F.drop (addr % c.line_size)).take a.bytes ++ out.drop a.bytes)) := by
  have hne : a.bytes ≠ 0 := by omega
  have hoff := hwf.lineOffset_eq addr
  obtain ⟨_, p, hl, hcase⟩ := access_cases h
  rcases hcase with ⟨_, hnone, _, rfl⟩ | ⟨hh, sets, buff, htr, rfl⟩
    | ⟨hh, _, _, which, set, rep, found, sets, buff, hrh, hs, hrep, hfound, htr, rfl⟩
    | ⟨_, _, hna, rfl⟩
  · refine ⟨fun hx => (by cases hx), fun _ F hF => ?_⟩
    rw [hF] at hnone; cases hnone
  · refine ⟨fun _ => ?_, fun hx => by cases hx⟩
    obtain ⟨_, set, hs, hread⟩ := transfer_load htr
    have hvalid : p.index ≤ c.set_index_mask := by
      unfold lookup at hl
      exact (probe_valid hwf _ _ _ _ _ _ (home_le_mask _ _) hl).1
    obtain ⟨hset, hbs⟩ := hwf.set_at hvalid hs
    have hfound : set.find P (c.splitAddress addr).1 = .ok (some p.line_index) := by
      unfold lookup at hl
      obtain ⟨set', hs', hf'⟩ := (probe_facts _ _ _ _ _ _ hl).2.2.1 hh
      rw [hs] at hs'; injection hs' with hs'; subst hs'
      exact hf'
    obtain ⟨hslot, L, hL, hLtag⟩ := RoundRobin.find_some hwf.1 hfound
    rw [hb, hoff] at hread
    exact ⟨p.index, p.line_index, set, L, rfl, hs, hL, hLtag,
      RoundRobin.read_line_window hwf.1 hset hslot hne (by rw [hbs]; exact hfit) hread⟩
  · refine ⟨fun hx => (by cases hx), fun _ F hF => ?_⟩
    obtain ⟨rfl, hvalid, hset, hbs⟩ := alloc_facts hwf hl hh hrh hs hrep hfound
    obtain ⟨_, set1, hs1, hread⟩ := transfer_load htr
    have hwlt : which < c.sets.length := (List.getElem?_eq_some_iff.mp hs).1
    have hs1' : set1 = rep.set := by
      rw [List.getElem?_set] at hs1
      simp [hwlt] at hs1
      exact hs1.symm
    subst hs1'
    obtain ⟨old, _, _, _, _, hrbs, _, _, hfillm, _⟩ := RoundRobin.replace_ok hrep
    obtain ⟨hin, hlt⟩ := RoundRobin.WF.block_pos hwf.1 hset hset.2.2.2.1
    have hm := hfillm F hF
    rw [Nat.mod_eq_of_lt (by omega)] at hm
    obtain ⟨hF1, _, hblocks⟩ := memcpy_ok hm
    rw [hb, hoff] at hread
    simp only [Option.getD_some] at hread
    obtain ⟨_, ob', hm2, rfl⟩ := RoundRobin.read_line_ok hne hread
    have hfit' : addr % c.line_size + a.bytes ≤ set.blocksize := by rw [hbs]; exact hfit
    have hpos : set.next_replace_index * set.blocksize + addr % c.line_size < U32 := by omega
    rw [hrbs, Nat.mod_eq_of_lt hpos] at hm2
    obtain ⟨_, _, rfl⟩ := memcpy_ok hm2
    have hlenA : (List.take (set.next_replace_index * set.blocksize) set.m_blocks).length
        = set.next_replace_index * set.blocksize := by
      rw [List.length_take]; omega
    have hlenM : (List.take set.blocksize (List.drop 0 F)).length = set.blocksize := by
      simp only [List.drop_zero, List.length_take]; omega
    have hwin := read_window (List.take (set.next_replace_index * set.blocksize) set.m_blocks)
      (List.take set.blocksize (List.drop 0 F))
      (List.drop (set.next_replace_index * set.blocksize + set.blocksize) set.m_blocks)
      (addr % c.line_size) a.bytes (by rw [hlenM, hbs]; exact hfit)
    rw [hlenA] at hwin
    rw [hblocks, hwin]
    simp only [List.drop_zero, List.take_zero, List.nil_append, Nat.zero_add, List.drop_take,
      List.take_take]
    rw [Nat.min_eq_left (by rw [hbs]; omega)]
  · exact absurd (Or.inl rfl) hna

/-- C10 on the cache of scenario 1: four bytes at `0x104` after the pre-fill of `0x100`. -/
theorem C10_load_payload_witness :
    (readBack.hit = true → ∃ idx slot set L, readBack.tagptr = some (idx, slot)
        ∧ filled.cache.sets[idx]? = some set ∧ set.m_tags[slot]? = some L
        ∧ L.m_tag = 0x104 >>> filled.cache.line_shift
        ∧ readBack.buff = some (((set.lineBytes slot).drop (0x104 % filled.cache.line_size)).take
            readArgs.bytes ++ [0, 0, 0, 0, 0].drop readArgs.bytes))
      ∧ (readBack.hit = false → ∀ F, readArgs.fill_buff = some F →
          readBack.buff = some ((F.drop (0x104 % filled.cache.line_size)).take readArgs.bytes
            ++ [0, 0, 0, 0, 0].drop readArgs.bytes)) :=
  C10_load_payload P0 filled.cache 0x104 readArgs [0, 0, 0, 0, 0] readBack (by decide) rfl
    (by decide) (by decide) (by decide)

/-- C8 as stated fails: on the freshly constructed cache of the scenarios the lookup of
`0x040` misses, the load called with a `fail_need_fill` flag returns, and the line is not
resident afterwards. -/
theorem C8_load_with_flag_does_not_install :
    (lookup P0 icache 0x040).map (fun p => p.hit) = .ok false
      ∧ (icache.accessSingleLine P0 0x040 .k_ACCESS_TYPE_LOAD needArgs).map
          (fun r => (r.hit, r.cache.accessSingleLinePeek P0 0x040)) = .ok (false, .ok none) := by
  decide

/-- C8, amended. In a well-shaped cache, for an `accessSingleLine` that returns a miss other
than through the need-fill path: a load installs the line (a peek hits afterwards); a store
installs the line if and only if the store policy is `k_STORE_ALLOCATE`; and under any other
policy a store miss leaves every set as it was (tags, data, replacement pointer), the peek
misses afterwards, and the eviction flag, if given, is cleared. -/
theorem C8_allocation_policy (P : TParams) (c : Cache) (addr : Nat) (t : AccessType)
    (a : AccessArgs) (r : AccessOut) (hwf : c.WF P)
    (h : c.accessSingleLine P addr t a = .ok r) (hmiss : r.hit = false)
    (hnf : r.fail_need_fill ≠ some true) :
    (t = .k_ACCESS_TYPE_LOAD → ∃ loc, r.cache.accessSingleLinePeek P addr = .ok (some loc))
      ∧ (t = .k_ACCESS_TYPE_STORE →
          ((∃ loc, r.cache.accessSingleLinePeek P addr = .ok (some loc))
            ↔ P.k_STORE_ALLOCATION = k_STORE_ALLOCATE))
      ∧ (t = .k_ACCESS_TYPE_STORE → P.k_STORE_ALLOCATION ≠ k_STORE_ALLOCATE →
          r.cache.sets = c.sets ∧ r.cache.accessSingleLinePeek P addr = .ok none
            ∧ r.eviction = a.eviction.map (fun _ => false)) := by
  obtain ⟨_, p, hl, hcase⟩ := access_cases h
  have hpeek0 : p.hit = false → c.accessSingleLinePeek P addr = .ok none := by
    intro hp
    unfold lookup at hl
    unfold accessSingleLinePeek
    rw [probe_peek hwf.sets_len _ _ _ _ _ _ hl, hp]
    rfl
  rcases hcase with ⟨hsome, _, _, rfl⟩ | ⟨_, _, _, _, rfl⟩
    | ⟨hh, _, hal, which, set, rep, found, sets, buff, hrh, hs, hrep, hfound, htr, hr⟩
    | ⟨hh, _, hna, rfl⟩
  · exfalso; apply hnf
    cases hf : a.fail_need_fill with
    | none => rw [hf] at hsome; cases hsome
    | some b => rfl
  · cases hmiss
  · obtain ⟨hfd, _⟩ := alloc_facts hwf hl hh hrh hs hrep hfound
    have hptr : r.tagptr = some (which, set.next_replace_index) := by
      rw [hr, hfd]; rfl
    have hpk := peek_after_access hwf h hptr rfl
    refine ⟨fun _ => ⟨_, hpk⟩, fun ht => ⟨fun _ => ?_, fun _ => ⟨_, hpk⟩⟩, fun ht hne => ?_⟩
    · rcases hal with hal | hal
      · rw [ht] at hal; cases hal
      · exact hal
    · rcases hal with hal | hal
      · rw [ht] at hal; cases hal
      · exact absurd hal hne
  · have hpk : accessSingleLinePeek P
        { c with access := c.access.incr t false } addr = .ok none := by
      rw [← hpeek0 hh]
      unfold accessSingleLinePeek
      exact peekLoop_congr c { c with access := c.access.incr t false } rfl rfl rfl _ _ _
    refine ⟨fun ht => absurd (Or.inl ht) hna, fun _ => ⟨fun hex => ?_, fun hal => ?_⟩,
      fun _ _ => ⟨rfl, hpk, rfl⟩⟩
    · obtain ⟨loc, hloc⟩ := hex
      rw [show accessSingleLinePeek P _ addr = .ok none from hpk] at hloc
      cases hloc
    · exact absurd (Or.inr hal) hna

/-- C8, amended, on the freshly constructed cache of the scenarios under
`k_STORE_NO_ALLOCATE`: a store of four bytes at `0x104` misses and installs nothing. -/
theorem C8_allocation_policy_witness :
    (AccessType.k_ACCESS_TYPE_STORE = .k_ACCESS_TYPE_LOAD →
        ∃ loc, storedNoAlloc.cache.accessSingleLinePeek P1 0x104 = .ok (some loc))
      ∧ (AccessType.k_ACCESS_TYPE_STORE = .k_ACCESS_TYPE_STORE →
          ((∃ loc, storedNoAlloc.cache.accessSingleLinePeek P1 0x104 = .ok (some loc))
            ↔ P1.k_STORE_ALLOCATION = k_STORE_ALLOCATE))
      ∧ (AccessType.k_ACCESS_TYPE_STORE = .k_ACCESS_TYPE_STORE →
          P1.k_STORE_ALLOCATION ≠ k_STORE_ALLOCATE →
          storedNoAlloc.cache.sets = icache.sets
            ∧ storedNoAlloc.cache.accessSingleLinePeek P1 0x104 = .ok none
            ∧ storedNoAlloc.eviction
                = ({ noArgs with buff := some [1, 2, 3, 4], bytes := 4 } : AccessArgs).eviction.map
                    (fun _ => false)) :=
  C8_allocation_policy P1 icache 0x104 .k_ACCESS_TYPE_STORE
    { noArgs with buff := some [1, 2, 3, 4], bytes := 4 } storedNoAlloc (by decide) (by decide)
    (by decide) (by decide)

end Graphite

namespace Graphite

/-! ## The fault `fuel` is never produced -/

namespace RoundRobin

theorem scan_ne_fuel (tags : List CacheTag) (tag : CacheTag) (n : Nat) :
    scan tags tag n ≠ .error .fuel := by
  induction n with
  | zero => intro h; cases h
  | succ n ih =>
    rw [scan]
    split
    · intro h; cases h
    · split
      · intro h; cases h
      · exact ih

theorem find_ne_fuel (P : TParams) (s : RoundRobin) (tag : CacheTag) :
    s.find P tag ≠ .error .fuel := by
  unfold find
  split
  · exact scan_ne_fuel _ _ _
  · intro h; cases h

end RoundRobin

namespace Cache

/-- With at least as much fuel as iterations left, the probe loop of `accessSingleLine` does
not run out of fuel. -/
theorem probeLoop_fuel_ok {P : TParams} {c : Cache} {tag : CacheTag} :
    ∀ (fuel idx depth : Nat) (hist : List (Option Nat)) (li : Nat),
      0 < fuel → c.max_search ≤ depth + fuel →
      probeLoop P c tag fuel idx depth hist li ≠ .error .fuel := by
  intro fuel
  induction fuel with
  | zero => intro idx depth hist li h; omega
  | succ fuel ih =>
    intro idx depth hist li _ hle
    rw [probeLoop]
    by_cases hd : depth < hist.length
    · simp only [hd, if_true]
      cases hs : c.sets[idx]? with
      | none => intro h; cases h
      | some set =>
        simp only
        cases hf : set.find P tag with
        | error e =>
          simp only
          intro h
          injection h with h; subst h
          exact RoundRobin.find_ne_fuel P set tag hf
        | ok res =>
          simp only
          cases hp : c.set_ptrs[idx]? with
          | none => intro h; cases h
          | some nxt =>
            simp only
            cases res with
            | some way => intro h; cases h
            | none =>
              simp only
              by_cases hc : depth + 1 < c.max_search ∧ idx < P.k_MAX_SETS
              · rw [if_pos hc]
                exact ih nxt (depth + 1) _ li (by omega) (by omega)
              · rw [if_neg hc]; intro h; cases h
    · simp only [hd, if_false]; intro h; cases h

/-- With at least as much fuel as iterations left, the probe loop of `accessSingleLinePeek`
does not run out of fuel. -/
theorem peekLoop_fuel_ok {P : TParams} {c : Cache} {tag : CacheTag} :
    ∀ (fuel idx depth : Nat), 0 < fuel → c.max_search ≤ depth + fuel →
      peekLoop P c tag fuel idx depth ≠ .error .fuel := by
  intro fuel
  induction fuel with
  | zero => intro idx depth h; omega
  | succ fuel ih =>
    intro idx depth _ hle
    rw [peekLoop]
    cases hs : c.sets[idx]? with
    | none => intro h; cases h
    | some set =>
      simp only
      cases hf : set.find P tag with
      | error e =>
        simp only
        intro h
        injection h with h; subst h
        exact RoundRobin.find_ne_fuel P set tag hf
      | ok res =>
        simp only
        cases hp : c.set_ptrs[idx]? with
        | none => intro h; cases h
        | some nxt =>
          simp only
          cases res with
          | some way => intro h; cases h
          | none =>
            simp only
            by_cases hc : depth + 1 < c.max_search ∧ nxt < P.k_MAX_SETS
            · rw [if_pos hc]
              exact ih nxt (depth + 1) (by omega) (by omega)
            · rw [if_neg hc]; intro h; cases h

/-- The lookup of `accessSingleLine` has the fuel it needs. -/
theorem lookup_fuel_ok (P : TParams) (c : Cache) (addr : Nat) :
    lookup P c addr ≠ .error .fuel :=
  probeLoop_fuel_ok _ _ _ _ _ (Nat.succ_pos _) (by omega)

/-- The lookup of `accessSingleLinePeek` has the fuel it needs. -/
theorem peek_fuel_ok (P : TParams) (c : Cache) (addr : Nat) :
    c.accessSingleLinePeek P addr ≠ .error .fuel :=
  peekLoop_fuel_ok _ _ _ (Nat.succ_pos _) (by omega)

end Cache

open Cache Examples

/-! ## The concrete caches are what the constructor and the calls give -/

theorem icache_constructed :
    Cache.new P0 "icache" 64 16 1 1 0 (fun _ _ => 0) = .ok icache := by decide

theorem deep_constructed :
    Cache.new P0 "dcache" 64 16 1 2 0 (fun _ _ => 0) = .ok deep := by decide

theorem chained_reached :
    deep.run P0 [.setPtr 0 1, .access 0x000 .k_ACCESS_TYPE_LOAD fillArgs] = .ok chained := by
  decide

/-- C6 at a failing input: on the freshly constructed cache with a search depth of two, the
peek of `0x000` probes the home set, finds the set pointer `k_MAX_SETS` and stops with a miss,
while `accessSingleLine` goes on to probe `sets[k_MAX_SETS]`, one past the end of the array:
its loop condition tests the set just probed where the peek tests the next one. -/
theorem C6_access_probes_past_last_pointer :
    deep.accessSingleLinePeek P0 0x000 = .ok none
      ∧ deep.set_ptrs[(deep.splitAddress 0x000).2]? = some P0.k_MAX_SETS
      ∧ deep.sets[P0.k_MAX_SETS]? = none
      ∧ lookup P0 deep 0x000 = .error .outOfBounds
      ∧ deep.accessSingleLine P0 0x000 .k_ACCESS_TYPE_LOAD fillArgs = .error .outOfBounds := by
  decide

/-- C7 at a failing input: in the cache `chained` the line `0x000` sits in set 1, the second
set of its probe chain; the peek hits there, `invalidateLine(0x000)` looks at the home set
only, returns false and changes nothing, so the peek hits afterwards as well. -/
theorem C7_invalidate_ignores_chained_set :
    chained.1.accessSingleLinePeek P0 0x000 = .ok (some (1, 0))
      ∧ chained.1.invalidateLine P0 0x000 = .ok (chained.1, false) := by
  decide

end Graphite

namespace Graphite

theorem memcpy_ne_fuel (dst : List Nat) (dpos : Nat) (src : List Nat) (spos n : Nat) :
    memcpy dst dpos src spos n ≠ .error .fuel := by
  unfold memcpy; split <;> intro h <;> cases h

namespace RoundRobin

theorem read_line_ne_fuel (s : RoundRobin) (index offset : Nat) (ob : Option (List Nat))
    (bytes : Nat) : s.read_line index offset ob bytes ≠ .error .fuel := by
  unfold read_line
  intro h
  split at h
  · split at h
    · cases h
    · split at h
      · split at h
        · cases h
        · rename_i e hm
          injection h with h; subst h
          exact memcpy_ne_fuel _ _ _ _ _ hm
      · cases h
  · cases h

theorem write_line_ne_fuel (s : RoundRobin) (index offset : Nat) (b : Option (List Nat))
    (bytes : Nat) : s.write_line index offset b bytes ≠ .error .fuel := by
  unfold write_line
  intro h
  split at h
  · split at h
    · cases h
    · split at h
      · split at h
        · cases h
        · rename_i e hm
          injection h with h; subst h
          exact memcpy_ne_fuel _ _ _ _ _ hm
      · cases h
  · cases h

theorem replace_ne_fuel (P : TParams) (s : RoundRobin) (tag : CacheTag)
    (fill : Option (List Nat)) (ev : Option Bool) (et : Option CacheTag)
    (eb : Option (List Nat)) : s.replace P tag fill ev et eb ≠ .error .fuel := by
  unfold replace
  intro h
  cases hold : s.m_tags[s.next_replace_index]? with
  | none => simp [hold] at h
  | some old =>
    simp only [hold] at h
    split at h
    · rename_i e hcap
      injection h with h; subst h
      split at hcap
      · split at hcap
        · cases hcap
        · split at hcap
          · cases hcap
          · rename_i e hm
            injection hcap with hcap; subst hcap
            exact memcpy_ne_fuel _ _ _ _ _ hm
      · cases hcap
    · split at h
      · split at h
        · rename_i e hfill
          injection h with h; subst h
          split at hfill
          · cases hfill
          · exact memcpy_ne_fuel _ _ _ _ _ hfill
        · cases h
      · cases h

end RoundRobin

namespace Cache

theorem transfer_ne_fuel (b : CacheBase) (sets : List RoundRobin) (index li addr : Nat)
    (t : AccessType) (buff : Option (List Nat)) (bytes : Nat) :
    transfer b sets index li addr t buff bytes ≠ .error .fuel := by
  unfold transfer
  intro h
  split at h
  · cases h
  · split at h
    · split at h
      · rename_i e hr
        injection h with h; subst h
        exact RoundRobin.read_line_ne_fuel _ _ _ _ _ hr
      · cases h
    · split at h
      · rename_i e hw
        injection h with h; subst h
        exact RoundRobin.write_line_ne_fuel _ _ _ _ _ hw
      · cases h

/-- `accessSingleLine` never fails for want of fuel: every fault of the model is a failed
assertion or an access outside an array. -/
theorem access_fuel_ok (P : TParams) (c : Cache) (addr : Nat) (t : AccessType)
    (a : AccessArgs) : c.accessSingleLine P addr t a ≠ .error .fuel := by
  unfold accessSingleLine
  intro h
  split at h
  · cases hl : lookup P c addr with
    | error e =>
      simp only [hl] at h
      injection h with h; subst h
      exact lookup_fuel_ok P c addr hl
    | ok p =>
      simp only [hl] at h
      split at h
      · cases h
      · split at h
        · split at h
          · rename_i e htr
            injection h with h; subst h
            exact transfer_ne_fuel _ _ _ _ _ _ _ _ htr
          · cases h
        · split at h
          · cases hrh : readHistory p.history (P.rand_next c.rand p.depth).1 with
            | error e =>
              simp only [hrh] at h
              injection h with h; subst h
              unfold readHistory at hrh
              split at hrh <;> cases hrh
            | ok which =>
              simp only [hrh] at h
              split at h
              · cases h
              · split at h
                · rename_i e hrep
                  injection h with h; subst h
                  exact RoundRobin.replace_ne_fuel _ _ _ _ _ _ _ hrep
                · split at h
                  · rename_i e hf
                    injection h with h; subst h
                    exact RoundRobin.find_ne_fuel _ _ _ hf
                  · split at h
                    · rename_i e htr
                      injection h with h; subst h
                      exact transfer_ne_fuel _ _ _ _ _ _ _ _ htr
                    · cases h
          · cases h
  · cases h

end Cache
end Graphite

namespace Graphite
open IOCOOMCoreModel

/-! ## The load unit and the store buffer of the IOCOOM core model -/

theorem getD_of_getElem? {l : List Nat} {i v : Nat} (h : l[i]? = some v) : l.getD i 0 = v := by
  simp [List.getD, h]

theorem getElem?_of_lt_getD {l : List Nat} {i : Nat} (h : i < l.length) :
    l[i]? = some (l.getD i 0) := by
  simp [List.getD, List.getElem?_eq_getElem h]

/-- The loop returns from inside only at the lowest slot whose entry is at most `time`. -/
theorem availLoop_some (sb : List Nat) (time : Nat) :
    ∀ (n i unit k u' : Nat), availLoop sb time n i unit = .ok (some k, u') →
      i ≤ k ∧ k < i + n ∧ k < sb.length ∧ sb.getD k 0 ≤ time
        ∧ ∀ j, i ≤ j → j < k → time < sb.getD j 0 := by
  intro n
  induction n with
  | zero => intro i unit k u' h; simp [availLoop] at h
  | succ n ih =>
    intro i unit k u' h
    rw [availLoop] at h
    cases hv : sb[i]? with
    | none => rw [hv] at h; cases h
    | some v =>
      rw [hv] at h
      have hlt : i < sb.length := by
        by_contra hc
        rw [List.getElem?_eq_none (by omega)] at hv; cases hv
      have hd := getD_of_getElem? hv
      by_cases hle : v ≤ time
      · simp only [hle, if_true] at h
        cases h
        exact ⟨le_refl _, by omega, hlt, by omega, fun j h1 h2 => by omega⟩
      · simp only [hle, if_false] at h
        cases hu : sb[unit]? with
        | none => rw [hu] at h; cases h
        | some u =>
          rw [hu] at h
          obtain ⟨h1, h2, h3, h4, h5⟩ := ih _ _ _ _ h
          refine ⟨by omega, by omega, h3, h4, fun j hj1 hj2 => ?_⟩
          by_cases hji : j = i
          · subst hji; omega
          · exact h5 j (by omega) hj2

/-- When the loop runs to its end, every entry it saw is above `time` and `unit` is a slot
with the least entry. -/
theorem availLoop_none (sb : List Nat) (time : Nat) :
    ∀ (n i unit u' : Nat), availLoop sb time n i unit = .ok (none, u') →
      unit ≤ i → (∀ j, j < i → sb.getD unit 0 ≤ sb.getD j 0) →
      (0 < n → u' < i + n) ∧ (∀ j, j < i + n → sb.getD u' 0 ≤ sb.getD j 0)
        ∧ ∀ j, i ≤ j → j < i + n → time < sb.getD j 0 := by
  intro n
  induction n with
  | zero =>
    intro i unit u' h hu hmin
    simp only [availLoop] at h
    cases h
    exact ⟨fun h => by omega, fun j hj => hmin j (by omega), fun j h1 h2 => by omega⟩
  | succ n ih =>
    intro i unit u' h hui hmin
    rw [availLoop] at h
    cases hv : sb[i]? with
    | none => rw [hv] at h; cases h
    | some v =>
      rw [hv] at h
      have hd := getD_of_getElem? hv
      by_cases hle : v ≤ time
      · simp only [hle, if_true] at h
        cases h
      · simp only [hle, if_false] at h
        cases hu : sb[unit]? with
        | none => rw [hu] at h; cases h
        | some u =>
          rw [hu] at h
          have hdu := getD_of_getElem? hu
          have hmin' : ∀ j, j < i + 1 →
              sb.getD (if v < u then i else unit) 0 ≤ sb.getD j 0 := by
            intro j hj
            by_cases hvu : v < u
            · simp only [hvu, if_true]
              by_cases hji : j = i
              · subst hji; exact le_refl _
              · have := hmin j (by omega); omega
            · simp only [hvu, if_false]
              by_cases hji : j = i
              · subst hji; omega
              · exact hmin j (by omega)
          have hle' : (if v < u then i else unit) ≤ i := by
            split <;> omega
          obtain ⟨h1, h2, h3⟩ := ih _ _ _ h (by omega) hmin'
          refine ⟨fun _ => ?_, fun j hj => h2 j (by omega), fun j hj1 hj2 => ?_⟩
          · by_cases hn : 0 < n
            · have := h1 hn; omega
            · have hn0 : n = 0 := by omega
              subst hn0
              simp only [availLoop] at h
              cases h
              omega
          · by_cases hji : j = i
            · subst hji; omega
            · exact h3 j (by omega) (by omega)

/-- The loop never reads outside the vector. -/
theorem availLoop_total (sb : List Nat) (time : Nat) :
    ∀ (n i unit : Nat), i + n ≤ sb.length → unit ≤ i →
      ∃ r, availLoop sb time n i unit = .ok r := by
  intro n
  induction n with
  | zero => intro i unit _ _; exact ⟨_, rfl⟩
  | succ n ih =>
    intro i unit hlen hui
    rw [availLoop, getElem?_of_lt_getD (show i < sb.length by omega)]
    by_cases hle : sb.getD i 0 ≤ time
    · simp only [hle, if_true]; exact ⟨_, rfl⟩
    · simp only [hle, if_false]
      rw [getElem?_of_lt_getD (show unit < sb.length by omega)]
      exact ih _ _ (by omega) (by split <;> omega)

/-- The loop over the whole vector returns from the lowest slot whose entry is at most
`time`, when there is one. -/
theorem availLoop_first (sb : List Nat) (time i : Nat) (hi : i < sb.length)
    (hle : sb.getD i 0 ≤ time) (hfirst : ∀ j, j < i → time < sb.getD j 0) :
    ∃ u', availLoop sb time sb.length 0 0 = .ok (some i, u') := by
  obtain ⟨r, hr⟩ := availLoop_total sb time sb.length 0 0 (by omega) (le_refl _)
  obtain ⟨o, u'⟩ := r
  cases o with
  | none =>
    have h := (availLoop_none sb time _ _ _ _ hr (le_refl _) (fun j hj => by omega)).2.2 i
      (by omega) (by omega)
    omega
  | some k =>
    obtain ⟨-, -, h3, h4, h5⟩ := availLoop_some sb time _ _ _ _ _ hr
    have hki : k = i := by
      by_contra hne
      rcases Nat.lt_or_gt_of_ne hne with h | h
      · have := hfirst k h; omega
      · have := h5 i (by omega) h; omega
    subst hki
    exact ⟨u', hr⟩

/-- The loop over the whole vector runs to its end, with a slot of least entry, when every
entry is above `time`. -/
theorem availLoop_busy (sb : List Nat) (time : Nat) (hK : 0 < sb.length)
    (hbusy : ∀ j, j < sb.length → time < sb.getD j 0) :
    ∃ unit, availLoop sb time sb.length 0 0 = .ok (none, unit) ∧ unit < sb.length
      ∧ ∀ j, j < sb.length → sb.getD unit 0 ≤ sb.getD j 0 := by
  obtain ⟨r, hr⟩ := availLoop_total sb time sb.length 0 0 (by omega) (le_refl _)
  obtain ⟨o, u'⟩ := r
  cases o with
  | some k =>
    obtain ⟨-, -, h3, h4, -⟩ := availLoop_some sb time _ _ _ _ _ hr
    have := hbusy k h3; omega
  | none =>
    obtain ⟨h1, h2, -⟩ := availLoop_none sb time _ _ _ _ hr (le_refl _) (fun j hj => by omega)
    exact ⟨u', hr, by have := h1 hK; omega, fun j hj => h2 j (by omega)⟩

/-- Subtracting the occupancy from the `UInt64` sum gives the entry back. -/
theorem u64_add_sub (m occ : Nat) (hm : m < U64) :
    ((m + occ) % U64 + (U64 - occ % U64)) % U64 = m := by
  simp only [U64] at *
  omega

/-- `execute` when some unit is free at `time`. -/
theorem execute_free (u : LoadUnit) (t occ i : Nat) (hi : i < u.m_scoreboard.length)
    (hle : u.m_scoreboard.getD i 0 ≤ t)
    (hfirst : ∀ j, j < i → t < u.m_scoreboard.getD j 0) :
    u.execute t occ = .ok (t, ⟨u.m_scoreboard.set i ((t + occ) % U64)⟩) := by
  obtain ⟨u', h⟩ := availLoop_first u.m_scoreboard t i hi hle hfirst
  simp only [LoadUnit.execute, h]

/-- `execute` when every unit is busy at `time`. -/
theorem execute_busy (u : LoadUnit) (t occ : Nat) (hK : 0 < u.m_scoreboard.length)
    (hsb : ∀ v ∈ u.m_scoreboard, v < U64)
    (hbusy : ∀ j, j < u.m_scoreboard.length → t < u.m_scoreboard.getD j 0) :
    ∃ unit, unit < u.m_scoreboard.length
      ∧ (∀ j, j < u.m_scoreboard.length →
          u.m_scoreboard.getD unit 0 ≤ u.m_scoreboard.getD j 0)
      ∧ u.execute t occ = .ok (u.m_scoreboard.getD unit 0,
          ⟨u.m_scoreboard.set unit ((u.m_scoreboard.getD unit 0 + occ) % U64)⟩) := by
  obtain ⟨unit, h, hu, hmin⟩ := availLoop_busy u.m_scoreboard t hK hbusy
  refine ⟨unit, hu, hmin, ?_⟩
  have hm : u.m_scoreboard.getD unit 0 < U64 :=
    hsb _ (List.getElem?_mem (getElem?_of_lt_getD hu))
  simp only [LoadUnit.execute, h, getElem?_of_lt_getD hu, u64_add_sub _ _ hm]

/-- C14. `LoadUnit::execute(time, occupancy)` on a unit with at least one slot: when some
scoreboard entry is at most `time`, the lowest-indexed such slot is set to `time + occupancy`
(a `UInt64` sum) and `time` is returned; when every entry is above `time`, a slot holding
the minimum entry gets `occupancy` added and that minimum is returned; every other slot
keeps its entry; and the returned cycle is never earlier than `time`. -/
theorem C14_load_unit_execute (u : LoadUnit) (t occ : Nat)
    (hK : 0 < u.m_scoreboard.length) (hsb : ∀ v ∈ u.m_scoreboard, v < U64) :
    (∀ i, i < u.m_scoreboard.length → u.m_scoreboard.getD i 0 ≤ t →
        (∀ j, j < i → t < u.m_scoreboard.getD j 0) →
        u.execute t occ = .ok (t, ⟨u.m_scoreboard.set i ((t + occ) % U64)⟩))
    ∧ ((∀ j, j < u.m_scoreboard.length → t < u.m_scoreboard.getD j 0) →
        ∃ unit, unit < u.m_scoreboard.length
          ∧ (∀ j, j < u.m_scoreboard.length →
              u.m_scoreboard.getD unit 0 ≤ u.m_scoreboard.getD j 0)
          ∧ u.execute t occ = .ok (u.m_scoreboard.getD unit 0,
              ⟨u.m_scoreboard.set unit ((u.m_scoreboard.getD unit 0 + occ) % U64)⟩))
    ∧ (∃ r u', u.execute t occ = .ok (r, u') ∧ t ≤ r
        ∧ u'.m_scoreboard.length = u.m_scoreboard.length
        ∧ ∃ (slot : Nat), ∀ (j : Nat), j ≠ slot → u'.m_scoreboard[j]? = u.m_scoreboard[j]?) := by
  refine ⟨fun i hi hle hfirst => execute_free u t occ i hi hle hfirst,
    fun hbusy => execute_busy u t occ hK hsb hbusy, ?_⟩
  by_cases hex : ∃ i, i < u.m_scoreboard.length ∧ u.m_scoreboard.getD i 0 ≤ t
  · classical
    let i := Nat.find hex
    have hi : i < u.m_scoreboard.length ∧ u.m_scoreboard.getD i 0 ≤ t := Nat.find_spec hex
    have hfirst : ∀ j, j < i → t < u.m_scoreboard.getD j 0 := by
      intro j hj
      have := Nat.find_min hex hj
      by_contra hc
      exact this ⟨by omega, by omega⟩
    refine ⟨_, _, execute_free u t occ i hi.1 hi.2 hfirst, le_refl _, by simp, i, ?_⟩
    intro j hj
    simp [List.getElem?_set, Ne.symm hj]
  · have hbusy : ∀ j, j < u.m_scoreboard.length → t < u.m_scoreboard.getD j 0 := by
      intro j hj
      by_contra hc
      exact hex ⟨j, hj, by omega⟩
    obtain ⟨unit, hu, hmin, he⟩ := execute_busy u t occ hK hsb hbusy
    refine ⟨_, _, he, by have := hbusy unit hu; omega, by simp, unit, ?_⟩
    intro j hj
    simp [List.getElem?_set, Ne.symm hj]

/-- C14, instance: a unit with two slots, both busy until cycle 10, asked at cycle 0. -/
theorem C14_load_unit_execute_witness :
    (∀ i, i < 2 → [10, 10].getD i 0 ≤ 0 →
        (∀ j, j < i → 0 < [10, 10].getD j 0) →
        LoadUnit.execute ⟨[10, 10]⟩ 0 10 = .ok (0, ⟨[10, 10].set i ((0 + 10) % U64)⟩))
    ∧ ((∀ j, j < 2 → 0 < [10, 10].getD j 0) →
        ∃ unit, unit < 2
          ∧ (∀ j, j < 2 → [10, 10].getD unit 0 ≤ [10, 10].getD j 0)
          ∧ LoadUnit.execute ⟨[10, 10]⟩ 0 10 = .ok ([10, 10].getD unit 0,
              ⟨[10, 10].set unit (([10, 10].getD unit 0 + 10) % U64)⟩))
    ∧ (∃ r u', LoadUnit.execute ⟨[10, 10]⟩ 0 10 = .ok (r, u') ∧ 0 ≤ r
        ∧ u'.m_scoreboard.length = 2
        ∧ ∃ (slot : Nat), ∀ (j : Nat), j ≠ slot → u'.m_scoreboard[j]? = [10, 10][j]?) :=
  C14_load_unit_execute ⟨[10, 10]⟩ 0 10 (by decide) (by decide)

/-- Three `execute(0, 10)` calls on a fresh unit with two slots start at 0, 0 and 10. -/
theorem loadUnit_three_calls :
    (LoadUnit.new 2).run [(0, 10), (0, 10), (0, 10)] = .ok ([0, 0, 10], ⟨[20, 10]⟩) := by
  decide

end Graphite

namespace Graphite
open IOCOOMCoreModel

/-- Counting the entries that satisfy `p` after one entry is overwritten. -/
theorem countP_set (p : Nat → Bool) :
    ∀ (l : List Nat) (j old v : Nat), l[j]? = some old →
      (l.set j v).countP p + (if p old then 1 else 0)
        = l.countP p + (if p v then 1 else 0) := by
  intro l
  induction l with
  | nil => intro j old v h; simp at h
  | cons x xs ih =>
    intro j old v h
    cases j with
    | zero =>
      simp only [List.getElem?_cons_zero, Option.some.injEq] at h
      subst h
      simp only [List.set_cons_zero, List.countP_cons]
      omega
    | succ j =>
      simp only [List.getElem?_cons_succ] at h
      have := ih j old v h
      simp only [List.set_cons_succ, List.countP_cons]
      omega

theorem countP_le_length (p : Nat → Bool) (l : List Nat) : l.countP p ≤ l.length :=
  List.countP_le_length p

/-- Every `execute` call on a unit with at least one slot takes one slot that is free at the
returned start cycle and sets it to start + occupancy. -/
theorem execute_slot (u : LoadUnit) (t occ : Nat) (hK : 0 < u.m_scoreboard.length)
    (hsb : ∀ v ∈ u.m_scoreboard, v < U64) :
    ∃ s j, u.execute t occ = .ok (s, ⟨u.m_scoreboard.set j ((s + occ) % U64)⟩)
      ∧ j < u.m_scoreboard.length ∧ u.m_scoreboard.getD j 0 ≤ s ∧ t ≤ s
      ∧ (s = t ∨ s = u.m_scoreboard.getD j 0) := by
  by_cases hex : ∃ i, i < u.m_scoreboard.length ∧ u.m_scoreboard.getD i 0 ≤ t
  · classical
    have hi := Nat.find_spec hex
    have hfirst : ∀ j, j < Nat.find hex → t < u.m_scoreboard.getD j 0 := by
      intro j hj
      have := Nat.find_min hex hj
      by_contra hc
      exact this ⟨by omega, by omega⟩
    exact ⟨t, Nat.find hex, execute_free u t occ _ hi.1 hi.2 hfirst, hi.1, hi.2, le_refl _,
      Or.inl rfl⟩
  · have hbusy : ∀ j, j < u.m_scoreboard.length → t < u.m_scoreboard.getD j 0 := by
      intro j hj
      by_contra hc
      exact hex ⟨j, hj, by omega⟩
    obtain ⟨unit, hu, hmin, he⟩ := execute_busy u t occ hK hsb hbusy
    exact ⟨_, unit, he, hu, le_refl _, by have := hbusy unit hu; omega, Or.inr rfl⟩

/-- The calls of a run from any unit whose entries and call times stay below a bound `B`
with `B` + the summed occupancies a `UInt64` value: the run returns, and at every cycle the
calls outstanding plus the slots that were busy at the start are at most the slots. -/
theorem run_outstanding :
    ∀ (calls : List (Nat × Nat)) (u : LoadUnit) (B : Nat),
      0 < u.m_scoreboard.length → (∀ v ∈ u.m_scoreboard, v ≤ B) →
      (∀ call ∈ calls, call.1 ≤ B) → B + (calls.map Prod.snd).sum < U64 →
      ∃ starts u', u.run calls = .ok (starts, u') ∧ starts.length = calls.length
        ∧ ∀ c, outstandingAt calls starts c
            + u.m_scoreboard.countP (fun v => decide (c < v)) ≤ u.m_scoreboard.length := by
  intro calls
  induction calls with
  | nil =>
    intro u B hK hB ht hsum
    refine ⟨[], u, rfl, rfl, fun c => ?_⟩
    simp only [outstandingAt, List.zip_nil_right, List.countP_nil, Nat.zero_add]
    exact List.countP_le_length _
  | cons call calls ih =>
    intro u B hK hB ht hsum
    simp only [List.map_cons, List.sum_cons] at hsum
    have hsb : ∀ v ∈ u.m_scoreboard, v < U64 := fun v hv => by
      have := hB v hv; omega
    obtain ⟨s, j, he, hj, hfree, hts, hs⟩ := execute_slot u call.1 call.2 hK hsb
    have hsB : s ≤ B := by
      rcases hs with h | h
      · rw [h]; exact ht call (List.mem_cons_self _ _)
      · rw [h]; exact hB _ (List.getElem?_mem (getElem?_of_lt_getD hj))
    have hmod : (s + call.2) % U64 = s + call.2 := Nat.mod_eq_of_lt (by omega)
    rw [hmod] at he
    have hB' : ∀ v ∈ u.m_scoreboard.set j (s + call.2), v ≤ B + call.2 := by
      intro v hv
      rcases List.mem_or_eq_of_mem_set hv with h | h
      · have := hB v h; omega
      · omega
    obtain ⟨starts, u', hr, hlen, hout⟩ := ih ⟨u.m_scoreboard.set j (s + call.2)⟩
      (B + call.2) (by simpa using hK) hB'
      (fun c hc => by have := ht c (List.mem_cons_of_mem _ hc); omega) (by omega)
    refine ⟨s :: starts, u', ?_, by simp [hlen], fun c => ?_⟩
    · simp only [LoadUnit.run, he, hr]
    · have h1 := hout c
      have h2 := countP_set (fun v => decide (c < v)) u.m_scoreboard j
        (u.m_scoreboard.getD j 0) (s + call.2) (getElem?_of_lt_getD hj)
      simp only [List.length_set] at h1
      simp only [outstandingAt, List.zip_cons_cons, List.countP_cons] at h1 ⊢
      simp only [decide_eq_true_eq] at h2 ⊢
      by_cases hin : s ≤ c ∧ c < s + call.2
      · have hold : ¬ c < u.m_scoreboard.getD j 0 := by omega
        simp only [hin, and_self, if_true, hold, if_false, hin.2] at h2 ⊢
        omega
      · simp only [hin, if_false]
        by_cases hold : c < u.m_scoreboard.getD j 0
        · have hnew : c < s + call.2 := by omega
          simp only [hold, hnew, if_true] at h2
          omega
        · simp only [hold, if_false] at h2
          have : (List.countP (fun v => decide (c < v)) u.m_scoreboard)
              ≤ List.countP (fun v => decide (c < v)) (u.m_scoreboard.set j (s + call.2)) := by
            omega
          omega

/-- C15. A fresh load unit with `K >= 1` slots never has more than `K` loads outstanding:
for every sequence of `execute(t_i, occ_i)` calls, in any time order, whose times and summed
occupancies stay inside `UInt64`, the run returns start cycles `s_i`, and at every cycle `c`
the number of calls with `s_i <= c < s_i + occ_i` is at most `K`. -/
theorem C15_at_most_K_outstanding (K T : Nat) (calls : List (Nat × Nat)) (hK : 0 < K)
    (ht : ∀ call ∈ calls, call.1 ≤ T) (hsum : T + (calls.map Prod.snd).sum < U64) :
    ∃ starts u', (LoadUnit.new K).run calls = .ok (starts, u')
      ∧ starts.length = calls.length ∧ ∀ c, outstandingAt calls starts c ≤ K := by
  have hnew : (LoadUnit.new K).m_scoreboard = List.replicate K 0 := by
    simp [LoadUnit.new, LoadUnit.init]
  obtain ⟨starts, u', hr, hlen, hout⟩ := run_outstanding calls (LoadUnit.new K) T
    (by simp [hnew, hK]) (by intro v hv; rw [hnew] at hv; simp [(List.mem_replicate.1 hv).2])
    ht hsum
  refine ⟨starts, u', hr, hlen, fun c => ?_⟩
  have := hout c
  simp only [hnew, List.length_replicate] at this
  omega

/-- C15, instance: three loads `(0, 10)` on two slots; they start at 0, 0 and 10. -/
theorem C15_at_most_K_outstanding_witness :
    ∃ starts u', (LoadUnit.new 2).run [(0, 10), (0, 10), (0, 10)] = .ok (starts, u')
      ∧ starts.length = [(0, 10), (0, 10), (0, 10)].length
      ∧ ∀ c, outstandingAt [(0, 10), (0, 10), (0, 10)] starts c ≤ 2 :=
  C15_at_most_K_outstanding 2 0 [(0, 10), (0, 10), (0, 10)] (by decide) (by decide)
    (by decide)

end Graphite

namespace Graphite
open IOCOOMCoreModel

/-- The first loop of `executeStore` returns the lowest entry that holds `addr`. -/
theorem findAddr_some (addrs : List Nat) (addr : Nat) :
    ∀ (n i k : Nat), StoreBuffer.findAddr addrs addr n i = .ok (some k) →
      i ≤ k ∧ k < i + n ∧ addrs[k]? = some addr
        ∧ ∀ j, i ≤ j → j < k → addrs[j]? ≠ some addr := by
  intro n
  induction n with
  | zero => intro i k h; simp [StoreBuffer.findAddr] at h
  | succ n ih =>
    intro i k h
    rw [StoreBuffer.findAddr] at h
    cases ha : addrs[i]? with
    | none => rw [ha] at h; cases h
    | some a =>
      rw [ha] at h
      by_cases he : a = addr
      · simp only [he, if_true] at h
        cases h
        exact ⟨le_refl _, by omega, by rw [ha, he], fun j h1 h2 => by omega⟩
      · simp only [he, if_false] at h
        obtain ⟨h1, h2, h3, h4⟩ := ih _ _ h
        refine ⟨by omega, by omega, h3, fun j hj1 hj2 => ?_⟩
        by_cases hji : j = i
        · subst hji; rw [ha]; simpa using he
        · exact h4 j (by omega) hj2

/-- The first loop of `executeStore` ends without a result only when no entry holds `addr`. -/
theorem findAddr_none (addrs : List Nat) (addr : Nat) :
    ∀ (n i : Nat), StoreBuffer.findAddr addrs addr n i = .ok none →
      ∀ j, i ≤ j → j < i + n → addrs[j]? ≠ some addr := by
  intro n
  induction n with
  | zero => intro i _ j h1 h2; omega
  | succ n ih =>
    intro i h j hj1 hj2
    rw [StoreBuffer.findAddr] at h
    cases ha : addrs[i]? with
    | none => rw [ha] at h; cases h
    | some a =>
      rw [ha] at h
      by_cases he : a = addr
      · simp only [he, if_true] at h
        cases h
      · simp only [he, if_false] at h
        by_cases hji : j = i
        · subst hji; rw [ha]; simpa using he
        · exact ih _ h j (by omega) (by omega)

/-- The first loop of `executeStore` stays inside the address vector. -/
theorem findAddr_total (addrs : List Nat) (addr : Nat) :
    ∀ (n i : Nat), i + n ≤ addrs.length → ∃ r, StoreBuffer.findAddr addrs addr n i = .ok r := by
  intro n
  induction n with
  | zero => intro i _; exact ⟨_, rfl⟩
  | succ n ih =>
    intro i hlen
    rw [StoreBuffer.findAddr, List.getElem?_eq_getElem (show i < addrs.length by omega)]
    by_cases he : addrs[i] = addr
    · simp only [he, if_true]; exact ⟨_, rfl⟩
    · simp only [he, if_false]; exact ih _ (by omega)

/-- The first loop of `executeStore` finds the lowest entry holding `addr`, when one does. -/
theorem findAddr_first (addrs : List Nat) (addr n i : Nat) (hi : i < n)
    (ha : addrs[i]? = some addr) :
    ∃ k, k ≤ i ∧ StoreBuffer.findAddr addrs addr n 0 = .ok (some k)
      ∧ addrs[k]? = some addr ∧ ∀ j, j < k → addrs[j]? ≠ some addr := by
  have hgen : ∀ (m s : Nat), s ≤ i → i < s + m → (∀ j, s ≤ j → j < i → addrs[j]? ≠ none) →
      ∃ k, k ≤ i ∧ s ≤ k ∧ StoreBuffer.findAddr addrs addr m s = .ok (some k) := by
    intro m
    induction m with
    | zero => intro s h1 h2; omega
    | succ m ih =>
      intro s h1 h2 hin
      rw [StoreBuffer.findAddr]
      by_cases hsi : s = i
      · subst hsi
        rw [ha]
        simp only [if_true]
        exact ⟨s, le_refl _, le_refl _, rfl⟩
      · cases hs : addrs[s]? with
        | none => exact absurd hs (hin s (le_refl _) (by omega))
        | some a =>
          by_cases he : a = addr
          · simp only [he, if_true]
            exact ⟨s, h1, le_refl _, rfl⟩
          · simp only [he, if_false]
            obtain ⟨k, hk1, hk2, hk3⟩ := ih (s + 1) (by omega) (by omega)
              (fun j hj1 hj2 => hin j (by omega) hj2)
            exact ⟨k, hk1, by omega, hk3⟩
  have hlen : i < addrs.length := by
    by_contra hc
    rw [List.getElem?_eq_none (by omega)] at ha; cases ha
  obtain ⟨k, hk1, -, hk3⟩ := hgen n 0 (by omega) (by omega) (fun j _ hj => by
    rw [List.getElem?_eq_getElem (show j < addrs.length by omega)]; simp)
  obtain ⟨-, -, h3, h4⟩ := findAddr_some addrs addr _ _ _ hk3
  exact ⟨k, hk1, hk3, h3, fun j hj => h4 j (by omega) hj⟩

/-- C16. Store-buffer write coalescing: when some entry of the buffer holds `addr`,
`executeStore(t, occ, addr)` returns `t`, sets the availability of the lowest-indexed entry
holding `addr` to `t + occ` (a `UInt64` sum) and leaves every other availability and every
address as it was, so the store takes no further entry. -/
theorem C16_store_coalescing (b : StoreBuffer) (t occ addr i : Nat)
    (hi : i < b.m_scoreboard.length) (ha : b.m_addresses[i]? = some addr) :
    ∃ k, k ≤ i ∧ b.m_addresses[k]? = some addr
      ∧ (∀ j, j < k → b.m_addresses[j]? ≠ some addr)
      ∧ b.executeStore t occ addr
          = .ok (t, ⟨b.m_scoreboard.set k ((t + occ) % U64), b.m_addresses⟩)
      ∧ (∀ r b', b.executeStore t occ addr = .ok (r, b') →
          r = t ∧ b'.m_addresses = b.m_addresses
            ∧ b'.m_scoreboard[k]? = some ((t + occ) % U64)
            ∧ ∀ j, j ≠ k → b'.m_scoreboard[j]? = b.m_scoreboard[j]?) := by
  obtain ⟨k, hk, hf, hak, hfirst⟩ := findAddr_first b.m_addresses addr _ i hi ha
  have he : b.executeStore t occ addr
      = .ok (t, ⟨b.m_scoreboard.set k ((t + occ) % U64), b.m_addresses⟩) := by
    simp only [StoreBuffer.executeStore, hf]
  refine ⟨k, hk, hak, hfirst, he, ?_⟩
  intro r b' h
  rw [he] at h
  cases h
  refine ⟨rfl, rfl, ?_, fun j hj => ?_⟩
  · simp [List.getElem?_set, show k < b.m_scoreboard.length by omega]
  · simp [List.getElem?_set, Ne.symm hj]

/-- C16, instance: a second store to address 7 on a buffer with two entries refreshes the
entry the first store took. -/
theorem C16_store_coalescing_witness :
    ∃ k, k ≤ 0 ∧ (StoreBuffer.mk [8, 0] [7, 0]).m_addresses[k]? = some 7
      ∧ (∀ j, j < k → (StoreBuffer.mk [8, 0] [7, 0]).m_addresses[j]? ≠ some 7)
      ∧ (StoreBuffer.mk [8, 0] [7, 0]).executeStore 6 4 7
          = .ok (6, ⟨[8, 0].set k ((6 + 4) % U64), [7, 0]⟩)
      ∧ (∀ r b', (StoreBuffer.mk [8, 0] [7, 0]).executeStore 6 4 7 = .ok (r, b') →
          r = 6 ∧ b'.m_addresses = [7, 0]
            ∧ b'.m_scoreboard[k]? = some ((6 + 4) % U64)
            ∧ ∀ j, j ≠ k → b'.m_scoreboard[j]? = ([8, 0] : List Nat)[j]?) :=
  C16_store_coalescing ⟨[8, 0], [7, 0]⟩ 6 4 7 0 (by decide) (by decide)

/-- The loop over the whole vector, on a vector with at least one entry: it returns from the
lowest entry that is at most `time`, or ends with an entry holding the minimum. -/
theorem availLoop_cases (sb : List Nat) (time : Nat) (hK : 0 < sb.length) :
    (∃ i u', availLoop sb time sb.length 0 0 = .ok (some i, u') ∧ i < sb.length
        ∧ sb.getD i 0 ≤ time ∧ ∀ j, j < i → time < sb.getD j 0)
    ∨ (∃ unit, availLoop sb time sb.length 0 0 = .ok (none, unit) ∧ unit < sb.length
        ∧ (∀ j, j < sb.length → sb.getD unit 0 ≤ sb.getD j 0)
        ∧ ∀ j, j < sb.length → time < sb.getD j 0) := by
  by_cases hex : ∃ i, i < sb.length ∧ sb.getD i 0 ≤ time
  · classical
    have hi := Nat.find_spec hex
    have hfirst : ∀ j, j < Nat.find hex → time < sb.getD j 0 := by
      intro j hj
      have := Nat.find_min hex hj
      by_contra hc
      exact this ⟨by omega, by omega⟩
    obtain ⟨u', h⟩ := availLoop_first sb time _ hi.1 hi.2 hfirst
    exact Or.inl ⟨_, u', h, hi.1, hi.2, hfirst⟩
  · have hbusy : ∀ j, j < sb.length → time < sb.getD j 0 := by
      intro j hj
      by_contra hc
      exact hex ⟨j, hj, by omega⟩
    obtain ⟨unit, h, hu, hmin⟩ := availLoop_busy sb time hK hbusy
    exact Or.inr ⟨unit, h, hu, hmin, hbusy⟩

/-- What `executeStore` does on a buffer with at least one entry that satisfies the
invariant: it refreshes the lowest entry holding `addr`, or, when no entry holds `addr`,
takes an entry that is free at the returned cycle. -/
theorem executeStore_cases (b : StoreBuffer) (t occ addr : Nat) (hinv : b.Inv)
    (hK : 0 < b.m_scoreboard.length) :
    (∃ k, k < b.m_scoreboard.length ∧ b.m_addresses[k]? = some addr
        ∧ (∀ j, j < k → b.m_addresses[j]? ≠ some addr)
        ∧ b.executeStore t occ addr
            = .ok (t, ⟨b.m_scoreboard.set k ((t + occ) % U64), b.m_addresses⟩))
    ∨ ((∀ (j : Nat), b.m_addresses[j]? ≠ some addr)
        ∧ ∃ s k, k < b.m_scoreboard.length ∧ b.m_scoreboard.getD k 0 ≤ s ∧ t ≤ s
          ∧ b.executeStore t occ addr
              = .ok (s, ⟨b.m_scoreboard.set k ((s + occ) % U64), b.m_addresses.set k addr⟩)) := by
  obtain ⟨hlen, hsb, hdup⟩ := hinv
  obtain ⟨r, hr⟩ := findAddr_total b.m_addresses addr b.m_scoreboard.length 0 (by omega)
  cases r with
  | some k =>
    left
    obtain ⟨-, h2, h3, h4⟩ := findAddr_some _ _ _ _ _ hr
    exact ⟨k, by omega, h3, fun j hj => h4 j (by omega) hj, by
      simp only [StoreBuffer.executeStore, hr]⟩
  | none =>
    right
    have hno : ∀ (j : Nat), b.m_addresses[j]? ≠ some addr := by
      intro j
      by_cases hj : j < b.m_scoreboard.length
      · exact findAddr_none _ _ _ _ hr j (by omega) (by omega)
      · rw [List.getElem?_eq_none (by omega)]; simp
    refine ⟨hno, ?_⟩
    rcases availLoop_cases b.m_scoreboard t hK with ⟨i, u', hav, hi, hle, -⟩ | ⟨unit, hav, hu, -, hbusy⟩
    · refine ⟨t, i, hi, hle, le_refl _, ?_⟩
      simp only [StoreBuffer.executeStore, hr, hav]
    · have hm : b.m_scoreboard.getD unit 0 < U64 :=
        hsb _ (List.getElem?_mem (getElem?_of_lt_getD hu))
      refine ⟨b.m_scoreboard.getD unit 0, unit, hu, le_refl _, by
        have := hbusy unit hu; omega, ?_⟩
      simp only [StoreBuffer.executeStore, hr, hav, getElem?_of_lt_getD hu,
        List.getElem?_eq_getElem (show unit < b.m_addresses.length by omega),
        u64_add_sub _ _ hm]

end Graphite

namespace Graphite
open IOCOOMCoreModel

theorem StoreBuffer.new_eq (M : Nat) :
    StoreBuffer.new M = ⟨List.replicate M 0, List.replicate M 0⟩ := by
  simp [StoreBuffer.new, StoreBuffer.init]

/-- A freshly constructed store buffer satisfies the invariant. -/
theorem StoreBuffer.Inv.of_new (M : Nat) : (StoreBuffer.new M).Inv := by
  rw [StoreBuffer.new_eq]
  refine ⟨by simp, ?_, ?_⟩
  · intro v hv
    rw [(List.mem_replicate.1 hv).2]
    simp [U64]
  · intro i j a hij hi hj
    simp only [List.getElem?_replicate] at hi hj ⊢
    by_cases hjM : j < M
    · simp only [hjM, if_true, Option.some.injEq] at hj ⊢
      exact ⟨hj.symm, trivial⟩
    · simp only [hjM, if_false] at hj
      cases hj

/-- `executeStore` keeps the invariant and the number of entries. -/
theorem StoreBuffer.Inv.executeStore_keeps {b b' : StoreBuffer} {t occ addr r : Nat}
    (hinv : b.Inv) (h : b.executeStore t occ addr = .ok (r, b')) :
    b'.Inv ∧ b'.m_scoreboard.length = b.m_scoreboard.length := by
  have hK : 0 < b.m_scoreboard.length := by
    by_contra hc
    have h0 : b.m_scoreboard.length = 0 := by omega
    have hsb : b.m_scoreboard = [] := List.length_eq_zero.1 h0
    simp [StoreBuffer.executeStore, h0, StoreBuffer.findAddr, availLoop, hsb] at h
  have hU : ∀ x, x % U64 < U64 := fun x => Nat.mod_lt _ (by simp [U64])
  obtain ⟨hlen, hsb, hdup⟩ := hinv
  rcases executeStore_cases b t occ addr ⟨hlen, hsb, hdup⟩ hK with
    ⟨k, hk, hak, hfirst, he⟩ | ⟨hno, s, k, hk, -, -, he⟩
  · rw [he] at h
    cases h
    refine ⟨⟨by simpa using hlen, ?_, ?_⟩, by simp⟩
    · intro v hv
      rcases List.mem_or_eq_of_mem_set hv with h | h
      · exact hsb v h
      · rw [h]; exact hU _
    · intro i j a hij hi hj
      obtain ⟨ha0, hsj⟩ := hdup i j a hij hi hj
      refine ⟨ha0, ?_⟩
      have hjk : j ≠ k := by
        intro hjk
        subst hjk
        have : a = addr := by
          dsimp only at hj
          rw [hak] at hj
          exact (Option.some.inj hj).symm
        subst this
        exact hfirst i hij hi
      simp only [List.getElem?_set, if_neg (Ne.symm hjk)]
      exact hsj
  · rw [he] at h
    cases h
    refine ⟨⟨by simpa using hlen, ?_, ?_⟩, by simp⟩
    · intro v hv
      rcases List.mem_or_eq_of_mem_set hv with h | h
      · exact hsb v h
      · rw [h]; exact hU _
    · intro i j a hij hi hj
      simp only [List.getElem?_set] at hi hj ⊢
      by_cases hik : k = i
      · subst hik
        simp only [if_true, show k < b.m_addresses.length by omega, Option.some.injEq] at hi
        subst hi
        rw [if_neg (by omega)] at hj
        exact absurd hj (hno j)
      · rw [if_neg hik] at hi
        by_cases hjk : k = j
        · subst hjk
          simp only [if_true, show k < b.m_addresses.length by omega,
            Option.some.injEq] at hj
          subst hj
          exact absurd hi (hno i)
        · rw [if_neg hjk] at hj
          rw [if_neg hjk]
          exact hdup i j a hij hi hj

/-- A run of `executeStore` calls keeps the invariant and the number of entries. -/
theorem StoreBuffer.Inv.run_keeps :
    ∀ (calls : List (Nat × Nat × Nat)) (b b' : StoreBuffer) (starts : List Nat),
      b.Inv → b.run calls = .ok (starts, b') →
      b'.Inv ∧ b'.m_scoreboard.length = b.m_scoreboard.length := by
  intro calls
  induction calls with
  | nil =>
    intro b b' starts hinv h
    simp only [StoreBuffer.run] at h
    cases h
    exact ⟨hinv, rfl⟩
  | cons call calls ih =>
    intro b b' starts hinv h
    simp only [StoreBuffer.run] at h
    cases he : b.executeStore call.1 call.2.1 call.2.2 with
    | error e => rw [he] at h; cases h
    | ok p =>
      obtain ⟨s, b1⟩ := p
      rw [he] at h
      simp only at h
      cases hr : b1.run calls with
      | error e => rw [hr] at h; cases h
      | ok q =>
        obtain ⟨st, b2⟩ := q
        rw [hr] at h
        cases h
        obtain ⟨h1, h2⟩ := StoreBuffer.Inv.executeStore_keeps hinv he
        obtain ⟨h3, h4⟩ := ih _ _ _ h1 hr
        exact ⟨h3, by omega⟩

/-- A run of `executeStore` calls on a buffer with at least one entry returns. -/
theorem StoreBuffer.run_returns :
    ∀ (calls : List (Nat × Nat × Nat)) (b : StoreBuffer), b.Inv → 0 < b.m_scoreboard.length →
      ∃ starts b', b.run calls = .ok (starts, b') := by
  intro calls
  induction calls with
  | nil => intro b _ _; exact ⟨[], b, rfl⟩
  | cons call calls ih =>
    intro b hinv hK
    have hex : ∃ s b1, b.executeStore call.1 call.2.1 call.2.2 = .ok (s, b1) := by
      rcases executeStore_cases b call.1 call.2.1 call.2.2 hinv hK with
        ⟨k, -, -, -, he⟩ | ⟨-, s, k, -, -, -, he⟩
      · exact ⟨_, _, he⟩
      · exact ⟨_, _, he⟩
    obtain ⟨s, b1, he⟩ := hex
    obtain ⟨h1, h2⟩ := StoreBuffer.Inv.executeStore_keeps hinv he
    obtain ⟨st, b2, hr⟩ := ih b1 h1 (by omega)
    exact ⟨s :: st, b2, by simp only [StoreBuffer.run, he, hr]⟩

/-- Under the invariant an address other than 0 is held by at most one entry. -/
theorem StoreBuffer.Inv.unique_nonzero {b : StoreBuffer} (hinv : b.Inv) : b.UniqueNonzero := by
  intro i j a hi hj ha
  rcases Nat.lt_trichotomy i j with h | h | h
  · exact absurd (hinv.2.2 i j a h hi hj).1 ha
  · exact h
  · exact absurd (hinv.2.2 j i a h hj hi).1 ha

/-- C17, as claimed, fails on the fresh buffer: the constructor writes address 0 into every
entry, so with two entries address 0 is held twice in a state reached by no call at all. -/
theorem C17_fresh_entries_share_address_zero :
    ∃ b, (StoreBuffer.new 2).run [] = .ok ([], b) ∧ ¬ b.UniqueAddr := by
  refine ⟨StoreBuffer.new 2, rfl, fun h => ?_⟩
  have := h 0 1 0 (by decide) (by decide)
  omega

/-- C17. In every state reached from a freshly constructed store buffer by a sequence of
`executeStore` calls, every address other than 0 is held by at most one entry; with at least
one entry every such sequence of calls returns. -/
theorem C17_one_entry_per_nonzero_address (M : Nat) (calls : List (Nat × Nat × Nat)) :
    (∀ starts b, (StoreBuffer.new M).run calls = .ok (starts, b) → b.UniqueNonzero)
    ∧ (0 < M → ∃ starts b, (StoreBuffer.new M).run calls = .ok (starts, b)) := by
  refine ⟨fun starts b h =>
    StoreBuffer.Inv.unique_nonzero (StoreBuffer.Inv.run_keeps calls _ _ _ (StoreBuffer.Inv.of_new M) h).1,
    fun hM => StoreBuffer.run_returns calls _ (StoreBuffer.Inv.of_new M) ?_⟩
  rw [StoreBuffer.new_eq]
  simpa using hM

/-- C17, instance: after a store to address 7 on a fresh buffer with two entries, where
address 0 is still in the second entry. -/
theorem C17_one_entry_per_nonzero_address_witness :
    StoreBuffer.UniqueNonzero ⟨[8, 0], [7, 0]⟩ :=
  (C17_one_entry_per_nonzero_address 2 [(5, 3, 7)]).1 [5] ⟨[8, 0], [7, 0]⟩ (by decide)

/-- The loop of `isAddressAvailable` answers VALID when an entry in its range holds `addr`
with an availability of at least `time`. -/
theorem availableLoop_valid (b : StoreBuffer) (time addr : Nat) :
    ∀ (n i k : Nat), i + n ≤ b.m_scoreboard.length → i + n ≤ b.m_addresses.length →
      i ≤ k → k < i + n → b.m_addresses[k]? = some addr → time ≤ b.m_scoreboard.getD k 0 →
      b.availableLoop time addr n i = .ok .VALID := by
  intro n
  induction n with
  | zero => intro i k _ _ h1 h2; omega
  | succ n ih =>
    intro i k hl1 hl2 h1 h2 ha hv
    rw [StoreBuffer.availableLoop, List.getElem?_eq_getElem (show i < b.m_addresses.length by omega)]
    simp only
    rw [getElem?_of_lt_getD (show i < b.m_scoreboard.length by omega)]
    simp only
    by_cases hki : k = i
    · subst hki
      rw [List.getElem?_eq_getElem (show k < b.m_addresses.length by omega)] at ha
      simp only [Option.some.injEq] at ha
      simp only [ha, if_true, ge_iff_le, hv]
    · have hrec := ih (i + 1) k (by omega) (by omega) (by omega) (by omega) ha hv
      by_cases he : b.m_addresses[i] = addr
      · simp only [he, if_true, hrec]
        split <;> rfl
      · simp only [he, if_false, hrec]

/-- The loop of `isAddressAvailable` answers NOT_FOUND when every entry in its range that
holds `addr` has an availability below `time`. -/
theorem availableLoop_not_found (b : StoreBuffer) (time addr : Nat) :
    ∀ (n i : Nat), i + n ≤ b.m_scoreboard.length → i + n ≤ b.m_addresses.length →
      (∀ k, i ≤ k → k < i + n → b.m_addresses[k]? = some addr →
        b.m_scoreboard.getD k 0 < time) →
      b.availableLoop time addr n i = .ok .NOT_FOUND := by
  intro n
  induction n with
  | zero => intro i _ _ _; rfl
  | succ n ih =>
    intro i hl1 hl2 hall
    rw [StoreBuffer.availableLoop, List.getElem?_eq_getElem (show i < b.m_addresses.length by omega)]
    simp only
    rw [getElem?_of_lt_getD (show i < b.m_scoreboard.length by omega)]
    simp only
    have hrec := ih (i + 1) (by omega) (by omega)
      (fun k h1 h2 h3 => hall k (by omega) (by omega) h3)
    by_cases he : b.m_addresses[i] = addr
    · have := hall i (le_refl _) (by omega) (by
        rw [List.getElem?_eq_getElem (show i < b.m_addresses.length by omega), he])
      simp only [he, if_true, ge_iff_le, hrec, if_neg (show ¬ time ≤ b.m_scoreboard.getD i 0 by omega)]
    · simp only [he, if_false, hrec]

/-- C18. Store-to-load forwarding window: in every state reached from a freshly constructed
store buffer by `executeStore` calls, when `executeStore(t, occ, a)` returns `r` and
`r + occ` is a `UInt64` value, then right afterwards `isAddressAvailable(t', a)` is VALID
when `t' <= r + occ` and NOT_FOUND otherwise. -/
theorem C18_forwarding_window (M : Nat) (calls : List (Nat × Nat × Nat)) (starts : List Nat)
    (b b' : StoreBuffer) (t occ a r t' : Nat)
    (hreach : (StoreBuffer.new M).run calls = .ok (starts, b))
    (hstore : b.executeStore t occ a = .ok (r, b')) (hfit : r + occ < U64) :
    b'.isAddressAvailable t' a = .ok (if t' ≤ r + occ then .VALID else .NOT_FOUND) := by
  have hinv := (StoreBuffer.Inv.run_keeps calls _ _ _ (StoreBuffer.Inv.of_new M) hreach).1
  obtain ⟨hinv', hlen'⟩ := StoreBuffer.Inv.executeStore_keeps hinv hstore
  have hK : 0 < b.m_scoreboard.length := by
    by_contra hc
    have h0 : b.m_scoreboard.length = 0 := by omega
    have hsb : b.m_scoreboard = [] := List.length_eq_zero.1 h0
    simp [StoreBuffer.executeStore, h0, StoreBuffer.findAddr, availLoop, hsb] at hstore
  -- the entry `k` that holds `a` after the store, with availability `r + occ`; every other
  -- entry holding `a` has availability 0
  have hkey : ∃ k, k < b'.m_scoreboard.length ∧ b'.m_addresses[k]? = some a
      ∧ b'.m_scoreboard.getD k 0 = r + occ
      ∧ ∀ j, j ≠ k → b'.m_addresses[j]? = some a → b'.m_scoreboard.getD j 0 = 0 := by
    rcases executeStore_cases b t occ a hinv hK with
      ⟨k, hk, hak, hfirst, he⟩ | ⟨hno, s, k, hk, -, -, he⟩
    · rw [he] at hstore
      cases hstore
      rw [Nat.mod_eq_of_lt hfit] at hinv' ⊢
      refine ⟨k, by simpa using hk, hak, ?_, ?_⟩
      · simp [List.getD, List.getElem?_set, hk]
      · intro j hjk hj
        have hkj : k < j := by
          rcases Nat.lt_or_gt_of_ne hjk with h | h
          · exact absurd hj (hfirst j h)
          · exact h
        exact getD_of_getElem? (hinv'.2.2 k j a hkj hak hj).2
    · rw [he] at hstore
      cases hstore
      rw [Nat.mod_eq_of_lt hfit] at hinv' ⊢
      have hka : k < b.m_addresses.length := by have := hinv.1; omega
      refine ⟨k, by simpa using hk, by simp [List.getElem?_set, hka], ?_, ?_⟩
      · simp [List.getD, List.getElem?_set, hk]
      · intro j hjk hj
        simp only [List.getElem?_set, if_neg (Ne.symm hjk)] at hj
        exact absurd hj (hno j)
  obtain ⟨k, hk, hak, hvk, hothers⟩ := hkey
  have hl := hinv'.1
  by_cases hle : t' ≤ r + occ
  · rw [if_pos hle]
    exact availableLoop_valid b' t' a _ 0 k (by omega) (by omega) (by omega) (by omega)
      hak (by omega)
  · rw [if_neg hle]
    refine availableLoop_not_found b' t' a _ 0 (by omega) (by omega) (fun j _ _ hj => ?_)
    by_cases hjk : j = k
    · subst hjk; omega
    · have := hothers j hjk hj; omega

/-- C18, instance: two entries, a store `(t = 5, occ = 3)` to address 7; a query at cycle 6
is VALID and a query at cycle 100 is NOT_FOUND. -/
theorem C18_forwarding_window_witness :
    StoreBuffer.isAddressAvailable ⟨[8, 0], [7, 0]⟩ 6 7
        = .ok (if 6 ≤ 5 + 3 then .VALID else .NOT_FOUND)
      ∧ StoreBuffer.isAddressAvailable ⟨[8, 0], [7, 0]⟩ 100 7
        = .ok (if 100 ≤ 5 + 3 then .VALID else .NOT_FOUND) :=
  ⟨C18_forwarding_window 2 [] [] (StoreBuffer.new 2) ⟨[8, 0], [7, 0]⟩ 5 3 7 5 6
      (by decide) (by decide) (by decide),
    C18_forwarding_window 2 [] [] (StoreBuffer.new 2) ⟨[8, 0], [7, 0]⟩ 5 3 7 5 100
      (by decide) (by decide) (by decide)⟩

end Graphite

namespace Graphite
open IOCOOMCoreModel

/-! ## `executeLoad` and `handleInstruction` -/

/-- The loop of `isAddressAvailable` stays inside the two vectors. -/
theorem availableLoop_total (b : StoreBuffer) (time addr : Nat) :
    ∀ (n i : Nat), i + n ≤ b.m_scoreboard.length → i + n ≤ b.m_addresses.length →
      b.availableLoop time addr n i = .ok .VALID
        ∨ b.availableLoop time addr n i = .ok .NOT_FOUND := by
  intro n
  induction n with
  | zero => intro i _ _; exact Or.inr rfl
  | succ n ih =>
    intro i hl1 hl2
    rw [StoreBuffer.availableLoop,
      List.getElem?_eq_getElem (show i < b.m_addresses.length by omega)]
    simp only
    rw [getElem?_of_lt_getD (show i < b.m_scoreboard.length by omega)]
    simp only
    have hrec := ih (i + 1) (by omega) (by omega)
    by_cases he : b.m_addresses[i] = addr
    · simp only [he, if_true]
      by_cases hv : b.m_scoreboard.getD i 0 ≥ time
      · simp only [hv, if_true]; exact Or.inl trivial
      · simp only [hv, if_false]; exact hrec
    · simp only [he, if_false]; exact hrec

/-- C19. Load bypass: when the store buffer answers VALID for `(t, addr)`, `executeLoad`
returns `(t, 0)` and leaves the model, and so the load unit, as it was; when it answers
NOT_FOUND, `executeLoad` returns `(LoadUnit.execute(t, latency), latency)` with the load
unit as that call leaves it; and the store buffer gives one of these two answers whenever
its two vectors have the same size. -/
theorem C19_load_bypass (m : IOCOOMCoreModel) (t : Nat) (info : DynamicInstructionInfo) :
    (m.m_store_buffer.isAddressAvailable t info.memory_info.addr = .ok .VALID →
        m.executeLoad t info = .ok ((t, 0), m))
    ∧ (m.m_store_buffer.isAddressAvailable t info.memory_info.addr = .ok .NOT_FOUND →
        m.executeLoad t info
          = (match m.m_load_unit.execute t info.memory_info.latency with
             | .error e => .error e
             | .ok (start, lu) =>
               .ok ((start, info.memory_info.latency), { m with m_load_unit := lu })))
    ∧ (m.m_store_buffer.m_addresses.length = m.m_store_buffer.m_scoreboard.length →
        m.m_store_buffer.isAddressAvailable t info.memory_info.addr = .ok .VALID
          ∨ m.m_store_buffer.isAddressAvailable t info.memory_info.addr = .ok .NOT_FOUND) := by
  refine ⟨fun h => ?_, fun h => ?_, fun h => ?_⟩
  · simp only [IOCOOMCoreModel.executeLoad, h, if_true]
  · simp only [IOCOOMCoreModel.executeLoad, h]
    rfl
  · exact availableLoop_total _ _ _ _ _ (by omega) (by omega)

theorem Spec.maxOf_nil (t : Nat) : Spec.maxOf t [] = t := rfl

theorem Spec.maxOf_cons (t v : Nat) (l : List Nat) :
    Spec.maxOf t (v :: l) = Spec.maxOf (max t v) l := rfl

theorem Spec.maxOf_append (t : Nat) (l1 l2 : List Nat) :
    Spec.maxOf t (l1 ++ l2) = Spec.maxOf (Spec.maxOf t l1) l2 := by
  simp [Spec.maxOf, List.foldl_append]

theorem ite_lt_eq_max (a b : Nat) : (if a < b then b else a) = max a b := by
  by_cases h : a < b
  · simp [h, Nat.max_eq_right (Nat.le_of_lt h)]
  · simp [h, Nat.max_eq_left (Nat.le_of_not_lt h)]

/-- The first loop gives the maximum of its start value and the scoreboard entries of the
REG READ operands. -/
theorem regReadLoop_spec (m : IOCOOMCoreModel) :
    ∀ (ops : List Operand) (t r : Nat), regReadLoop m ops t = .ok r →
      r = Spec.maxOf t (Spec.regReadEntries m.m_register_scoreboard ops) := by
  intro ops
  induction ops with
  | nil => intro t r h; simp only [regReadLoop] at h; cases h; rfl
  | cons o ops ih =>
    intro t r h
    rw [regReadLoop] at h
    by_cases hsel : o.m_direction ≠ .READ ∨ o.m_type ≠ .REG
    · rw [if_pos hsel] at h
      have hn : ¬ (o.m_direction = .READ ∧ o.m_type = .REG) := by
        rintro ⟨h1, h2⟩; rcases hsel with h | h <;> contradiction
      rw [ih _ _ h]
      simp only [Spec.regReadEntries, List.filterMap_cons, if_neg hn]
    · rw [if_neg hsel] at h
      have hy : o.m_direction = .READ ∧ o.m_type = .REG := by
        constructor
        · by_contra hc; exact hsel (Or.inl hc)
        · by_contra hc; exact hsel (Or.inr hc)
      by_cases hlt : o.m_value < m.m_register_scoreboard.length
      · rw [if_pos hlt] at h
        cases hv : m.m_register_scoreboard[o.m_value]? with
        | none => rw [hv] at h; cases h
        | some v =>
          rw [hv] at h
          simp only at h
          rw [ih _ _ h, ite_lt_eq_max]
          simp only [Spec.regReadEntries, List.filterMap_cons, if_pos hy, hv,
            Spec.maxOf_cons]
      · rw [if_neg hlt] at h
        cases h

theorem executeLoad_cycle {m m1 : IOCOOMCoreModel} {t : Nat} {info : DynamicInstructionInfo}
    {r : Nat × Nat} (h : m.executeLoad t info = .ok (r, m1)) :
    m1.m_cycle_count = m.m_cycle_count := by
  simp only [IOCOOMCoreModel.executeLoad] at h
  cases hs : m.m_store_buffer.isAddressAvailable t info.memory_info.addr with
  | error e => rw [hs] at h; cases h
  | ok st =>
    rw [hs] at h
    simp only at h
    by_cases hv : st = .VALID
    · rw [if_pos hv] at h; cases h; rfl
    · rw [if_neg hv] at h
      cases hl : m.m_load_unit.execute t info.memory_info.latency with
      | error e => rw [hl] at h; cases h
      | ok p =>
        obtain ⟨s, lu⟩ := p
        rw [hl] at h
        cases h
        rfl

/-- The second loop, against the loads in the words of the specification. -/
theorem memoryLoop_spec :
    ∀ (ops : List Operand) (m m2 : IOCOOMCoreModel) (rr rc rr' rc' : Nat)
      (wi wi' : List DynamicInstructionInfo),
      memoryLoop ops m rr rc wi = .ok (m2, rr', rc', wi') →
      ∃ loads writes, Spec.loadTimings m.m_cycle_count ops m = .ok (loads, writes, m2)
        ∧ rr' = Spec.maxOf rr (loads.map (fun l => l.1))
        ∧ rc' = Spec.maxOf rc (loads.map (fun l => (l.1 + l.2) % U64))
        ∧ wi' = wi ++ writes ∧ m2.m_cycle_count = m.m_cycle_count
        ∧ m2.m_register_scoreboard = m.m_register_scoreboard := by
  intro ops
  induction ops with
  | nil =>
    intro m m2 rr rc rr' rc' wi wi' h
    simp only [memoryLoop] at h
    cases h
    exact ⟨[], [], rfl, rfl, rfl, by simp, rfl, rfl⟩
  | cons o ops ih =>
    intro m m2 rr rc rr' rc' wi wi' h
    rw [memoryLoop] at h
    by_cases hmem : o.m_type = .MEMORY
    · rw [if_neg (by simpa using hmem)] at h
      cases hg : m.getDynamicInstructionInfo with
      | error e => rw [hg] at h; cases h
      | ok info =>
        rw [hg] at h
        simp only at h
        by_cases hrd : o.m_direction = .READ
        · rw [if_pos hrd] at h
          by_cases hty : info.type = .MEMORY_READ
          · rw [if_pos hty] at h
            cases hl : m.executeLoad m.m_cycle_count info with
            | error e => rw [hl] at h; cases h
            | ok p =>
              obtain ⟨⟨lr, ll⟩, m1⟩ := p
              rw [hl] at h
              simp only at h
              have hc := executeLoad_cycle hl
              obtain ⟨loads, writes, h1, h2, h3, h4, h5, h6⟩ := ih _ _ _ _ _ _ _ _ h
              have hsb1 : m1.m_register_scoreboard = m.m_register_scoreboard := by
                simp only [IOCOOMCoreModel.executeLoad] at hl
                cases hs : m.m_store_buffer.isAddressAvailable m.m_cycle_count
                    info.memory_info.addr with
                | error e => rw [hs] at hl; cases hl
                | ok st =>
                  rw [hs] at hl
                  simp only at hl
                  by_cases hv : st = .VALID
                  · rw [if_pos hv] at hl; cases hl; rfl
                  · rw [if_neg hv] at hl
                    cases hx : m.m_load_unit.execute m.m_cycle_count
                        info.memory_info.latency with
                    | error e => rw [hx] at hl; cases hl
                    | ok q =>
                      obtain ⟨s, lu⟩ := q
                      rw [hx] at hl
                      cases hl
                      rfl
              refine ⟨(lr, ll) :: loads, writes, ?_, ?_, ?_, h4, ?_, ?_⟩
              · simp only [Spec.loadTimings, if_pos hmem, hg, if_pos hrd, hl]
                have : m1.popDynamicInstructionInfo.m_cycle_count = m.m_cycle_count := hc
                rw [this] at h1
                simp only [h1]
              · rw [h2, ite_lt_eq_max]; rfl
              · rw [h3, ite_lt_eq_max]; rfl
              · rw [h5]; exact hc
              · rw [h6]; exact hsb1
          · rw [if_neg hty] at h; cases h
        · rw [if_neg hrd] at h
          by_cases hty : info.type = .MEMORY_WRITE
          · rw [if_pos hty] at h
            obtain ⟨loads, writes, h1, h2, h3, h4, h5, h6⟩ := ih _ _ _ _ _ _ _ _ h
            refine ⟨loads, info :: writes, ?_, h2, h3, ?_, h5, h6⟩
            · simp only [Spec.loadTimings, if_pos hmem, hg, if_neg hrd]
              have : m.popDynamicInstructionInfo.m_cycle_count = m.m_cycle_count := rfl
              rw [this] at h1
              simp only [h1]
            · rw [h4]; simp
          · rw [if_neg hty] at h; cases h
    · rw [if_pos (by simpa using hmem)] at h
      obtain ⟨loads, writes, h1, h2, h3, h4, h5, h6⟩ := ih _ _ _ _ _ _ _ _ h
      exact ⟨loads, writes, by simp only [Spec.loadTimings, if_neg hmem, h1], h2, h3, h4,
        h5, h6⟩

/-- The third loop leaves `write_operands_ready` at the completion time of the execution
unit, from which it starts. -/
theorem regWriteLoop_ready (e : Nat) :
    ∀ (ops : List Operand) (sb sb' : List Nat) (w w' : Nat),
      regWriteLoop e ops sb w = .ok (sb', w') → e ≤ w → w' = w := by
  intro ops
  induction ops with
  | nil => intro sb sb' w w' h _; simp only [regWriteLoop] at h; cases h; rfl
  | cons o ops ih =>
    intro sb sb' w w' h hw
    rw [regWriteLoop] at h
    by_cases hsel : o.m_direction ≠ .WRITE ∨ o.m_type ≠ .REG
    · rw [if_pos hsel] at h
      exact ih _ _ _ _ h hw
    · rw [if_neg hsel] at h
      by_cases hlt : o.m_value < sb.length
      · rw [if_pos hlt, if_neg (by omega)] at h
        exact ih _ _ _ _ h hw
      · rw [if_neg hlt] at h
        cases h

theorem Spec.hasMemoryWrite_cons (o : Operand) (ops : List Operand) :
    Spec.hasMemoryWrite (o :: ops)
      = (decide (o.m_direction = .WRITE ∧ o.m_type = .MEMORY) || Spec.hasMemoryWrite ops) := by
  simp only [Spec.hasMemoryWrite, List.any_cons]

/-- The fourth loop, against the stores in the words of the specification. -/
theorem memWriteLoop_spec (e : Nat) :
    ∀ (ops : List Operand) (m m3 : IOCOOMCoreModel) (w w' : Nat)
      (wi wi' : List DynamicInstructionInfo) (has has' : Bool),
      memWriteLoop e ops m w wi has = .ok (m3, w', wi', has') →
      ∃ used stores, wi = used ++ wi'
        ∧ Spec.storeTimes e used m.m_store_buffer = .ok (stores, m3.m_store_buffer)
        ∧ w' = Spec.maxOf w stores ∧ has' = (has || Spec.hasMemoryWrite ops) := by
  intro ops
  induction ops with
  | nil =>
    intro m m3 w w' wi wi' has has' h
    simp only [memWriteLoop] at h
    cases h
    exact ⟨[], [], rfl, rfl, rfl, by simp [Spec.hasMemoryWrite]⟩
  | cons o ops ih =>
    intro m m3 w w' wi wi' has has' h
    simp only [memWriteLoop] at h
    by_cases hsel : o.m_direction ≠ .WRITE ∨ o.m_type ≠ .MEMORY
    · rw [if_pos hsel] at h
      obtain ⟨used, stores, h1, h2, h3, h4⟩ := ih _ _ _ _ _ _ _ _ h
      have hn : ¬ (o.m_direction = .WRITE ∧ o.m_type = .MEMORY) := by
        rintro ⟨h1, h2⟩; rcases hsel with h | h <;> contradiction
      exact ⟨used, stores, h1, h2, h3, by
        rw [h4, Spec.hasMemoryWrite_cons, decide_eq_false hn]; simp⟩
    · rw [if_neg hsel] at h
      have hy : o.m_direction = .WRITE ∧ o.m_type = .MEMORY := by
        constructor
        · by_contra hc; exact hsel (Or.inl hc)
        · by_contra hc; exact hsel (Or.inr hc)
      cases wi with
      | nil => cases h
      | cons info rest =>
        simp only at h
        cases hs : m.executeStore e info with
        | error er => rw [hs] at h; cases h
        | ok p =>
          obtain ⟨st, m1⟩ := p
          rw [hs] at h
          simp only at h
          obtain ⟨used, stores, h1, h2, h3, h4⟩ := ih _ _ _ _ _ _ _ _ h
          simp only [IOCOOMCoreModel.executeStore] at hs
          cases hb : m.m_store_buffer.executeStore e info.memory_info.latency
              info.memory_info.addr with
          | error er => rw [hb] at hs; cases hs
          | ok q =>
            obtain ⟨r, b1⟩ := q
            rw [hb] at hs
            cases hs
            refine ⟨info :: used, st :: stores, by rw [h1]; rfl, ?_, ?_, ?_⟩
            · simp only [Spec.storeTimes, hb]
              simp only at h2
              simp only [h2]
            · rw [h3, ite_lt_eq_max]; rfl
            · rw [h4, Spec.hasMemoryWrite_cons, decide_eq_true hy]; simp

/-- C20. Three-way cycle advance: when `handleInstruction` runs to its end, then with `t'`
the old `m_cycle_count` plus the instruction-cache latency, `read_ready` the maximum of
`t'`, the scoreboard entries of the REG READ operands and the start cycles of the loads,
`read_complete` the maximum of `t'`, those entries and each load's start + latency, and
`write_ready` the maximum of `read_complete + cost` and the cycles the store buffer returns,
the new `m_cycle_count` is `read_ready + 1` for a simple memory load, else
`read_complete + 1` without a MEMORY WRITE operand, else `write_ready + 1` (all sums are
`UInt64` sums). -/
theorem C20_three_way_cycle_advance (readInstructionMemory : Nat → Nat)
    (m m' : IOCOOMCoreModel) (instruction : Instruction)
    (h : m.handleInstruction readInstructionMemory instruction = .ok (.completed m')) :
    ∃ cost loads writes m2 stores,
      instruction.getCost = some cost
      ∧ Spec.loadTimings ((m.m_cycle_count + readInstructionMemory instruction.getAddress) % U64)
          instruction.getOperands (m.modelIcache readInstructionMemory instruction.getAddress)
          = .ok (loads, writes, m2)
      ∧ Spec.storeTimes
          ((Spec.read_complete
              ((m.m_cycle_count + readInstructionMemory instruction.getAddress) % U64)
              (Spec.regReadEntries m.m_register_scoreboard instruction.getOperands) loads
            + cost) % U64)
          writes m2.m_store_buffer = .ok (stores, m'.m_store_buffer)
      ∧ m'.m_cycle_count
          = Spec.nextCycle instruction.isSimpleMemoryLoad
              (Spec.hasMemoryWrite instruction.getOperands)
              (Spec.read_ready
                ((m.m_cycle_count + readInstructionMemory instruction.getAddress) % U64)
                (Spec.regReadEntries m.m_register_scoreboard instruction.getOperands) loads)
              (Spec.read_complete
                ((m.m_cycle_count + readInstructionMemory instruction.getAddress) % U64)
                (Spec.regReadEntries m.m_register_scoreboard instruction.getOperands) loads)
              (Spec.write_ready
                (Spec.read_complete
                  ((m.m_cycle_count + readInstructionMemory instruction.getAddress) % U64)
                  (Spec.regReadEntries m.m_register_scoreboard instruction.getOperands) loads)
                cost stores) := by
  simp only [IOCOOMCoreModel.handleInstruction] at h
  cases hcost : instruction.getCost with
  | none => rw [hcost] at h; cases h
  | some cost =>
    rw [hcost] at h
    simp only at h
    cases h1 : regReadLoop (m.modelIcache readInstructionMemory instruction.getAddress)
        instruction.getOperands
        (m.modelIcache readInstructionMemory instruction.getAddress).m_cycle_count with
    | error e => rw [h1] at h; cases h
    | ok rr0 =>
      rw [h1] at h
      simp only at h
      cases h2 : memoryLoop instruction.getOperands
          (m.modelIcache readInstructionMemory instruction.getAddress) rr0 rr0 [] with
      | error e => rw [h2] at h; cases h
      | ok p2 =>
        obtain ⟨m2, rr, rc, wi⟩ := p2
        rw [h2] at h
        simp only at h
        cases h3 : regWriteLoop ((rc + cost) % U64) instruction.getOperands
            m2.m_register_scoreboard ((rc + cost) % U64) with
        | error e => rw [h3] at h; cases h
        | ok p3 =>
          obtain ⟨sb, w⟩ := p3
          rw [h3] at h
          simp only at h
          cases h4 : memWriteLoop ((rc + cost) % U64) instruction.getOperands
              { m2 with m_register_scoreboard := sb } w wi false with
          | error e => rw [h4] at h; cases h
          | ok p4 =>
            obtain ⟨m3, w', wi', has⟩ := p4
            rw [h4] at h
            simp only at h
            by_cases hemp : wi'.isEmpty = true
            · rw [if_pos hemp] at h
              simp only [Except.ok.injEq, Handled.completed.injEq] at h
              have hrr0 := regReadLoop_spec _ _ _ _ h1
              obtain ⟨loads, writes, l1, l2, l3, l4, l5, l6⟩ := memoryLoop_spec _ _ _ _ _ _ _ _ _ h2
              have hw := regWriteLoop_ready _ _ _ _ _ _ h3 (le_refl _)
              obtain ⟨used, stores, s1, s2, s3, s4⟩ := memWriteLoop_spec _ _ _ _ _ _ _ _ _ _ h4
              have hwi' : wi' = [] := List.isEmpty_iff.1 hemp
              have hcyc : (m.modelIcache readInstructionMemory instruction.getAddress).m_cycle_count
                  = (m.m_cycle_count + readInstructionMemory instruction.getAddress) % U64 := rfl
              have hsbm : (m.modelIcache readInstructionMemory
                  instruction.getAddress).m_register_scoreboard = m.m_register_scoreboard := rfl
              rw [hcyc] at l1 hrr0
              rw [hsbm] at hrr0
              have hrc : rc = Spec.read_complete
                  ((m.m_cycle_count + readInstructionMemory instruction.getAddress) % U64)
                  (Spec.regReadEntries m.m_register_scoreboard instruction.getOperands)
                  loads := by
                rw [l3, hrr0, Spec.read_complete, Spec.maxOf_append]
              have hrr : rr = Spec.read_ready
                  ((m.m_cycle_count + readInstructionMemory instruction.getAddress) % U64)
                  (Spec.regReadEntries m.m_register_scoreboard instruction.getOperands)
                  loads := by
                rw [l2, hrr0, Spec.read_ready, Spec.maxOf_append]
              have hused : used = writes := by
                rw [hwi', List.append_nil] at s1
                rw [← s1, l4]; simp
              subst hused
              refine ⟨cost, loads, used, m2, stores, rfl, l1, ?_, ?_⟩
              · rw [← hrc, ← h]
                exact s2
              · rw [← h, ← hrr, ← hrc]
                simp only [Spec.nextCycle, Spec.write_ready]
                rw [s4, s3, hw]
                simp
            · rw [if_neg hemp] at h
              cases h

section
set_option maxRecDepth 100000

/-- C20, instance: the instruction `loadStore` on the fresh model `core`; the load starts at
cycle 1 and completes at 11, the store returns 14, and the next cycle is 15. -/
theorem C20_three_way_cycle_advance_witness :
    ∃ cost loads writes m2 stores,
      Examples.loadStore.getCost = some cost
      ∧ Spec.loadTimings
          ((Examples.core.m_cycle_count + Examples.oneCycle Examples.loadStore.getAddress) % U64)
          Examples.loadStore.getOperands
          (Examples.core.modelIcache Examples.oneCycle Examples.loadStore.getAddress)
          = .ok (loads, writes, m2)
      ∧ Spec.storeTimes
          ((Spec.read_complete
              ((Examples.core.m_cycle_count
                + Examples.oneCycle Examples.loadStore.getAddress) % U64)
              (Spec.regReadEntries Examples.core.m_register_scoreboard
                Examples.loadStore.getOperands) loads
            + cost) % U64)
          writes m2.m_store_buffer = .ok (stores, Examples.afterLoadStore.m_store_buffer)
      ∧ Examples.afterLoadStore.m_cycle_count
          = Spec.nextCycle Examples.loadStore.isSimpleMemoryLoad
              (Spec.hasMemoryWrite Examples.loadStore.getOperands)
              (Spec.read_ready
                ((Examples.core.m_cycle_count
                  + Examples.oneCycle Examples.loadStore.getAddress) % U64)
                (Spec.regReadEntries Examples.core.m_register_scoreboard
                  Examples.loadStore.getOperands) loads)
              (Spec.read_complete
                ((Examples.core.m_cycle_count
                  + Examples.oneCycle Examples.loadStore.getAddress) % U64)
                (Spec.regReadEntries Examples.core.m_register_scoreboard
                  Examples.loadStore.getOperands) loads)
              (Spec.write_ready
                (Spec.read_complete
                  ((Examples.core.m_cycle_count
                    + Examples.oneCycle Examples.loadStore.getAddress) % U64)
                  (Spec.regReadEntries Examples.core.m_register_scoreboard
                    Examples.loadStore.getOperands) loads)
                cost stores) :=
  C20_three_way_cycle_advance Examples.oneCycle Examples.core Examples.afterLoadStore
    Examples.loadStore (by decide)

/-- C19, instance: after `loadStore` the store buffer holds address 128 until cycle 18, so a
load of address 128 at cycle 15 is bypassed; a load of address 64 goes to the load unit. -/
theorem C19_load_bypass_witness :
    Examples.afterLoadStore.executeLoad 15 ⟨.MEMORY_READ, ⟨128, 10⟩⟩
        = .ok ((15, 0), Examples.afterLoadStore)
      ∧ Examples.core.executeLoad 1 ⟨.MEMORY_READ, ⟨64, 10⟩⟩
        = (match Examples.core.m_load_unit.execute 1 10 with
           | .error e => .error e
           | .ok (start, lu) => .ok ((start, 10), { Examples.core with m_load_unit := lu })) :=
  ⟨(C19_load_bypass Examples.afterLoadStore 15 ⟨.MEMORY_READ, ⟨128, 10⟩⟩).1 (by decide),
    (C19_load_bypass Examples.core 1 ⟨.MEMORY_READ, ⟨64, 10⟩⟩).2.1 (by decide)⟩

/-- The instruction `loadStore` on the fresh model `core` leaves the cycle count at 15. -/
theorem loadStore_cycle : Examples.afterLoadStore.m_cycle_count = 15 := by decide

end

end Graphite

namespace Graphite
open Cache

/-! ## Which calls of `accessSingleLine` return -/

/-- `memcpy` inside both arrays succeeds. -/
theorem memcpy_total (dst : List Nat) (dpos : Nat) (src : List Nat) (spos n : Nat)
    (h1 : spos + n ≤ src.length) (h2 : dpos + n ≤ dst.length) :
    ∃ r, memcpy dst dpos src spos n = .ok r := by
  unfold memcpy
  rw [if_pos ⟨h1, h2⟩]
  exact ⟨_, rfl⟩

/-- The payload transfer succeeds on a slot inside the block array when offset + bytes is
within the block and the payload buffer holds `bytes` bytes. -/
theorem transfer_total (c : CacheBase) (sets : List RoundRobin) (index slot addr : Nat)
    (t : AccessType) (buff : Option (List Nat)) (bytes : Nat) (set : RoundRobin)
    (hs : sets[index]? = some set) (hoff : c.lineOffset addr + bytes ≤ set.blocksize)
    (hpos : slot * set.blocksize + set.blocksize ≤ set.m_blocks.length)
    (hU : slot * set.blocksize + set.blocksize < U32)
    (hb : ∀ b, buff = some b → bytes ≤ b.length) :
    ∃ r, transfer c sets index slot addr t buff bytes = .ok r := by
  have hmod1 : (c.lineOffset addr + bytes) % U32 = c.lineOffset addr + bytes :=
    Nat.mod_eq_of_lt (by omega)
  have hmod2 : (slot * set.blocksize + c.lineOffset addr) % U32
      = slot * set.blocksize + c.lineOffset addr := Nat.mod_eq_of_lt (by omega)
  unfold transfer
  rw [hs]
  cases t with
  | k_ACCESS_TYPE_LOAD =>
    simp only [RoundRobin.read_line, hmod1, hoff, if_true, hmod2]
    cases buff with
    | none => exact ⟨_, rfl⟩
    | some b =>
      simp only
      by_cases hz : bytes ≠ 0
      · rw [if_pos hz]
        obtain ⟨r, hr⟩ := memcpy_total b 0 set.m_blocks (slot * set.blocksize + c.lineOffset addr)
          bytes (by omega) (by have := hb b rfl; omega)
        rw [hr]
        exact ⟨_, rfl⟩
      · rw [if_neg hz]
        exact ⟨_, rfl⟩
  | k_ACCESS_TYPE_STORE =>
    simp only [RoundRobin.write_line, hmod1, hoff, if_true, hmod2]
    cases buff with
    | none => exact ⟨_, rfl⟩
    | some b =>
      simp only
      by_cases hz : bytes ≠ 0
      · rw [if_pos hz]
        obtain ⟨r, hr⟩ := memcpy_total set.m_blocks (slot * set.blocksize + c.lineOffset addr)
          b 0 bytes (by have := hb b rfl; omega) (by omega)
        rw [hr]
        exact ⟨_, rfl⟩
      · rw [if_neg hz]
        exact ⟨_, rfl⟩

/-- `replace` succeeds on a well-shaped set when the fill buffer and the eviction buffer, if
given, hold a block. -/
theorem replace_total {P : TParams} {s : RoundRobin} (hP : P.WF) (hs : s.WF P)
    (tag : CacheTag) (fill : Option (List Nat)) (ev : Option Bool) (et : Option CacheTag)
    (eb : Option (List Nat)) (hfill : ∀ fb, fill = some fb → s.blocksize ≤ fb.length)
    (heb : ∀ b, eb = some b → s.blocksize ≤ b.length) :
    ∃ rep, s.replace P tag fill ev et eb = .ok rep := by
  obtain ⟨h1, h2, h3, h4, h5⟩ := hs
  obtain ⟨hp1, hp2⟩ := RoundRobin.WF.block_pos hP ⟨h1, h2, h3, h4, h5⟩ h4
  have hmod : (s.next_replace_index * s.blocksize) % U32 = s.next_replace_index * s.blocksize :=
    Nat.mod_eq_of_lt (by omega)
  have hlt : s.next_replace_index < s.m_tags.length := by omega
  unfold RoundRobin.replace
  simp only [List.getElem?_eq_getElem hlt, hmod, if_pos (show s.next_replace_index
    < P.k_MAX_ASSOCIATIVITY by omega)]
  have hevict : ∀ b, eb = some b → ∃ r,
      memcpy b 0 s.m_blocks (s.next_replace_index * s.blocksize) s.blocksize = .ok r :=
    fun b hb => memcpy_total b 0 s.m_blocks (s.next_replace_index * s.blocksize)
      s.blocksize (by omega) (by have := heb b hb; omega)
  cases fill with
  | none =>
    by_cases hv : (s.m_tags[s.next_replace_index]).isValid = true
    · rw [if_pos hv]
      cases eb with
      | none => exact ⟨_, rfl⟩
      | some b =>
        obtain ⟨r, hr⟩ := hevict b rfl
        simp only [hr]
        exact ⟨_, rfl⟩
    · rw [if_neg hv]
      exact ⟨_, rfl⟩
  | some fb =>
    obtain ⟨r2, hr2⟩ := memcpy_total s.m_blocks (s.next_replace_index * s.blocksize) fb 0
      s.blocksize (by have := hfill fb rfl; omega) (by omega)
    by_cases hv : (s.m_tags[s.next_replace_index]).isValid = true
    · rw [if_pos hv]
      cases eb with
      | none =>
        simp only [hr2]
        exact ⟨_, rfl⟩
      | some b =>
        obtain ⟨r, hr⟩ := hevict b rfl
        simp only [hr, hr2]
        exact ⟨_, rfl⟩
    · rw [if_neg hv]
      simp only [hr2]
      exact ⟨_, rfl⟩

/-- C13, as claimed, fails: a load that asks for four bytes without a payload buffer stops at
the first argument assertion of `accessSingleLine`. -/
theorem C13_payload_without_buffer_asserts :
    Examples.icache.accessSingleLine Examples.P0 0x100 .k_ACCESS_TYPE_LOAD
      { Examples.noArgs with bytes := 4 } = .error .assertion := by
  decide

/-- C13. `accessSingleLine` returns on every well-shaped cache, for every address and access
type, when the arguments pass the three argument assertions, offset + bytes stays inside the
line, the payload, fill and eviction buffers that are given hold `bytes` bytes resp. a line,
the generator draws below its limit, and the lookup returns (it always does with a search
depth of at most one). -/
theorem C13_access_returns (P : TParams) (c : Cache) (addr : Nat) (t : AccessType)
    (a : AccessArgs) (hwf : c.WF P) (has : a.asserts)
    (hl : c.max_search ≤ 1 ∨ ∃ p, lookup P c addr = .ok p)
    (hfit : addr % c.line_size + a.bytes ≤ c.line_size)
    (hbuff : ∀ b, a.buff = some b → a.bytes ≤ b.length)
    (hfill : ∀ fb, a.fill_buff = some fb → c.line_size ≤ fb.length)
    (hevb : ∀ eb, a.evict_buff = some eb → c.line_size ≤ eb.length)
    (hrand : ∀ s n, 0 < n → (P.rand_next s n).1 < n) :
    ∃ r, c.accessSingleLine P addr t a = .ok r := by
  have hP : P.WF := hwf.1
  obtain ⟨p, hlk⟩ : ∃ p, lookup P c addr = .ok p := by
    rcases hl with h | h
    · exact lookup_total_shallow hwf h addr
    · exact h
  have hoffeq := WF.lineOffset_eq hwf addr
  have hfacts := hlk
  unfold lookup at hfacts
  obtain ⟨_, _, hhit, hmiss⟩ := probe_facts _ _ _ _ _ _ hfacts
  obtain ⟨hidx, hvalid⟩ := probe_valid hwf _ _ _ _ _ _ (home_le_mask _ _) hfacts
  unfold accessSingleLine
  rw [if_pos has, hlk]
  simp only
  by_cases hnf : a.fail_need_fill.isSome ∧ a.fill_buff.isNone ∧ p.hit = false
  · rw [if_pos hnf]
    exact ⟨_, rfl⟩
  · rw [if_neg hnf]
    by_cases hh : p.hit = true
    · rw [if_pos hh]
      obtain ⟨set, hset, hfind⟩ := hhit hh
      obtain ⟨hswf, hbs⟩ := hwf.set_at hidx hset
      obtain ⟨hslot, _⟩ := RoundRobin.find_some hP hfind
      obtain ⟨hp1, hp2⟩ := RoundRobin.WF.block_pos hP hswf hslot
      obtain ⟨r, hr⟩ := transfer_total c.toCacheBase c.sets p.index p.line_index addr t a.buff
        a.bytes set hset (by rw [hoffeq, hbs]; exact hfit) hp1 hp2 hbuff
      rw [hr]
      exact ⟨_, rfl⟩
    · rw [if_neg hh]
      have hhf : p.hit = false := by simpa using hh
      by_cases hal : t = .k_ACCESS_TYPE_LOAD ∨ P.k_STORE_ALLOCATION = k_STORE_ALLOCATE
      · rw [if_pos hal]
        obtain ⟨_, hdep, hcells, _⟩ := hmiss hhf
        have hr := hrand c.rand p.depth (by omega)
        obtain ⟨w, set, hw, hset, hfind⟩ := hcells _ (Nat.zero_le _) hr
        have hwm := hvalid _ (Nat.zero_le _) hr w hw
        obtain ⟨hswf, hbs⟩ := hwf.set_at hwm hset
        have hrh : readHistory p.history (P.rand_next c.rand p.depth).1 = .ok w := by
          simp only [readHistory, hw]
        obtain ⟨rep, hrep⟩ := replace_total hP hswf (c.splitAddress addr).1 a.fill_buff
          a.eviction (some CacheTag.blank) a.evict_buff
          (fun fb h => by rw [hbs]; exact hfill fb h) (fun b h => by rw [hbs]; exact hevb b h)
        have hfound := RoundRobin.install_found hP hswf hfind hrep
        obtain ⟨old, _, _, htags, htli, hrbs, _, hnofill, hwithfill, _⟩ := RoundRobin.replace_ok hrep
        have hblen : rep.set.m_blocks.length = set.m_blocks.length := by
          cases hf : a.fill_buff with
          | none => rw [hnofill hf]
          | some fb => exact memcpy_length (hwithfill fb hf)
        obtain ⟨hp1, hp2⟩ := RoundRobin.WF.block_pos hP hswf hswf.2.2.2.1
        have hwl : w < c.sets.length := by
          by_contra hc
          rw [List.getElem?_eq_none (by omega)] at hset; cases hset
        obtain ⟨r, hr⟩ := transfer_total c.toCacheBase (c.sets.set w rep.set) w
          set.next_replace_index addr t a.buff a.bytes rep.set
          (by simp [List.getElem?_set, hwl])
          (by rw [hoffeq, hrbs, hbs]; exact hfit) (by rw [hrbs, hblen]; exact hp1)
          (by rw [hrbs]; exact hp2) hbuff
        simp only [hrh, hset, hrep, hfound, Option.getD_some, hr]
        exact ⟨_, rfl⟩
      · rw [if_neg hal]
        exact ⟨_, rfl⟩

/-- C13, instance: the load of four bytes of scenario 1 on the freshly constructed cache. -/
theorem C13_access_returns_witness :
    ∃ r, Examples.icache.accessSingleLine Examples.P0 0x104 .k_ACCESS_TYPE_LOAD
      { Examples.readArgs with fill_buff := some (List.range 16) } = .ok r :=
  C13_access_returns Examples.P0 Examples.icache 0x104 .k_ACCESS_TYPE_LOAD
    { Examples.readArgs with fill_buff := some (List.range 16) } (by decide) (by decide)
    (Or.inl (by decide)) (by decide) (by intro b h; cases h; decide)
    (by intro b h; cases h; decide) (by intro b h; cases h)
    (by intro s n hn; exact Nat.mod_lt _ hn)

end Graphite

namespace Graphite
open Cache

/-! ## `resize` -/

/-- The scan gives the same result on two tag arrays that agree on the slots scanned. -/
theorem scan_ext (tags1 tags2 : List CacheTag) (tag : CacheTag) :
    ∀ (n : Nat), (∀ j, j < n → tags1[j]? = tags2[j]?) →
      RoundRobin.scan tags1 tag n = RoundRobin.scan tags2 tag n := by
  intro n
  induction n with
  | zero => intro _; rfl
  | succ n ih =>
    intro h
    unfold RoundRobin.scan
    rw [h n (by omega), ih (fun j hj => h j (by omega))]

/-- The scan passes over slots whose tag differs from the one looked for. -/
theorem scan_skip (tags : List CacheTag) (tag : CacheTag) (lo : Nat) :
    ∀ (k : Nat), (∀ j, lo ≤ j → j < lo + k → ∃ t, tags[j]? = some t ∧ t.eq tag = false) →
      RoundRobin.scan tags tag (lo + k) = RoundRobin.scan tags tag lo := by
  intro k
  induction k with
  | zero => intro _; rfl
  | succ k ih =>
    intro h
    obtain ⟨t, ht, hne⟩ := h (lo + k) (by omega) (by omega)
    rw [show lo + (k + 1) = (lo + k) + 1 from rfl, RoundRobin.scan, ht]
    simp only [hne]
    exact ih (fun j h1 h2 => h j h1 (by omega))

/-- An empty slot does not match a tag other than the all-ones pattern. -/
theorem blank_ne (tag : CacheTag) (h : tag.m_tag ≠ ALL_ONES) : CacheTag.blank.eq tag = false := by
  simp only [CacheTag.eq, CacheTag.blank, beq_eq_false_iff_ne, ne_eq]
  exact fun hc => h hc.symm

theorem getAssociativity_eq {P : TParams} {s : RoundRobin} (hP : P.WF)
    (hs : s.tags_last_index < P.k_MAX_ASSOCIATIVITY) :
    s.getAssociativity = s.tags_last_index + 1 := by
  have := hP.1
  unfold RoundRobin.getAssociativity
  exact Nat.mod_eq_of_lt (by simp only [U32]; omega)

theorem modify_grow {P : TParams} {s : RoundRobin} (hP : P.WF)
    (hs : s.tags_last_index < P.k_MAX_ASSOCIATIVITY) (sm : Bool) (assoc : Nat)
    (h1 : s.tags_last_index + 1 < assoc) (h2 : assoc ≤ P.k_MAX_ASSOCIATIVITY) :
    s.modifyAssociativity P sm assoc = .ok (grownSet s assoc) := by
  unfold RoundRobin.modifyAssociativity
  rw [if_pos ⟨by omega, h2⟩]
  simp only [getAssociativity_eq hP hs]
  rw [if_pos (by omega)]
  rfl

theorem modify_shrink {P : TParams} {s : RoundRobin} (hP : P.WF)
    (hs : s.tags_last_index < P.k_MAX_ASSOCIATIVITY) (assoc : Nat)
    (h0 : assoc ≠ 0) (h1 : assoc < s.tags_last_index + 1) :
    s.modifyAssociativity P false assoc = .ok (shrunkSet s assoc) := by
  unfold RoundRobin.modifyAssociativity
  rw [if_pos ⟨h0, by omega⟩]
  simp only [getAssociativity_eq hP hs]
  rw [if_neg (by omega), if_pos h1]
  simp only [Bool.false_eq_true, if_false, if_pos hs]
  rfl

theorem modify_same {P : TParams} {s : RoundRobin} (hP : P.WF)
    (hs : s.tags_last_index < P.k_MAX_ASSOCIATIVITY) (sm : Bool) :
    s.modifyAssociativity P sm (s.tags_last_index + 1) = .ok s := by
  unfold RoundRobin.modifyAssociativity
  rw [if_pos ⟨by omega, by omega⟩]
  simp only [getAssociativity_eq hP hs]
  rw [if_neg (by omega), if_neg (by omega)]

theorem modify_fail {P : TParams} {s : RoundRobin} (hP : P.WF)
    (hs : s.tags_last_index < P.k_MAX_ASSOCIATIVITY) (sm : Bool) (assoc : Nat)
    (h : assoc = 0 ∨ P.k_MAX_ASSOCIATIVITY < assoc ∨ (assoc < s.tags_last_index + 1 ∧ sm = true)) :
    s.modifyAssociativity P sm assoc = .error .assertion := by
  unfold RoundRobin.modifyAssociativity
  by_cases hr : assoc ≠ 0 ∧ assoc ≤ P.k_MAX_ASSOCIATIVITY
  · rw [if_pos hr]
    simp only [getAssociativity_eq hP hs]
    rcases h with h | h | ⟨h1, h2⟩
    · exact absurd h hr.1
    · omega
    · rw [if_neg (by omega), if_pos h1, if_pos h2]
  · rw [if_neg hr]

/-- The loop of `resize` over sets on each of which `modifyAssociativity` returns `f` of the
set: it returns, with `f` applied to the sets below `n` and the others left. -/
theorem resizeSets_spec {P : TParams} {sm : Bool} {assoc : Nat} (f : RoundRobin → RoundRobin)
    (sets : List RoundRobin) :
    ∀ (n : Nat), n ≤ sets.length →
      (∀ i s, i < n → sets[i]? = some s → s.modifyAssociativity P sm assoc = .ok (f s)) →
      ∃ sets', resizeSets P sm assoc sets n = .ok sets' ∧ sets'.length = sets.length
        ∧ ∀ (j : Nat), sets'[j]? = if j < n then (sets[j]?).map f else sets[j]? := by
  intro n
  induction n with
  | zero =>
    intro _ _
    exact ⟨sets, rfl, rfl, fun j => by simp⟩
  | succ n ih =>
    intro hn h
    obtain ⟨sets0, h0, hlen0, hget0⟩ := ih (by omega) (fun i s hi hs => h i s (by omega) hs)
    have hsn : sets0[n]? = some sets[n] := by
      rw [hget0 n, if_neg (by omega), List.getElem?_eq_getElem (by omega)]
    have hm := h n sets[n] (by omega) (List.getElem?_eq_getElem (by omega))
    refine ⟨sets0.set n (f sets[n]), ?_, by simp [hlen0], fun j => ?_⟩
    · rw [resizeSets, h0]
      simp only [hsn, hm]
    · rw [List.getElem?_set]
      by_cases hjn : n = j
      · subst hjn
        rw [if_pos rfl, if_pos (by omega), if_pos (by omega),
          List.getElem?_eq_getElem (by omega)]
        rfl
      · rw [if_neg hjn, hget0 j]
        by_cases hj : j < n
        · rw [if_pos hj, if_pos (by omega)]
        · rw [if_neg hj, if_neg (by omega)]

/-- The loop of `resize` over sets on each of which `modifyAssociativity` fails its
assertion: it fails in the same way. -/
theorem resizeSets_fail {P : TParams} {sm : Bool} {assoc : Nat} (sets : List RoundRobin) :
    ∀ (n : Nat), 0 < n → n ≤ sets.length →
      (∀ i s, i < n → sets[i]? = some s →
        s.modifyAssociativity P sm assoc = .error .assertion) →
      resizeSets P sm assoc sets n = .error .assertion := by
  intro n
  induction n with
  | zero => intro h; omega
  | succ n ih =>
    intro _ hn h
    rw [resizeSets]
    by_cases h0 : n = 0
    · subst h0
      simp only [resizeSets, List.getElem?_eq_getElem (show 0 < sets.length by omega),
        h 0 _ (by omega) (List.getElem?_eq_getElem (show 0 < sets.length by omega))]
    · rw [ih (by omega) (by omega) (fun i s hi hs => h i s (by omega) hs)]

/-- In a well-shaped cache the number of sets is the set mask plus one. -/
theorem WF.getNumSets_eq {P : TParams} {c : Cache} (hwf : c.WF P) :
    c.getNumSets = c.set_index_mask + 1 := by
  obtain ⟨hP, _, _, hmask, _⟩ := hwf
  have := hP.2.2
  unfold CacheBase.getNumSets
  exact Nat.mod_eq_of_lt (by omega)

theorem AssocInv.at_set {c : Cache} (h : c.AssocInv) {i : Nat} {s : RoundRobin}
    (hi : i ≤ c.set_index_mask) (hs : c.sets[i]? = some s) :
    s.tags_last_index + 1 = c.associativity
      ∧ ∀ t ∈ s.m_tags.drop (s.tags_last_index + 1), t.isValid = false :=
  h s (mem_take_of_getElem? (Nat.lt_succ_of_le hi) hs)

/-- The peek gives the same result on two caches with the same set pointers and search depth
whose sets give the same result for the tag looked for. -/
theorem peekLoop_find_congr {P : TParams} (c c' : Cache) {tag : CacheTag}
    (hp : c'.set_ptrs = c.set_ptrs) (hm : c'.max_search = c.max_search)
    (hf : ∀ (i : Nat), (c'.sets[i]?).map (fun s => s.find P tag)
      = (c.sets[i]?).map (fun s => s.find P tag)) :
    ∀ (fuel idx depth : Nat),
      peekLoop P c' tag fuel idx depth = peekLoop P c tag fuel idx depth := by
  intro fuel
  induction fuel with
  | zero => intro _ _; rfl
  | succ fuel ih =>
    intro idx depth
    have h := hf idx
    unfold peekLoop
    rw [hp, hm]
    cases hs : c.sets[idx]? with
    | none =>
      rw [hs] at h
      cases hs' : c'.sets[idx]? with
      | none => rfl
      | some s' => rw [hs'] at h; cases h
    | some s =>
      rw [hs] at h
      cases hs' : c'.sets[idx]? with
      | none => rw [hs'] at h; cases h
      | some s' =>
        rw [hs'] at h
        simp only [Option.map_some', Option.some.injEq] at h
        simp only [h, ih]

/-- A tag taken from a 64-bit address with at least one offset bit is not the all-ones
pattern. -/
theorem tag_ne_sentinel (addr shift : Nat) (hs : 1 ≤ shift) (ha : addr < U64) :
    addr >>> shift ≠ ALL_ONES := by
  rw [Nat.shiftRight_eq_div_pow]
  have h2 : 2 ≤ 2 ^ shift := by
    calc 2 = 2 ^ 1 := rfl
      _ ≤ 2 ^ shift := Nat.pow_le_pow_right (by omega) hs
  have : addr / 2 ^ shift ≤ addr / 2 := Nat.div_le_div_left h2 (by omega)
  simp only [U64, ALL_ONES] at *
  omega

/-- Growing a set leaves the result of `find` for every tag but the all-ones pattern. -/
theorem find_grownSet {P : TParams} {s : RoundRobin} (hP : P.WF) (hs : s.WF P) (assoc : Nat)
    (h1 : s.tags_last_index + 1 < assoc) (h2 : assoc ≤ P.k_MAX_ASSOCIATIVITY)
    (tag : CacheTag) (htag : tag.m_tag ≠ ALL_ONES) :
    (grownSet s assoc).find P tag = s.find P tag := by
  have hmax := hP.1
  obtain ⟨hlen, _, htli, _, _⟩ := hs
  unfold RoundRobin.find
  simp only [grownSet]
  rw [if_pos (by omega), if_pos htli, sint32Count_small (by omega),
    sint32Count_small (by omega)]
  have hsum : assoc - 1 + 1 = (s.tags_last_index + 1) + (assoc - (s.tags_last_index + 1)) := by
    omega
  rw [hsum, scan_skip _ _ _ _ (fun j hj1 hj2 => ⟨CacheTag.blank, by
    rw [clearTags_getElem?, if_pos ⟨hj1, hj2, by omega⟩], blank_ne tag htag⟩)]
  exact scan_ext _ _ _ _ (fun j hj => by
    rw [clearTags_getElem?, if_neg (by omega)])

/-- C11, as claimed, fails for an address whose tag is the all-ones pattern of an empty slot:
with a line size of 1, the peek of address `2^64 - 1` misses in a full set and hits the empty
slot that `resize(2)` adds. -/
theorem C11_peek_of_sentinel_tag_changes :
    accessSingleLinePeek Examples.P0 Examples.tinyFilled (2 ^ 64 - 1) = .ok none
      ∧ Examples.tinyFilled.resize Examples.P0 false 2 = .ok Examples.tinyGrown
      ∧ accessSingleLinePeek Examples.P0 Examples.tinyGrown (2 ^ 64 - 1)
          = .ok (some (3, 1)) := by
  decide

/-- C11. Growing the associativity keeps the contents: on a well-shaped cache whose sets have
the associativity the cache records, `resize(a')` with current < a' <= maximum returns; every
set keeps its data and the tags of its old slots, the added slots of every configured set
are empty, `getNumWays() = a'`, `getCacheSize()` is `num_sets * a' * line_size` as a
`UInt32`, and `accessSingleLinePeek` gives the same result as before for every address whose
tag is not the all-ones pattern, so for every 64-bit address when the line size is at least
2. -/
theorem C11_grow_keeps_contents (P : TParams) (sm : Bool) (c : Cache) (a' : Nat)
    (hwf : c.WF P) (hinv : c.AssocInv) (hlt : c.associativity < a')
    (hle : a' ≤ P.k_MAX_ASSOCIATIVITY) :
    ∃ c', c.resize P sm a' = .ok c'
      ∧ c'.getNumWays = a'
      ∧ c'.getCacheSize = (c.getNumSets * a' * c.line_size) % U32
      ∧ c'.getNumSets = c.getNumSets
      ∧ (∀ (i : Nat) (s : RoundRobin), c.sets[i]? = some s →
          ∃ s', c'.sets[i]? = some s' ∧ s'.m_blocks = s.m_blocks ∧ s'.blocksize = s.blocksize
            ∧ (∀ (j : Nat), j < c.associativity → s'.m_tags[j]? = s.m_tags[j]?)
            ∧ (i ≤ c.set_index_mask → s'.tags_last_index + 1 = a'
                ∧ ∀ (j : Nat), c.associativity ≤ j → j < a' →
                    s'.m_tags[j]? = some CacheTag.blank))
      ∧ (∀ addr, (c.splitAddress addr).1.m_tag ≠ ALL_ONES →
          accessSingleLinePeek P c' addr = accessSingleLinePeek P c addr)
      ∧ (∀ addr, 1 ≤ c.line_shift → addr < U64 →
          accessSingleLinePeek P c' addr = accessSingleLinePeek P c addr) := by
  have hP : P.WF := hwf.1
  have hnum := WF.getNumSets_eq hwf
  have hmask : c.set_index_mask < P.k_MAX_SETS := hwf.2.2.2.1
  have hlen : c.sets.length = P.k_MAX_SETS := hwf.2.1
  have hmod : ∀ i s, i < c.set_index_mask + 1 → c.sets[i]? = some s →
      s.modifyAssociativity P sm a' = .ok (grownSet s a') := by
    intro i s hi hs
    obtain ⟨hswf, _⟩ := hwf.set_at (Nat.le_of_lt_succ hi) hs
    obtain ⟨hassoc, _⟩ := AssocInv.at_set hinv (Nat.le_of_lt_succ hi) hs
    exact modify_grow hP hswf.2.2.1 sm a' (by omega) hle
  obtain ⟨sets', hrs, hlen', hget⟩ := resizeSets_spec (fun s => grownSet s a') c.sets
    (c.set_index_mask + 1) (by omega) hmod
  have hres : c.resize P sm a'
      = .ok { c with cache_size := (c.getNumSets * a' * c.line_size) % U32
                     associativity := a', sets := sets' } := by
    unfold resize
    rw [if_pos (by omega), hnum, hrs]
  have hpeek : ∀ addr, (c.splitAddress addr).1.m_tag ≠ ALL_ONES →
      accessSingleLinePeek P { c with cache_size := (c.getNumSets * a' * c.line_size) % U32
                                      associativity := a', sets := sets' } addr
        = accessSingleLinePeek P c addr := by
    intro addr htag
    unfold accessSingleLinePeek
    refine peekLoop_find_congr c
      { c with cache_size := (c.getNumSets * a' * c.line_size) % U32
               associativity := a', sets := sets' } rfl rfl (fun i => ?_)
      (c.max_search + 1) (c.splitAddress addr).2 0
    show (sets'[i]?).map _ = _
    rw [hget i]
    by_cases hi : i < c.set_index_mask + 1
    · rw [if_pos hi]
      cases hs : c.sets[i]? with
      | none => rfl
      | some s =>
        obtain ⟨hswf, _⟩ := hwf.set_at (Nat.le_of_lt_succ hi) hs
        obtain ⟨hassoc, _⟩ := AssocInv.at_set hinv (Nat.le_of_lt_succ hi) hs
        simp only [Option.map_some', Option.some.injEq]
        exact find_grownSet hP hswf a' (by omega) hle _ htag
    · rw [if_neg hi]
  refine ⟨_, hres, rfl, rfl, rfl, ?_, hpeek, ?_⟩
  · intro i s hs
    show ∃ s', sets'[i]? = some s' ∧ _
    rw [hget i]
    by_cases hi : i < c.set_index_mask + 1
    · obtain ⟨hswf, _⟩ := hwf.set_at (Nat.le_of_lt_succ hi) hs
      obtain ⟨hassoc, _⟩ := AssocInv.at_set hinv (Nat.le_of_lt_succ hi) hs
      rw [if_pos hi, hs]
      refine ⟨grownSet s a', rfl, rfl, rfl, fun j hj => ?_, fun _ => ⟨?_, fun j hj1 hj2 => ?_⟩⟩
      · simp only [grownSet]
        rw [clearTags_getElem?, if_neg (by omega)]
      · simp only [grownSet]; omega
      · simp only [grownSet]
        rw [clearTags_getElem?, if_pos ⟨by omega, by omega, by have := hswf.1; omega⟩]
    · rw [if_neg hi, hs]
      exact ⟨s, rfl, rfl, rfl, fun j _ => rfl, fun h => by omega⟩
  · intro addr hshift haddr
    exact hpeek addr (tag_ne_sentinel addr c.line_shift hshift haddr)

/-- C11, instance: the cache of scenario 1 with line `0x100` resident, grown from one way to
two. -/
theorem C11_grow_keeps_contents_witness :
    ∃ c', Examples.filled.cache.resize Examples.P0 false 2 = .ok c'
      ∧ c'.getNumWays = 2
      ∧ c'.getCacheSize
          = (Examples.filled.cache.getNumSets * 2 * Examples.filled.cache.line_size) % U32
      ∧ c'.getNumSets = Examples.filled.cache.getNumSets
      ∧ (∀ (i : Nat) (s : RoundRobin), Examples.filled.cache.sets[i]? = some s →
          ∃ s', c'.sets[i]? = some s' ∧ s'.m_blocks = s.m_blocks ∧ s'.blocksize = s.blocksize
            ∧ (∀ (j : Nat), j < Examples.filled.cache.associativity →
                s'.m_tags[j]? = s.m_tags[j]?)
            ∧ (i ≤ Examples.filled.cache.set_index_mask → s'.tags_last_index + 1 = 2
                ∧ ∀ (j : Nat), Examples.filled.cache.associativity ≤ j → j < 2 →
                    s'.m_tags[j]? = some CacheTag.blank))
      ∧ (∀ addr, (Examples.filled.cache.splitAddress addr).1.m_tag ≠ ALL_ONES →
          accessSingleLinePeek Examples.P0 c' addr
            = accessSingleLinePeek Examples.P0 Examples.filled.cache addr)
      ∧ (∀ addr, 1 ≤ Examples.filled.cache.line_shift → addr < U64 →
          accessSingleLinePeek Examples.P0 c' addr
            = accessSingleLinePeek Examples.P0 Examples.filled.cache addr) :=
  C11_grow_keeps_contents Examples.P0 false Examples.filled.cache 2 (by decide) (by decide)
    (by decide) (by decide)

end Graphite

namespace Graphite
open Cache

/-- `resize` fails its assertion when the new associativity is 0, above the maximum, or below
the current one with shared memory simulated. -/
theorem resize_fail_of {P : TParams} {c : Cache} (hwf : c.WF P) (hinv : c.AssocInv)
    (sm : Bool) (assoc : Nat)
    (h : assoc = 0 ∨ P.k_MAX_ASSOCIATIVITY < assoc ∨ (assoc < c.associativity ∧ sm = true)) :
    c.resize P sm assoc = .error .assertion := by
  have hP : P.WF := hwf.1
  have hnum := WF.getNumSets_eq hwf
  have hmask : c.set_index_mask < P.k_MAX_SETS := hwf.2.2.2.1
  have hlen : c.sets.length = P.k_MAX_SETS := hwf.2.1
  unfold resize
  rw [if_pos (by omega), hnum,
    resizeSets_fail c.sets (c.set_index_mask + 1) (by omega) (by omega) (fun i s hi hs => by
      obtain ⟨hswf, _⟩ := hwf.set_at (Nat.le_of_lt_succ hi) hs
      obtain ⟨hassoc, _⟩ := AssocInv.at_set hinv (Nat.le_of_lt_succ hi) hs
      exact modify_fail hP hswf.2.2.1 sm assoc (by rw [hassoc]; exact h))]

/-- `resize` returns otherwise, with every configured set resized. -/
theorem resize_ok_of {P : TParams} {c : Cache} (hwf : c.WF P) (hinv : c.AssocInv)
    (sm : Bool) (assoc : Nat)
    (h : ¬ (assoc = 0 ∨ P.k_MAX_ASSOCIATIVITY < assoc ∨ (assoc < c.associativity ∧ sm = true))) :
    ∃ sets', c.resize P sm assoc
        = .ok { c with cache_size := (c.getNumSets * assoc * c.line_size) % U32
                       associativity := assoc, sets := sets' }
      ∧ sets'.length = c.sets.length
      ∧ ∀ (j : Nat), sets'[j]? = if j < c.set_index_mask + 1
          then (c.sets[j]?).map (fun s => resizedSet s assoc) else c.sets[j]? := by
  have hP : P.WF := hwf.1
  have hnum := WF.getNumSets_eq hwf
  have hmask : c.set_index_mask < P.k_MAX_SETS := hwf.2.2.2.1
  have hlen : c.sets.length = P.k_MAX_SETS := hwf.2.1
  have h0 : assoc ≠ 0 := fun hc => h (Or.inl hc)
  have h1 : assoc ≤ P.k_MAX_ASSOCIATIVITY := by
    by_contra hc
    exact h (Or.inr (Or.inl (by omega)))
  have hmod : ∀ i s, i < c.set_index_mask + 1 → c.sets[i]? = some s →
      s.modifyAssociativity P sm assoc = .ok (resizedSet s assoc) := by
    intro i s hi hs
    obtain ⟨hswf, _⟩ := hwf.set_at (Nat.le_of_lt_succ hi) hs
    obtain ⟨hassoc, _⟩ := AssocInv.at_set hinv (Nat.le_of_lt_succ hi) hs
    unfold resizedSet
    by_cases hg : s.tags_last_index + 1 < assoc
    · rw [if_pos hg]
      exact modify_grow hP hswf.2.2.1 sm assoc hg h1
    · rw [if_neg hg]
      by_cases hsh : assoc < s.tags_last_index + 1
      · rw [if_pos hsh]
        have hsm : sm = false := by
          cases sm with
          | false => rfl
          | true => exact absurd (Or.inr (Or.inr ⟨by omega, rfl⟩)) h
        subst hsm
        exact modify_shrink hP hswf.2.2.1 assoc h0 hsh
      · rw [if_neg hsh]
        have : assoc = s.tags_last_index + 1 := by omega
        subst this
        exact modify_same hP hswf.2.2.1 sm
  obtain ⟨sets', hrs, hlen', hget⟩ := resizeSets_spec (fun s => resizedSet s assoc) c.sets
    (c.set_index_mask + 1) (by omega) hmod
  refine ⟨sets', ?_, hlen', hget⟩
  unfold resize
  rw [if_pos (by omega), hnum, hrs]

theorem mem_drop_of_getElem? {α : Type} {l : List α} {n j : Nat} {a : α} (hj : n ≤ j)
    (h : l[j]? = some a) : a ∈ l.drop n := by
  apply List.getElem?_mem (n := j - n)
  rw [List.getElem?_drop, show n + (j - n) = j by omega]
  exact h

/-- C12. On a well-shaped cache whose sets have the associativity the cache records,
`resize(assoc)` fails its assertion if and only if `assoc` is 0, or exceeds the maximum
associativity, or is below the current associativity while shared memory is simulated, and
returns in every other case; a shrink without shared memory leaves in every configured set
the data, the tags of the slots below `assoc` as they were, and every slot from `assoc` on
empty. -/
theorem C12_resize_fails_iff (P : TParams) (sm : Bool) (c : Cache) (assoc : Nat)
    (hwf : c.WF P) (hinv : c.AssocInv) :
    (c.resize P sm assoc = .error .assertion
        ↔ (assoc = 0 ∨ P.k_MAX_ASSOCIATIVITY < assoc ∨ (assoc < c.associativity ∧ sm = true)))
    ∧ ((∃ c', c.resize P sm assoc = .ok c')
        ↔ ¬ (assoc = 0 ∨ P.k_MAX_ASSOCIATIVITY < assoc
              ∨ (assoc < c.associativity ∧ sm = true)))
    ∧ (assoc ≠ 0 → assoc < c.associativity → sm = false →
        ∃ c', c.resize P sm assoc = .ok c' ∧ c'.getNumWays = assoc
          ∧ ∀ (i : Nat) (s : RoundRobin), i ≤ c.set_index_mask → c.sets[i]? = some s →
              ∃ s', c'.sets[i]? = some s' ∧ s'.m_blocks = s.m_blocks
                ∧ (∀ (j : Nat), j < assoc → s'.m_tags[j]? = s.m_tags[j]?)
                ∧ (∀ (j : Nat) (t : CacheTag), assoc ≤ j → s'.m_tags[j]? = some t →
                    t.isValid = false)) := by
  refine ⟨⟨fun h => ?_, resize_fail_of hwf hinv sm assoc⟩, ⟨fun h => ?_, fun h => ?_⟩, ?_⟩
  · by_contra hc
    obtain ⟨sets', hr, _⟩ := resize_ok_of hwf hinv sm assoc hc
    rw [hr] at h
    cases h
  · intro hc
    obtain ⟨c', hc'⟩ := h
    rw [resize_fail_of hwf hinv sm assoc hc] at hc'
    cases hc'
  · obtain ⟨sets', hr, _⟩ := resize_ok_of hwf hinv sm assoc h
    exact ⟨_, hr⟩
  · intro h0 hlt hsm
    have hnot : ¬ (assoc = 0 ∨ P.k_MAX_ASSOCIATIVITY < assoc
        ∨ (assoc < c.associativity ∧ sm = true)) := by
      have hP : P.WF := hwf.1
      have hmask : c.set_index_mask < P.k_MAX_SETS := hwf.2.2.2.1
      have hlen : c.sets.length = P.k_MAX_SETS := hwf.2.1
      have hs0 := List.getElem?_eq_getElem (show 0 < c.sets.length by omega)
      obtain ⟨hswf, _⟩ := hwf.set_at (Nat.zero_le _) hs0
      obtain ⟨hassoc, _⟩ := AssocInv.at_set hinv (Nat.zero_le _) hs0
      have := hswf.2.2.1
      rintro (h | h | ⟨_, h⟩)
      · exact h0 h
      · omega
      · rw [hsm] at h; cases h
    obtain ⟨sets', hr, hlen', hget⟩ := resize_ok_of hwf hinv sm assoc hnot
    refine ⟨_, hr, rfl, fun i s hi hs => ?_⟩
    obtain ⟨hswf, _⟩ := hwf.set_at hi hs
    obtain ⟨hassoc, hempty⟩ := AssocInv.at_set hinv hi hs
    show ∃ s', sets'[i]? = some s' ∧ _
    rw [hget i, if_pos (by omega), hs]
    have hres : resizedSet s assoc = shrunkSet s assoc := by
      unfold resizedSet
      rw [if_neg (by omega), if_pos (by omega)]
    refine ⟨resizedSet s assoc, rfl, by rw [hres]; rfl, fun j hj => ?_, fun j t hj ht => ?_⟩
    · rw [hres]
      simp only [shrunkSet]
      rw [clearTags_getElem?, if_neg (by omega)]
    · rw [hres] at ht
      simp only [shrunkSet] at ht
      rw [clearTags_getElem?] at ht
      by_cases hin : assoc ≤ j ∧ j < assoc + (s.tags_last_index + 1 - assoc) ∧ j < s.m_tags.length
      · rw [if_pos hin] at ht
        cases ht
        rfl
      · rw [if_neg hin] at ht
        have hjl : j < s.m_tags.length := by
          by_contra hc
          rw [List.getElem?_eq_none (by omega)] at ht; cases ht
        exact hempty t (mem_drop_of_getElem? (by omega) ht)

/-- C12, instance: the two-way cache `grownFilled`, with a line in each slot of set 0, shrunk
to one way without shared memory. -/
theorem C12_resize_fails_iff_witness :
    (Examples.grownFilled.resize Examples.P0 false 1 = .error .assertion
        ↔ (1 = 0 ∨ Examples.P0.k_MAX_ASSOCIATIVITY < 1
            ∨ (1 < Examples.grownFilled.associativity ∧ false = true)))
    ∧ ((∃ c', Examples.grownFilled.resize Examples.P0 false 1 = .ok c')
        ↔ ¬ (1 = 0 ∨ Examples.P0.k_MAX_ASSOCIATIVITY < 1
              ∨ (1 < Examples.grownFilled.associativity ∧ false = true)))
    ∧ (1 ≠ 0 → 1 < Examples.grownFilled.associativity → false = false →
        ∃ c', Examples.grownFilled.resize Examples.P0 false 1 = .ok c' ∧ c'.getNumWays = 1
          ∧ ∀ (i : Nat) (s : RoundRobin), i ≤ Examples.grownFilled.set_index_mask →
              Examples.grownFilled.sets[i]? = some s →
              ∃ s', c'.sets[i]? = some s' ∧ s'.m_blocks = s.m_blocks
                ∧ (∀ (j : Nat), j < 1 → s'.m_tags[j]? = s.m_tags[j]?)
                ∧ (∀ (j : Nat) (t : CacheTag), 1 ≤ j → s'.m_tags[j]? = some t →
                    t.isValid = false)) :=
  C12_resize_fails_iff Examples.P0 false Examples.grownFilled 1 (by decide) (by decide)

/-- The shrink of `grownFilled` with shared memory simulated fails; without, the line in the
second slot of set 0 is gone and the line in the first slot is still there. -/
theorem shrink_example :
    Examples.grownFilled.resize Examples.P0 true 1 = .error .assertion
      ∧ Examples.grownFilled.resize Examples.P0 false 1 = .ok Examples.shrunk
      ∧ accessSingleLinePeek Examples.P0 Examples.grownFilled 0x140 = .ok (some (0, 1))
      ∧ accessSingleLinePeek Examples.P0 Examples.shrunk 0x140 = .ok none
      ∧ accessSingleLinePeek Examples.P0 Examples.shrunk 0x100 = .ok (some (0, 0)) := by
  decide

end Graphite

namespace Graphite
open IOCOOMCoreModel

/-! ## `handleInstruction`, call by call -/

/-- What a completed call of `handleInstruction` went through: the cost was read, the four
loops returned, the local queue of write records was empty at the end, and the state is the
one the fourth loop left with the new cycle count and instruction count. -/
theorem handle_completed_inv {readInstructionMemory : Nat → Nat} {m m' : IOCOOMCoreModel}
    {instruction : Instruction}
    (h : m.handleInstruction readInstructionMemory instruction = .ok (.completed m')) :
    ∃ cost rr0 m2 rr rc wi sb w m3 w' has,
      instruction.getCost = some cost
      ∧ regReadLoop (m.modelIcache readInstructionMemory instruction.getAddress)
          instruction.getOperands
          (m.modelIcache readInstructionMemory instruction.getAddress).m_cycle_count = .ok rr0
      ∧ memoryLoop instruction.getOperands
          (m.modelIcache readInstructionMemory instruction.getAddress) rr0 rr0 []
          = .ok (m2, rr, rc, wi)
      ∧ regWriteLoop ((rc + cost) % U64) instruction.getOperands m2.m_register_scoreboard
          ((rc + cost) % U64) = .ok (sb, w)
      ∧ memWriteLoop ((rc + cost) % U64) instruction.getOperands
          { m2 with m_register_scoreboard := sb } w wi false = .ok (m3, w', [], has)
      ∧ m' = { m3 with
                m_cycle_count :=
                  if instruction.isSimpleMemoryLoad then (rr + 1) % U64
                  else if !has then (rc + 1) % U64
                  else (w' + 1) % U64
                m_instruction_count := (m3.m_instruction_count + 1) % U64 } := by
  simp only [IOCOOMCoreModel.handleInstruction] at h
  cases hcost : instruction.getCost with
  | none => rw [hcost] at h; cases h
  | some cost =>
    rw [hcost] at h
    simp only at h
    cases h1 : regReadLoop (m.modelIcache readInstructionMemory instruction.getAddress)
        instruction.getOperands
        (m.modelIcache readInstructionMemory instruction.getAddress).m_cycle_count with
    | error e => rw [h1] at h; cases h
    | ok rr0 =>
      rw [h1] at h
      simp only at h
      cases h2 : memoryLoop instruction.getOperands
          (m.modelIcache readInstructionMemory instruction.getAddress) rr0 rr0 [] with
      | error e => rw [h2] at h; cases h
      | ok p2 =>
        obtain ⟨m2, rr, rc, wi⟩ := p2
        rw [h2] at h
        simp only at h
        cases h3 : regWriteLoop ((rc + cost) % U64) instruction.getOperands
            m2.m_register_scoreboard ((rc + cost) % U64) with
        | error e => rw [h3] at h; cases h
        | ok p3 =>
          obtain ⟨sb, w⟩ := p3
          rw [h3] at h
          simp only at h
          cases h4 : memWriteLoop ((rc + cost) % U64) instruction.getOperands
              { m2 with m_register_scoreboard := sb } w wi false with
          | error e => rw [h4] at h; cases h
          | ok p4 =>
            obtain ⟨m3, w', wi', has⟩ := p4
            rw [h4] at h
            simp only at h
            by_cases hemp : wi'.isEmpty = true
            · rw [if_pos hemp] at h
              simp only [Except.ok.injEq, Handled.completed.injEq] at h
              have hwi' : wi' = [] := List.isEmpty_iff.1 hemp
              subst hwi'
              exact ⟨cost, rr0, m2, rr, rc, wi, sb, w, m3, w', has, rfl, rfl, h2, h3, h4,
                h.symm⟩
            · rw [if_neg hemp] at h
              cases h

/-- The other way round: when the cost is read and the four loops return, with the local
queue of write records empty at the end, the call completes. -/
theorem handle_completed_of {readInstructionMemory : Nat → Nat} {m : IOCOOMCoreModel}
    {instruction : Instruction} {cost rr0 rr rc w w' : Nat} {m2 m3 : IOCOOMCoreModel}
    {wi : List DynamicInstructionInfo} {sb : List Nat} {has : Bool}
    (hcost : instruction.getCost = some cost)
    (h1 : regReadLoop (m.modelIcache readInstructionMemory instruction.getAddress)
          instruction.getOperands
          (m.modelIcache readInstructionMemory instruction.getAddress).m_cycle_count = .ok rr0)
    (h2 : memoryLoop instruction.getOperands
          (m.modelIcache readInstructionMemory instruction.getAddress) rr0 rr0 []
          = .ok (m2, rr, rc, wi))
    (h3 : regWriteLoop ((rc + cost) % U64) instruction.getOperands m2.m_register_scoreboard
          ((rc + cost) % U64) = .ok (sb, w))
    (h4 : memWriteLoop ((rc + cost) % U64) instruction.getOperands
          { m2 with m_register_scoreboard := sb } w wi false = .ok (m3, w', [], has)) :
    m.handleInstruction readInstructionMemory instruction
      = .ok (.completed { m3 with
                m_cycle_count :=
                  if instruction.isSimpleMemoryLoad then (rr + 1) % U64
                  else if !has then (rc + 1) % U64
                  else (w' + 1) % U64
                m_instruction_count := (m3.m_instruction_count + 1) % U64 }) := by
  simp only [IOCOOMCoreModel.handleInstruction, hcost, h1, h2, h3, h4, List.isEmpty_nil,
    if_true]

/-- The new cycle count of a completed call in the words of the specification. -/
theorem handle_cycle {readInstructionMemory : Nat → Nat} {m m' : IOCOOMCoreModel}
    {instruction : Instruction}
    (h : m.handleInstruction readInstructionMemory instruction = .ok (.completed m')) :
    m'.m_cycle_count
      = Spec.nextCycle instruction.isSimpleMemoryLoad
          (Spec.hasMemoryWrite instruction.getOperands)
          (Spec.readReadyOf readInstructionMemory m instruction)
          (Spec.readCompleteOf readInstructionMemory m instruction)
          (Spec.writeReadyOf readInstructionMemory m instruction) := by
  obtain ⟨cost, rr0, m2, rr, rc, wi, sb, w, m3, w', has, hcost, h1, h2, h3, h4, rfl⟩ :=
    handle_completed_inv h
  have hrr0 := regReadLoop_spec _ _ _ _ h1
  obtain ⟨loads, writes, l1, l2, l3, l4, l5, l6⟩ := memoryLoop_spec _ _ _ _ _ _ _ _ _ h2
  have hw := regWriteLoop_ready _ _ _ _ _ _ h3 (le_refl _)
  obtain ⟨used, stores, s1, s2, s3, s4⟩ := memWriteLoop_spec _ _ _ _ _ _ _ _ _ _ h4
  have hcyc : (m.modelIcache readInstructionMemory instruction.getAddress).m_cycle_count
      = Spec.fetchCycle readInstructionMemory m instruction := rfl
  have hsbm : (m.modelIcache readInstructionMemory
      instruction.getAddress).m_register_scoreboard = m.m_register_scoreboard := rfl
  rw [hcyc] at l1 hrr0
  rw [hsbm] at hrr0
  have hloads : Spec.loadsOf readInstructionMemory m instruction = loads := by
    simp only [Spec.loadsOf, l1]
  have hrc : rc = Spec.readCompleteOf readInstructionMemory m instruction := by
    rw [Spec.readCompleteOf, hloads, l3, hrr0, Spec.read_complete, Spec.maxOf_append]
  have hrr : rr = Spec.readReadyOf readInstructionMemory m instruction := by
    rw [Spec.readReadyOf, hloads, l2, hrr0, Spec.read_ready, Spec.maxOf_append]
  have hused : used = writes := by
    rw [List.append_nil] at s1
    rw [← s1, l4]; simp
  subst hused
  have hexec : Spec.execCompleteOf readInstructionMemory m instruction = (rc + cost) % U64 := by
    rw [Spec.execCompleteOf, ← hrc, hcost]; rfl
  have hstores : Spec.storesOf readInstructionMemory m instruction = stores := by
    simp only [Spec.storesOf, l1, hexec]
    simp only at s2
    simp only [s2]
  have hwr : w' = Spec.writeReadyOf readInstructionMemory m instruction := by
    rw [Spec.writeReadyOf, hstores, ← hrc, hcost, s3, hw]; rfl
  simp only [Spec.nextCycle, ← hrr, ← hrc, ← hwr, s4, Bool.false_or]

/-- C24. Abort atomicity: when reading the cost of the instruction raises
`AbortInstructionException`, `handleInstruction` is left by that exception with the model as
it was: cycle count, instruction count, register scoreboard, load unit, store buffer and
the queue of dynamic instruction records; and the call is left that way in no other case. -/
theorem C24_abort_leaves_state (readInstructionMemory : Nat → Nat) (m : IOCOOMCoreModel)
    (instruction : Instruction) :
    (instruction.getCost = none →
        m.handleInstruction readInstructionMemory instruction = .ok (.aborted m))
    ∧ (∀ m', m.handleInstruction readInstructionMemory instruction = .ok (.aborted m') →
        instruction.getCost = none ∧ m' = m) := by
  refine ⟨fun h => by simp only [IOCOOMCoreModel.handleInstruction, h], fun m' h => ?_⟩
  cases hcost : instruction.getCost with
  | none =>
    simp only [IOCOOMCoreModel.handleInstruction, hcost, Except.ok.injEq,
      Handled.aborted.injEq] at h
    exact ⟨rfl, h.symm⟩
  | some cost =>
    exfalso
    simp only [IOCOOMCoreModel.handleInstruction, hcost] at h
    split at h
    · cases h
    · split at h
      · cases h
      · split at h
        · cases h
        · split at h
          · cases h
          · split at h <;> cases h

/-- C24, instance: the instruction `aborting` on the model `core`, which has two records in
its queue. -/
theorem C24_abort_leaves_state_witness :
    Examples.core.handleInstruction Examples.oneCycle Examples.aborting
      = .ok (.aborted Examples.core) :=
  (C24_abort_leaves_state Examples.oneCycle Examples.core Examples.aborting).1 rfl

end Graphite

namespace Graphite
open IOCOOMCoreModel

/-- Scenario 5 on any model at cycle 0 with a register 5 and without instruction-cache
latency: after `I1` register 5 is ready at cycle 7 and the cycle count is 1; after `I2` the
cycle count is 8. -/
theorem chain_run (readInstructionMemory : Nat → Nat) (m : IOCOOMCoreModel)
    (hc : m.m_cycle_count = 0) (hr : 5 < m.m_register_scoreboard.length)
    (hz : readInstructionMemory 0 = 0) :
    ∃ m1 m2, m.handleInstruction readInstructionMemory Examples.writeR5 = .ok (.completed m1)
      ∧ m1.m_register_scoreboard[5]? = some 7 ∧ m1.m_cycle_count = 1
      ∧ m1.handleInstruction readInstructionMemory Examples.readR5 = .ok (.completed m2)
      ∧ m2.m_cycle_count = 8 := by
  have e7 : 7 % U64 = 7 := by decide
  have e1 : 1 % U64 = 1 := by decide
  have e8 : 8 % U64 = 8 := by decide
  have e9 : 9 % U64 = 9 := by decide
  have h1 : m.handleInstruction readInstructionMemory Examples.writeR5
      = .ok (.completed { m with m_cycle_count := 1
                                 m_register_scoreboard := m.m_register_scoreboard.set 5 7
                                 m_instruction_count := (m.m_instruction_count + 1) % U64 }) := by
    simp [IOCOOMCoreModel.handleInstruction, Examples.writeR5, IOCOOMCoreModel.modelIcache,
      regReadLoop, memoryLoop, regWriteLoop, memWriteLoop, hc, hz, hr, e7, e1]
  have h2 : IOCOOMCoreModel.handleInstruction readInstructionMemory
      { m with m_cycle_count := 1
               m_register_scoreboard := m.m_register_scoreboard.set 5 7
               m_instruction_count := (m.m_instruction_count + 1) % U64 } Examples.readR5
      = .ok (.completed { m with m_cycle_count := 8
                                 m_register_scoreboard := m.m_register_scoreboard.set 5 7
                                 m_instruction_count :=
                                   ((m.m_instruction_count + 1) % U64 + 1) % U64 }) := by
    simp [IOCOOMCoreModel.handleInstruction, Examples.readR5, IOCOOMCoreModel.modelIcache,
      regReadLoop, memoryLoop, regWriteLoop, memWriteLoop, hz, hr, e7, e1, e8, e9,
      List.getElem?_set]
  exact ⟨_, _, h1, by simp [List.getElem?_set, hr], rfl, h2, rfl⟩

/-- The register scoreboard of a freshly constructed model has 512 entries, all 0. -/
theorem new_scoreboard (M K : Nat) :
    (IOCOOMCoreModel.new M K).m_register_scoreboard = List.replicate 512 0 := by
  simp only [IOCOOMCoreModel.new, IOCOOMCoreModel.initializeRegisterScoreboard,
    List.length_replicate]

theorem fresh_has_r5 : 5 < Examples.fresh.m_register_scoreboard.length := by
  rw [Examples.fresh, new_scoreboard, List.length_replicate]
  omega

/-- C21, as claimed, fails: on the freshly constructed model without instruction-cache
latency, `I1` leaves register 5 ready at cycle 7, and `I2`, which waits for register 5,
leaves the cycle count at 8 and not at 7 + 2 + 1 = 10: without a MEMORY WRITE operand the
next cycle is `read_completion_time + 1`, and the cost enters the completion time of the
registers written only. -/
theorem C21_cycle_count_after_chain_is_8 :
    ∃ m1 m2,
      Examples.fresh.handleInstruction Examples.noLatency Examples.writeR5 = .ok (.completed m1)
      ∧ m1.m_register_scoreboard[5]? = some 7
      ∧ m1.handleInstruction Examples.noLatency Examples.readR5 = .ok (.completed m2)
      ∧ m2.m_cycle_count = 8 ∧ m2.m_cycle_count ≠ 7 + 2 + 1 := by
  obtain ⟨m1, m2, h1, h2, _, h3, h4⟩ := chain_run Examples.noLatency Examples.fresh rfl
    fresh_has_r5
    rfl
  exact ⟨m1, m2, h1, h2, h3, h4, by omega⟩

/-- C21. Scoreboard chain: on a model at cycle 0 without instruction-cache latency, handling
`I1` (one REG WRITE operand `r5`, cost 7) and then `I2` (one REG READ operand `r5`, cost 2),
neither with a memory operand nor a simple load, leaves `scoreboard[r5] = 7` after `I1` and
`m_cycle_count = 7 + 1 = 8` after `I2`. -/
theorem C21_scoreboard_chain (readInstructionMemory : Nat → Nat) (m : IOCOOMCoreModel)
    (hc : m.m_cycle_count = 0) (hr : 5 < m.m_register_scoreboard.length)
    (hz : readInstructionMemory Examples.writeR5.getAddress = 0
      ∧ readInstructionMemory Examples.readR5.getAddress = 0) :
    ∃ m1 m2, m.handleInstruction readInstructionMemory Examples.writeR5 = .ok (.completed m1)
      ∧ m1.m_register_scoreboard[5]? = some 7
      ∧ m1.handleInstruction readInstructionMemory Examples.readR5 = .ok (.completed m2)
      ∧ m2.m_cycle_count = 7 + 1 := by
  obtain ⟨m1, m2, h1, h2, _, h3, h4⟩ := chain_run readInstructionMemory m hc hr hz.1
  exact ⟨m1, m2, h1, h2, h3, h4⟩

/-- C21, instance: the freshly constructed model with the default sizes. -/
theorem C21_scoreboard_chain_witness :
    ∃ m1 m2,
      Examples.fresh.handleInstruction Examples.noLatency Examples.writeR5 = .ok (.completed m1)
      ∧ m1.m_register_scoreboard[5]? = some 7
      ∧ m1.handleInstruction Examples.noLatency Examples.readR5 = .ok (.completed m2)
      ∧ m2.m_cycle_count = 7 + 1 :=
  C21_scoreboard_chain Examples.noLatency Examples.fresh rfl
    fresh_has_r5
    ⟨rfl, rfl⟩

theorem Spec.le_maxOf (t : Nat) (cycles : List Nat) : t ≤ Spec.maxOf t cycles := by
  induction cycles generalizing t with
  | nil => exact le_refl _
  | cons v l ih =>
    rw [Spec.maxOf_cons]
    exact le_trans (le_max_left t v) (ih _)

/-- C22. For every model state and every instruction that `handleInstruction` handles to its
end, without 64-bit overflow (the instruction-cache latency and the final 1 are added without
wrap-around, and so is the cost where `write_ready` is used), `m_cycle_count` after the call
is strictly greater than before. -/
theorem C22_cycle_count_increases (readInstructionMemory : Nat → Nat)
    (m m' : IOCOOMCoreModel) (instruction : Instruction)
    (h : m.handleInstruction readInstructionMemory instruction = .ok (.completed m'))
    (hno : Spec.NoOverflow readInstructionMemory m instruction) :
    m.m_cycle_count < m'.m_cycle_count := by
  obtain ⟨h1, h2, h3⟩ := hno
  have hf : Spec.fetchCycle readInstructionMemory m instruction
      = m.m_cycle_count + readInstructionMemory instruction.getAddress :=
    Nat.mod_eq_of_lt h1
  have hrr : Spec.fetchCycle readInstructionMemory m instruction
      ≤ Spec.readReadyOf readInstructionMemory m instruction := Spec.le_maxOf _ _
  have hrc : Spec.fetchCycle readInstructionMemory m instruction
      ≤ Spec.readCompleteOf readInstructionMemory m instruction := Spec.le_maxOf _ _
  have hwr : (Spec.readCompleteOf readInstructionMemory m instruction
      + instruction.getCost.getD 0) % U64
      ≤ Spec.writeReadyOf readInstructionMemory m instruction := Spec.le_maxOf _ _
  rw [handle_cycle h]
  unfold Spec.issueOf at h2
  unfold Spec.nextCycle
  by_cases hs : instruction.isSimpleMemoryLoad = true
  · rw [if_pos hs] at h2 ⊢
    rw [Nat.mod_eq_of_lt h2]
    omega
  · rw [if_neg hs] at h2 ⊢
    by_cases hw : (!Spec.hasMemoryWrite instruction.getOperands) = true
    · rw [if_pos hw] at h2 ⊢
      rw [Nat.mod_eq_of_lt h2]
      omega
    · rw [if_neg hw] at h2 ⊢
      rw [Nat.mod_eq_of_lt h2]
      have h3' := h3 (by simpa using hs) (by simpa using hw)
      rw [Nat.mod_eq_of_lt h3'] at hwr
      omega

section
set_option maxRecDepth 100000

/-- C22, instance: the instruction `loadStore` on the model `core` takes the cycle count
from 0 to 15. -/
theorem C22_cycle_count_increases_witness :
    Examples.core.m_cycle_count < Examples.afterLoadStore.m_cycle_count :=
  C22_cycle_count_increases Examples.oneCycle Examples.core Examples.afterLoadStore
    Examples.loadStore (by decide) (by decide)

end

end Graphite

namespace Graphite
open IOCOOMCoreModel

theorem Spec.writesRegister_cons (o : Operand) (ops : List Operand) (r : Nat) :
    Spec.writesRegister (o :: ops) r
      = (decide (o.m_direction = .WRITE ∧ o.m_type = .REG ∧ o.m_value = r)
          || Spec.writesRegister ops r) := by
  simp only [Spec.writesRegister, List.any_cons]

/-- The third loop of `handleInstruction`: the scoreboard keeps its size, every register
named by a REG WRITE operand holds the completion time, every other entry is as before. -/
theorem regWriteLoop_spec (e : Nat) :
    ∀ (ops : List Operand) (sb sb' : List Nat) (w w' : Nat),
      regWriteLoop e ops sb w = .ok (sb', w') →
      sb'.length = sb.length
        ∧ ∀ (r : Nat), sb'[r]? = if Spec.writesRegister ops r = true then some e else sb[r]? := by
  intro ops
  induction ops with
  | nil =>
    intro sb sb' w w' h
    simp only [regWriteLoop] at h
    cases h
    exact ⟨rfl, fun r => by simp [Spec.writesRegister]⟩
  | cons o ops ih =>
    intro sb sb' w w' h
    rw [regWriteLoop] at h
    by_cases hsel : o.m_direction ≠ .WRITE ∨ o.m_type ≠ .REG
    · rw [if_pos hsel] at h
      obtain ⟨h1, h2⟩ := ih _ _ _ _ h
      refine ⟨h1, fun r => ?_⟩
      have hn : ¬ (o.m_direction = .WRITE ∧ o.m_type = .REG ∧ o.m_value = r) := by
        rintro ⟨h1, h2, _⟩; rcases hsel with h | h <;> contradiction
      rw [h2 r, Spec.writesRegister_cons, decide_eq_false hn, Bool.false_or]
    · rw [if_neg hsel] at h
      have hy : o.m_direction = .WRITE ∧ o.m_type = .REG := by
        constructor
        · by_contra hc; exact hsel (Or.inl hc)
        · by_contra hc; exact hsel (Or.inr hc)
      by_cases hlt : o.m_value < sb.length
      · rw [if_pos hlt] at h
        obtain ⟨h1, h2⟩ := ih _ _ _ _ h
        refine ⟨by rw [h1, List.length_set], fun r => ?_⟩
        rw [h2 r, Spec.writesRegister_cons]
        by_cases hr : o.m_value = r
        · subst hr
          rw [decide_eq_true ⟨hy.1, hy.2, rfl⟩, Bool.true_or, if_pos rfl]
          by_cases hw : Spec.writesRegister ops o.m_value = true
          · rw [if_pos hw]
          · rw [if_neg hw, List.getElem?_set, if_pos rfl, if_pos hlt]
        · have hn : ¬ (o.m_direction = .WRITE ∧ o.m_type = .REG ∧ o.m_value = r) :=
            fun hc => hr hc.2.2
          rw [decide_eq_false hn, Bool.false_or, List.getElem?_set, if_neg hr]
      · rw [if_neg hlt] at h
        cases h

/-- `executeStore` of the model changes the store buffer only. -/
theorem executeStore_frame {m m1 : IOCOOMCoreModel} {t r : Nat} {info : DynamicInstructionInfo}
    (h : m.executeStore t info = .ok (r, m1)) :
    ∃ b, m.m_store_buffer.executeStore t info.memory_info.latency info.memory_info.addr
        = .ok (r, b) ∧ m1 = { m with m_store_buffer := b } := by
  simp only [IOCOOMCoreModel.executeStore] at h
  cases hb : m.m_store_buffer.executeStore t info.memory_info.latency info.memory_info.addr with
  | error e => rw [hb] at h; cases h
  | ok p =>
    obtain ⟨r', b⟩ := p
    rw [hb] at h
    cases h
    exact ⟨b, rfl, rfl⟩

/-- The fourth loop of `handleInstruction` changes the store buffer only, and takes one
record from the local queue for each MEMORY WRITE operand. -/
theorem memWriteLoop_frame (e : Nat) :
    ∀ (ops : List Operand) (m m3 : IOCOOMCoreModel) (w w' : Nat)
      (wi wi' : List DynamicInstructionInfo) (has has' : Bool),
      memWriteLoop e ops m w wi has = .ok (m3, w', wi', has') →
      m3.m_register_scoreboard = m.m_register_scoreboard
        ∧ m3.m_dynamic_info_queue = m.m_dynamic_info_queue
        ∧ m3.m_load_unit = m.m_load_unit ∧ m3.m_cycle_count = m.m_cycle_count
        ∧ m3.m_instruction_count = m.m_instruction_count
        ∧ wi.length = wi'.length
            + ops.countP (fun o => decide (o.m_direction = .WRITE ∧ o.m_type = .MEMORY)) := by
  intro ops
  induction ops with
  | nil =>
    intro m m3 w w' wi wi' has has' h
    simp only [memWriteLoop] at h
    cases h
    exact ⟨rfl, rfl, rfl, rfl, rfl, by simp⟩
  | cons o ops ih =>
    intro m m3 w w' wi wi' has has' h
    simp only [memWriteLoop] at h
    by_cases hsel : o.m_direction ≠ .WRITE ∨ o.m_type ≠ .MEMORY
    · rw [if_pos hsel] at h
      obtain ⟨h1, h2, h3, h4, h5, h6⟩ := ih _ _ _ _ _ _ _ _ h
      have hn : ¬ (o.m_direction = .WRITE ∧ o.m_type = .MEMORY) := by
        rintro ⟨h1, h2⟩; rcases hsel with h | h <;> contradiction
      refine ⟨h1, h2, h3, h4, h5, ?_⟩
      rw [List.countP_cons, decide_eq_false hn]
      simpa using h6
    · rw [if_neg hsel] at h
      have hy : o.m_direction = .WRITE ∧ o.m_type = .MEMORY := by
        constructor
        · by_contra hc; exact hsel (Or.inl hc)
        · by_contra hc; exact hsel (Or.inr hc)
      cases wi with
      | nil => cases h
      | cons info rest =>
        simp only at h
        cases hs : m.executeStore e info with
        | error er => rw [hs] at h; cases h
        | ok p =>
          obtain ⟨st, m1⟩ := p
          rw [hs] at h
          simp only at h
          obtain ⟨b, _, rfl⟩ := executeStore_frame hs
          obtain ⟨h1, h2, h3, h4, h5, h6⟩ := ih _ _ _ _ _ _ _ _ h
          refine ⟨h1, h2, h3, h4, h5, ?_⟩
          rw [List.countP_cons, decide_eq_true hy, List.length_cons, h6]
          simp
          omega

/-- After a completed call every register named by a REG WRITE operand holds the completion
time of the execution unit, and every other scoreboard entry is as before. -/
theorem handle_scoreboard {readInstructionMemory : Nat → Nat} {m m' : IOCOOMCoreModel}
    {instruction : Instruction}
    (h : m.handleInstruction readInstructionMemory instruction = .ok (.completed m'))
    (r : Nat) :
    m'.m_register_scoreboard[r]?
      = if Spec.writesRegister instruction.getOperands r = true
          then some (Spec.execCompleteOf readInstructionMemory m instruction)
          else m.m_register_scoreboard[r]? := by
  obtain ⟨cost, rr0, m2, rr, rc, wi, sb, w, m3, w', has, hcost, h1, h2, h3, h4, rfl⟩ :=
    handle_completed_inv h
  have hrr0 := regReadLoop_spec _ _ _ _ h1
  obtain ⟨loads, writes, l1, l2, l3, l4, l5, l6⟩ := memoryLoop_spec _ _ _ _ _ _ _ _ _ h2
  have hcyc : (m.modelIcache readInstructionMemory instruction.getAddress).m_cycle_count
      = Spec.fetchCycle readInstructionMemory m instruction := rfl
  have hsbm : (m.modelIcache readInstructionMemory
      instruction.getAddress).m_register_scoreboard = m.m_register_scoreboard := rfl
  rw [hcyc] at l1 hrr0
  rw [hsbm] at hrr0 l6
  have hloads : Spec.loadsOf readInstructionMemory m instruction = loads := by
    simp only [Spec.loadsOf, l1]
  have hrc : rc = Spec.readCompleteOf readInstructionMemory m instruction := by
    rw [Spec.readCompleteOf, hloads, l3, hrr0, Spec.read_complete, Spec.maxOf_append]
  have hexec : Spec.execCompleteOf readInstructionMemory m instruction = (rc + cost) % U64 := by
    rw [Spec.execCompleteOf, ← hrc, hcost]; rfl
  obtain ⟨_, hw⟩ := regWriteLoop_spec _ _ _ _ _ _ h3
  obtain ⟨f1, _⟩ := memWriteLoop_frame _ _ _ _ _ _ _ _ _ _ h4
  show m3.m_register_scoreboard[r]? = _
  rw [f1]
  show sb[r]? = _
  rw [hw r, hexec, l6]

section
set_option maxRecDepth 100000

/-- C23, as claimed, fails: on the freshly constructed model a write of register 5 with cost
100 leaves `scoreboard[r5] = 100`, and the next instruction, a write of register 5 with cost
1, overwrites it with 2. -/
theorem C23_later_write_lowers_entry :
    Examples.fresh.handleInstruction Examples.noLatency Examples.slowWriteR5
        = .ok (.completed (Examples.after Examples.fresh Examples.slowWriteR5))
      ∧ (Examples.after Examples.fresh Examples.slowWriteR5).handleInstruction
          Examples.noLatency Examples.quickWriteR5
        = .ok (.completed (Examples.after (Examples.after Examples.fresh Examples.slowWriteR5)
            Examples.quickWriteR5))
      ∧ (Examples.after Examples.fresh Examples.slowWriteR5).m_register_scoreboard[5]?
          = some 100
      ∧ (Examples.after (Examples.after Examples.fresh Examples.slowWriteR5)
          Examples.quickWriteR5).m_register_scoreboard[5]? = some 2 := by
  decide

end

/-- C23. For every register `r` and every call of `handleInstruction` that runs to its end:
`scoreboard[r]` is as before when no REG WRITE operand of the instruction names `r`, and
holds the completion time of the execution unit (`read_completion_time + cost`, a `UInt64`
sum) when one does, whatever it held before. -/
theorem C23_scoreboard_entry_after_call (readInstructionMemory : Nat → Nat)
    (m m' : IOCOOMCoreModel) (instruction : Instruction) (r : Nat)
    (h : m.handleInstruction readInstructionMemory instruction = .ok (.completed m')) :
    (Spec.writesRegister instruction.getOperands r = false →
        m'.m_register_scoreboard[r]? = m.m_register_scoreboard[r]?)
    ∧ (Spec.writesRegister instruction.getOperands r = true →
        m'.m_register_scoreboard[r]?
          = some ((Spec.readCompleteOf readInstructionMemory m instruction
              + instruction.getCost.getD 0) % U64)) := by
  have hs := handle_scoreboard h r
  refine ⟨fun hw => ?_, fun hw => ?_⟩
  · rw [hs, if_neg (by simp [hw])]
  · rw [hs, if_pos hw]
    rfl

section
set_option maxRecDepth 100000

/-- C23, instance: the instruction `loadStore` on the model `core` writes register 2, which
is ready at cycle 14 afterwards, and leaves register 1 as it was. -/
theorem C23_scoreboard_entry_after_call_witness :
    (Examples.afterLoadStore.m_register_scoreboard[1]?
        = Examples.core.m_register_scoreboard[1]?)
      ∧ Examples.afterLoadStore.m_register_scoreboard[2]?
        = some ((Spec.readCompleteOf Examples.oneCycle Examples.core Examples.loadStore
            + Examples.loadStore.getCost.getD 0) % U64) :=
  ⟨(C23_scoreboard_entry_after_call Examples.oneCycle Examples.core Examples.afterLoadStore
      Examples.loadStore 1 (by decide)).1 (by decide),
    (C23_scoreboard_entry_after_call Examples.oneCycle Examples.core Examples.afterLoadStore
      Examples.loadStore 2 (by decide)).2 (by decide)⟩

end

end Graphite

namespace Graphite
open IOCOOMCoreModel

/-! ## The protocol of the dynamic instruction records -/

theorem Spec.readsOutside_cons (n : Nat) (o : Operand) (ops : List Operand) :
    Spec.readsOutside n (o :: ops)
      = (decide (o.m_direction = .READ ∧ o.m_type = .REG ∧ n ≤ o.m_value)
          || Spec.readsOutside n ops) := by
  simp only [Spec.readsOutside, List.any_cons]

/-- The first loop of `handleInstruction` fails its assertion when a REG READ operand names
a register outside the scoreboard, and returns otherwise. -/
theorem regReadLoop_cases (m : IOCOOMCoreModel) :
    ∀ (ops : List Operand) (t : Nat),
      (Spec.readsOutside m.m_register_scoreboard.length ops = true →
          regReadLoop m ops t = .error .assertion)
      ∧ (Spec.readsOutside m.m_register_scoreboard.length ops = false →
          ∃ r, regReadLoop m ops t = .ok r) := by
  intro ops
  induction ops with
  | nil =>
    intro t
    exact ⟨fun h => by simp [Spec.readsOutside] at h, fun _ => ⟨t, rfl⟩⟩
  | cons o ops ih =>
    intro t
    rw [Spec.readsOutside_cons, regReadLoop]
    by_cases hsel : o.m_direction ≠ .READ ∨ o.m_type ≠ .REG
    · have hn : ¬ (o.m_direction = .READ ∧ o.m_type = .REG
          ∧ m.m_register_scoreboard.length ≤ o.m_value) := by
        rintro ⟨h1, h2, _⟩; rcases hsel with h | h <;> contradiction
      rw [if_pos hsel, decide_eq_false hn, Bool.false_or]
      exact ih t
    · have hy : o.m_direction = .READ ∧ o.m_type = .REG := by
        constructor
        · by_contra hc; exact hsel (Or.inl hc)
        · by_contra hc; exact hsel (Or.inr hc)
      rw [if_neg hsel]
      by_cases hlt : o.m_value < m.m_register_scoreboard.length
      · have hn : ¬ (o.m_direction = .READ ∧ o.m_type = .REG
            ∧ m.m_register_scoreboard.length ≤ o.m_value) := by
          rintro ⟨_, _, h3⟩; omega
        rw [if_pos hlt, decide_eq_false hn, Bool.false_or, List.getElem?_eq_getElem hlt]
        exact ih _
      · rw [if_neg hlt, decide_eq_true ⟨hy.1, hy.2, by omega⟩, Bool.true_or]
        exact ⟨fun _ => rfl, fun h => by cases h⟩

/-- `LoadUnit::execute` returns on a unit with at least one slot, and keeps the number of
slots. -/
theorem execute_total (u : LoadUnit) (t occ : Nat) (hK : 0 < u.m_scoreboard.length) :
    ∃ s u', u.execute t occ = .ok (s, u')
      ∧ u'.m_scoreboard.length = u.m_scoreboard.length := by
  rcases availLoop_cases u.m_scoreboard t hK with ⟨i, u', hav, _, _, _⟩ | ⟨unit, hav, hu, _, _⟩
  · have he : u.execute t occ
        = .ok (t, ⟨u.m_scoreboard.set i ((t + occ) % U64)⟩) := by
      simp only [LoadUnit.execute, hav]
    exact ⟨_, _, he, by simp⟩
  · have he : u.execute t occ
        = .ok (((u.m_scoreboard.getD unit 0 + occ) % U64 + (U64 - occ % U64)) % U64,
            ⟨u.m_scoreboard.set unit ((u.m_scoreboard.getD unit 0 + occ) % U64)⟩) := by
      simp only [LoadUnit.execute, hav, getElem?_of_lt_getD hu]
    exact ⟨_, _, he, by simp⟩

/-- `executeLoad` returns when the two vectors of the store buffer have the same size and
the load unit has a slot; it keeps the store buffer, the queue and the number of slots. -/
theorem executeLoad_total (m : IOCOOMCoreModel) (t : Nat) (info : DynamicInstructionInfo)
    (hsb : m.m_store_buffer.m_addresses.length = m.m_store_buffer.m_scoreboard.length)
    (hK : 0 < m.m_load_unit.m_scoreboard.length) :
    ∃ r m1, m.executeLoad t info = .ok (r, m1) ∧ m1.m_store_buffer = m.m_store_buffer
      ∧ m1.m_load_unit.m_scoreboard.length = m.m_load_unit.m_scoreboard.length
      ∧ m1.m_dynamic_info_queue = m.m_dynamic_info_queue
      ∧ m1.m_register_scoreboard = m.m_register_scoreboard := by
  have hav : m.m_store_buffer.isAddressAvailable t info.memory_info.addr = .ok .VALID
      ∨ m.m_store_buffer.isAddressAvailable t info.memory_info.addr = .ok .NOT_FOUND :=
    availableLoop_total _ _ _ _ _ (by omega) (by omega)
  rcases hav with h | h
  · have he : m.executeLoad t info = .ok ((t, 0), m) := by
      simp only [IOCOOMCoreModel.executeLoad, h, if_true]
    exact ⟨_, _, he, rfl, rfl, rfl, rfl⟩
  · obtain ⟨s, u', he, hlen⟩ := execute_total m.m_load_unit t info.memory_info.latency hK
    have hl : m.executeLoad t info
        = .ok ((s, info.memory_info.latency), { m with m_load_unit := u' }) := by
      simp only [IOCOOMCoreModel.executeLoad, h, he]
      rfl
    exact ⟨_, _, hl, rfl, hlen, rfl, rfl⟩

theorem Spec.mispaired_nil (ops : List Operand) : Spec.mispaired ops [] = false := by
  cases ops <;> rfl

theorem Spec.mispaired_skip (o : Operand) (ops : List Operand)
    (queue : List DynamicInstructionInfo) (h : o.m_type ≠ .MEMORY) :
    Spec.mispaired (o :: ops) queue = Spec.mispaired ops queue := by
  cases queue with
  | nil => rw [Spec.mispaired_nil, Spec.mispaired_nil]
  | cons info queue => rw [Spec.mispaired, if_neg h]

theorem Spec.memoryOperands_cons (o : Operand) (ops : List Operand) :
    Spec.memoryOperands (o :: ops)
      = Spec.memoryOperands ops + (if o.m_type = .MEMORY then 1 else 0) := by
  simp only [Spec.memoryOperands, List.countP_cons, decide_eq_true_eq]

/-- The second loop of `handleInstruction`, with a record in the queue for every MEMORY
operand, on a model whose load unit and store buffer can be used: it fails its assertion
when an operand meets a record of the wrong kind, and returns otherwise. -/
theorem memoryLoop_cases :
    ∀ (ops : List Operand) (m : IOCOOMCoreModel) (rr rc : Nat)
      (wi : List DynamicInstructionInfo),
      Spec.memoryOperands ops ≤ m.m_dynamic_info_queue.length →
      m.m_store_buffer.m_addresses.length = m.m_store_buffer.m_scoreboard.length →
      0 < m.m_load_unit.m_scoreboard.length →
      (Spec.mispaired ops m.m_dynamic_info_queue = true →
          memoryLoop ops m rr rc wi = .error .assertion)
      ∧ (Spec.mispaired ops m.m_dynamic_info_queue = false →
          ∃ res, memoryLoop ops m rr rc wi = .ok res) := by
  intro ops
  induction ops with
  | nil =>
    intro m rr rc wi _ _ _
    exact ⟨fun h => by simp [Spec.mispaired] at h, fun _ => ⟨_, rfl⟩⟩
  | cons o ops ih =>
    intro m rr rc wi hq hsb hK
    rw [Spec.memoryOperands_cons] at hq
    rw [memoryLoop]
    by_cases hmem : o.m_type = .MEMORY
    · rw [if_pos hmem] at hq
      rw [if_neg (by simpa using hmem)]
      cases hqueue : m.m_dynamic_info_queue with
      | nil => rw [hqueue] at hq; simp at hq
      | cons info queue =>
        rw [hqueue] at hq
        simp only [List.length_cons] at hq
        have hget : m.getDynamicInstructionInfo = .ok info := by
          simp only [IOCOOMCoreModel.getDynamicInstructionInfo, hqueue]
        rw [hget, Spec.mispaired, if_pos hmem]
        simp only
        by_cases hrd : o.m_direction = .READ
        · rw [if_pos hrd, if_pos hrd]
          by_cases hty : info.type = .MEMORY_READ
          · rw [if_pos hty]
            obtain ⟨r, m1, he, h1, h2, h3, _⟩ := executeLoad_total m m.m_cycle_count info hsb hK
            rw [he]
            simp only
            have hpop : m1.popDynamicInstructionInfo.m_dynamic_info_queue = queue := by
              simp only [IOCOOMCoreModel.popDynamicInstructionInfo, h3, hqueue, List.tail_cons]
            have := ih m1.popDynamicInstructionInfo
              (if rr < r.1 then r.1 else rr)
              (if rc < (r.1 + r.2) % U64 then (r.1 + r.2) % U64 else rc) wi
              (by rw [hpop]; omega) (by
                show m1.m_store_buffer.m_addresses.length
                  = m1.m_store_buffer.m_scoreboard.length
                rw [h1]; exact hsb) (by
                show 0 < m1.m_load_unit.m_scoreboard.length
                rw [h2]; exact hK)
            rw [hpop] at this
            simpa [hty] using this
          · rw [if_neg hty]
            refine ⟨fun _ => rfl, fun h => ?_⟩
            simp [hty] at h
        · rw [if_neg hrd, if_neg hrd]
          by_cases hty : info.type = .MEMORY_WRITE
          · rw [if_pos hty]
            have hpop : m.popDynamicInstructionInfo.m_dynamic_info_queue = queue := by
              simp only [IOCOOMCoreModel.popDynamicInstructionInfo, hqueue, List.tail_cons]
            have := ih m.popDynamicInstructionInfo rr rc (wi ++ [info])
              (by rw [hpop]; omega) hsb hK
            rw [hpop] at this
            simpa [hty] using this
          · rw [if_neg hty]
            refine ⟨fun _ => rfl, fun h => ?_⟩
            simp [hty] at h
    · rw [if_neg hmem, Nat.add_zero] at hq
      rw [if_pos (by simpa using hmem), Spec.mispaired_skip _ _ _ hmem]
      exact ih m rr rc wi hq hsb hK

/-- `executeLoad` changes the load unit only. -/
theorem executeLoad_frame {m m1 : IOCOOMCoreModel} {t : Nat} {info : DynamicInstructionInfo}
    {r : Nat × Nat} (h : m.executeLoad t info = .ok (r, m1)) :
    ∃ lu, m1 = { m with m_load_unit := lu } := by
  simp only [IOCOOMCoreModel.executeLoad] at h
  cases hs : m.m_store_buffer.isAddressAvailable t info.memory_info.addr with
  | error e => rw [hs] at h; cases h
  | ok st =>
    rw [hs] at h
    simp only at h
    by_cases hv : st = .VALID
    · rw [if_pos hv] at h; cases h; exact ⟨m.m_load_unit, rfl⟩
    · rw [if_neg hv] at h
      cases hl : m.m_load_unit.execute t info.memory_info.latency with
      | error e => rw [hl] at h; cases h
      | ok p =>
        obtain ⟨s, lu⟩ := p
        rw [hl] at h
        cases h
        exact ⟨lu, rfl⟩

/-- The second loop of `handleInstruction` takes one record from the queue for each MEMORY
operand, puts one record into the local queue for each MEMORY WRITE operand, and leaves the
store buffer and the instruction count as they were. -/
theorem memoryLoop_queue :
    ∀ (ops : List Operand) (m m2 : IOCOOMCoreModel) (rr rc rr' rc' : Nat)
      (wi wi' : List DynamicInstructionInfo),
      memoryLoop ops m rr rc wi = .ok (m2, rr', rc', wi') →
      m2.m_dynamic_info_queue = m.m_dynamic_info_queue.drop (Spec.memoryOperands ops)
        ∧ Spec.memoryOperands ops ≤ m.m_dynamic_info_queue.length
        ∧ wi'.length = wi.length
            + ops.countP (fun o => decide (o.m_direction = .WRITE ∧ o.m_type = .MEMORY))
        ∧ m2.m_store_buffer = m.m_store_buffer
        ∧ m2.m_instruction_count = m.m_instruction_count := by
  intro ops
  induction ops with
  | nil =>
    intro m m2 rr rc rr' rc' wi wi' h
    simp only [memoryLoop] at h
    cases h
    exact ⟨by simp [Spec.memoryOperands], by simp [Spec.memoryOperands], by simp, rfl, rfl⟩
  | cons o ops ih =>
    intro m m2 rr rc rr' rc' wi wi' h
    rw [memoryLoop] at h
    rw [Spec.memoryOperands_cons, List.countP_cons]
    by_cases hmem : o.m_type = .MEMORY
    · rw [if_neg (by simpa using hmem)] at h
      rw [if_pos hmem]
      cases hqueue : m.m_dynamic_info_queue with
      | nil =>
        simp only [IOCOOMCoreModel.getDynamicInstructionInfo, hqueue] at h
        cases h
      | cons info queue =>
        have hget : m.getDynamicInstructionInfo = .ok info := by
          simp only [IOCOOMCoreModel.getDynamicInstructionInfo, hqueue]
        rw [hget] at h
        simp only at h
        by_cases hrd : o.m_direction = .READ
        · rw [if_pos hrd] at h
          have hn : ¬ (o.m_direction = .WRITE ∧ o.m_type = .MEMORY) := by
            rintro ⟨h1, _⟩; rw [hrd] at h1; cases h1
          by_cases hty : info.type = .MEMORY_READ
          · rw [if_pos hty] at h
            cases hl : m.executeLoad m.m_cycle_count info with
            | error e => rw [hl] at h; cases h
            | ok p =>
              obtain ⟨⟨lr, ll⟩, m1⟩ := p
              rw [hl] at h
              simp only at h
              obtain ⟨lu, rfl⟩ := executeLoad_frame hl
              obtain ⟨h1, h2, h3, h4, h5⟩ := ih _ _ _ _ _ _ _ _ h
              simp only [IOCOOMCoreModel.popDynamicInstructionInfo, hqueue,
                List.tail_cons] at h1 h2 h4 h5
              refine ⟨by rw [h1]; rfl, by
                simp only [List.length_cons]; omega, ?_, h4, h5⟩
              rw [h3, decide_eq_false hn]
              simp
          · rw [if_neg hty] at h; cases h
        · rw [if_neg hrd] at h
          have hwr : o.m_direction = .WRITE := by
            cases hd : o.m_direction with
            | READ => exact absurd hd hrd
            | WRITE => rfl
          by_cases hty : info.type = .MEMORY_WRITE
          · rw [if_pos hty] at h
            obtain ⟨h1, h2, h3, h4, h5⟩ := ih _ _ _ _ _ _ _ _ h
            simp only [IOCOOMCoreModel.popDynamicInstructionInfo, hqueue,
              List.tail_cons] at h1 h2 h4 h5
            refine ⟨by rw [h1]; rfl, by
              simp only [List.length_cons]; omega, ?_, h4, h5⟩
            rw [h3, decide_eq_true ⟨hwr, hmem⟩]
            simp
            omega
          · rw [if_neg hty] at h; cases h
    · rw [if_pos (by simpa using hmem)] at h
      have hn : ¬ (o.m_direction = .WRITE ∧ o.m_type = .MEMORY) := fun hc => hmem hc.2
      rw [if_neg hmem, decide_eq_false hn]
      simpa using ih _ _ _ _ _ _ _ _ h

/-- The third loop of `handleInstruction` can only stop at a write outside the scoreboard. -/
theorem regWriteLoop_error (e : Nat) :
    ∀ (ops : List Operand) (sb : List Nat) (w : Nat) (er : Fault),
      regWriteLoop e ops sb w = .error er → er = .outOfBounds := by
  intro ops
  induction ops with
  | nil => intro sb w er h; simp [regWriteLoop] at h
  | cons o ops ih =>
    intro sb w er h
    rw [regWriteLoop] at h
    split at h
    · exact ih _ _ _ h
    · split at h
      · exact ih _ _ _ h
      · cases h; rfl

theorem findAddr_error (addrs : List Nat) (addr : Nat) :
    ∀ (n i : Nat) (er : Fault), StoreBuffer.findAddr addrs addr n i = .error er →
      er = .outOfBounds := by
  intro n
  induction n with
  | zero => intro i er h; simp [StoreBuffer.findAddr] at h
  | succ n ih =>
    intro i er h
    rw [StoreBuffer.findAddr] at h
    split at h
    · cases h; rfl
    · split at h
      · cases h
      · exact ih _ _ h

theorem availLoop_error (sb : List Nat) (time : Nat) :
    ∀ (n i unit : Nat) (er : Fault), availLoop sb time n i unit = .error er →
      er = .outOfBounds := by
  intro n
  induction n with
  | zero => intro i unit er h; simp [availLoop] at h
  | succ n ih =>
    intro i unit er h
    rw [availLoop] at h
    split at h
    · cases h; rfl
    · split at h
      · cases h
      · split at h
        · cases h; rfl
        · exact ih _ _ _ h

/-- `StoreBuffer::executeStore` fails no assertion. -/
theorem storeBuffer_executeStore_error (b : StoreBuffer) (t occ addr : Nat) (er : Fault)
    (h : b.executeStore t occ addr = .error er) : er = .outOfBounds := by
  simp only [StoreBuffer.executeStore] at h
  cases hf : StoreBuffer.findAddr b.m_addresses addr b.m_scoreboard.length 0 with
  | error e =>
    rw [hf] at h
    cases h
    exact findAddr_error _ _ _ _ _ hf
  | ok o =>
    rw [hf] at h
    cases o with
    | some i => cases h
    | none =>
      simp only at h
      cases ha : availLoop b.m_scoreboard t b.m_scoreboard.length 0 0 with
      | error e =>
        rw [ha] at h
        cases h
        exact availLoop_error _ _ _ _ _ _ ha
      | ok p =>
        obtain ⟨o, unit⟩ := p
        rw [ha] at h
        cases o with
        | some i => cases h
        | none =>
          simp only at h
          split at h
          · cases h
          · cases h; rfl

/-- The fourth loop of `handleInstruction` fails no assertion. -/
theorem memWriteLoop_error (e : Nat) :
    ∀ (ops : List Operand) (m : IOCOOMCoreModel) (w : Nat)
      (wi : List DynamicInstructionInfo) (has : Bool) (er : Fault),
      memWriteLoop e ops m w wi has = .error er → er = .outOfBounds := by
  intro ops
  induction ops with
  | nil => intro m w wi has er h; simp [memWriteLoop] at h
  | cons o ops ih =>
    intro m w wi has er h
    simp only [memWriteLoop] at h
    split at h
    · exact ih _ _ _ _ _ h
    · cases wi with
      | nil => cases h; rfl
      | cons info rest =>
        simp only at h
        cases hs : m.executeStore e info with
        | error er' =>
          rw [hs] at h
          cases h
          simp only [IOCOOMCoreModel.executeStore] at hs
          cases hb : m.m_store_buffer.executeStore e info.memory_info.latency
              info.memory_info.addr with
          | error e2 =>
            rw [hb] at hs
            cases hs
            exact storeBuffer_executeStore_error _ _ _ _ _ hb
          | ok q => rw [hb] at hs; cases hs
        | ok p =>
          rw [hs] at h
          exact ih _ _ _ _ _ h

/-- The loads and the write records of an instruction together are as many as its MEMORY
operands. -/
theorem loadTimings_length (t : Nat) :
    ∀ (ops : List Operand) (m m2 : IOCOOMCoreModel) (loads : List (Nat × Nat))
      (writes : List DynamicInstructionInfo),
      Spec.loadTimings t ops m = .ok (loads, writes, m2) →
      loads.length + writes.length = Spec.memoryOperands ops := by
  intro ops
  induction ops with
  | nil =>
    intro m m2 loads writes h
    simp only [Spec.loadTimings] at h
    cases h
    rfl
  | cons o ops ih =>
    intro m m2 loads writes h
    rw [Spec.loadTimings] at h
    rw [Spec.memoryOperands_cons]
    by_cases hmem : o.m_type = .MEMORY
    · rw [if_pos hmem] at h ⊢
      cases hg : m.getDynamicInstructionInfo with
      | error e => rw [hg] at h; cases h
      | ok info =>
        rw [hg] at h
        simp only at h
        by_cases hrd : o.m_direction = .READ
        · rw [if_pos hrd] at h
          cases hl : m.executeLoad t info with
          | error e => rw [hl] at h; cases h
          | ok p =>
            obtain ⟨timing, m1⟩ := p
            rw [hl] at h
            simp only at h
            cases hr : Spec.loadTimings t ops m1.popDynamicInstructionInfo with
            | error e => rw [hr] at h; cases h
            | ok q =>
              obtain ⟨ts, ws, m3⟩ := q
              rw [hr] at h
              cases h
              have := ih _ _ _ _ hr
              simp only [List.length_cons]
              omega
        · rw [if_neg hrd] at h
          cases hr : Spec.loadTimings t ops m.popDynamicInstructionInfo with
          | error e => rw [hr] at h; cases h
          | ok q =>
            obtain ⟨ts, ws, m3⟩ := q
            rw [hr] at h
            cases h
            have := ih _ _ _ _ hr
            simp only [List.length_cons]
            omega
    · rw [if_neg hmem] at h ⊢
      exact ih _ _ _ _ h

section
set_option maxRecDepth 100000

/-- C25, as claimed, fails: an instruction with one REG READ operand `r600` and no MEMORY
operand raises a fatal error on the freshly constructed model, by the range assertion of
the first loop, although no operand is paired with a record of the wrong kind. -/
theorem C25_register_assertion_is_fatal_too :
    Examples.fresh.handleInstruction Examples.noLatency Examples.readR600 = .error .assertion
      ∧ Spec.memoryOperands Examples.readR600.getOperands = 0
      ∧ Spec.mispaired Examples.readR600.getOperands Examples.fresh.m_dynamic_info_queue
          = false := by
  decide

end

/-- C25. Protocol of the dynamic instruction records, for an instruction whose cost can be
read, with a record in the queue for each of its MEMORY operands, on a model whose store
buffer and load unit can be used. Pairing the MEMORY operands in operand order with the
leading records, `handleInstruction` raises a fatal error if and only if some REG READ
operand names a register outside the scoreboard, or some READ operand is paired with a
record that is not MEMORY_READ, or some WRITE operand with a record that is not
MEMORY_WRITE. When the call runs to its end it has taken exactly as many records from the
queue as the instruction has MEMORY operands, each for one load or one buffered write, and
every buffered write record has been passed to the store buffer, none being left. -/
theorem C25_record_protocol (readInstructionMemory : Nat → Nat) (m : IOCOOMCoreModel)
    (instruction : Instruction) (hcost : instruction.getCost ≠ none)
    (hq : Spec.memoryOperands instruction.getOperands ≤ m.m_dynamic_info_queue.length)
    (hsb : m.m_store_buffer.m_addresses.length = m.m_store_buffer.m_scoreboard.length)
    (hK : 0 < m.m_load_unit.m_scoreboard.length) :
    (m.handleInstruction readInstructionMemory instruction = .error .assertion
        ↔ (Spec.readsOutside m.m_register_scoreboard.length instruction.getOperands = true
            ∨ Spec.mispaired instruction.getOperands m.m_dynamic_info_queue = true))
    ∧ (∀ m', m.handleInstruction readInstructionMemory instruction = .ok (.completed m') →
        m'.m_dynamic_info_queue
            = m.m_dynamic_info_queue.drop (Spec.memoryOperands instruction.getOperands)
          ∧ ∃ loads writes m2 stores,
              Spec.loadTimings (Spec.fetchCycle readInstructionMemory m instruction)
                  instruction.getOperands
                  (m.modelIcache readInstructionMemory instruction.getAddress)
                = .ok (loads, writes, m2)
              ∧ loads.length + writes.length = Spec.memoryOperands instruction.getOperands
              ∧ Spec.storeTimes (Spec.execCompleteOf readInstructionMemory m instruction)
                  writes m2.m_store_buffer = .ok (stores, m'.m_store_buffer)) := by
  obtain ⟨cost, hcost⟩ : ∃ cost, instruction.getCost = some cost := by
    cases hc : instruction.getCost with
    | none => exact absurd hc hcost
    | some cost => exact ⟨cost, rfl⟩
  constructor
  · obtain ⟨hr1, hr2⟩ := regReadLoop_cases (m.modelIcache readInstructionMemory
      instruction.getAddress) instruction.getOperands
      (m.modelIcache readInstructionMemory instruction.getAddress).m_cycle_count
    have hsbm : (m.modelIcache readInstructionMemory
        instruction.getAddress).m_register_scoreboard = m.m_register_scoreboard := rfl
    rw [hsbm] at hr1 hr2
    by_cases hout : Spec.readsOutside m.m_register_scoreboard.length
        instruction.getOperands = true
    · have h1 := hr1 hout
      refine ⟨fun _ => Or.inl hout, fun _ => ?_⟩
      simp only [IOCOOMCoreModel.handleInstruction, hcost, h1]
    · have hout' : Spec.readsOutside m.m_register_scoreboard.length
          instruction.getOperands = false := by simpa using hout
      obtain ⟨rr0, h1⟩ := hr2 hout'
      obtain ⟨hm1, hm2⟩ := memoryLoop_cases instruction.getOperands
        (m.modelIcache readInstructionMemory instruction.getAddress) rr0 rr0 [] hq hsb hK
      have hqm : (m.modelIcache readInstructionMemory
          instruction.getAddress).m_dynamic_info_queue = m.m_dynamic_info_queue := rfl
      rw [hqm] at hm1 hm2
      by_cases hmis : Spec.mispaired instruction.getOperands m.m_dynamic_info_queue = true
      · have h2 := hm1 hmis
        refine ⟨fun _ => Or.inr hmis, fun _ => ?_⟩
        simp only [IOCOOMCoreModel.handleInstruction, hcost, h1, h2]
      · have hmis' : Spec.mispaired instruction.getOperands m.m_dynamic_info_queue
            = false := by simpa using hmis
        obtain ⟨⟨m2, rr, rc, wi⟩, h2⟩ := hm2 hmis'
        refine ⟨fun h => ?_, fun h => ?_⟩
        · exfalso
          simp only [IOCOOMCoreModel.handleInstruction, hcost, h1, h2] at h
          cases h3 : regWriteLoop ((rc + cost) % U64) instruction.getOperands
              m2.m_register_scoreboard ((rc + cost) % U64) with
          | error er =>
            rw [h3] at h
            have := regWriteLoop_error _ _ _ _ _ h3
            subst this
            cases h
          | ok p3 =>
            obtain ⟨sb, w⟩ := p3
            rw [h3] at h
            simp only at h
            cases h4 : memWriteLoop ((rc + cost) % U64) instruction.getOperands
                { m2 with m_register_scoreboard := sb } w wi false with
            | error er =>
              rw [h4] at h
              have := memWriteLoop_error _ _ _ _ _ _ _ h4
              subst this
              cases h
            | ok p4 =>
              obtain ⟨m3, w', wi', has⟩ := p4
              rw [h4] at h
              simp only at h
              obtain ⟨_, _, q3, _, _⟩ := memoryLoop_queue _ _ _ _ _ _ _ _ _ h2
              obtain ⟨_, _, _, _, _, f6⟩ := memWriteLoop_frame _ _ _ _ _ _ _ _ _ _ h4
              have hwi' : wi' = [] := by
                apply List.eq_nil_of_length_eq_zero
                simp only [List.length_nil] at q3
                omega
              subst hwi'
              simp at h
        · rcases h with h | h
          · exact absurd h hout
          · exact absurd h hmis
  · intro m' h
    obtain ⟨cost', rr0, m2, rr, rc, wi, sb, w, m3, w', has, hc', h1, h2, h3, h4, rfl⟩ :=
      handle_completed_inv h
    have hcc : cost' = cost := by
      rw [hcost] at hc'
      exact (Option.some.inj hc').symm
    subst hcc
    have hrr0 := regReadLoop_spec _ _ _ _ h1
    obtain ⟨loads, writes, l1, l2, l3, l4, l5, l6⟩ := memoryLoop_spec _ _ _ _ _ _ _ _ _ h2
    obtain ⟨q1, _, _, _, _⟩ := memoryLoop_queue _ _ _ _ _ _ _ _ _ h2
    obtain ⟨_, f2, _, _, _, _⟩ := memWriteLoop_frame _ _ _ _ _ _ _ _ _ _ h4
    obtain ⟨used, stores, s1, s2, s3, s4⟩ := memWriteLoop_spec _ _ _ _ _ _ _ _ _ _ h4
    have hcyc : (m.modelIcache readInstructionMemory instruction.getAddress).m_cycle_count
        = Spec.fetchCycle readInstructionMemory m instruction := rfl
    have hsbm : (m.modelIcache readInstructionMemory
        instruction.getAddress).m_register_scoreboard = m.m_register_scoreboard := rfl
    rw [hcyc] at l1 hrr0
    rw [hsbm] at hrr0
    have hloads : Spec.loadsOf readInstructionMemory m instruction = loads := by
      simp only [Spec.loadsOf, l1]
    have hrc : rc = Spec.readCompleteOf readInstructionMemory m instruction := by
      rw [Spec.readCompleteOf, hloads, l3, hrr0, Spec.read_complete, Spec.maxOf_append]
    have hexec : Spec.execCompleteOf readInstructionMemory m instruction
        = (rc + cost') % U64 := by
      rw [Spec.execCompleteOf, ← hrc, hcost]; rfl
    have hused : used = writes := by
      rw [List.append_nil] at s1
      rw [← s1, l4]; simp
    subst hused
    refine ⟨?_, loads, used, m2, stores, l1, loadTimings_length _ _ _ _ _ _ l1, ?_⟩
    · show m3.m_dynamic_info_queue = _
      rw [f2]
      exact q1
    · rw [hexec]
      exact s2

section
set_option maxRecDepth 100000

/-- C25, instance: the instruction `loadStore` on the model `core`, whose queue holds a read
record and a write record, is handled without a fatal error. -/
theorem C25_record_protocol_witness :
    (Examples.core.handleInstruction Examples.oneCycle Examples.loadStore = .error .assertion
        ↔ (Spec.readsOutside Examples.core.m_register_scoreboard.length
              Examples.loadStore.getOperands = true
            ∨ Spec.mispaired Examples.loadStore.getOperands
                Examples.core.m_dynamic_info_queue = true)) :=
  (C25_record_protocol Examples.oneCycle Examples.core Examples.loadStore (by decide)
    (by decide) (by decide) (by decide)).1

end

end Graphite

namespace Graphite
open IOCOOMCoreModel

/-! ## `reset` -/

theorem LoadUnit.new_replicate (K : Nat) : LoadUnit.new K = ⟨List.replicate K 0⟩ := by
  simp [LoadUnit.new, LoadUnit.init]

/-- C26. After `reset()`, whatever the reset of the base class does, the instruction count
is 0, every one of the 512 entries of the register scoreboard is 0, every slot of the load
unit is 0 and every entry of the store buffer has availability 0 and address 0: these four
components are those of a freshly constructed model with the same numbers of load slots and
store-buffer entries. -/
theorem C26_reset_zeros (coreModelReset :
      Nat × List DynamicInstructionInfo → Nat × List DynamicInstructionInfo)
    (m : IOCOOMCoreModel) (hlen : m.m_register_scoreboard.length = 512)
    (hsb : m.m_store_buffer.m_addresses.length = m.m_store_buffer.m_scoreboard.length) :
    (m.reset coreModelReset).m_instruction_count = 0
      ∧ (m.reset coreModelReset).m_register_scoreboard = List.replicate 512 0
      ∧ (m.reset coreModelReset).m_load_unit
          = ⟨List.replicate m.m_load_unit.m_scoreboard.length 0⟩
      ∧ (m.reset coreModelReset).m_store_buffer
          = ⟨List.replicate m.m_store_buffer.m_scoreboard.length 0,
              List.replicate m.m_store_buffer.m_scoreboard.length 0⟩
      ∧ (m.reset coreModelReset).m_instruction_count
          = (IOCOOMCoreModel.new m.m_store_buffer.m_scoreboard.length
              m.m_load_unit.m_scoreboard.length).m_instruction_count
      ∧ (m.reset coreModelReset).m_register_scoreboard
          = (IOCOOMCoreModel.new m.m_store_buffer.m_scoreboard.length
              m.m_load_unit.m_scoreboard.length).m_register_scoreboard
      ∧ (m.reset coreModelReset).m_load_unit
          = (IOCOOMCoreModel.new m.m_store_buffer.m_scoreboard.length
              m.m_load_unit.m_scoreboard.length).m_load_unit
      ∧ (m.reset coreModelReset).m_store_buffer
          = (IOCOOMCoreModel.new m.m_store_buffer.m_scoreboard.length
              m.m_load_unit.m_scoreboard.length).m_store_buffer := by
  have h1 : (m.reset coreModelReset).m_instruction_count = 0 := rfl
  have h2 : (m.reset coreModelReset).m_register_scoreboard = List.replicate 512 0 := by
    simp only [IOCOOMCoreModel.reset, IOCOOMCoreModel.initializeRegisterScoreboard, hlen]
  have h3 : (m.reset coreModelReset).m_load_unit
      = ⟨List.replicate m.m_load_unit.m_scoreboard.length 0⟩ := rfl
  have h4 : (m.reset coreModelReset).m_store_buffer
      = ⟨List.replicate m.m_store_buffer.m_scoreboard.length 0,
          List.replicate m.m_store_buffer.m_scoreboard.length 0⟩ := by
    simp only [IOCOOMCoreModel.reset, IOCOOMCoreModel.initializeRegisterScoreboard,
      StoreBuffer.reset, StoreBuffer.init, StoreBuffer.mk.injEq, true_and]
    rw [List.drop_of_length_le (by omega), List.append_nil]
  refine ⟨h1, h2, h3, h4, h1, ?_, ?_, ?_⟩
  · rw [h2, new_scoreboard]
  · rw [h3]
    show _ = LoadUnit.new m.m_load_unit.m_scoreboard.length
    rw [LoadUnit.new_replicate]
  · rw [h4]
    show _ = StoreBuffer.new m.m_store_buffer.m_scoreboard.length
    rw [StoreBuffer.new_eq]

section
set_option maxRecDepth 100000

/-- C26, instance: the model `afterLoadStore`, which has handled an instruction, reset with
a base class that keeps its members. -/
theorem C26_reset_zeros_witness :
    (Examples.afterLoadStore.reset id).m_instruction_count = 0
      ∧ (Examples.afterLoadStore.reset id).m_register_scoreboard = List.replicate 512 0
      ∧ (Examples.afterLoadStore.reset id).m_load_unit
          = ⟨List.replicate Examples.afterLoadStore.m_load_unit.m_scoreboard.length 0⟩
      ∧ (Examples.afterLoadStore.reset id).m_store_buffer
          = ⟨List.replicate Examples.afterLoadStore.m_store_buffer.m_scoreboard.length 0,
              List.replicate Examples.afterLoadStore.m_store_buffer.m_scoreboard.length 0⟩
      ∧ (Examples.afterLoadStore.reset id).m_instruction_count
          = (IOCOOMCoreModel.new Examples.afterLoadStore.m_store_buffer.m_scoreboard.length
              Examples.afterLoadStore.m_load_unit.m_scoreboard.length).m_instruction_count
      ∧ (Examples.afterLoadStore.reset id).m_register_scoreboard
          = (IOCOOMCoreModel.new Examples.afterLoadStore.m_store_buffer.m_scoreboard.length
              Examples.afterLoadStore.m_load_unit.m_scoreboard.length).m_register_scoreboard
      ∧ (Examples.afterLoadStore.reset id).m_load_unit
          = (IOCOOMCoreModel.new Examples.afterLoadStore.m_store_buffer.m_scoreboard.length
              Examples.afterLoadStore.m_load_unit.m_scoreboard.length).m_load_unit
      ∧ (Examples.afterLoadStore.reset id).m_store_buffer
          = (IOCOOMCoreModel.new Examples.afterLoadStore.m_store_buffer.m_scoreboard.length
              Examples.afterLoadStore.m_load_unit.m_scoreboard.length).m_store_buffer :=
  C26_reset_zeros id Examples.afterLoadStore (by decide) (by decide)

/-- Before the reset the model `afterLoadStore` has counted one instruction and holds
nonzero entries in its register scoreboard, load unit and store buffer. -/
theorem afterLoadStore_not_fresh :
    Examples.afterLoadStore.m_instruction_count = 1
      ∧ Examples.afterLoadStore.m_register_scoreboard[2]? = some 14
      ∧ Examples.afterLoadStore.m_load_unit = ⟨[11, 0]⟩
      ∧ Examples.afterLoadStore.m_store_buffer = ⟨[18, 0], [128, 0]⟩ := by
  decide

end

end Graphite

namespace Graphite
open DramDirectoryEntry

/-! ## The directory entry -/

theorem getD_set_bool :
    ∀ (l : List Bool) (r i : Nat) (b : Bool),
      (l.set r b).getD i false = if r = i ∧ i < l.length then b else l.getD i false := by
  intro l
  induction l with
  | nil => intro r i b; simp
  | cons x xs ih =>
    intro r i b
    cases r with
    | zero =>
      cases i with
      | zero => simp
      | succ i => simp
    | succ r =>
      cases i with
      | zero => simp
      | succ i =>
        simp only [List.set_cons_succ, List.getD_cons_succ, ih r i b, List.length_cons]
        simp

/-- The number of set bits after one bit is set. -/
theorem count_set_true :
    ∀ (l : List Bool) (r : Nat), r < l.length →
      (l.set r true).count true
        = l.count true + (if l.getD r false = true then 0 else 1) := by
  intro l
  induction l with
  | nil => intro r h; simp at h
  | cons x xs ih =>
    intro r h
    cases r with
    | zero =>
      simp only [List.set_cons_zero, List.getD_cons_zero, List.count_cons]
      cases x <;> simp
    | succ r =>
      have := ih r (by simpa using h)
      simp only [List.set_cons_succ, List.getD_cons_succ, List.count_cons]
      omega

/-- The number of set bits after one bit is cleared. -/
theorem count_set_false :
    ∀ (l : List Bool) (r : Nat), r < l.length →
      (l.set r false).count true + (if l.getD r false = true then 1 else 0)
        = l.count true := by
  intro l
  induction l with
  | nil => intro r h; simp at h
  | cons x xs ih =>
    intro r h
    cases r with
    | zero =>
      simp only [List.set_cons_zero, List.getD_cons_zero, List.count_cons]
      cases x <;> simp
    | succ r =>
      have := ih r (by simpa using h)
      simp only [List.set_cons_succ, List.getD_cons_succ, List.count_cons]
      omega

theorem count_replicate_false (n : Nat) : (List.replicate n false).count true = 0 := by
  simp [List.count_replicate]

theorem getD_of_count_zero :
    ∀ (l : List Bool), l.count true = 0 → ∀ (r : Nat), l.getD r false = false := by
  intro l
  induction l with
  | nil => intro _ r; simp
  | cons x xs ih =>
    intro h r
    cases x with
    | true => simp [List.count_cons] at h
    | false =>
      have h' : xs.count true = 0 := by simpa [List.count_cons] using h
      cases r with
      | zero => simp
      | succ r => simpa using ih h' r

theorem count_le_length_bool (l : List Bool) : l.count true ≤ l.length := List.count_le_length _ _

theorem contains_true_iff (l : List Bool) : l.contains true = true ↔ 0 < l.count true := by
  rw [List.count_pos_iff]
  simp

theorem getElem?_of_getD_true {l : List Bool} {r : Nat} (h : l.getD r false = true) :
    l[r]? = some true := by
  induction l generalizing r with
  | nil => simp at h
  | cons x xs ih =>
    cases r with
    | zero => simpa using h
    | succ r => simpa using ih (by simpa using h)

theorem getD_of_getElem?_true {l : List Bool} {r : Nat} (h : l[r]? = some true) :
    l.getD r false = true := by
  induction l generalizing r with
  | nil => simp at h
  | cons x xs ih =>
    cases r with
    | zero => simpa using h
    | succ r => simpa using ih (by simpa using h)

/-- "Set bit r" keeps `num_sharers` equal to the number of set bits, and sets the bit. -/
theorem setBit_facts (e : DramDirectoryEntry) (r : Nat) (hr : r < e.sharers.length)
    (hU : e.sharers.length < U32) (hn : e.numSharers = e.popcount) :
    (e.setBit r).numSharers = (e.setBit r).popcount ∧ 0 < (e.setBit r).popcount
      ∧ (e.setBit r).sharers[r]? = some true
      ∧ (e.setBit r).sharers.length = e.sharers.length
      ∧ (e.popcount = 0 → (e.setBit r).popcount = 1) := by
  have hc := count_set_true e.sharers r hr
  have hle := count_le_length_bool (e.sharers.set r true)
  rw [List.length_set] at hle
  have hn' : e.number_of_sharers = e.sharers.count true := hn
  have hp : (e.setBit r).popcount = (e.sharers.set r true).count true := rfl
  have hlen : (e.setBit r).sharers.length = e.sharers.length := by
    simp [DramDirectoryEntry.setBit]
  have hbit : (e.setBit r).sharers[r]? = some true := by
    simp [DramDirectoryEntry.setBit, List.getElem?_set, hr]
  by_cases hb : e.sharers.getD r false = true
  · rw [if_pos hb] at hc
    have hnum : (e.setBit r).numSharers = e.number_of_sharers := by
      simp only [numSharers, DramDirectoryEntry.setBit, if_pos hb]
    have hpos : 0 < e.sharers.count true :=
      List.count_pos_iff.2 (List.getElem?_mem (getElem?_of_getD_true hb))
    refine ⟨by rw [hnum, hp, hc, hn', Nat.add_zero], by rw [hp, hc]; omega, hbit, hlen,
      fun h0 => ?_⟩
    simp only [popcount] at h0
    omega
  · rw [if_neg hb] at hc
    have hnum : (e.setBit r).numSharers = (e.number_of_sharers + 1) % U32 := by
      simp only [numSharers, DramDirectoryEntry.setBit, if_neg hb]
    refine ⟨?_, by rw [hp, hc]; omega, hbit, hlen, fun h0 => ?_⟩
    · rw [hnum, hp, hc, hn', Nat.mod_eq_of_lt (by omega)]
    · simp only [popcount] at h0
      rw [hp, hc, h0]

/-- "Clear bit r" keeps `num_sharers` equal to the number of set bits. -/
theorem clearBit_facts (e : DramDirectoryEntry) (r : Nat) (hr : r < e.sharers.length)
    (hU : e.sharers.length < U32) (hn : e.numSharers = e.popcount) :
    (e.clearBit r).numSharers = (e.clearBit r).popcount
      ∧ (e.clearBit r).sharers.length = e.sharers.length
      ∧ (e.clearBit r).popcount + (if e.sharers.getD r false = true then 1 else 0)
          = e.popcount := by
  have hc := count_set_false e.sharers r hr
  have hle := count_le_length_bool e.sharers
  have hn' : e.number_of_sharers = e.sharers.count true := hn
  have hp : (e.clearBit r).popcount = (e.sharers.set r false).count true := rfl
  have hlen : (e.clearBit r).sharers.length = e.sharers.length := by
    simp [DramDirectoryEntry.clearBit]
  refine ⟨?_, hlen, by rw [hp]; exact hc⟩
  by_cases hb : e.sharers.getD r false = true
  · rw [if_pos hb] at hc
    have hnum : (e.clearBit r).numSharers = (e.number_of_sharers + U32 - 1) % U32 := by
      simp only [numSharers, DramDirectoryEntry.clearBit, if_pos hb]
    rw [hnum, hp, hn']
    have h1 : 1 ≤ List.count true e.sharers := by omega
    have h2 : List.count true e.sharers + U32 - 1 = (List.count true e.sharers - 1) + U32 := by
      omega
    rw [h2, Nat.add_mod_right, Nat.mod_eq_of_lt (by omega)]
    omega
  · rw [if_neg hb] at hc
    have hnum : (e.clearBit r).numSharers = e.number_of_sharers := by
      simp only [numSharers, DramDirectoryEntry.clearBit, if_neg hb]
    rw [hnum, hp, hn']
    omega

/-- Every call that is not fatal keeps the invariants and the size of the bit-vector. -/
theorem Inv.entry_step_keeps {capacity : Nat} {e e' : DramDirectoryEntry} {c : Call}
    (hU : e.sharers.length < U32) (hinv : e.Inv) (h : e.step capacity c = .ok e') :
    e'.Inv ∧ e'.sharers.length = e.sharers.length := by
  obtain ⟨hn, hun, hex, hsh⟩ := hinv
  cases c with
  | addSharer r =>
    simp only [DramDirectoryEntry.step] at h
    cases ha : e.addSharer capacity r with
    | error f => rw [ha] at h; cases h
    | ok p =>
      obtain ⟨b, e1⟩ := p
      rw [ha] at h
      simp only [Except.ok.injEq] at h
      subst h
      simp only [DramDirectoryEntry.addSharer] at ha
      by_cases hr : r < e.sharers.length
      · rw [if_pos hr] at ha
        obtain ⟨s1, s2, s3, s4, s5⟩ := setBit_facts e r hr hU hn
        cases hd : e.dstate with
        | UNCACHED =>
          rw [hd] at ha
          simp only [Except.ok.injEq, Prod.mk.injEq] at ha
          obtain ⟨_, rfl⟩ := ha
          exact ⟨⟨s1, fun hc => (by cases hc), fun hc => (by cases hc), fun _ => s2⟩, s4⟩
        | SHARED =>
          rw [hd] at ha
          simp only at ha
          by_cases hroom : e.number_of_sharers < capacity
          · rw [if_pos hroom] at ha
            simp only [Except.ok.injEq, Prod.mk.injEq] at ha
            obtain ⟨_, rfl⟩ := ha
            have hd' : (e.setBit r).dstate = .SHARED := hd
            exact ⟨⟨s1, fun hc => (by rw [hd'] at hc; cases hc),
              fun hc => (by rw [hd'] at hc; cases hc), fun _ => s2⟩, s4⟩
          · rw [if_neg hroom] at ha
            simp only [Except.ok.injEq, Prod.mk.injEq] at ha
            obtain ⟨_, rfl⟩ := ha
            exact ⟨⟨hn, hun, hex, hsh⟩, rfl⟩
        | EXCLUSIVE =>
          rw [hd] at ha
          simp only [Except.ok.injEq, Prod.mk.injEq] at ha
          obtain ⟨_, rfl⟩ := ha
          have hc := count_set_true (List.replicate e.sharers.length false) r
            (by simpa using hr)
          have hg : ¬ (List.replicate e.sharers.length false).getD r false = true := by
            rw [getD_of_count_zero _ (count_replicate_false _) r]
            simp
          rw [count_replicate_false, if_neg hg] at hc
          refine ⟨⟨?_, fun hc' => (by cases hc'), fun hc' => (by cases hc'), fun _ => ?_⟩,
            by simp⟩
          · simp only [numSharers, popcount, hc]
          · simp only [popcount, hc]; omega
      · rw [if_neg hr] at ha
        cases ha
  | addExclusiveSharer r =>
    simp only [DramDirectoryEntry.step, DramDirectoryEntry.addExclusiveSharer] at h
    by_cases hr : r < e.sharers.length
    · rw [if_pos hr] at h
      obtain ⟨s1, s2, s3, s4, s5⟩ := setBit_facts e r hr hU hn
      cases hd : e.dstate with
      | UNCACHED =>
        rw [hd] at h
        simp only [Except.ok.injEq] at h
        subst h
        exact ⟨⟨s1, fun hc => (by cases hc), fun _ => ⟨s5 (hun hd), s3⟩,
          fun hc => (by cases hc)⟩, s4⟩
      | SHARED => rw [hd] at h; cases h
      | EXCLUSIVE =>
        rw [hd] at h
        simp only at h
        by_cases hx : e.exclusive_sharer_rank = r
        · rw [if_pos hx] at h
          simp only [Except.ok.injEq] at h
          subst h
          exact ⟨⟨hn, hun, hex, hsh⟩, rfl⟩
        · rw [if_neg hx] at h; cases h
    · rw [if_neg hr] at h
      cases h
  | removeSharer r =>
    simp only [DramDirectoryEntry.step, DramDirectoryEntry.removeSharer] at h
    cases hd : e.dstate with
    | UNCACHED =>
      rw [hd] at h
      simp only [Except.ok.injEq] at h
      subst h
      exact ⟨⟨hn, hun, hex, hsh⟩, rfl⟩
    | SHARED =>
      rw [hd] at h
      simp only at h
      by_cases hr : r < e.sharers.length
      · rw [if_pos hr] at h
        obtain ⟨c1, c2, c3⟩ := clearBit_facts e r hr hU hn
        by_cases hne : (e.clearBit r).sharers.contains true = true
        · rw [if_pos hne] at h
          simp only [Except.ok.injEq] at h
          subst h
          have hd' : (e.clearBit r).dstate = .SHARED := hd
          exact ⟨⟨c1, fun hc => (by rw [hd'] at hc; cases hc),
            fun hc => (by rw [hd'] at hc; cases hc),
            fun _ => (contains_true_iff _).1 hne⟩, c2⟩
        · rw [if_neg hne] at h
          simp only [Except.ok.injEq] at h
          subst h
          have h0 : (e.clearBit r).popcount = 0 := by
            have := (contains_true_iff (e.clearBit r).sharers).not.1 hne
            simp only [popcount]; omega
          exact ⟨⟨c1, fun _ => h0, fun hc => (by cases hc), fun hc => (by cases hc)⟩, c2⟩
      · rw [if_neg hr] at h; cases h
    | EXCLUSIVE =>
      rw [hd] at h
      simp only at h
      by_cases hx : r = e.exclusive_sharer_rank
      · rw [if_pos hx] at h
        by_cases hr : r < e.sharers.length
        · rw [if_pos hr] at h
          simp only [Except.ok.injEq] at h
          subst h
          obtain ⟨c1, c2, c3⟩ := clearBit_facts e r hr hU hn
          obtain ⟨hone, hbit⟩ := hex hd
          have hb : e.sharers.getD r false = true := by
            rw [hx]
            exact getD_of_getElem?_true hbit
          rw [if_pos hb] at c3
          have h0 : (e.clearBit r).popcount = 0 := by omega
          exact ⟨⟨c1, fun _ => h0, fun hc => (by cases hc), fun hc => (by cases hc)⟩, c2⟩
        · rw [if_neg hr] at h; cases h
      · rw [if_neg hx] at h; cases h

/-- Every sequence of calls without a fatal one keeps the invariants. -/
theorem Inv.entry_run_keeps (capacity : Nat) :
    ∀ (calls : List Call) (e e' : DramDirectoryEntry), e.sharers.length < U32 → e.Inv →
      e.run capacity calls = .ok e' → e'.Inv ∧ e'.sharers.length = e.sharers.length := by
  intro calls
  induction calls with
  | nil =>
    intro e e' _ hinv h
    simp only [DramDirectoryEntry.run, Except.ok.injEq] at h
    subst h
    exact ⟨hinv, rfl⟩
  | cons c cs ih =>
    intro e e' hU hinv h
    simp only [DramDirectoryEntry.run] at h
    cases hs : e.step capacity c with
    | error f => rw [hs] at h; cases h
    | ok e1 =>
      rw [hs] at h
      obtain ⟨h1, h2⟩ := Inv.entry_step_keeps hU hinv hs
      obtain ⟨h3, h4⟩ := ih e1 e' (by omega) h1 h
      exact ⟨h3, by omega⟩

/-- A new entry satisfies the invariants. -/
theorem Inv.of_new_entry (mem_line_addr number_of_cores : Nat) :
    (DramDirectoryEntry.new mem_line_addr number_of_cores).Inv := by
  have h0 : (DramDirectoryEntry.new mem_line_addr number_of_cores).popcount = 0 :=
    count_replicate_false _
  refine ⟨?_, fun _ => h0, fun hc => (by cases hc), fun hc => (by cases hc)⟩
  rw [h0]
  rfl

/-- C27, as claimed, fails: a line held exclusively by core 3, given up, and then shared by
core 3 is SHARED with exactly one bit set, the bit of `getExclusiveSharerRank()`, which no
transition but `addExclusiveSharer` writes. -/
theorem C27_shared_with_the_exclusive_bit :
    ∃ e, (DramDirectoryEntry.new 0 4).run 4
          [.addExclusiveSharer 3, .removeSharer 3, .addSharer 3] = .ok e
      ∧ e.dstate = .SHARED ∧ e.popcount = 1 ∧ e.sharers[e.getExclusiveSharerRank]? = some true
      ∧ ¬ e.ExclusiveIff :=
  ⟨Examples.sharedAgain, by decide, by decide, by decide, by decide, by decide⟩

/-- C27. In every state reached from a new entry by `addSharer`, `addExclusiveSharer` and
`removeSharer` calls, `numSharers()` is the number of set bits of the sharers bit-vector; if
the state is EXCLUSIVE, exactly one bit is set and it is the bit of
`getExclusiveSharerRank()`; and the state is UNCACHED if and only if the bit-vector is
empty. -/
theorem C27_directory_invariant (capacity mem_line_addr number_of_cores : Nat)
    (calls : List Call) (e : DramDirectoryEntry) (hn : number_of_cores < U32)
    (h : (DramDirectoryEntry.new mem_line_addr number_of_cores).run capacity calls = .ok e) :
    e.numSharers = e.popcount
      ∧ (e.dstate = .EXCLUSIVE →
          e.popcount = 1 ∧ e.sharers[e.getExclusiveSharerRank]? = some true)
      ∧ (e.dstate = .UNCACHED ↔ e.popcount = 0) := by
  obtain ⟨⟨h1, h2, h3, h4⟩, _⟩ := Inv.entry_run_keeps capacity calls _ e
    (by simpa [DramDirectoryEntry.new] using hn) (Inv.of_new_entry _ _) h
  refine ⟨h1, h3, h2, fun h0 => ?_⟩
  cases hd : e.dstate with
  | UNCACHED => rfl
  | EXCLUSIVE => have := (h3 hd).1; omega
  | SHARED => have := h4 hd; omega

/-- C27, instance: the entry `sharedAgain`. -/
theorem C27_directory_invariant_witness :
    Examples.sharedAgain.numSharers = Examples.sharedAgain.popcount
      ∧ (Examples.sharedAgain.dstate = .EXCLUSIVE →
          Examples.sharedAgain.popcount = 1
            ∧ Examples.sharedAgain.sharers[Examples.sharedAgain.getExclusiveSharerRank]?
                = some true)
      ∧ (Examples.sharedAgain.dstate = .UNCACHED ↔ Examples.sharedAgain.popcount = 0) :=
  C27_directory_invariant 4 0 4 [.addExclusiveSharer 3, .removeSharer 3, .addSharer 3]
    Examples.sharedAgain (by decide) (by decide)

end Graphite

namespace Graphite
open DramDirectoryEntry

/-- The sharers list is empty exactly when no bit is set. -/
theorem getSharersList_eq_nil (e : DramDirectoryEntry) :
    e.getSharersList = [] ↔ e.sharers.contains true = false := by
  simp only [getSharersList, List.filter_eq_nil_iff, List.mem_range]
  constructor
  · intro h
    by_contra hc
    have hc' : e.sharers.contains true = true := by simpa using hc
    have hmem : true ∈ e.sharers := by simpa using hc'
    obtain ⟨i, hi, hget⟩ := List.getElem_of_mem hmem
    have := h i hi
    rw [getD_of_getElem?_true (by rw [List.getElem?_eq_getElem hi, hget])] at this
    exact this rfl
  · intro h i hi hb
    have hb' : e.sharers.getD i false = true := by simpa using hb
    have hmem : true ∈ e.sharers := List.getElem?_mem (getElem?_of_getD_true hb')
    have : e.sharers.contains true = true := by simpa using hmem
    rw [h] at this
    cases this

/-- Clearing bit `r` takes `r` out of the sharers list and leaves the other ranks. -/
theorem getSharersList_clearBit (e : DramDirectoryEntry) (r : Nat) :
    (e.clearBit r).getSharersList = e.getSharersList.filter (fun i => decide (i ≠ r)) := by
  simp only [getSharersList, DramDirectoryEntry.clearBit, List.length_set, List.filter_filter]
  apply List.filter_congr
  intro i hi
  rw [getD_set_bool]
  by_cases hri : r = i
  · subst hri
    simp [List.mem_range.1 hi]
  · have : i ≠ r := fun h => hri h.symm
    simp [hri, this]

/-- C28. Transition of `removeSharer` on a SHARED entry, for a rank `r` whose bit is set: the
call returns, the sharers afterwards are the sharers before without `r`, and the state is
SHARED when sharers are left and UNCACHED when none is. `addSharer` on a SHARED entry
without room returns false and leaves the entry as it was, and on no entry and for no rank
inside the bit-vector does it fail. -/
theorem C28_remove_sharer_transition (capacity : Nat) (e : DramDirectoryEntry) (r : Nat)
    (hs : e.dstate = .SHARED) (hr : e.sharers[r]? = some true) :
    (∃ e', e.removeSharer r = .ok e'
        ∧ e'.getSharersList = e.getSharersList.filter (fun i => decide (i ≠ r))
        ∧ e'.sharers = e.sharers.set r false
        ∧ (e'.getSharersList ≠ [] → e'.dstate = .SHARED)
        ∧ (e'.getSharersList = [] → e'.dstate = .UNCACHED))
    ∧ (capacity ≤ e.number_of_sharers → ∀ (r2 : Nat), r2 < e.sharers.length →
        e.addSharer capacity r2 = .ok (false, e))
    ∧ (∀ (e2 : DramDirectoryEntry) (r2 : Nat), r2 < e2.sharers.length →
        ∃ b e3, e2.addSharer capacity r2 = .ok (b, e3)) := by
  have hlt : r < e.sharers.length := by
    by_contra hc
    rw [List.getElem?_eq_none (by omega)] at hr
    cases hr
  refine ⟨?_, fun hfull r2 h2 => ?_, fun e2 r2 h2 => ?_⟩
  · simp only [DramDirectoryEntry.removeSharer, hs, if_pos hlt]
    by_cases hne : (e.clearBit r).sharers.contains true = true
    · rw [if_pos hne]
      refine ⟨_, rfl, getSharersList_clearBit e r, rfl, fun _ => hs, fun h0 => ?_⟩
      rw [getSharersList_eq_nil, hne] at h0
      cases h0
    · rw [if_neg hne]
      have hemp : (e.clearBit r).sharers.contains true = false := by simpa using hne
      refine ⟨_, rfl, getSharersList_clearBit e r, rfl, fun hnn => ?_, fun _ => rfl⟩
      exact absurd ((getSharersList_eq_nil (e.clearBit r)).2 hemp) hnn
  · simp only [DramDirectoryEntry.addSharer, if_pos h2, hs, if_neg (Nat.not_lt.2 hfull)]
  · simp only [DramDirectoryEntry.addSharer, if_pos h2]
    cases e2.dstate with
    | UNCACHED => exact ⟨_, _, rfl⟩
    | EXCLUSIVE => exact ⟨_, _, rfl⟩
    | SHARED =>
      simp only
      by_cases hroom : e2.number_of_sharers < capacity
      · rw [if_pos hroom]; exact ⟨_, _, rfl⟩
      · rw [if_neg hroom]; exact ⟨_, _, rfl⟩

/-- C28, instance: scenario 6. With the sharers 1 and 3, removing 1 leaves the entry SHARED
with the sharer 3. -/
theorem C28_remove_sharer_transition_witness :
    (∃ e', Examples.shared13.removeSharer 1 = .ok e'
        ∧ e'.getSharersList = Examples.shared13.getSharersList.filter (fun i => decide (i ≠ 1))
        ∧ e'.sharers = Examples.shared13.sharers.set 1 false
        ∧ (e'.getSharersList ≠ [] → e'.dstate = .SHARED)
        ∧ (e'.getSharersList = [] → e'.dstate = .UNCACHED)) :=
  (C28_remove_sharer_transition 4 Examples.shared13 1 (by decide) (by decide)).1

/-- Scenario 6 by evaluation: sharers 1 and 3; removing 1 gives SHARED with the sharer 3;
removing 3 then gives UNCACHED without sharers; and with a capacity of two sharers
`addSharer(0)` returns false and changes nothing. -/
theorem scenario_6 :
    Examples.shared13.getSharersList = [1, 3]
      ∧ (Examples.shared13.run 4 [.removeSharer 1]).map
          (fun e => (e.dstate, e.getSharersList)) = .ok (.SHARED, [3])
      ∧ (Examples.shared13.run 4 [.removeSharer 1, .removeSharer 3]).map
          (fun e => (e.dstate, e.getSharersList)) = .ok (.UNCACHED, [])
      ∧ Examples.shared13.addSharer 2 0 = .ok (false, Examples.shared13) := by
  decide

end Graphite

namespace Graphite
open Cache Examples

/-- C30 at a failing input: on the freshly constructed cache `deep` (four sets, search depth
two, every set pointer NONE, that is `k_MAX_SETS`) the probe loop of `accessSingleLine(0x000)`
probes the home set 0, misses, reads the pointer NONE and does not stop: one iteration does
not finish the loop, the second iteration is entered with the index `k_MAX_SETS`, which is
not the index of a set, and the probe of `sets[k_MAX_SETS]` lies outside the array. -/
theorem C30_probe_does_not_stop_at_none_pointer :
    deep.max_search = 2 ∧ deep.sets.length = 4
      ∧ (deep.splitAddress 0x000).2 = 0
      ∧ deep.set_ptrs[0]? = some P0.k_MAX_SETS
      ∧ probeLoop P0 deep (deep.splitAddress 0x000).1 1 0 0
          (List.replicate P0.k_MAX_SEARCH none) (U32 - 1) = .error .fuel
      ∧ probeLoop P0 deep (deep.splitAddress 0x000).1 2 0 0
          (List.replicate P0.k_MAX_SEARCH none) (U32 - 1)
        = probeLoop P0 deep (deep.splitAddress 0x000).1 1 P0.k_MAX_SETS 1
          ((List.replicate P0.k_MAX_SEARCH none).set 0 (some 0)) (U32 - 1)
      ∧ ¬ P0.k_MAX_SETS < deep.sets.length
      ∧ probeLoop P0 deep (deep.splitAddress 0x000).1 1 P0.k_MAX_SETS 1
          ((List.replicate P0.k_MAX_SEARCH none).set 0 (some 0)) (U32 - 1)
        = .error .outOfBounds := by
  decide

end Graphite

namespace Graphite
open IOCOOMCoreModel

/-! ## Register write-back, the fresh store buffer, and the range of register ids -/

section
set_option maxRecDepth 100000

/-- C34. Register write-back: after `handleInstruction` has handled an instruction to its
end, a register `r` named by a REG WRITE operand holds `read_completion_time + cost` of that
instruction (a `UInt64` sum) whatever it held before, and a register that no REG WRITE
operand names holds what it held before. -/
theorem C34_register_write_back (readInstructionMemory : Nat → Nat)
    (m m' : IOCOOMCoreModel) (instruction : Instruction) (r : Nat)
    (h : m.handleInstruction readInstructionMemory instruction = .ok (.completed m')) :
    (Spec.writesRegister instruction.getOperands r = true →
        ∃ cost, instruction.getCost = some cost
          ∧ m'.m_register_scoreboard[r]?
            = some ((Spec.readCompleteOf readInstructionMemory m instruction + cost) % U64))
    ∧ (Spec.writesRegister instruction.getOperands r = false →
        m'.m_register_scoreboard[r]? = m.m_register_scoreboard[r]?) := by
  have hsb := handle_scoreboard h r
  obtain ⟨cost, _, _, _, _, _, _, _, _, _, _, hcost, _⟩ := handle_completed_inv h
  constructor
  · intro hw
    refine ⟨cost, hcost, ?_⟩
    rw [hsb, if_pos hw, Spec.execCompleteOf, hcost]
    rfl
  · intro hw
    rw [hsb, if_neg (by rw [hw]; decide)]

/-- C34, instance: register 5 holds 100 after a write with cost 100; a following write of
register 5 with cost 1 leaves 2 there, the smaller value, and leaves register 4 as it was. -/
theorem C34_register_write_back_witness :
    (Examples.after Examples.fresh Examples.slowWriteR5).m_register_scoreboard[5]? = some 100
      ∧ (∃ cost, Examples.quickWriteR5.getCost = some cost
          ∧ (Examples.after (Examples.after Examples.fresh Examples.slowWriteR5)
              Examples.quickWriteR5).m_register_scoreboard[5]?
            = some ((Spec.readCompleteOf Examples.noLatency
                (Examples.after Examples.fresh Examples.slowWriteR5) Examples.quickWriteR5
                  + cost) % U64))
      ∧ (Examples.after (Examples.after Examples.fresh Examples.slowWriteR5)
            Examples.quickWriteR5).m_register_scoreboard[4]?
          = (Examples.after Examples.fresh Examples.slowWriteR5).m_register_scoreboard[4]? :=
  ⟨by decide,
    (C34_register_write_back Examples.noLatency
      (Examples.after Examples.fresh Examples.slowWriteR5)
      (Examples.after (Examples.after Examples.fresh Examples.slowWriteR5)
        Examples.quickWriteR5) Examples.quickWriteR5 5 (by decide)).1 (by decide),
    (C34_register_write_back Examples.noLatency
      (Examples.after Examples.fresh Examples.slowWriteR5)
      (Examples.after (Examples.after Examples.fresh Examples.slowWriteR5)
        Examples.quickWriteR5) Examples.quickWriteR5 4 (by decide)).2 (by decide)⟩

/-- C37 at a failing input: on the freshly constructed model, whose scoreboard has 512
entries, an instruction with the single operand REG WRITE `r600` raises no fatal error: the
third loop writes `m_register_scoreboard[600]` without a test, outside the vector. The same
register id in a REG READ operand stops at the range assertion of the first loop. -/
theorem C37_write_outside_scoreboard_unchecked :
    Examples.fresh.m_register_scoreboard.length = 512
      ∧ Examples.writeR600.getOperands = [⟨.REG, .WRITE, 600⟩]
      ∧ Examples.fresh.handleInstruction Examples.noLatency Examples.writeR600
          = .error .outOfBounds
      ∧ Examples.fresh.handleInstruction Examples.noLatency Examples.writeR600
          ≠ .error .assertion
      ∧ Examples.fresh.handleInstruction Examples.noLatency Examples.readR600
          = .error .assertion := by
  decide

end

/-! ### The store buffer before the first store -/

/-- On a buffer whose entries all hold address 0 and availability 0, `isAddressAvailable`
answers VALID for time 0 and address 0 when there is an entry, and NOT_FOUND otherwise. -/
theorem available_on_zeroed (M t addr : Nat) :
    (StoreBuffer.mk (List.replicate M 0) (List.replicate M 0)).isAddressAvailable t addr
      = .ok (if 0 < M ∧ t = 0 ∧ addr = 0 then .VALID else .NOT_FOUND) := by
  unfold StoreBuffer.isAddressAvailable
  simp only [List.length_replicate]
  by_cases hc : 0 < M ∧ t = 0 ∧ addr = 0
  · rw [if_pos hc]
    obtain ⟨hM, rfl, rfl⟩ := hc
    exact availableLoop_valid _ 0 0 M 0 0 (by simp) (by simp) (Nat.le_refl 0) (by omega)
      (by simp [List.getElem?_replicate, hM]) (Nat.zero_le _)
  · rw [if_neg hc]
    apply availableLoop_not_found _ t addr M 0 (by simp) (by simp)
    intro k _ hk hak
    have hkM : k < M := by omega
    simp only [List.getElem?_replicate, if_pos hkM, Option.some.injEq] at hak
    simp only [List.getD_eq_getElem?_getD, List.getElem?_replicate, if_pos hkM,
      Option.getD_some]
    by_contra ht
    exact hc ⟨by omega, by omega, hak.symm⟩

section
set_option maxRecDepth 100000

/-- C36, as claimed, fails: a freshly constructed store buffer with one entry answers VALID
for time 0 and address 0, the address `initialize()` writes into every entry, and on the
freshly constructed model a load of address 0 at time 0 is bypassed: `executeLoad` returns
latency 0 and leaves the load unit alone. -/
theorem C36_fresh_buffer_holds_address_zero :
    (StoreBuffer.new 1).isAddressAvailable 0 0 = .ok .VALID
      ∧ (StoreBuffer.new 1).reset.isAddressAvailable 0 0 = .ok .VALID
      ∧ (IOCOOMCoreModel.new 1 3).executeLoad 0 ⟨.MEMORY_READ, ⟨0, 5⟩⟩
          = .ok ((0, 0), IOCOOMCoreModel.new 1 3) := by
  decide

end

/-- C36. On a freshly constructed store buffer with `M` entries, and on any store buffer
after `reset()`, `isAddressAvailable(t, addr)` returns NOT_FOUND for every time `t` and every
address `addr` except for `t = 0` and `addr = 0`, where it returns VALID on a buffer with an
entry. -/
theorem C36_fresh_buffer_answers (M : Nat) (b : StoreBuffer) (t addr : Nat)
    (hb : b.m_addresses.length = b.m_scoreboard.length) :
    (StoreBuffer.new M).isAddressAvailable t addr
        = .ok (if 0 < M ∧ t = 0 ∧ addr = 0 then .VALID else .NOT_FOUND)
      ∧ b.reset.isAddressAvailable t addr
        = .ok (if 0 < b.m_scoreboard.length ∧ t = 0 ∧ addr = 0 then .VALID else .NOT_FOUND) := by
  constructor
  · rw [StoreBuffer.new_eq]
    exact available_on_zeroed M t addr
  · have hr : b.reset
        = ⟨List.replicate b.m_scoreboard.length 0, List.replicate b.m_scoreboard.length 0⟩ := by
      simp only [StoreBuffer.reset, StoreBuffer.init, StoreBuffer.mk.injEq, true_and]
      rw [List.drop_of_length_le (by omega), List.append_nil]
    rw [hr]
    exact available_on_zeroed _ t addr

/-- C36, instance: a buffer with two entries after one store, reset; address `0x40` at time
0 and address 0 at time 1 are not found, on the fresh buffer and after the reset. -/
theorem C36_fresh_buffer_answers_witness :
    ((StoreBuffer.new 2).isAddressAvailable 0 0x40 = .ok .NOT_FOUND
      ∧ (StoreBuffer.mk [9, 0] [0x40, 0]).reset.isAddressAvailable 0 0x40 = .ok .NOT_FOUND)
    ∧ ((StoreBuffer.new 2).isAddressAvailable 1 0 = .ok .NOT_FOUND
      ∧ (StoreBuffer.mk [9, 0] [0x40, 0]).reset.isAddressAvailable 1 0 = .ok .NOT_FOUND) :=
  ⟨C36_fresh_buffer_answers 2 (StoreBuffer.mk [9, 0] [0x40, 0]) 0 0x40 (by decide),
    C36_fresh_buffer_answers 2 (StoreBuffer.mk [9, 0] [0x40, 0]) 1 0 (by decide)⟩

end Graphite

namespace Graphite
open Cache Examples

/-! ## Address decomposition and the freshly constructed cache -/

/-- C35. Address decomposition: for a 64-bit address, with `line_size = 2 ^ line_shift` (a
`UInt32`) and `set_index_mask = num_sets - 1` for a power of two `num_sets` (a `UInt32`),
`splitAddress` gives the tag `addr >> line_shift` and the set index `tag & set_mask`, which is
below `num_sets = getNumSets()`; the line offset is `addr & (line_size - 1)`, below the line
size; `tagToAddress(tag)` is `addr` without its offset, a multiple of the line size, and
`addr = tagToAddress(tag) + offset`. -/
theorem C35_address_decomposition (b : CacheBase) (addr num_sets : Nat)
    (ha : addr < U64) (hl : b.line_size = 2 ^ b.line_shift) (hls : b.line_size < U32)
    (hn : ∃ k, num_sets = 2 ^ k) (hnu : num_sets < U32)
    (hm : b.set_index_mask = num_sets - 1) :
    (b.splitAddress addr).1.getTag = addr >>> b.line_shift
      ∧ (b.splitAddress addr).2 = (b.splitAddress addr).1.getTag &&& b.set_index_mask
      ∧ (b.splitAddress addr).2 < num_sets
      ∧ b.getNumSets = num_sets
      ∧ b.lineOffset addr = addr &&& (b.line_size - 1)
      ∧ b.lineOffset addr < b.line_size
      ∧ b.tagToAddress (b.splitAddress addr).1 = addr - b.lineOffset addr
      ∧ b.tagToAddress (b.splitAddress addr).1 % b.line_size = 0
      ∧ addr = b.tagToAddress (b.splitAddress addr).1 + b.lineOffset addr := by
  obtain ⟨k, hk⟩ := hn
  have hnpos : 0 < num_sets := by rw [hk]; exact Nat.two_pow_pos k
  have hlpos : 0 < b.line_size := by rw [hl]; exact Nat.two_pow_pos _
  have hidx : (b.splitAddress addr).2 = (addr >>> b.line_shift) &&& b.set_index_mask := by
    unfold CacheBase.splitAddress
    exact Nat.mod_eq_of_lt
      (Nat.lt_of_le_of_lt Nat.and_le_right (by rw [hm]; omega))
  have hmaskm : (b.line_size + U32 - 1) % U32 = b.line_size - 1 := by
    have : b.line_size + U32 - 1 = (b.line_size - 1) + U32 := by omega
    rw [this, Nat.add_mod_right, Nat.mod_eq_of_lt (by omega)]
  have hoffand : b.lineOffset addr = addr &&& (b.line_size - 1) := by
    unfold CacheBase.lineOffset
    rw [hmaskm]
    exact Nat.mod_eq_of_lt (Nat.lt_of_le_of_lt Nat.and_le_right (by omega))
  have hoffmod : b.lineOffset addr = addr % b.line_size := by
    rw [hoffand, hl, Nat.and_pow_two_sub_one_eq_mod]
  have htag : b.tagToAddress (b.splitAddress addr).1
      = addr / b.line_size * b.line_size := by
    unfold CacheBase.tagToAddress CacheBase.splitAddress CacheTag.getTag CacheTag.ofTag
    simp only
    rw [Nat.shiftLeft_eq, Nat.shiftRight_eq_div_pow, ← hl]
    exact Nat.mod_eq_of_lt (Nat.lt_of_le_of_lt (Nat.div_mul_le_self _ _) ha)
  have hsplit := Nat.div_add_mod' addr b.line_size
  refine ⟨rfl, hidx, ?_, ?_, hoffand, ?_, ?_, ?_, ?_⟩
  · rw [hidx]
    exact Nat.lt_of_le_of_lt Nat.and_le_right (by rw [hm]; omega)
  · unfold CacheBase.getNumSets
    rw [hm, Nat.sub_add_cancel hnpos]
    exact Nat.mod_eq_of_lt hnu
  · rw [hoffmod]; exact Nat.mod_lt _ hlpos
  · rw [htag, hoffmod]; omega
  · rw [htag]; exact Nat.mul_mod_left _ _
  · rw [htag, hoffmod]; omega

/-- C35, instance: the address `0x104` in the cache of the scenarios (line size 16, four
sets). -/
theorem C35_address_decomposition_witness :
    (icache.splitAddress 0x104).1.getTag = 0x104 >>> icache.line_shift
      ∧ (icache.splitAddress 0x104).2
          = (icache.splitAddress 0x104).1.getTag &&& icache.set_index_mask
      ∧ (icache.splitAddress 0x104).2 < 4
      ∧ icache.getNumSets = 4
      ∧ icache.lineOffset 0x104 = 0x104 &&& (icache.line_size - 1)
      ∧ icache.lineOffset 0x104 < icache.line_size
      ∧ icache.tagToAddress (icache.splitAddress 0x104).1 = 0x104 - icache.lineOffset 0x104
      ∧ icache.tagToAddress (icache.splitAddress 0x104).1 % icache.line_size = 0
      ∧ 0x104 = icache.tagToAddress (icache.splitAddress 0x104).1 + icache.lineOffset 0x104 :=
  C35_address_decomposition icache.toCacheBase 0x104 4 (by decide) (by decide) (by decide)
    ⟨2, by decide⟩ (by decide) (by decide)

/-! ### The constructor leaves every slot empty -/

namespace Cache

/-- The scan of an array of empty slots finds no tag other than the all-ones pattern. -/
theorem scan_blank (n : Nat) (tag : CacheTag) (htag : tag.m_tag ≠ ALL_ONES) :
    ∀ (k : Nat), k ≤ n →
      RoundRobin.scan (List.replicate n CacheTag.blank) tag k = .ok none := by
  intro k hk
  have h := scan_skip (List.replicate n CacheTag.blank) tag 0 k (fun j _ hj => by
    refine ⟨CacheTag.blank, ?_, blank_ne tag htag⟩
    rw [List.getElem?_replicate, if_pos (by omega)])
  rw [Nat.zero_add] at h
  rw [h]
  rfl

/-- What the constructor leaves: every set, configured or not, has the tag array of the
default constructor, all slots empty, and a last slot index inside it; `set_ptrs` has its
declared extent; and `line_shift` is the logarithm of the line size. -/
theorem new_blank {P : TParams} {name : String} {size line_bytes assoc depth cn : Nat}
    {junk : Nat → Nat → Nat} {c : Cache} (hP : P.WF)
    (h : Cache.new P name size line_bytes assoc depth cn junk = .ok c) :
    (∀ s ∈ c.sets, s.m_tags = List.replicate P.k_MAX_ASSOCIATIVITY CacheTag.blank
        ∧ s.tags_last_index < P.k_MAX_ASSOCIATIVITY)
      ∧ c.set_ptrs.length = P.k_MAX_SETS + 1
      ∧ 2 ^ c.line_shift = line_bytes := by
  have hA := hP.1
  unfold Cache.new at h
  cases hb : CacheBase.new name size line_bytes assoc with
  | error e => simp [hb] at h
  | ok base =>
    simp only [hb] at h
    cases h0 : RoundRobin.new P P.k_MAX_ASSOCIATIVITY P.k_MAX_BLOCKSIZE with
    | error e => simp [h0] at h
    | ok set0 =>
      simp only [h0] at h
      by_cases hc : base.getNumSets ≤ P.k_MAX_SETS ∧ depth < P.k_MAX_SEARCH
      · rw [if_pos hc] at h
        cases hi : initSets P assoc line_bytes (List.replicate P.k_MAX_SETS set0)
            base.getNumSets with
        | error e => simp [hi] at h
        | ok sets =>
          simp only [hi] at h
          unfold CacheBase.new at hb
          simp only at hb
          split at hb
          · rename_i hbase
            injection hb with hb
            obtain ⟨hdiv, hlog, _, _⟩ := hbase
            have hassoc : assoc ≠ 0 := fun h0 => hdiv (by rw [h0, Nat.mul_zero])
            unfold RoundRobin.new at h0
            simp only at h0
            split at h0
            · rename_i hset0
              injection h0 with h0
              have hQ0 : set0.m_tags = List.replicate P.k_MAX_ASSOCIATIVITY CacheTag.blank
                  ∧ set0.tags_last_index < P.k_MAX_ASSOCIATIVITY := by
                subst h0; exact ⟨rfl, hset0.2.2⟩
              have hQstep : ∀ s s' : RoundRobin,
                  (s.m_tags = List.replicate P.k_MAX_ASSOCIATIVITY CacheTag.blank
                    ∧ s.tags_last_index < P.k_MAX_ASSOCIATIVITY) →
                  s.setAssociativity P assoc = .ok s' →
                  ((s'.setBlockSize line_bytes).m_tags
                      = List.replicate P.k_MAX_ASSOCIATIVITY CacheTag.blank
                    ∧ (s'.setBlockSize line_bytes).tags_last_index
                        < P.k_MAX_ASSOCIATIVITY) := by
                intro s s' hq hsa
                unfold RoundRobin.setAssociativity at hsa
                split at hsa
                · rename_i hle
                  injection hsa with hsa; subst hsa
                  have hwrap : (assoc + U32 - 1) % U32 = assoc - 1 := by
                    have : assoc + U32 - 1 = (assoc - 1) + U32 := by omega
                    rw [this, Nat.add_mod_right]
                    exact Nat.mod_eq_of_lt (by show assoc - 1 < 2 ^ 32; omega)
                  simp only [RoundRobin.setBlockSize, hwrap]
                  exact ⟨hq.1, by omega⟩
                · cases hsa
              obtain ⟨_, hq⟩ := initSets_ok
                (fun s => s.m_tags = List.replicate P.k_MAX_ASSOCIATIVITY CacheTag.blank
                  ∧ s.tags_last_index < P.k_MAX_ASSOCIATIVITY) hQstep
                (fun s hs => by rw [List.eq_of_mem_replicate hs]; exact hQ0) _ _ hi
              unfold Cache.resetCounters at h
              split at h
              · injection h with h; subst h
                refine ⟨fun s hs => hq s hs, ?_, ?_⟩
                · show ((List.range (P.k_MAX_SETS + 1)).map _).length = _
                  simp
                · show 2 ^ base.line_shift = line_bytes
                  subst hb
                  exact hlog
              · cases h
            · cases h0
          · cases hb
      · rw [if_neg hc] at h; cases h

end Cache

/-- C38. A freshly constructed cache is empty: with template parameters in range, a size
that fits a `UInt32` and a line size of at least 2, `accessSingleLinePeek(addr)` on the cache
the constructor returns reports a miss for every 64-bit address: every slot holds the empty
tag, and `addr >> line_shift` is not the all-ones pattern. -/
theorem C38_fresh_cache_is_empty (P : TParams) (name : String)
    (size line_bytes assoc depth cn : Nat) (junk : Nat → Nat → Nat) (c : Cache) (addr : Nat)
    (hP : P.WF) (hsize : size < U32) (hline : 2 ≤ line_bytes) (ha : addr < U64)
    (hnew : Cache.new P name size line_bytes assoc depth cn junk = .ok c) :
    c.accessSingleLinePeek P addr = .ok none := by
  obtain ⟨hlen, hmask, hptr, _⟩ := TagInv.new hP hsize hnew
  obtain ⟨hblank, hplen, hshift⟩ := new_blank hP hnew
  have hhome := home_le_mask c.toCacheBase addr
  have hlt : (c.splitAddress addr).2 < c.sets.length := by omega
  have hlt' : (c.splitAddress addr).2 < c.set_ptrs.length := by omega
  have hs := List.getElem?_eq_getElem hlt
  have hp := List.getElem?_eq_getElem hlt'
  have hpv := hptr _ _ hhome hp
  obtain ⟨htags, htli⟩ := hblank _ (List.getElem?_mem hs)
  have hshift1 : 1 ≤ c.line_shift := by
    by_contra hc
    have h0 : c.line_shift = 0 := by omega
    rw [h0] at hshift
    simp at hshift
    omega
  have htag : (c.splitAddress addr).1.m_tag ≠ ALL_ONES :=
    tag_ne_sentinel addr c.line_shift hshift1 ha
  have hfind : (c.sets[(c.splitAddress addr).2]).find P (c.splitAddress addr).1 = .ok none := by
    unfold RoundRobin.find
    rw [if_pos htli, htags]
    have := hP.1
    exact scan_blank _ _ htag _ (by rw [sint32Count_small (by omega)]; omega)
  unfold accessSingleLinePeek
  rw [peekLoop]
  simp only [hs, hfind, hp, hpv, Nat.lt_irrefl, and_false, if_false]

/-- C38, instance: the cache `Cache("icache", 64, 16, 1, 1)` and the address `0x100`. -/
theorem C38_fresh_cache_is_empty_witness :
    icache.accessSingleLinePeek P0 0x100 = .ok none :=
  C38_fresh_cache_is_empty P0 "icache" 64 16 1 1 0 (fun _ _ => 0) icache 0x100 (by decide)
    (by decide) (by decide) (by decide) (by decide)

end Graphite

namespace Graphite
open Cache Examples

/-! ## The victim set of an allocating miss, and the eviction flag -/

namespace Cache

/-- With a search depth of at most one a lookup that misses has probed the home set and
nothing else. -/
theorem lookup_shallow_home {P : TParams} {c : Cache} {addr : Nat} {p : Probe}
    (hd : c.max_search ≤ 1) (hl : lookup P c addr = .ok p) (hmiss : p.hit = false) :
    p.depth = 1 ∧ p.history[0]? = some (some (c.splitAddress addr).2) := by
  unfold lookup at hl
  obtain ⟨hdl, set, res, next, _, _, _, hcase⟩ := probeLoop_step hl
  rcases hcase with ⟨way, _, rfl⟩ | ⟨_, hc, _⟩ | ⟨_, _, rfl⟩
  · cases hmiss
  · omega
  · refine ⟨rfl, ?_⟩
    show ((List.replicate P.k_MAX_SEARCH none).set 0 (some (c.splitAddress addr).2))[0]? = _
    rw [List.getElem?_set_self hdl]

/-- What an allocating miss does to the sets: the set drawn from the history array takes the
tag in the slot its replacement pointer names, and every other set is as before. -/
theorem alloc_sets {P : TParams} {c : Cache} {addr which li : Nat} {t : AccessType}
    {set : RoundRobin} {fill : Option (List Nat)} {ev : Option Bool} {et : Option CacheTag}
    {eb buff buff' : Option (List Nat)} {bytes : Nat} {rep : RoundRobin.Replaced}
    {sets : List RoundRobin}
    (hs : c.sets[which]? = some set)
    (hrep : set.replace P (c.splitAddress addr).1 fill ev et eb = .ok rep)
    (htr : transfer c.toCacheBase (c.sets.set which rep.set) which li addr t buff bytes
      = .ok (sets, buff')) :
    (∃ set', sets[which]? = some set'
        ∧ set'.m_tags = set.m_tags.set set.next_replace_index (c.splitAddress addr).1)
      ∧ ∀ i, i ≠ which → sets[i]? = c.sets[i]? := by
  have hwl : which < c.sets.length := by
    by_contra hc
    rw [List.getElem?_eq_none (by omega)] at hs; cases hs
  obtain ⟨set0, set', hs0, rfl, htags, _⟩ := transfer_keeps htr
  rw [List.getElem?_set_self (by simpa using hwl)] at hs0
  injection hs0 with hs0; subst hs0
  obtain ⟨_, _, _, hrt, _⟩ := RoundRobin.replace_ok hrep
  constructor
  · refine ⟨set', ?_, by rw [htags, hrt]⟩
    rw [List.getElem?_set_self (by simpa using hwl)]
  · intro i hi
    rw [List.getElem?_set_ne (fun h => hi h.symm), List.getElem?_set_ne (fun h => hi h.symm)]

end Cache

/-- C31. Victim-set selection: when `accessSingleLine` returns from a miss that allocates (a
load, or a store under `k_STORE_ALLOCATE`, not sent back for a fill), the lookup has probed
`depth >= 1` sets, the value `r` it drew with `rand.next(depth)` is below `depth`, the set
`history[r]` is a set the lookup probed without finding the tag, that set takes the new tag
in the slot its replacement pointer named and no other set changes; with a search depth of
at most one it is the home set of the address. -/
theorem C31_victim_set_selection (P : TParams) (c : Cache) (addr : Nat) (t : AccessType)
    (a : AccessArgs) (r : AccessOut)
    (h : c.accessSingleLine P addr t a = .ok r) (hmiss : r.hit = false)
    (hfill : r.fail_need_fill ≠ some true)
    (halloc : t = .k_ACCESS_TYPE_LOAD ∨ P.k_STORE_ALLOCATION = k_STORE_ALLOCATE) :
    ∃ (p : Probe) (which : Nat) (set set' : RoundRobin),
      lookup P c addr = .ok p ∧ p.hit = false ∧ 1 ≤ p.depth
        ∧ (P.rand_next c.rand p.depth).1 < p.depth
        ∧ p.history[(P.rand_next c.rand p.depth).1]? = some (some which)
        ∧ c.sets[which]? = some set ∧ set.find P (c.splitAddress addr).1 = .ok none
        ∧ r.cache.sets[which]? = some set'
        ∧ set'.m_tags = set.m_tags.set set.next_replace_index (c.splitAddress addr).1
        ∧ (∀ i, i ≠ which → r.cache.sets[i]? = c.sets[i]?)
        ∧ (c.max_search ≤ 1 → which = (c.splitAddress addr).2) := by
  obtain ⟨_, p, hl, hcase⟩ := access_cases h
  rcases hcase with ⟨hsome, _, _, rfl⟩ | ⟨_, _, _, _, rfl⟩ | hall | ⟨_, _, hno, _⟩
  · exfalso
    apply hfill
    show a.fail_need_fill.map (fun _ => true) = some true
    cases hf : a.fail_need_fill with
    | none => rw [hf] at hsome; cases hsome
    | some v => rfl
  · cases hmiss
  · obtain ⟨hpm, _, _, which, set, rep, found, sets, buff, hrh, hs, hrep, _, htr, rfl⟩ := hall
    obtain ⟨hlt, hcell, set0, hs0, hf0⟩ := lookup_history hl hpm hrh
    rw [hs] at hs0
    injection hs0 with hs0; subst hs0
    obtain ⟨⟨set', hs', htags⟩, hother⟩ := alloc_sets hs hrep htr
    refine ⟨p, which, set, set', hl, hpm, by omega, hlt, hcell, hs, hf0, hs', htags, hother, ?_⟩
    intro hd
    obtain ⟨hd1, h0⟩ := lookup_shallow_home hd hl hpm
    have hr0 : (P.rand_next c.rand p.depth).1 = 0 := by omega
    rw [hr0, h0] at hcell
    injection hcell with hcell
    injection hcell with hcell
    exact hcell.symm
  · exact absurd halloc hno

/-- C31, instance: in the cache `linked`, where set 0 is followed by set 1, the load of
`0x000` probes the sets 0 and 1, the generator draws 1, and set 1 takes the line. -/
theorem C31_victim_set_selection_witness :
    ∃ (p : Probe) (which : Nat) (set set' : RoundRobin),
      lookup P0 linked 0x000 = .ok p ∧ p.hit = false ∧ 1 ≤ p.depth
        ∧ (P0.rand_next linked.rand p.depth).1 < p.depth
        ∧ p.history[(P0.rand_next linked.rand p.depth).1]? = some (some which)
        ∧ linked.sets[which]? = some set ∧ set.find P0 (linked.splitAddress 0x000).1 = .ok none
        ∧ linkedLoad.cache.sets[which]? = some set'
        ∧ set'.m_tags = set.m_tags.set set.next_replace_index (linked.splitAddress 0x000).1
        ∧ (∀ i, i ≠ which → linkedLoad.cache.sets[i]? = linked.sets[i]?)
        ∧ (linked.max_search ≤ 1 → which = (linked.splitAddress 0x000).2) :=
  C31_victim_set_selection P0 linked 0x000 .k_ACCESS_TYPE_LOAD fillArgs linkedLoad
    (by decide) (by decide) (by decide) (by decide)

/-- The load of `0x000` into `linked` probes the sets 0 and 1 and puts the line into set 1. -/
theorem linked_load_goes_to_set_1 :
    (lookup P0 linked 0x000).map (fun p => (p.depth, p.history)) = .ok (2, [some 0, some 1, none])
      ∧ (P0.rand_next linked.rand 2).1 = 1
      ∧ linkedLoad.tagptr = some (1, 0) := by
  decide

/-! ### The eviction flag -/

namespace Cache

/-- The eviction flag after an allocating miss: true when the slot replaced held a valid
line, and otherwise the value the flag held before the call. -/
theorem alloc_flag {P : TParams} {c : Cache} {addr : Nat} {t : AccessType} {a : AccessArgs}
    {r : AccessOut} {e : Bool}
    (h : c.accessSingleLine P addr t a = .ok r) (he : a.eviction = some e)
    (hmiss : r.hit = false) (hfill : r.fail_need_fill ≠ some true)
    (halloc : t = .k_ACCESS_TYPE_LOAD ∨ P.k_STORE_ALLOCATION = k_STORE_ALLOCATE) :
    ∃ (p : Probe) (which : Nat) (set : RoundRobin) (old : CacheTag),
      lookup P c addr = .ok p
        ∧ readHistory p.history (P.rand_next c.rand p.depth).1 = .ok which
        ∧ c.sets[which]? = some set ∧ set.m_tags[set.next_replace_index]? = some old
        ∧ r.eviction = some (old.isValid || e) := by
  obtain ⟨_, p, hl, hcase⟩ := access_cases h
  rcases hcase with ⟨hsome, _, _, rfl⟩ | ⟨_, _, _, _, rfl⟩ | hall | ⟨_, _, hno, _⟩
  · exfalso
    apply hfill
    show a.fail_need_fill.map (fun _ => true) = some true
    cases hf : a.fail_need_fill with
    | none => rw [hf] at hsome; cases hsome
    | some v => rfl
  · cases hmiss
  · obtain ⟨_, _, _, which, set, rep, found, sets, buff, hrh, hs, hrep, _, _, rfl⟩ := hall
    obtain ⟨old, hold, _, _, _, _, _, _, _, hvalid, hinvalid⟩ := RoundRobin.replace_ok hrep
    refine ⟨p, which, set, old, hl, hrh, hs, hold, ?_⟩
    show rep.eviction = _
    cases hv : old.isValid with
    | true => rw [(hvalid hv).1, he]; rfl
    | false => rw [(hinvalid hv).1, he]; rfl
  · exact absurd halloc hno

/-- The eviction flag after a returned call that did not allocate: false. -/
theorem other_flag {P : TParams} {c : Cache} {addr : Nat} {t : AccessType} {a : AccessArgs}
    {r : AccessOut} {e : Bool}
    (h : c.accessSingleLine P addr t a = .ok r) (he : a.eviction = some e)
    (hother : r.hit = true ∨ r.fail_need_fill = some true
      ∨ ¬ (t = .k_ACCESS_TYPE_LOAD ∨ P.k_STORE_ALLOCATION = k_STORE_ALLOCATE)) :
    r.eviction = some false := by
  obtain ⟨_, p, hl, hcase⟩ := access_cases h
  rcases hcase with ⟨_, _, _, rfl⟩ | ⟨_, _, _, _, rfl⟩ | hall | ⟨_, _, _, rfl⟩
  · show a.eviction.map (fun _ => false) = _
    rw [he]; rfl
  · show a.eviction.map (fun _ => false) = _
    rw [he]; rfl
  · obtain ⟨_, hnf, hal, which, set, rep, found, sets, buff, _, _, _, _, _, rfl⟩ := hall
    rcases hother with h1 | h2 | h3
    · cases h1
    · exfalso
      have h2' : a.fail_need_fill.map (fun _ => false) = some true := h2
      cases hf : a.fail_need_fill with
      | none => rw [hf] at h2'; cases h2'
      | some v => rw [hf] at h2'; cases h2'
    · exact absurd hal h3
  · show a.eviction.map (fun _ => false) = _
    rw [he]; rfl

end Cache

/-- C33 at a failing input: on the freshly constructed cache the load of `0x040`, called
with a fill buffer and the three eviction-capture parameters, the flag holding true before
the call, misses and fills slot 0 of set 0, which held no valid line; the flag is true
after the call, and the address reported is the one of the empty tag. The same call with
the flag false before leaves the same cache and the flag false. -/
theorem C33_flag_left_true_without_eviction :
    icache.accessSingleLine P0 0x040 .k_ACCESS_TYPE_LOAD staleArgs = .ok staleFill
      ∧ staleArgs.eviction = some true
      ∧ staleFill.hit = false ∧ staleFill.tagptr = some (0, 0)
      ∧ (icache.sets[0]?.bind (fun s => s.m_tags[0]?)).map CacheTag.isValid = some false
      ∧ staleFill.eviction = some true
      ∧ staleFill.evict_addr = some (icache.tagToAddress CacheTag.blank)
      ∧ (icache.accessSingleLine P0 0x040 .k_ACCESS_TYPE_LOAD evictArgs).map
          (fun r => (r.cache, r.eviction)) = .ok (staleFill.cache, some false) := by
  decide

end Graphite

namespace Graphite
open Cache Examples

/-! ## The two slot indices of a set -/

namespace RoundRobin

/-- `replace` keeps the shape of a set. -/
theorem WF.replace_keeps {P : TParams} {s : RoundRobin} {tag : CacheTag}
    {fill : Option (List Nat)} {ev : Option Bool} {et : Option CacheTag}
    {eb : Option (List Nat)} {rep : Replaced} (hs : s.WF P)
    (h : s.replace P tag fill ev et eb = .ok rep) : rep.set.WF P := by
  obtain ⟨a1, a2, a3, a4, a5⟩ := hs
  obtain ⟨old, _, _, htags, htli, hbs, hnri, hnofill, hfill, _⟩ := replace_ok h
  have hblen : rep.set.m_blocks.length = s.m_blocks.length := by
    cases hf : fill with
    | none => rw [hnofill hf]
    | some fb => exact memcpy_length (hfill fb hf)
  refine ⟨by rw [htags]; simpa using a1, by rw [hblen]; exact a2, by rw [htli]; exact a3, ?_,
    by rw [hbs]; exact a5⟩
  rw [hnri, htli]
  split <;> omega

/-- `invalidateTag` keeps the shape of a set, and its two slot indices. -/
theorem WF.invalidate_keeps {P : TParams} {s s' : RoundRobin} {tag : CacheTag} {b : Bool}
    (hs : s.WF P) (h : s.invalidateTag P tag = .ok (s', b)) :
    s'.WF P ∧ s'.blocksize = s.blocksize ∧ s'.tags_last_index = s.tags_last_index
      ∧ s'.next_replace_index = s.next_replace_index := by
  unfold RoundRobin.invalidateTag at h
  split at h
  · rename_i tags b' hscan
    injection h with h; injection h with h1 h2
    subst h1
    obtain ⟨a1, a2, a3, a4, a5⟩ := hs
    refine ⟨⟨?_, a2, a3, a4, a5⟩, rfl, rfl, rfl⟩
    rcases invalidateScan_ok hscan with rfl | ⟨k, rfl⟩
    · exact a1
    · simpa using a1
  · cases h

/-- `modifyAssociativity` keeps the shape of a set. -/
theorem WF.modify_keeps {P : TParams} {s s' : RoundRobin} {sharedMem : Bool} {assoc : Nat}
    (hP : P.WF) (hs : s.WF P) (h : s.modifyAssociativity P sharedMem assoc = .ok s') :
    s'.WF P ∧ s'.blocksize = s.blocksize := by
  have hA := hP.1
  obtain ⟨a1, a2, a3, a4, a5⟩ := hs
  have hassoc : s.getAssociativity = s.tags_last_index + 1 := by
    unfold RoundRobin.getAssociativity
    exact Nat.mod_eq_of_lt (by show s.tags_last_index + 1 < 2 ^ 32; omega)
  unfold RoundRobin.modifyAssociativity at h
  by_cases hok : assoc ≠ 0 ∧ assoc ≤ P.k_MAX_ASSOCIATIVITY
  · simp only [hassoc] at h
    rw [if_pos hok] at h
    by_cases hgrow : assoc > s.tags_last_index + 1
    · rw [if_pos hgrow] at h
      injection h with h; subst h
      exact ⟨⟨by simpa [clearTags_length] using a1, a2, by show assoc - 1 < _; omega,
        Nat.le_refl _, a5⟩, rfl⟩
    · rw [if_neg hgrow] at h
      by_cases hshrink : assoc < s.tags_last_index + 1
      · rw [if_pos hshrink] at h
        cases sharedMem with
        | true => simp at h
        | false =>
          simp only [Bool.false_eq_true, if_false, if_pos a3] at h
          injection h with h; subst h
          refine ⟨⟨by simpa [clearTags_length] using a1, a2, by show assoc - 1 < _; omega, ?_,
            a5⟩, rfl⟩
          show (if s.next_replace_index > assoc - 1 then assoc - 1 else s.next_replace_index)
            ≤ assoc - 1
          split <;> omega
      · rw [if_neg hshrink] at h
        injection h with h; subst h
        exact ⟨⟨a1, a2, a3, a4, a5⟩, rfl⟩
  · rw [if_neg hok] at h; cases h

/-- `modifyAssociativity` ends in a failed assertion when it does not return. -/
theorem modify_error {P : TParams} {s : RoundRobin} {sharedMem : Bool} {assoc : Nat}
    {e : Fault} (h : s.modifyAssociativity P sharedMem assoc = .error e) : e = .assertion := by
  unfold RoundRobin.modifyAssociativity at h
  split at h
  · simp only at h
    split at h
    · cases h
    · split at h
      · split at h
        · injection h with h; exact h.symm
        · split at h
          · cases h
          · injection h with h; exact h.symm
      · cases h
  · injection h with h; exact h.symm

/-- The loop of `invalidateTag` returns when it stays inside the tag array. -/
theorem invalidateScan_total (P : TParams) (tags : List CacheTag) (tag : CacheTag) :
    ∀ (n : Nat), n ≤ tags.length → n ≤ P.k_MAX_ASSOCIATIVITY →
      ∃ r, invalidateScan P tags tag n = .ok r := by
  intro n
  induction n with
  | zero => intro _ _; exact ⟨_, rfl⟩
  | succ n ih =>
    intro h1 h2
    rw [invalidateScan, if_pos (by omega), List.getElem?_eq_getElem (by omega)]
    simp only
    split
    · exact ⟨_, rfl⟩
    · exact ih (by omega) (by omega)

/-- `invalidateTag` returns on a well-shaped set. -/
theorem invalidate_total {P : TParams} {s : RoundRobin} (hP : P.WF) (hs : s.WF P)
    (tag : CacheTag) : ∃ r, s.invalidateTag P tag = .ok r := by
  have hA := hP.1
  obtain ⟨a1, _, a3, _, _⟩ := hs
  obtain ⟨r, hr⟩ := invalidateScan_total P s.m_tags tag (sint32Count s.tags_last_index)
    (by rw [sint32Count_small (by omega)]; omega) (by rw [sint32Count_small (by omega)]; omega)
  unfold RoundRobin.invalidateTag
  rw [hr]
  exact ⟨_, rfl⟩

/-- One call keeps the shape and the block size of a set. -/
theorem WF.set_step_keeps {P : TParams} {s s' : RoundRobin} {op : SetOp} (hP : P.WF)
    (hs : s.WF P) (h : s.step P op = .ok s') : s'.WF P ∧ s'.blocksize = s.blocksize := by
  cases op with
  | replace tag fb ev et eb =>
    simp only [RoundRobin.step] at h
    split at h
    · rename_i rep hrep
      injection h with h; subst h
      exact ⟨hs.replace_keeps hrep, (replace_ok hrep).choose_spec.2.2.2.2.1⟩
    · cases h
  | invalidateTag tag =>
    simp only [RoundRobin.step] at h
    split at h
    · rename_i r hr
      injection h with h; subst h
      obtain ⟨h1, h2, _⟩ := @WF.invalidate_keeps P s r.1 tag r.2 hs hr
      exact ⟨h1, h2⟩
    · cases h
  | modifyAssociativity sm assoc =>
    exact hs.modify_keeps hP h

/-- One call whose buffers hold a block indexes no array outside its extent: when it does not
return, an assertion of `modifyAssociativity` has failed. -/
theorem set_step_in_range {P : TParams} {s : RoundRobin} {op : SetOp} (hP : P.WF)
    (hs : s.WF P) (hfit : op.fits s.blocksize = true) {e : Fault}
    (h : s.step P op = .error e) : e = .assertion := by
  cases op with
  | replace tag fb ev et eb =>
    exfalso
    simp only [SetOp.fits, Bool.and_eq_true] at hfit
    obtain ⟨rep, hrep⟩ := replace_total hP hs tag fb ev et eb
      (fun b hb => by
        have := hfit.1
        rw [hb] at this
        simpa [holdsBlock] using this)
      (fun b hb => by
        have := hfit.2
        rw [hb] at this
        simpa [holdsBlock] using this)
    simp only [RoundRobin.step, hrep] at h
    cases h
  | invalidateTag tag =>
    exfalso
    obtain ⟨r, hr⟩ := invalidate_total hP hs tag
    simp only [RoundRobin.step, hr] at h
    cases h
  | modifyAssociativity sm assoc =>
    exact modify_error h

/-- A run of calls keeps the shape and the block size of a set. -/
theorem WF.set_run_keeps {P : TParams} (hP : P.WF) :
    ∀ (ops : List SetOp) (s s' : RoundRobin), s.WF P → s.run P ops = .ok s' →
      s'.WF P ∧ s'.blocksize = s.blocksize := by
  intro ops
  induction ops with
  | nil =>
    intro s s' hs h
    simp only [RoundRobin.run] at h
    injection h with h; subst h
    exact ⟨hs, rfl⟩
  | cons op ops ih =>
    intro s s' hs h
    simp only [RoundRobin.run] at h
    cases hstep : s.step P op with
    | error e => rw [hstep] at h; cases h
    | ok s1 =>
      rw [hstep] at h
      obtain ⟨h1, h2⟩ := hs.set_step_keeps hP hstep
      obtain ⟨h3, h4⟩ := ih s1 s' h1 h
      exact ⟨h3, by rw [h4, h2]⟩

/-- A run of calls whose buffers hold a block indexes no array outside its extent. -/
theorem set_run_in_range {P : TParams} (hP : P.WF) :
    ∀ (ops : List SetOp) (s : RoundRobin), s.WF P →
      (∀ op ∈ ops, op.fits s.blocksize = true) →
      ∀ e, s.run P ops = .error e → e = .assertion := by
  intro ops
  induction ops with
  | nil =>
    intro s _ _ e h
    simp only [RoundRobin.run] at h
    cases h
  | cons op ops ih =>
    intro s hs hfit e h
    simp only [RoundRobin.run] at h
    cases hstep : s.step P op with
    | error e1 =>
      rw [hstep] at h
      injection h with h; subst h
      exact set_step_in_range hP hs (hfit op (List.mem_cons_self _ _)) hstep
    | ok s1 =>
      rw [hstep] at h
      obtain ⟨h1, h2⟩ := hs.set_step_keeps hP hstep
      exact ih s1 h1 (fun o ho => by rw [h2]; exact hfit o (List.mem_cons_of_mem _ ho)) e h

/-- The constructor, called with an associativity in `1 .. k_MAX_ASSOCIATIVITY` and a block
size the block array can hold, gives a well-shaped set with empty slots and both slot indices
at `assoc - 1`. -/
theorem new_set {P : TParams} (hP : P.WF) {assoc blksize : Nat} (h1 : 1 ≤ assoc)
    (h2 : assoc ≤ P.k_MAX_ASSOCIATIVITY) (hb : blksize ≤ P.k_MAX_BLOCKSIZE) :
    ∃ s0, RoundRobin.new P assoc blksize = .ok s0 ∧ s0.WF P ∧ s0.blocksize = blksize
      ∧ s0.tags_last_index = assoc - 1 ∧ s0.next_replace_index = assoc - 1
      ∧ s0.m_tags = List.replicate P.k_MAX_ASSOCIATIVITY CacheTag.blank := by
  have hA := hP.1
  have hwrap : (assoc + U32 - 1) % U32 = assoc - 1 := by
    have : assoc + U32 - 1 = (assoc - 1) + U32 := by omega
    rw [this, Nat.add_mod_right]
    exact Nat.mod_eq_of_lt (by show assoc - 1 < 2 ^ 32; omega)
  unfold RoundRobin.new
  simp only [hwrap]
  rw [if_pos ⟨h2, hb, by omega⟩]
  refine ⟨_, rfl, ⟨by simp, by simp [Nat.mul_comm], by show assoc - 1 < _; omega,
    Nat.le_refl _, hb⟩, rfl, rfl, rfl, rfl⟩

end RoundRobin

/-- C39. Set index invariant: a set constructed with `1 <= assoc <= k_MAX_ASSOCIATIVITY` (and
a block size the block array holds) is constructed without fault, and after every sequence
of `replace`, `invalidateTag` and `modifyAssociativity` calls that returned,
`next_replace_index <= tags_last_index < k_MAX_ASSOCIATIVITY`, so that the slot a further
`replace` writes, the one `next_replace_index` names, lies inside the current associativity.
When the buffers passed to `replace` hold a block, no call of the sequence indexes an array
outside its extent: a sequence that does not return has failed an assertion on the argument
of `modifyAssociativity`. -/
theorem C39_set_index_invariant (P : TParams) (assoc blksize : Nat) (ops : List SetOp)
    (hP : P.WF) (h1 : 1 ≤ assoc) (h2 : assoc ≤ P.k_MAX_ASSOCIATIVITY)
    (hb : blksize ≤ P.k_MAX_BLOCKSIZE) :
    ∃ s0, RoundRobin.new P assoc blksize = .ok s0
      ∧ (∀ s, s0.run P ops = .ok s →
          s.next_replace_index ≤ s.tags_last_index
            ∧ s.tags_last_index < P.k_MAX_ASSOCIATIVITY
            ∧ ∀ (tag : CacheTag) (fill : Option (List Nat)) (ev : Option Bool)
                (et : Option CacheTag) (eb : Option (List Nat)) (rep : RoundRobin.Replaced),
                s.replace P tag fill ev et eb = .ok rep →
                rep.set.m_tags = s.m_tags.set s.next_replace_index tag
                  ∧ s.next_replace_index < s.m_tags.length)
      ∧ ((∀ op ∈ ops, op.fits blksize = true) →
          ∀ e, s0.run P ops = .error e → e = .assertion) := by
  obtain ⟨s0, hnew, hwf, hbs, _⟩ := RoundRobin.new_set hP h1 h2 hb
  refine ⟨s0, hnew, ?_, ?_⟩
  · intro s hrun
    obtain ⟨⟨a1, _, a3, a4, _⟩, _⟩ := RoundRobin.WF.set_run_keeps hP ops s0 s hwf hrun
    refine ⟨a4, a3, ?_⟩
    intro tag fill ev et eb rep hrep
    obtain ⟨_, _, _, htags, _⟩ := RoundRobin.replace_ok hrep
    exact ⟨htags, by omega⟩
  · intro hfit e hrun
    exact RoundRobin.set_run_in_range hP ops s0 hwf (fun o ho => by rw [hbs]; exact hfit o ho)
      e hrun

/-- C39, instance: a set constructed with two ways, after two replacements, a shrink to one
way, a replacement with a fill buffer, an invalidation and a grow back to two ways. -/
theorem C39_set_index_invariant_witness :
    ∃ s0, RoundRobin.new P0 2 16 = .ok s0
      ∧ (∀ s, s0.run P0 setCalls = .ok s →
          s.next_replace_index ≤ s.tags_last_index
            ∧ s.tags_last_index < P0.k_MAX_ASSOCIATIVITY
            ∧ ∀ (tag : CacheTag) (fill : Option (List Nat)) (ev : Option Bool)
                (et : Option CacheTag) (eb : Option (List Nat)) (rep : RoundRobin.Replaced),
                s.replace P0 tag fill ev et eb = .ok rep →
                rep.set.m_tags = s.m_tags.set s.next_replace_index tag
                  ∧ s.next_replace_index < s.m_tags.length)
      ∧ ((∀ op ∈ setCalls, op.fits 16 = true) →
          ∀ e, s0.run P0 setCalls = .error e → e = .assertion) :=
  C39_set_index_invariant P0 2 16 setCalls (by decide) (by decide) (by decide) (by decide)

/-- The run of `setCalls` on the set constructed with two ways returns, with one way in use
after the shrink and two at the end. -/
theorem set_calls_return :
    RoundRobin.new P0 2 16 = .ok twoWay
      ∧ (twoWay.run P0 (setCalls.take 3)).map
          (fun s => (s.tags_last_index, s.next_replace_index)) = .ok (0, 0)
      ∧ (twoWay.run P0 setCalls).map
          (fun s => (s.tags_last_index, s.next_replace_index)) = .ok (1, 1) := by
  decide

end Graphite

namespace Graphite
open Cache Examples

/-! ## Round-robin replacement -/

/-- The first call writes the slot the pointer names. -/
theorem Spec.rrSlot_zero {A n : Nat} (hn : n < A) : Spec.rrSlot A n 0 = n := by
  unfold Spec.rrSlot
  rw [Nat.zero_mul, Nat.add_zero]
  exact Nat.mod_eq_of_lt hn

/-- The order of the slots after one step of the pointer is the order before, from the
second call on. -/
theorem Spec.rrSlot_step {A n : Nat} (hn : n < A) (k : Nat) :
    Spec.rrSlot A (if n = 0 then A - 1 else n - 1) k = Spec.rrSlot A n (k + 1) := by
  have hp : (if n = 0 then A - 1 else n - 1) = (n + (A - 1)) % A := by
    split
    · rename_i h0
      subst h0
      rw [Nat.zero_add]
      exact (Nat.mod_eq_of_lt (by omega)).symm
    · have : n + (A - 1) = (n - 1) + A := by omega
      rw [this, Nat.add_mod_right]
      exact (Nat.mod_eq_of_lt (by omega)).symm
  unfold Spec.rrSlot
  rw [hp, Nat.mod_add_mod, Nat.add_mul, Nat.one_mul]
  congr 1
  omega

/-- The slot of call `k < A` in steps: `n, n - 1, ..., 0, A - 1, ..., n + 1`. -/
theorem Spec.rrSlot_lt {A n k : Nat} (hn : n < A) (hk : k < A) :
    Spec.rrSlot A n k = if k ≤ n then n - k else n + A - k := by
  unfold Spec.rrSlot
  have hmul : k * (A - 1) = k * A - k := Nat.mul_sub_one k A
  have hle : k ≤ k * A := Nat.le_mul_of_pos_right k (by omega)
  split
  · rename_i hkn
    have : n + k * (A - 1) = (n - k) + k * A := by omega
    rw [this, Nat.add_mul_mod_self_right]
    exact Nat.mod_eq_of_lt (by omega)
  · rename_i hkn
    have hk1 : k * A = (k - 1) * A + A := by
      have : k = (k - 1) + 1 := by omega
      conv_lhs => rw [this, Nat.add_mul, Nat.one_mul]
    have : n + k * (A - 1) = (n + A - k) + (k - 1) * A := by omega
    rw [this, Nat.add_mul_mod_self_right]
    exact Nat.mod_eq_of_lt (by omega)

/-- After `A` calls the pointer is where it was. -/
theorem Spec.rrSlot_full {A n : Nat} (hn : n < A) : Spec.rrSlot A n A = n := by
  unfold Spec.rrSlot
  rw [Nat.add_mul_mod_self_left]
  exact Nat.mod_eq_of_lt hn

/-- Fewer than `A + 1` consecutive calls write pairwise distinct slots. -/
theorem Spec.rrSlot_inj {A n i j : Nat} (hn : n < A) (hi : i < A) (hj : j < A)
    (h : Spec.rrSlot A n i = Spec.rrSlot A n j) : i = j := by
  rw [Spec.rrSlot_lt hn hi, Spec.rrSlot_lt hn hj] at h
  split at h <;> split at h <;> omega

theorem Spec.rrSlot_bound {A n k : Nat} (hA : 0 < A) : Spec.rrSlot A n k < A :=
  Nat.mod_lt _ hA

namespace RoundRobin

/-- A `replace` call without buffers returns when the replacement pointer is inside the tag
array and below `k_MAX_ASSOCIATIVITY`. -/
theorem replace_plain (P : TParams) (s : RoundRobin) (tag : CacheTag) (ev : Option Bool)
    (et : Option CacheTag) (h1 : s.next_replace_index < s.m_tags.length)
    (h2 : s.next_replace_index < P.k_MAX_ASSOCIATIVITY) :
    ∃ rep, s.replace P tag none ev et none = .ok rep := by
  unfold RoundRobin.replace
  simp only [List.getElem?_eq_getElem h1]
  split
  · rename_i e hcap
    split at hcap <;> cases hcap
  · rename_i ev' et' eb' hcap
    rw [if_pos h2]
    exact ⟨_, rfl⟩

/-- Consecutive `replace` calls, at most as many as the set has ways: the calls return, call
`k` writes the slot `rrSlot A n k` and reports the line that slot held before the first call,
a slot no call wrote is as before, and the pointer ends at `rrSlot A n` of the number of
calls. -/
theorem replaceAll_spec (P : TParams) :
    ∀ (tags : List CacheTag) (s : RoundRobin),
      s.m_tags.length = P.k_MAX_ASSOCIATIVITY → s.tags_last_index < P.k_MAX_ASSOCIATIVITY →
      s.next_replace_index ≤ s.tags_last_index → tags.length ≤ s.tags_last_index + 1 →
      ∃ outs s', s.replaceAll P tags = .ok (outs, s')
        ∧ s'.tags_last_index = s.tags_last_index
        ∧ s'.m_tags.length = s.m_tags.length
        ∧ s'.next_replace_index
            = Spec.rrSlot (s.tags_last_index + 1) s.next_replace_index tags.length
        ∧ outs.length = tags.length
        ∧ (∀ (k : Nat) (t : CacheTag), tags[k]? = some t →
            ∃ old, s.m_tags[Spec.rrSlot (s.tags_last_index + 1) s.next_replace_index k]?
                = some old
              ∧ outs[k]? = some (Spec.rrSlot (s.tags_last_index + 1) s.next_replace_index k,
                  some old.isValid, some (if old.isValid then old else CacheTag.blank))
              ∧ s'.m_tags[Spec.rrSlot (s.tags_last_index + 1) s.next_replace_index k]?
                = some t)
        ∧ (∀ (j : Nat),
            (∀ k, k < tags.length →
              j ≠ Spec.rrSlot (s.tags_last_index + 1) s.next_replace_index k) →
            s'.m_tags[j]? = s.m_tags[j]?) := by
  intro tags
  induction tags with
  | nil =>
    intro s _ _ hn _
    refine ⟨[], s, rfl, rfl, rfl, ?_, rfl, ?_, fun _ _ => rfl⟩
    · exact (Spec.rrSlot_zero (by omega)).symm
    · intro k t ht
      simp at ht
  | cons t rest ih =>
    intro s hlen htli hn hcount
    have hnA : s.next_replace_index < s.tags_last_index + 1 := by omega
    obtain ⟨rep, hrep⟩ := replace_plain P s t (some false) (some CacheTag.blank)
      (by omega) (by omega)
    obtain ⟨old, hold, _, hrt, hrtli, _, hrn, _, _, hvalid, hinvalid⟩ := replace_ok hrep
    have hcount' : rest.length ≤ rep.set.tags_last_index + 1 := by
      rw [hrtli]; simp only [List.length_cons] at hcount; omega
    obtain ⟨outs, s', hrun, i1, i2, i3, i4, i5, i6⟩ := ih rep.set
      (by rw [hrt]; simpa using hlen) (by rw [hrtli]; exact htli)
      (by rw [hrn, hrtli]; split <;> omega) hcount'
    have hstep : ∀ k, Spec.rrSlot (s.tags_last_index + 1)
        (if s.next_replace_index = 0 then s.tags_last_index else s.next_replace_index - 1) k
        = Spec.rrSlot (s.tags_last_index + 1) s.next_replace_index (k + 1) := by
      intro k
      have := Spec.rrSlot_step hnA k
      rw [Nat.add_sub_cancel] at this
      exact this
    rw [hrtli, hrn, hstep] at i3
    simp only [hrtli, hrn, hstep] at i5 i6
    have hrestlt : rest.length < s.tags_last_index + 1 := by
      simp only [List.length_cons] at hcount; omega
    have hfirst : ∀ k, k < rest.length →
        s.next_replace_index
          ≠ Spec.rrSlot (s.tags_last_index + 1) s.next_replace_index (k + 1) := by
      intro k hk heq
      have h0 := Spec.rrSlot_zero hnA
      have heq0 : Spec.rrSlot (s.tags_last_index + 1) s.next_replace_index 0
          = Spec.rrSlot (s.tags_last_index + 1) s.next_replace_index (k + 1) := by
        rw [h0]; exact heq
      have := @Spec.rrSlot_inj (s.tags_last_index + 1) s.next_replace_index 0 (k + 1) hnA
        (by omega) (by omega) heq0
      omega
    refine ⟨(s.next_replace_index, rep.eviction, rep.evict_tag) :: outs, s', ?_, ?_, ?_, ?_,
      ?_, ?_, ?_⟩
    · simp only [RoundRobin.replaceAll, hrep, hrun]
    · rw [i1, hrtli]
    · rw [i2, hrt]; simp
    · rw [i3]; rfl
    · simp [i4]
    · intro k t' ht'
      cases k with
      | zero =>
        simp only [List.getElem?_cons_zero, Option.some.injEq] at ht'
        subst ht'
        rw [Spec.rrSlot_zero hnA]
        refine ⟨old, hold, ?_, ?_⟩
        · simp only [List.getElem?_cons_zero, Option.some.injEq, Prod.mk.injEq, true_and]
          cases hv : old.isValid with
          | true =>
            obtain ⟨e1, e2, _⟩ := hvalid hv
            rw [e1, e2]; simp
          | false =>
            obtain ⟨e1, e2, _⟩ := hinvalid hv
            rw [e1, e2]; simp
        · rw [i6 _ hfirst, hrt, List.getElem?_set_self (by omega)]
      | succ k =>
        simp only [List.getElem?_cons_succ] at ht'
        have hk : k < rest.length := by
          by_contra hc
          rw [List.getElem?_eq_none (by omega)] at ht'
          cases ht'
        obtain ⟨old', ho1, ho2, ho3⟩ := i5 k t' ht'
        refine ⟨old', ?_, by simpa using ho2, ho3⟩
        rw [hrt, List.getElem?_set_ne (hfirst k hk)] at ho1
        exact ho1
    · intro j hj
      have hj0 := hj 0 (by simp)
      rw [Spec.rrSlot_zero hnA] at hj0
      rw [i6 j (fun k hk => hj (k + 1) (by simp; omega)), hrt,
        List.getElem?_set_ne (fun h => hj0 h.symm)]

/-- The scan finds the highest slot holding the tag. -/
theorem scan_top (tags : List CacheTag) (tag : CacheTag) (i n : Nat) (hi : i < n)
    (hat : ∃ t, tags[i]? = some t ∧ t.eq tag = true)
    (habove : ∀ j, i < j → j < n → ∃ t, tags[j]? = some t ∧ t.eq tag = false) :
    scan tags tag n = .ok (some i) := by
  have hn : n = (i + 1) + (n - i - 1) := by omega
  rw [hn, scan_skip tags tag (i + 1) (n - i - 1) (fun j h1 h2 => habove j (by omega) (by omega))]
  obtain ⟨t, ht, heq⟩ := hat
  rw [scan]
  simp only [ht, heq, if_true]

/-- What the `replace` calls of `replaceAll` report, for a set all of whose calls are
described by `replaceAll_spec`. -/
theorem replaceAll_outs (P : TParams) (tags : List CacheTag) (s : RoundRobin)
    (h1 : s.m_tags.length = P.k_MAX_ASSOCIATIVITY)
    (h2 : s.tags_last_index < P.k_MAX_ASSOCIATIVITY)
    (h3 : s.next_replace_index ≤ s.tags_last_index)
    (h4 : tags.length ≤ s.tags_last_index + 1)
    {outs : List (Nat × Option Bool × Option CacheTag)} {s' : RoundRobin}
    (hrun : s.replaceAll P tags = .ok (outs, s')) :
    ∀ o ∈ outs, ∃ k old, k < tags.length
      ∧ o.1 = Spec.rrSlot (s.tags_last_index + 1) s.next_replace_index k
      ∧ s.m_tags[o.1]? = some old ∧ o.2.1 = some old.isValid := by
  obtain ⟨outs', s'', hrun', _, _, _, i4, i5, _⟩ := replaceAll_spec P tags s h1 h2 h3 h4
  rw [hrun] at hrun'
  injection hrun' with hrun'
  injection hrun' with e1 e2
  subst e1
  intro o ho
  obtain ⟨k, hk⟩ := List.mem_iff_getElem?.1 ho
  have hklt : k < tags.length := by
    by_contra hc
    rw [List.getElem?_eq_none (by omega)] at hk
    cases hk
  obtain ⟨old, ho1, ho2, _⟩ := i5 k tags[k] (List.getElem?_eq_getElem hklt)
  rw [hk] at ho2
  injection ho2 with ho2
  subst ho2
  exact ⟨k, old, hklt, rfl, ho1, rfl⟩

end RoundRobin

/-- C32. Round-robin replacement in a set of associativity `A >= 1`. Any `A` consecutive
`replace` calls, from any position of the pointer, return and write `A` pairwise distinct
slots of the current associativity, and leave the pointer where it was; a `replace` moves
the pointer from `i` to `i - 1`, and from 0 to `A - 1`. Filling a freshly constructed set
with `A` lines of pairwise distinct valid tags reports no eviction, the tag lookup finds
the line number `k` in slot `A - 1 - k`, and the replacement that follows reports an
eviction, of the line inserted first. -/
theorem C32_round_robin_replacement (P : TParams) (A blksize : Nat) (tags : List CacheTag)
    (hP : P.WF) (hA1 : 1 ≤ A) (hA2 : A ≤ P.k_MAX_ASSOCIATIVITY)
    (hb : blksize ≤ P.k_MAX_BLOCKSIZE) (hlen : tags.length = A) :
    (∀ s : RoundRobin, s.m_tags.length = P.k_MAX_ASSOCIATIVITY →
        s.next_replace_index ≤ s.tags_last_index → s.tags_last_index + 1 = A →
        ∃ outs s', s.replaceAll P tags = .ok (outs, s') ∧ outs.length = A
          ∧ (outs.map (fun o => o.1)).Nodup ∧ (∀ o ∈ outs, o.1 ≤ s.tags_last_index)
          ∧ s'.next_replace_index = s.next_replace_index)
    ∧ (∀ (s : RoundRobin) (tag : CacheTag) (fill : Option (List Nat)) (ev : Option Bool)
          (et : Option CacheTag) (eb : Option (List Nat)) (rep : RoundRobin.Replaced),
        s.replace P tag fill ev et eb = .ok rep →
        rep.set.next_replace_index
          = if s.next_replace_index = 0 then s.tags_last_index else s.next_replace_index - 1)
    ∧ ((∀ t ∈ tags, t.isValid = true) → (tags.map (fun t => t.m_tag)).Nodup →
        ∃ s0 outs s1, RoundRobin.new P A blksize = .ok s0
          ∧ s0.replaceAll P tags = .ok (outs, s1)
          ∧ (∀ o ∈ outs, o.2.1 = some false)
          ∧ (∀ (k : Nat) (t : CacheTag), tags[k]? = some t →
              s1.find P t = .ok (some (A - 1 - k)))
          ∧ (∀ tag : CacheTag, ∃ rep,
              s1.replace P tag none (some false) (some CacheTag.blank) none = .ok rep
                ∧ rep.eviction = some true ∧ rep.evict_tag = tags[0]?)) := by
  have hMA := hP.1
  refine ⟨?_, ?_, ?_⟩
  · intro s h1 h3 hA
    have h2 : s.tags_last_index < P.k_MAX_ASSOCIATIVITY := by omega
    have hnA : s.next_replace_index < s.tags_last_index + 1 := by omega
    obtain ⟨outs, s', hrun, _, _, i3, i4, i5, _⟩ :=
      RoundRobin.replaceAll_spec P tags s h1 h2 h3 (by omega)
    refine ⟨outs, s', hrun, by omega, ?_, ?_, ?_⟩
    · rw [List.nodup_iff_getElem?_ne_getElem?]
      intro i j hij hj hcontra
      simp only [List.length_map] at hj
      obtain ⟨_, _, oi, _⟩ := i5 i tags[i] (List.getElem?_eq_getElem (by omega))
      obtain ⟨_, _, oj, _⟩ := i5 j tags[j] (List.getElem?_eq_getElem (by omega))
      simp only [List.getElem?_map, oi, oj, Option.map_some', Option.some.injEq] at hcontra
      have := Spec.rrSlot_inj hnA (by omega) (by omega) hcontra
      omega
    · intro o ho
      obtain ⟨k, _, _, hk, _⟩ := RoundRobin.replaceAll_outs P tags s h1 h2 h3 (by omega) hrun o ho
      have := @Spec.rrSlot_bound (s.tags_last_index + 1) s.next_replace_index k (by omega)
      omega
    · rw [i3, hlen, ← hA]
      exact Spec.rrSlot_full hnA
  · intro s tag fill ev et eb rep hrep
    obtain ⟨_, _, _, _, _, _, hrn, _⟩ := RoundRobin.replace_ok hrep
    exact hrn
  · intro hvalid hdistinct
    obtain ⟨s0, hnew, hwf, _, htli, hnri, htags⟩ := RoundRobin.new_set hP hA1 hA2 hb
    obtain ⟨a1, _, a3, a4, _⟩ := hwf
    have hA : s0.tags_last_index + 1 = A := by omega
    have hnA : s0.next_replace_index < s0.tags_last_index + 1 := by omega
    obtain ⟨outs, s1, hrun, i1, i2, i3, i4, i5, _⟩ :=
      RoundRobin.replaceAll_spec P tags s0 a1 a3 a4 (by omega)
    have hslot : ∀ k, k < A →
        Spec.rrSlot (s0.tags_last_index + 1) s0.next_replace_index k = A - 1 - k := by
      intro k hk
      rw [Spec.rrSlot_lt hnA (by omega), if_pos (by omega), hnri]
    have hat : ∀ (k : Nat) (x : CacheTag), tags[k]? = some x →
        s1.m_tags[A - 1 - k]? = some x := by
      intro k x hx
      have hk : k < tags.length := by
        by_contra hc
        rw [List.getElem?_eq_none (by omega)] at hx
        cases hx
      obtain ⟨_, _, _, h⟩ := i5 k x hx
      rw [hslot k (by omega)] at h
      exact h
    have hne : ∀ (i j : Nat) (x y : CacheTag), tags[i]? = some x → tags[j]? = some y →
        i ≠ j → x.eq y = false := by
      intro i j x y hx hy hij
      unfold CacheTag.eq
      rw [beq_eq_false_iff_ne]
      intro heq
      have hi : i < tags.length := by
        by_contra hc
        rw [List.getElem?_eq_none (by omega)] at hx
        cases hx
      have hj : j < tags.length := by
        by_contra hc
        rw [List.getElem?_eq_none (by omega)] at hy
        cases hy
      have hnd := List.nodup_iff_getElem?_ne_getElem?.1 hdistinct
      have hxi : (tags.map (fun t => t.m_tag))[i]? = some x.m_tag := by
        rw [List.getElem?_map, hx]; rfl
      have hyj : (tags.map (fun t => t.m_tag))[j]? = some y.m_tag := by
        rw [List.getElem?_map, hy]; rfl
      rcases Nat.lt_or_gt_of_ne hij with hlt | hgt
      · exact hnd i j hlt (by simpa using hj) (by rw [hxi, hyj, heq])
      · exact hnd j i hgt (by simpa using hi) (by rw [hxi, hyj, heq])
    refine ⟨s0, outs, s1, hnew, hrun, ?_, ?_, ?_⟩
    · intro o ho
      obtain ⟨k, old, _, _, hold, hflag⟩ :=
        RoundRobin.replaceAll_outs P tags s0 a1 a3 a4 (by omega) hrun o ho
      rw [htags, List.getElem?_replicate] at hold
      split at hold
      · injection hold with hold
        rw [hflag, ← hold, blank_not_valid]
      · cases hold
    · intro k t ht
      have hk : k < tags.length := by
        by_contra hc
        rw [List.getElem?_eq_none (by omega)] at ht
        cases ht
      unfold RoundRobin.find
      rw [i1, if_pos a3, sint32Count_small (by omega), hA]
      apply RoundRobin.scan_top _ _ _ _ (by omega)
      · refine ⟨t, hat k t ht, ?_⟩
        unfold CacheTag.eq
        exact beq_self_eq_true _
      · intro j hj1 hj2
        have hj : A - 1 - (A - 1 - j) = j := by omega
        have hjl : A - 1 - j < tags.length := by omega
        refine ⟨tags[A - 1 - j], ?_, ?_⟩
        · have := hat (A - 1 - j) _ (List.getElem?_eq_getElem hjl)
          rw [hj] at this
          exact this
        · exact hne _ _ _ _ (List.getElem?_eq_getElem hjl) ht (by omega)
    · intro tag
      have hn1 : s1.next_replace_index = A - 1 := by
        rw [i3, hlen, ← hA, Spec.rrSlot_full hnA, hnri]
        omega
      obtain ⟨rep, hrep⟩ := RoundRobin.replace_plain P s1 tag (some false)
        (some CacheTag.blank) (by rw [hn1, i2, a1]; omega) (by rw [hn1]; omega)
      obtain ⟨old, hold, _, _, _, _, _, _, _, hv, _⟩ := RoundRobin.replace_ok hrep
      have h0 : (0 : Nat) < tags.length := by omega
      have hfirst := hat 0 _ (List.getElem?_eq_getElem h0)
      rw [Nat.sub_zero, ← hn1, hold] at hfirst
      injection hfirst with hfirst
      have hval : old.isValid = true := by
        rw [hfirst]
        exact hvalid _ (List.getElem_mem h0)
      obtain ⟨e1, e2, _⟩ := hv hval
      refine ⟨rep, hrep, by rw [e1]; rfl, ?_⟩
      rw [e2, List.getElem?_eq_getElem h0, hfirst]
      rfl

/-- C32, instance: the set constructed with two ways, filled with the lines of the tags 1
and 2; a third replacement evicts the line of tag 1. -/
theorem C32_round_robin_replacement_witness :
    ∃ s0 outs s1, RoundRobin.new P0 2 16 = .ok s0
      ∧ s0.replaceAll P0 [CacheTag.ofTag 1, CacheTag.ofTag 2] = .ok (outs, s1)
      ∧ (∀ o ∈ outs, o.2.1 = some false)
      ∧ (∀ (k : Nat) (t : CacheTag), [CacheTag.ofTag 1, CacheTag.ofTag 2][k]? = some t →
          s1.find P0 t = .ok (some (2 - 1 - k)))
      ∧ (∀ tag : CacheTag, ∃ rep,
          s1.replace P0 tag none (some false) (some CacheTag.blank) none = .ok rep
            ∧ rep.eviction = some true
            ∧ rep.evict_tag = [CacheTag.ofTag 1, CacheTag.ofTag 2][0]?) :=
  (C32_round_robin_replacement P0 2 16 [CacheTag.ofTag 1, CacheTag.ofTag 2] (by decide)
    (by decide) (by decide) (by decide) (by decide)).2.2 (by decide) (by decide)

/-- The fill of the two-way set by evaluation: the calls write the slots 1 and 0 and report
no eviction, and the third replacement reports the eviction of the line of tag 1. -/
theorem two_way_fill :
    (twoWay.replaceAll P0 [CacheTag.ofTag 1, CacheTag.ofTag 2]).map (fun r => r.1)
        = .ok [(1, some false, some CacheTag.blank), (0, some false, some CacheTag.blank)]
      ∧ (twoWay.replaceAll P0 [CacheTag.ofTag 1, CacheTag.ofTag 2, CacheTag.ofTag 3]).map
          (fun r => r.1[2]?) = .ok (some (1, some true, some (CacheTag.ofTag 1))) := by
  decide

end Graphite
